import Mathlib

namespace SmaliSwagger

/-!
# SmaliSwagger: the type-signature interpreter, embedded in Lean

A shallow embedding of `parser/smaliparser.go`.

* Go strings are modelled as lists of Unicode code points (`Str`); the
  descriptors the program handles are text, and every needle the code searches
  for is ASCII, so byte-level and code-point-level search agree.
* Go maps are modelled as association lists kept sorted by key, so that two
  equal maps are equal lists; the order in which `range` visits a map is a
  separate parameter of the environment.
* The globals `classToFilePath` (read-only during resolution) and the file
  system live in `Env`; the globals that resolution mutates (`parsedTypes`) and
  the document under construction live in `State`.
* Recursion is bounded by an explicit fuel argument; `none` means the fuel ran
  out, and the theorems show that enough fuel always exists.
-/

/-! ## Strings -/

/-- A Go string, as the list of its code points. -/
abbrev Str := List Char

/-- The white space of `unicode.IsSpace`. -/
def isSpace (c : Char) : Bool :=
  let n := c.toNat
  (9 ≤ n && n ≤ 13) || n == 32 || n == 0x85 || n == 0xA0 || n == 0x1680 ||
  (0x2000 ≤ n && n ≤ 0x200A) || n == 0x2028 || n == 0x2029 || n == 0x202F ||
  n == 0x205F || n == 0x3000

/-- Go `strings.TrimSpace`: drop leading and trailing white space. -/
def TrimSpace (s : Str) : Str :=
  ((s.dropWhile isSpace).reverse.dropWhile isSpace).reverse

/-- Go `strings.HasPrefix s p`. -/
def HasPrefix : Str → Str → Bool
  | _, [] => true
  | [], _ :: _ => false
  | c :: s, d :: p => c == d && HasPrefix s p

/-- Go `strings.HasSuffix s x`. -/
def HasSuffix (s x : Str) : Bool := HasPrefix s.reverse x.reverse

/-- Go `strings.TrimPrefix s p`. -/
def TrimPrefix (s p : Str) : Str := if HasPrefix s p then s.drop p.length else s

/-- Go `strings.TrimSuffix s x`. -/
def TrimSuffix (s x : Str) : Str :=
  if HasSuffix s x then s.take (s.length - x.length) else s

/-- Go `strings.Index s sub`: the position of the first occurrence of `sub`,
`none` standing for `-1`. -/
def Index : Str → Str → Option Nat
  | [], sub => if HasPrefix [] sub then some 0 else none
  | c :: s, sub =>
    if HasPrefix (c :: s) sub then some 0 else (Index s sub).map (· + 1)

/-- Go `strings.Contains s sub`. -/
def Contains (s sub : Str) : Bool := (Index s sub).isSome

/-- Go `strings.Split s sep` for a one-character separator. -/
def Split : Str → Char → List Str
  | [], _ => [[]]
  | c :: s, sep =>
    if c = sep then [] :: Split s sep
    else match Split s sep with
      | [] => [[c]]
      | p :: ps => (c :: p) :: ps

/-- Go `strings.ReplaceAll s old new` for one-character `old` and `new`. -/
def ReplaceAll (s : Str) (old new : Char) : Str :=
  s.map (fun c => if c = old then new else c)

/-- Go `unicode.ToUpper` on the code points whose upper case is an ASCII letter:
the ASCII lower-case letters, the dotless i (U+0131) and the long s (U+017F).
Every other code point is left as it is; the program compares upper-cased text
with ASCII constants only, and no other code point has an ASCII upper case. -/
def toUpperRune (c : Char) : Char :=
  if 97 ≤ c.toNat ∧ c.toNat ≤ 122 then Char.ofNat (c.toNat - 32)
  else if c.toNat = 0x131 then 'I'
  else if c.toNat = 0x17F then 'S'
  else c

/-- Go `strings.ToUpper`. -/
def ToUpper (s : Str) : Str := s.map toUpperRune

/-- The UTF-8 encoding of a code point, as a list of byte values. -/
def utf8Bytes (c : Char) : List Nat :=
  let n := c.toNat
  if n < 0x80 then [n]
  else if n < 0x800 then [0xC0 + n / 64, 0x80 + n % 64]
  else if n < 0x10000 then [0xE0 + n / 4096, 0x80 + (n / 64) % 64, 0x80 + n % 64]
  else [0xF0 + n / 262144, 0x80 + (n / 4096) % 64, 0x80 + (n / 64) % 64, 0x80 + n % 64]

/-- Lexicographic order on strings by code point (Go's `<` on strings). -/
def strLt : Str → Str → Bool
  | [], [] => false
  | [], _ :: _ => true
  | _ :: _, [] => false
  | a :: s, b :: t => decide (a.toNat < b.toNat) || (decide (a.toNat = b.toNat) && strLt s t)

/-! ## Go maps -/

/-- Go `m[k]` with the comma-ok form: the value under `k`, if any. -/
def mapLookup {β : Type} : List (Str × β) → Str → Option β
  | [], _ => none
  | (k', v) :: m, k => if k = k' then some v else mapLookup m k

/-- Go `m[k] = v`: the entry under `k` is replaced, or a new one is added at its
place in key order. -/
def mapInsert {β : Type} : List (Str × β) → Str → β → List (Str × β)
  | [], k, v => [(k, v)]
  | (k', v') :: m, k, v =>
    if k = k' then (k, v) :: m
    else if strLt k k' then (k, v) :: (k', v') :: m
    else (k', v') :: mapInsert m k v

/-- The keys of a map. -/
def mapKeys {β : Type} (m : List (Str × β)) : List Str := m.map Prod.fst

/-! ## The document (the parts of `go-openapi/spec` the program fills in) -/

/-- The innermost schemas the program builds (array items, the additional
properties of a map): only `Type` or `Ref` is set. -/
structure ItemSchema where
  type : List Str
  ref : Option Str
deriving DecidableEq, Repr

/-- A `swagger.Schema` as built for a property, a body parameter or a response. -/
structure Schema where
  type : List Str
  ref : Option Str
  items : Option ItemSchema
  additionalProperties : Option (Bool × ItemSchema)
deriving DecidableEq, Repr

/-- A `swagger.Schema` as registered in `spec.Definitions`: `Type` and
`Properties`. -/
structure Definition where
  type : List Str
  properties : List (Str × Schema)
deriving DecidableEq, Repr

/-- The fields of `swagger.Parameter` the program sets. -/
structure Parameter where
  Name : Str
  In : Str
  Required : Bool
  type : Str
  schema : Option Schema
deriving DecidableEq, Repr

/-- The fields of `swagger.Response` the program sets. -/
structure Response where
  Description : Str
  schema : Option Schema
deriving DecidableEq, Repr

/-- The fields of `swagger.Operation` the program sets. -/
structure Operation where
  Summary : Str
  Description : Str
  Produces : List Str
  Consumes : List Str
  Parameters : List Parameter
  Responses : List (Nat × Response)
deriving DecidableEq, Repr

/-- The four operation slots of `swagger.PathItem` the program uses. -/
structure PathItem where
  Get : Option Operation
  Post : Option Operation
  Put : Option Operation
  Delete : Option Operation
deriving DecidableEq, Repr

/-- The document: `spec.Paths.Paths` and `spec.Definitions`. -/
structure Swagger where
  paths : List (Str × PathItem)
  definitions : List (Str × Definition)
deriving DecidableEq, Repr

/-- An error value: a failure of `swagger.NewRef`, possibly wrapped by
`fmt.Errorf("...: %w", err)`. -/
inductive Err where
  | newRef (url : Str)
  | wrap (context : Str) (err : Err)
deriving DecidableEq, Repr

/-- What the resolver reads but never writes. -/
structure Env where
  /-- The global `classToFilePath`. -/
  classToFilePath : List (Str × Str)
  /-- `os.ReadFile` followed by `fieldPattern.FindAllStringSubmatch`: the
  (name, descriptor) pairs of the field lines of a file, `none` when the file
  cannot be read. -/
  fieldLines : Str → Option (List (Str × Str))
  /-- The order in which `range` visits the entries of the map of fields of a
  class, given the descriptor of the class and the map. -/
  rangeOrder : Str → List (Str × Str) → List (Str × Str)
  /-- Whether `swagger.NewRef` accepts a reference URL. -/
  newRefOk : Str → Bool
  /-- `range` visits every entry of the map exactly once. -/
  rangeOrder_perm : ∀ (o : Str) (m : List (Str × Str)), (rangeOrder o m).Perm m

/-- What resolution mutates: the document and the global `parsedTypes`. -/
structure State where
  spec : Swagger
  parsedTypes : List Str
deriving DecidableEq, Repr

deriving instance DecidableEq for Except

/-- The value part of `(string, string, error)`. -/
abbrev Result := Except Err (Str × Str)

/-- A call that may run out of fuel (`none`), and otherwise gives its results
and the state it leaves. -/
abbrev Outcome := Option (Result × State)

/-! ## Fields and short names -/

/-- The source's `parseFieldsFromFile`: the field lines of a file, collected
into a map from field name to descriptor (a later line with the same name
replaces an earlier one); `none` when the file cannot be read. -/
def parseFieldsFromFile (env : Env) (filePath : Str) : Option (List (Str × Str)) :=
  match env.fieldLines filePath with
  | none => none
  | some ms => some (ms.foldl (fun fields m => mapInsert fields m.1 m.2) [])

/-- The source's `typeShortName`: from `Luk/co/.../SomeClass;` to `SomeClass`. -/
def typeShortName (sig : Str) : Str :=
  let tmp := TrimPrefix sig "L".toList
  let tmp := TrimSuffix tmp ";".toList
  let parts := Split tmp '/'
  let p := parts.getLastD []
  ReplaceAll p '$' '_'

/-- The source's `isObjectType`. -/
def isObjectType (sig : Str) : Bool :=
  let sig := TrimSpace sig
  HasPrefix sig "L".toList && HasSuffix sig ";".toList

/-- The loop of the source's `splitSmaliTypes`; one unit of fuel per iteration.
The default case works on bytes: a non-ASCII code point contributes one
one-character string per byte of its UTF-8 encoding. -/
def splitSmaliTypesLoop : Nat → Str → List Str
  | 0, _ => []
  | _ + 1, [] => []
  | fuel + 1, c :: rest =>
    if c = 'L' then
      match Index (c :: rest) ";".toList with
      | none => [c :: rest]
      | some e => (c :: rest).take (e + 1) :: splitSmaliTypesLoop fuel ((c :: rest).drop (e + 1))
    else (utf8Bytes c).map (fun b => [Char.ofNat b]) ++ splitSmaliTypesLoop fuel rest

/-- The source's `splitSmaliTypes`. -/
def splitSmaliTypes (s : Str) : List Str :=
  let s := TrimSpace s
  splitSmaliTypesLoop s.length s

/-! ## Property schemas -/

/-- The library's `swagger.NewRef`, as far as the program sees it: it succeeds
or fails, depending on the URL. -/
def NewRef (env : Env) (url : Str) : Except Err Str :=
  if env.newRefOk url then .ok url else .error (.newRef url)

/-- The source's `buildPropertySchema`. -/
def buildPropertySchema (env : Env) (kind itemRef : Str) : Except Err Schema :=
  if kind = "string".toList ∨ kind = "integer".toList ∨ kind = "boolean".toList ∨
      kind = "number".toList then
    .ok { type := [kind], ref := none, items := none, additionalProperties := none }
  else if kind = "array".toList then
    if itemRef = [] then
      .ok { type := ["array".toList], ref := none,
            items := some { type := ["string".toList], ref := none },
            additionalProperties := none }
    else
      match NewRef env ("#/definitions/".toList ++ itemRef) with
      | .error err => .error (.wrap "error building ref".toList err)
      | .ok ref =>
        .ok { type := ["array".toList], ref := none,
              items := some { type := [], ref := some ref },
              additionalProperties := none }
  else if kind = "map".toList then
    .ok { type := ["object".toList], ref := none, items := none,
          additionalProperties := some (true, { type := [itemRef], ref := none }) }
  else if kind = "object".toList then
    if itemRef = [] then
      .ok { type := ["object".toList], ref := none, items := none, additionalProperties := none }
    else
      match NewRef env ("#/definitions/".toList ++ itemRef) with
      | .error err => .error (.wrap "error building ref".toList err)
      | .ok ref => .ok { type := [], ref := some ref, items := none, additionalProperties := none }
  else
    .ok { type := ["string".toList], ref := none, items := none, additionalProperties := none }

/-- The empty definition the resolver registers for a class it cannot expand. -/
def emptyDefinition : Definition := { type := ["object".toList], properties := [] }

/-! ## The resolver -/

/-- The source's `genericWrapper`. `parseInside` receives the resolver to
recurse with as its first argument. -/
structure genericWrapper where
  pfx : Str
  parseInside : (Str → State → Outcome) → Str → State → Outcome

/-- The source's `genericWrapperFunc`. -/
def genericWrapperFunc (preifx kindOverride : Str) : genericWrapper :=
  { pfx := preifx,
    parseInside := fun interp inside st =>
      match interp inside st with
      | none => none
      | some (.error err, st1) => some (.error err, st1)
      | some (.ok (kind, iRef), st1) =>
        if kindOverride ≠ [] then some (.ok (kindOverride, iRef), st1)
        else some (.ok (kind, iRef), st1) }

/-- The source's `Ljava/util/HashMap<` handler. -/
def hashMapWrapper : genericWrapper :=
  { pfx := "Ljava/util/HashMap<".toList,
    parseInside := fun interp inside st =>
      let parts := splitSmaliTypes inside
      if parts.length = 2 then
        match interp (parts.getD 1 []) st with
        | none => none
        | some (.error err, st1) => some (.error err, st1)
        | some (.ok (_, valRef), st1) => some (.ok ("map".toList, valRef), st1)
      else some (.ok ("map".toList, "object".toList), st) }

/-- The source's `wrapperHandlers`, as filled in by `init`. -/
def wrapperHandlers : List genericWrapper :=
  [ genericWrapperFunc "Lio/reactivex/rxjava3/core/Observable<".toList [],
    genericWrapperFunc "Lretrofit2/Call<".toList [],
    genericWrapperFunc "Lretrofit2/Response<".toList [],
    genericWrapperFunc "Lio/reactivex/rxjava3/core/Single<".toList [],
    genericWrapperFunc "Ljava/util/List<".toList "array".toList,
    genericWrapperFunc "Ljava/util/ArrayList<".toList "array".toList,
    hashMapWrapper ]

/-- The `switch` over the known `java.lang` wrappers in the source's
`interpretTypeAndBuildDefinition`. -/
def boxedTable (sig : Str) : Option (Str × Str) :=
  if sig = "Ljava/lang/String;".toList then some ("string".toList, [])
  else if sig = "Ljava/lang/Boolean;".toList then some ("boolean".toList, [])
  else if sig = "Ljava/lang/Integer;".toList ∨ sig = "Ljava/lang/Long;".toList then
    some ("integer".toList, [])
  else if sig = "Ljava/lang/Float;".toList ∨ sig = "Ljava/lang/Double;".toList then
    some ("number".toList, [])
  else if sig = "Ljava/lang/Void;".toList ∨
      sig = "Lretrofit2/Response<Ljava/lang/Void;>;".toList then
    some ("void".toList, [])
  else if sig = "Ljava/util/Map;".toList then some ("map".toList, "object".toList)
  else none

/-- The final `switch` over the primitive codes, with the `string` fallback
that follows it. -/
def primitiveTable (sig : Str) : Str × Str :=
  if sig = "V".toList then ("void".toList, [])
  else if sig = "I".toList then ("integer".toList, [])
  else if sig = "Z".toList then ("boolean".toList, [])
  else if sig = "F".toList ∨ sig = "D".toList then ("number".toList, [])
  else if sig = "B".toList ∨ sig = "S".toList then ("integer".toList, [])
  else ("string".toList, [])

/-- Skipping the method-parameter portion at the start of
`interpretTypeAndBuildDefinition`. -/
def dropMethodParams (sig : Str) : Str :=
  if HasPrefix sig "(".toList then
    match Index sig ")".toList with
    | some closeIdx => TrimSpace (sig.drop (closeIdx + 1))
    | none => sig
  else sig

/-- Writing `spec.Definitions[shortName] = d`. -/
def State.setDefinition (st : State) (shortName : Str) (d : Definition) : State :=
  { st with spec := { st.spec with definitions := mapInsert st.spec.definitions shortName d } }

/-- The loop over the fields of a class in `interpretTypeAndBuildDefinition`:
each field is resolved with `interp` and turned into a property of
`schemaProps`; the first error ends the loop. -/
def fieldsLoop (env : Env) (interp : Str → State → Outcome) :
    List (Str × Str) → List (Str × Schema) → State →
    Option (Except Err (List (Str × Schema)) × State)
  | [], schemaProps, st => some (.ok schemaProps, st)
  | (fieldName, fieldSig) :: rest, schemaProps, st =>
    match interp fieldSig st with
    | none => none
    | some (.error err, st1) =>
      some (.error (.wrap "interpretTypeAndBuildDefinition".toList err), st1)
    | some (.ok (k, iRef), st1) =>
      match buildPropertySchema env k iRef with
      | .error err => some (.error (.wrap "buildPropertySchema".toList err), st1)
      | .ok b => fieldsLoop env interp rest (mapInsert schemaProps fieldName b) st1

/-- The object branch of the source's `interpretTypeAndBuildDefinition` (the
body of `if strings.HasPrefix(sig, "L")`), with `interp` the resolver the field
loop recurses with. -/
def resolveObject (env : Env) (interp : Str → State → Outcome) (sig : Str) (st : State) :
    Outcome :=
  let sig := if HasSuffix sig ";".toList then sig else sig ++ ";".toList
  if sig ∈ st.parsedTypes then
    some (.ok ("object".toList, typeShortName sig), st)
  else
    let st := { st with parsedTypes := sig :: st.parsedTypes }
    let shortName := typeShortName sig
    match mapLookup env.classToFilePath sig with
    | none =>
      let st := if (mapLookup st.spec.definitions shortName).isSome then st
        else st.setDefinition shortName emptyDefinition
      some (.ok ("object".toList, shortName), st)
    | some filePath =>
      match parseFieldsFromFile env filePath with
      | none =>
        some (.ok ("object".toList, shortName), st.setDefinition shortName emptyDefinition)
      | some fieldsMap =>
        match fieldsLoop env interp (env.rangeOrder sig fieldsMap) [] st with
        | none => none
        | some (.error err, st1) => some (.error err, st1)
        | some (.ok schemaProps, st1) =>
          some (.ok ("object".toList, typeShortName sig),
            st1.setDefinition shortName
              { type := ["object".toList], properties := schemaProps })

/-- The source's `interpretTypeAndBuildDefinition`. The first argument bounds
the depth of the recursion. -/
def interpretTypeAndBuildDefinition (env : Env) : Nat → Str → State → Outcome
  | 0, _, _ => none
  | fuel + 1, sig, st =>
    let sig := dropMethodParams (TrimSpace sig)
    match wrapperHandlers.find? (fun wh => HasPrefix sig wh.pfx) with
    | some wh =>
      match Index sig "<".toList with
      | none => some (.ok ("object".toList, []), st)
      | some open_ =>
        let inside := TrimSpace (TrimSuffix (sig.drop (open_ + 1)) ">;".toList)
        wh.parseInside (interpretTypeAndBuildDefinition env fuel) inside st
    | none =>
      match boxedTable sig with
      | some r => some (.ok r, st)
      | none =>
        if HasPrefix sig "L".toList then
          resolveObject env (interpretTypeAndBuildDefinition env fuel) sig st
        else some (.ok (primitiveTable sig), st)

/-! ## Method records and endpoints -/

/-- The source's `SmaliParam`. -/
structure SmaliParam where
  Register : Str
  TypeSig : Str
  PathVar : Str
  QueryVar : Str
deriving DecidableEq, Repr

/-- The source's `SmaliMethod`. -/
structure SmaliMethod where
  AccessLevel : Str
  Name : Str
  ParamsSig : Str
  ReturnType : Str
  Body : Str
  HTTPVerb : Str
  HTTPPath : Str
  Params : List SmaliParam
  ReturnSignature : Str
deriving DecidableEq, Repr

/-- The source's `APIEndpoint`. -/
structure APIEndpoint where
  Path : Str
  Method : Str
  MethodName : Str
  ReturnType : Str
  Params : List SmaliParam
  ReturnSignature : Str
deriving DecidableEq, Repr

/-- The loop of the source's `ExtractAPIEndpoints`, over the method records that
`parseSmaliMethods` and `fillRetrofitAnnotations` give for the content of a
file: a record with a verb and a path is appended as an endpoint. -/
def ExtractAPIEndpoints (methods : List SmaliMethod) : List APIEndpoint :=
  methods.foldl (fun apis m =>
    if m.HTTPVerb ≠ [] ∧ m.HTTPPath ≠ [] then
      apis ++ [{ Path := m.HTTPPath, Method := m.HTTPVerb, MethodName := m.Name,
                 ReturnType := m.ReturnType, Params := m.Params,
                 ReturnSignature := m.ReturnSignature }]
    else apis) []

/-! ## The document builder -/

/-- How a call ends: it returns a value, it returns an error, or it reaches
`runtime.Breakpoint()`, which raises a breakpoint trap. -/
inductive Exit (α : Type) where
  | ret (a : α)
  | err (e : Err)
  | trap
deriving DecidableEq, Repr

/-- The source's `smaliTypeToSwaggerType`. -/
def smaliTypeToSwaggerType (sig : Str) : Str :=
  let sig := TrimSpace sig
  if sig = "J".toList then "integer".toList
  else if sig = "I".toList ∨ sig = "Ljava/lang/Integer;".toList then "integer".toList
  else if sig = "Z".toList ∨ sig = "Ljava/lang/Boolean;".toList then "boolean".toList
  else if sig = "F".toList ∨ sig = "D".toList then "number".toList
  else if sig = "B".toList ∨ sig = "S".toList then "integer".toList
  else if sig = "Ljava/lang/String;".toList then "string".toList
  else if isObjectType sig && Contains sig "String;".toList then "string".toList
  else "string".toList

/-- The source's `buildParamSchema`. -/
def buildParamSchema (env : Env) (kind itemRef : Str) : Except Err Schema :=
  buildPropertySchema env kind itemRef

/-- The source's `hasBody`. -/
def hasBody (params : List Parameter) : Bool :=
  params.any (fun p => decide (p.In = "body".toList))

/-- The path for which the source's `buildSwaggerParams` calls
`runtime.Breakpoint()`. -/
def breakpointPath : Str :=
  "/eventsservice/v2/system/{systemId}/resource/{resourceId}/history".toList

/-- The body of the loop over `endpoint.Params` in the source's
`buildSwaggerParams`: what one record appends to `params`. -/
def paramStep (env : Env) (fuel : Nat) (methodUpper : Str) (p : SmaliParam)
    (params : List Parameter) (st : State) : Option (List Parameter × State) :=
  let params :=
    if p.PathVar ≠ [] then
      params ++ [{ Name := p.PathVar, In := "path".toList, Required := true,
                   type := smaliTypeToSwaggerType p.TypeSig, schema := none }]
    else params
  let params :=
    if p.QueryVar ≠ [] then
      params ++ [{ Name := p.QueryVar, In := "query".toList, Required := false,
                   type := smaliTypeToSwaggerType p.TypeSig, schema := none }]
    else params
  if p.PathVar = [] ∧ p.QueryVar = [] then
    if methodUpper = "POST".toList ∨ methodUpper = "PUT".toList then
      if isObjectType p.TypeSig then
        match interpretTypeAndBuildDefinition env fuel p.TypeSig st with
        | none => none
        | some (res, st1) =>
          let kr : Str × Str :=
            match res with
            | .error _ => ("object".toList, [])
            | .ok kr => kr
          let paramSchema : Schema :=
            match buildParamSchema env kr.1 kr.2 with
            | .error _ =>
              { type := ["object".toList], ref := none, items := none,
                additionalProperties := none }
            | .ok paramSchema => paramSchema
          some (params ++ [{ Name := "body".toList, In := "body".toList, Required := true,
                             type := [], schema := some paramSchema }], st1)
      else
        some (params ++ [{ Name := p.Register, In := "query".toList, Required := false,
                           type := smaliTypeToSwaggerType p.TypeSig, schema := none }], st)
    else some (params, st)
  else some (params, st)

/-- The loop over `endpoint.Params` in the source's `buildSwaggerParams`. -/
def paramsLoop (env : Env) (fuel : Nat) (methodUpper : Str) :
    List SmaliParam → List Parameter → State → Option (List Parameter × State)
  | [], params, st => some (params, st)
  | p :: rest, params, st =>
    match paramStep env fuel methodUpper p params st with
    | none => none
    | some (params1, st1) => paramsLoop env fuel methodUpper rest params1 st1

/-- The source's `buildSwaggerParams`. -/
def buildSwaggerParams (env : Env) (fuel : Nat) (endpoint : APIEndpoint) (st : State) :
    Option (Exit (List Parameter × State)) :=
  let methodUpper := ToUpper endpoint.Method
  if endpoint.Path = breakpointPath then some .trap
  else
    match paramsLoop env fuel methodUpper endpoint.Params [] st with
    | none => none
    | some r => some (.ret r)

/-- The source's `buildResponse`; the object case may register a definition. -/
def buildResponse (env : Env) (kind itemRef : Str) (st : State) : Except Err Response × State :=
  let desc := "OK".toList
  if kind = "void".toList then
    (.ok { Description := desc, schema := none }, st)
  else if kind = "string".toList ∨ kind = "integer".toList ∨ kind = "boolean".toList ∨
      kind = "number".toList then
    (.ok { Description := desc,
           schema := some { type := [kind], ref := none, items := none,
                            additionalProperties := none } }, st)
  else if kind = "array".toList then
    if itemRef = [] then
      (.ok { Description := desc,
             schema := some { type := ["array".toList], ref := none,
                              items := some { type := ["string".toList], ref := none },
                              additionalProperties := none } }, st)
    else
      match NewRef env ("#/definitions/".toList ++ itemRef) with
      | .error err => (.error (.wrap "error building ref".toList err), st)
      | .ok ref =>
        (.ok { Description := desc,
               schema := some { type := ["array".toList], ref := none,
                                items := some { type := [], ref := some ref },
                                additionalProperties := none } }, st)
  else if kind = "map".toList then
    (.ok { Description := desc,
           schema := some { type := ["object".toList], ref := none, items := none,
                            additionalProperties :=
                              some (true, { type := [itemRef], ref := none }) } }, st)
  else if kind = "object".toList then
    if itemRef = [] then
      (.ok { Description := desc,
             schema := some { type := ["object".toList], ref := none, items := none,
                              additionalProperties := none } }, st)
    else
      let st :=
        if (mapLookup st.spec.definitions itemRef).isSome then st
        else st.setDefinition itemRef emptyDefinition
      match NewRef env ("#/definitions/".toList ++ itemRef) with
      | .error err => (.error (.wrap "error building ref".toList err), st)
      | .ok ref =>
        (.ok { Description := desc,
               schema := some { type := [], ref := some ref, items := none,
                                additionalProperties := none } }, st)
  else
    (.ok { Description := desc,
           schema := some { type := ["string".toList], ref := none, items := none,
                            additionalProperties := none } }, st)

/-- The zero value of `swagger.PathItem`: no operation in any slot. -/
def emptyPathItem : PathItem := { Get := none, Post := none, Put := none, Delete := none }

/-- The normalisation of `endpoint.Path` at the head of the loop of the source's
`GenerateSwaggerSpec`. -/
def normalizePath (path : Str) : Str :=
  if !HasPrefix path "/".toList then "/".toList ++ path else path

/-- The `switch` at the end of the loop of the source's `GenerateSwaggerSpec`:
the operation is put into the slot of the verb. -/
def routeOperation (pathItem : PathItem) (method : Str) (operation : Operation) : PathItem :=
  let m := ToUpper method
  if m = "GET".toList then { pathItem with Get := some operation }
  else if m = "POST".toList then { pathItem with Post := some operation }
  else if m = "PUT".toList then { pathItem with Put := some operation }
  else if m = "DELETE".toList then { pathItem with Delete := some operation }
  else { pathItem with Post := some operation }

/-- The response the source's `GenerateSwaggerSpec` gives an operation whose
endpoint has no return signature. -/
def defaultResponse : Response :=
  { Description := "OK".toList,
    schema := some { type := ["string".toList], ref := none, items := none,
                     additionalProperties := none } }

/-- The part of the loop of the source's `GenerateSwaggerSpec` that builds the
operation of an endpoint (whose path is normalised already): parameters,
`Consumes`, and the 200 response. -/
def buildOperation (env : Env) (fuel : Nat) (endpoint : APIEndpoint) (st : State) :
    Option (Exit (Operation × State)) :=
  let operation : Operation :=
    { Summary := "Extracted API for ".toList ++ endpoint.MethodName,
      Description := "Generated from smali method: ".toList ++ endpoint.MethodName,
      Produces := ["application/json".toList],
      Consumes := [],
      Parameters := [],
      Responses := [] }
  match buildSwaggerParams env fuel endpoint st with
  | none => none
  | some .trap => some .trap
  | some (.err e) => some (.err e)
  | some (.ret (swaggerParams, st)) =>
    let operation := { operation with Parameters := swaggerParams }
    let operation :=
      if hasBody swaggerParams then
        { operation with Consumes := ["application/json".toList] }
      else operation
    if endpoint.ReturnSignature ≠ [] then
      match interpretTypeAndBuildDefinition env fuel endpoint.ReturnSignature st with
      | none => none
      | some (.error err, _) => some (.err err)
      | some (.ok (kind, itemRef), st) =>
        match buildResponse env kind itemRef st with
        | (.error err, _) => some (.err err)
        | (.ok resp, st) => some (.ret ({ operation with Responses := [(200, resp)] }, st))
    else some (.ret ({ operation with Responses := [(200, defaultResponse)] }, st))

/-- Writing `spec.Paths.Paths[path] = pathItem`. -/
def State.setPath (st : State) (path : Str) (pathItem : PathItem) : State :=
  { st with spec := { st.spec with paths := mapInsert st.spec.paths path pathItem } }

/-- The body of the loop of the source's `GenerateSwaggerSpec`. -/
def endpointStep (env : Env) (fuel : Nat) (endpoint : APIEndpoint) (st : State) :
    Option (Exit State) :=
  let endpoint := { endpoint with Path := normalizePath endpoint.Path }
  let pathItem := (mapLookup st.spec.paths endpoint.Path).getD emptyPathItem
  match buildOperation env fuel endpoint st with
  | none => none
  | some .trap => some .trap
  | some (.err e) => some (.err e)
  | some (.ret (operation, st)) =>
    some (.ret (st.setPath endpoint.Path (routeOperation pathItem endpoint.Method operation)))

/-- The loop of the source's `GenerateSwaggerSpec`. -/
def endpointsLoop (env : Env) (fuel : Nat) : List APIEndpoint → State → Option (Exit State)
  | [], st => some (.ret st)
  | endpoint :: rest, st =>
    match endpointStep env fuel endpoint st with
    | none => none
    | some .trap => some .trap
    | some (.err e) => some (.err e)
    | some (.ret st1) => endpointsLoop env fuel rest st1

/-- The source's `GenerateSwaggerSpec`: the document starts empty, the memo is
the global `parsedTypes` as the call finds it. The state returned holds the
document and the memo the call leaves. -/
def GenerateSwaggerSpec (env : Env) (fuel : Nat) (endpoints : List APIEndpoint)
    (parsedTypes : List Str) : Option (Exit State) :=
  endpointsLoop env fuel endpoints
    { spec := { paths := [], definitions := [] }, parsedTypes := parsedTypes }

/-! ## Auxiliary definitions for the statements -/

/-- An object descriptor: it begins with `L` and ends with `;`, no handler of the
container table matches it, and it is not in the table of known library types;
so the resolver takes it to the object branch as it stands. -/
def isObjectDescriptor (d : Str) : Bool :=
  HasPrefix d "L".toList && HasSuffix d ";".toList &&
  (wrapperHandlers.find? (fun wh => HasPrefix d wh.pfx)).isNone && (boxedTable d).isNone

/-- A plain object descriptor: `L`, a class name without `;`, `<` or `>`, and
the terminating `;`. -/
def plainObjectDescriptor (d : Str) : Prop :=
  ∃ body : Str, d = 'L' :: body ++ [';'] ∧ ';' ∉ body ∧ '<' ∉ body ∧ '>' ∉ body

/-- The single-argument handlers of the container table: prefix and kind
override (empty for the pass-through handlers). -/
def singleArgWrappers : List (Str × Str) :=
  [ ("Lio/reactivex/rxjava3/core/Observable<".toList, []),
    ("Lretrofit2/Call<".toList, []),
    ("Lretrofit2/Response<".toList, []),
    ("Lio/reactivex/rxjava3/core/Single<".toList, []),
    ("Ljava/util/List<".toList, "array".toList),
    ("Ljava/util/ArrayList<".toList, "array".toList) ]

/-- What a single-argument handler makes of the outcome of resolving its inside. -/
def applyOverride (kindOverride : Str) : Outcome → Outcome
  | some (.ok (kind, iRef), st) =>
    some (.ok (if kindOverride = [] then kind else kindOverride, iRef), st)
  | other => other

/-- What the map handler makes of the outcome of resolving the value descriptor. -/
def asMapOf : Outcome → Outcome
  | some (.ok (_, valRef), st) => some (.ok ("map".toList, valRef), st)
  | other => other

/-- The number of entries of the class index whose descriptor is not in the
memo. -/
def unvisited (env : Env) (memo : List Str) : Nat :=
  (env.classToFilePath.filter (fun e => decide (e.1 ∉ memo))).length

/-- The length of the longest field descriptor of any indexed class. -/
def maxFieldLen (env : Env) : Nat :=
  (env.classToFilePath.map (fun e =>
    match parseFieldsFromFile env e.2 with
    | none => 0
    | some fieldsMap => ((env.rangeOrder e.1 fieldsMap).map (fun f => f.2.length)).foldr max 0)
  ).foldr max 0

/-- An amount of fuel that is enough to resolve `sig` from state `st`: the
wrappers around a descriptor are at most as many as its characters, and every
expansion of a class takes one descriptor out of the unvisited part of the
index. -/
def fuelBound (env : Env) (sig : Str) (st : State) : Nat :=
  sig.length + 1 + unvisited env st.parsedTypes * (maxFieldLen env + 2)

/-! ## Example inputs -/

/-- A hexadecimal digit. -/
def isHexDigit (c : Char) : Bool :=
  (48 ≤ c.toNat && c.toNat ≤ 57) || (65 ≤ c.toNat && c.toNat ≤ 70) ||
  (97 ≤ c.toNat && c.toNat ≤ 102)

/-- When the library's `swagger.NewRef` accepts a URL, for the examples: Go's
`net/url` rejects a fragment in which a `%` is not followed by two hexadecimal
digits, and accepts the other URLs the program builds. -/
def percentEscapesOk : Str → Bool
  | [] => true
  | c :: rest =>
    if c = '%' then
      match rest with
      | a :: b :: rest2 => isHexDigit a && isHexDigit b && percentEscapesOk rest2
      | _ => false
    else percentEscapesOk rest

/-- The document and memo at the start of a run: both empty. -/
def emptyState : State := { spec := { paths := [], definitions := [] }, parsedTypes := [] }

/-- Two classes that refer to each other, and a third with two `String` fields.
`range` visits the fields in key order. -/
def exampleEnv : Env :=
  { classToFilePath :=
      [ ("La/Bar;".toList, "Bar.smali".toList),
        ("La/Foo;".toList, "Foo.smali".toList),
        ("La/Item;".toList, "Item.smali".toList) ],
    fieldLines := fun p =>
      if p = "Foo.smali".toList then
        some [("name".toList, "Ljava/lang/String;".toList), ("bar".toList, "La/Bar;".toList)]
      else if p = "Bar.smali".toList then some [("foo".toList, "La/Foo;".toList)]
      else if p = "Item.smali".toList then
        some [("id".toList, "Ljava/lang/String;".toList),
              ("label".toList, "Ljava/lang/String;".toList)]
      else none,
    rangeOrder := fun _ m => m,
    newRefOk := percentEscapesOk,
    rangeOrder_perm := fun _ m => List.Perm.refl m }

/-- An index holding a class whose descriptor has an empty last path segment. -/
def emptyNameEnv : Env :=
  { classToFilePath := [("La/;".toList, "A.smali".toList)],
    fieldLines := fun p => if p = "A.smali".toList then some [] else none,
    rangeOrder := fun _ m => m,
    newRefOk := percentEscapesOk,
    rangeOrder_perm := fun _ m => List.Perm.refl m }

/-- A class with a field whose class name holds a malformed percent escape. -/
def badRefEnv : Env :=
  { classToFilePath := [("La/Foo;".toList, "Foo.smali".toList)],
    fieldLines := fun p =>
      if p = "Foo.smali".toList then some [("b".toList, "La/B%;".toList)] else none,
    rangeOrder := fun _ m => m,
    newRefOk := percentEscapesOk,
    rangeOrder_perm := fun _ m => List.Perm.refl m }

/-- The definition of the example class `La/Item;`: two string properties. -/
def itemDefinition : Definition :=
  { type := ["object".toList],
    properties :=
      [ ("id".toList, { type := ["string".toList], ref := none, items := none,
                        additionalProperties := none }),
        ("label".toList, { type := ["string".toList], ref := none, items := none,
                           additionalProperties := none }) ] }

/-- The state after resolving the example class `La/Item;` from the empty state. -/
def itemState : State :=
  { spec := { paths := [], definitions := [("Item".toList, itemDefinition)] },
    parsedTypes := ["La/Item;".toList] }

/-- Two classes with the short name `Node`: `La/Node;` has a field of class
`Lb/Node;`, which has a `String` field. -/
def chainEnv : Env :=
  { classToFilePath :=
      [ ("La/Node;".toList, "a/Node.smali".toList),
        ("Lb/Node;".toList, "b/Node.smali".toList) ],
    fieldLines := fun p =>
      if p = "a/Node.smali".toList then some [("next".toList, "Lb/Node;".toList)]
      else if p = "b/Node.smali".toList then some [("value".toList, "Ljava/lang/String;".toList)]
      else none,
    rangeOrder := fun _ m => m,
    newRefOk := percentEscapesOk,
    rangeOrder_perm := fun _ m => List.Perm.refl m }

/-- The class index of the next two examples: `Lp/Holder;` and two classes with
the short name `Pair`. -/
def holderIndex : List (Str × Str) :=
  [ ("La/Pair;".toList, "a/Pair.smali".toList),
    ("Lb/Pair;".toList, "b/Pair.smali".toList),
    ("Lp/Holder;".toList, "p/Holder.smali".toList) ]

/-- The field lines of the files of `holderIndex`: `Lp/Holder;` has one field of
each `Pair` class, `La/Pair;` a `String` field and `Lb/Pair;` an `Integer` field. -/
def holderFields (p : Str) : Option (List (Str × Str)) :=
  if p = "p/Holder.smali".toList then
    some [("first".toList, "La/Pair;".toList), ("second".toList, "Lb/Pair;".toList)]
  else if p = "a/Pair.smali".toList then some [("left".toList, "Ljava/lang/String;".toList)]
  else if p = "b/Pair.smali".toList then some [("right".toList, "Ljava/lang/Integer;".toList)]
  else none

/-- The holder example with `range` visiting fields in key order. -/
def holderEnv : Env :=
  { classToFilePath := holderIndex,
    fieldLines := holderFields,
    rangeOrder := fun _ m => m,
    newRefOk := percentEscapesOk,
    rangeOrder_perm := fun _ m => List.Perm.refl m }

/-- The holder example with `range` visiting fields in reverse key order. -/
def holderEnvReversed : Env :=
  { classToFilePath := holderIndex,
    fieldLines := holderFields,
    rangeOrder := fun _ m => m.reverse,
    newRefOk := percentEscapesOk,
    rangeOrder_perm := fun _ m => List.reverse_perm m }

/-- The schema of a string property. -/
def stringSchema : Schema :=
  { type := ["string".toList], ref := none, items := none, additionalProperties := none }

/-- The schema of an integer property. -/
def integerSchema : Schema :=
  { type := ["integer".toList], ref := none, items := none, additionalProperties := none }

/-- The schema of a property that refers to the definition `name`. -/
def refSchema (name : Str) : Schema :=
  { type := [], ref := some ("#/definitions/".toList ++ name), items := none,
    additionalProperties := none }

/-- The holder example after resolving `La/Pair;` from the empty state. -/
def pairStateA : State :=
  { spec := { paths := [],
              definitions := [("Pair".toList,
                { type := ["object".toList], properties := [("left".toList, stringSchema)] })] },
    parsedTypes := ["La/Pair;".toList] }

/-- The holder example after resolving `La/Pair;` and then `Lb/Pair;`. -/
def pairStateB : State :=
  { spec := { paths := [],
              definitions := [("Pair".toList,
                { type := ["object".toList], properties := [("right".toList, integerSchema)] })] },
    parsedTypes := ["Lb/Pair;".toList, "La/Pair;".toList] }

/-- The example environment with `range` visiting fields in reverse key order. -/
def exampleEnvReversed : Env :=
  { classToFilePath := exampleEnv.classToFilePath,
    fieldLines := exampleEnv.fieldLines,
    rangeOrder := fun _ m => m.reverse,
    newRefOk := percentEscapesOk,
    rangeOrder_perm := fun _ m => List.reverse_perm m }

/-- The field lines of a class with one field whose reference cannot be built
and one field of an unindexed class. -/
def mixedFields (p : Str) : Option (List (Str × Str)) :=
  if p = "Foo.smali".toList then
    some [("a".toList, "La/B%;".toList), ("z".toList, "La/Key;".toList)]
  else none

/-- The mixed example with `range` visiting fields in key order. -/
def mixedEnv : Env :=
  { classToFilePath := [("La/Foo;".toList, "Foo.smali".toList)],
    fieldLines := mixedFields,
    rangeOrder := fun _ m => m,
    newRefOk := percentEscapesOk,
    rangeOrder_perm := fun _ m => List.Perm.refl m }

/-- The mixed example with `range` visiting fields in reverse key order. -/
def mixedEnvReversed : Env :=
  { classToFilePath := [("La/Foo;".toList, "Foo.smali".toList)],
    fieldLines := mixedFields,
    rangeOrder := fun _ m => m.reverse,
    newRefOk := percentEscapesOk,
    rangeOrder_perm := fun _ m => List.reverse_perm m }

/-- The example environment after resolving `La/Foo;` from the empty state. -/
def fooState : State :=
  { spec := { paths := [],
              definitions :=
                [ ("Bar".toList,
                    { type := ["object".toList],
                      properties := [("foo".toList, refSchema "Foo".toList)] }),
                  ("Foo".toList,
                    { type := ["object".toList],
                      properties := [("bar".toList, refSchema "Bar".toList),
                                     ("name".toList, stringSchema)] }) ] },
    parsedTypes := ["La/Bar;".toList, "La/Foo;".toList] }

/-- A path-bound parameter record of type `String`. -/
def pathRecord (register name : Str) : SmaliParam :=
  { Register := register, TypeSig := "Ljava/lang/String;".toList, PathVar := name,
    QueryVar := [] }

/-- A query-bound parameter record of type `int`. -/
def queryRecord (register name : Str) : SmaliParam :=
  { Register := register, TypeSig := "I".toList, PathVar := [], QueryVar := name }

/-- An unbound parameter record. -/
def unboundRecord (register typeSig : Str) : SmaliParam :=
  { Register := register, TypeSig := typeSig, PathVar := [], QueryVar := [] }

/-- An endpoint with the given path, verb, parameter records and return
signature. -/
def endpointOf (path method : Str) (params : List SmaliParam) (returnSignature : Str) :
    APIEndpoint :=
  { Path := path, Method := method, MethodName := "call".toList,
    ReturnType := "Lretrofit2/Call;".toList, Params := params,
    ReturnSignature := returnSignature }

/-- An endpoint on the path for which `buildSwaggerParams` calls
`runtime.Breakpoint()`, with its two path-bound parameters. -/
def historyEndpoint (method : Str) (extra : List SmaliParam) : APIEndpoint :=
  endpointOf breakpointPath method
    ([pathRecord "p1".toList "systemId".toList, pathRecord "p2".toList "resourceId".toList] ++
      extra) []

/-- An endpoint without parameters and without a return signature, for a method
with the given name and raw return descriptor. -/
def plainEndpoint (name path method returnType : Str) : APIEndpoint :=
  { Path := path, Method := method, MethodName := name, ReturnType := returnType,
    Params := [], ReturnSignature := [] }

/-- The operation of a method without parameters whose 200 response is the
default one. -/
def plainOperation (name : Str) : Operation :=
  { Summary := "Extracted API for ".toList ++ name,
    Description := "Generated from smali method: ".toList ++ name,
    Produces := ["application/json".toList], Consumes := [], Parameters := [],
    Responses := [(200, { Description := "OK".toList, schema := some stringSchema })] }

/-- An index holding a class whose short name is empty, with two `String`
fields. -/
def emptyNameFieldsEnv : Env :=
  { classToFilePath := [("La/;".toList, "A.smali".toList)],
    fieldLines := fun p =>
      if p = "A.smali".toList then
        some [("id".toList, "Ljava/lang/String;".toList),
              ("label".toList, "Ljava/lang/String;".toList)]
      else none,
    rangeOrder := fun _ m => m,
    newRefOk := percentEscapesOk,
    rangeOrder_perm := fun _ m => List.Perm.refl m }

/-- The endpoint of the end-to-end example: `GET /items/{id}` with one
path-bound `String` parameter and the given return signature. -/
def itemsEndpoint (returnSignature : Str) : APIEndpoint :=
  { Path := "/items/{id}".toList, Method := "GET".toList, MethodName := "getItems".toList,
    ReturnType := "Lretrofit2/Call;".toList,
    Params := [pathRecord "p1".toList "id".toList],
    ReturnSignature := returnSignature }

/-! ## Auxiliary definitions for the statements about the document builder -/

/-- A parameter located in the path: required, typed, without a schema. -/
def pathParameter (name type : Str) : Parameter :=
  { Name := name, In := "path".toList, Required := true, type := type, schema := none }

/-- A parameter located in the query: not required, typed, without a schema. -/
def queryParameter (name type : Str) : Parameter :=
  { Name := name, In := "query".toList, Required := false, type := type, schema := none }

/-- The parameter located in the body: named `body`, required, with a schema and
no type. -/
def bodyParameter (schema : Schema) : Parameter :=
  { Name := "body".toList, In := "body".toList, Required := true, type := [],
    schema := some schema }

/-- The schema that has the type `object` and nothing else. -/
def objectSchema : Schema :=
  { type := ["object".toList], ref := none, items := none, additionalProperties := none }

/-- The schema of a body parameter, given what resolving its descriptor
returned: `buildPropertySchema` of the (Kind, reference) when the resolution and
`buildPropertySchema` both succeed, the plain object schema when either
fails. -/
def bodySchemaOf (env : Env) : Result → Schema
  | .error _ => objectSchema
  | .ok (kind, itemRef) =>
    match buildPropertySchema env kind itemRef with
    | .error _ => objectSchema
    | .ok schema => schema

/-- An amount of fuel that is enough to resolve, from state `st`, any descriptor
of at most `n` characters. -/
def fuelFor (env : Env) (n : Nat) (st : State) : Nat :=
  n + 1 + unvisited env st.parsedTypes * (maxFieldLen env + 2)

/-- The length of the longest descriptor of a list of parameter records. -/
def maxTypeSigLen (ps : List SmaliParam) : Nat :=
  (ps.map (fun p => p.TypeSig.length)).foldr max 0

/-- The length of the longest text the builder resolves for a list of endpoints:
return signatures and parameter descriptors. -/
def maxSigLen (es : List APIEndpoint) : Nat :=
  (es.map (fun e => max e.ReturnSignature.length (maxTypeSigLen e.Params))).foldr max 0

/-- The four operation slots of a path. -/
inductive Slot where
  | get
  | post
  | put
  | delete
deriving DecidableEq, Repr

/-- The operation in a slot of a path item. -/
def PathItem.slot (pathItem : PathItem) : Slot → Option Operation
  | .get => pathItem.Get
  | .post => pathItem.Post
  | .put => pathItem.Put
  | .delete => pathItem.Delete

/-- The slot a verb routes to: GET, PUT and DELETE (in any letter case) to their
own slot, every other verb to the POST slot. -/
def routeSlot (method : Str) : Slot :=
  if ToUpper method = "GET".toList then .get
  else if ToUpper method = "PUT".toList then .put
  else if ToUpper method = "DELETE".toList then .delete
  else .post

/-- The operation in a slot of a path of the path map; none when the path is
not a key of the map. -/
def slotAt (paths : List (Str × PathItem)) (path : Str) (slot : Slot) : Option Operation :=
  ((mapLookup paths path).getD emptyPathItem).slot slot

/-- The operation of an endpoint, given its parameters and its 200 response:
summary and description name the method, the operation produces JSON, and
consumes JSON when a parameter is located in the body. -/
def operationOf (e : APIEndpoint) (params : List Parameter) (resp : Response) : Operation :=
  { Summary := "Extracted API for ".toList ++ e.MethodName,
    Description := "Generated from smali method: ".toList ++ e.MethodName,
    Produces := ["application/json".toList],
    Consumes := if hasBody params then ["application/json".toList] else [],
    Parameters := params,
    Responses := [(200, resp)] }

/-- An amount of fuel that is enough to build the document of a list of
endpoints, starting from the memo `parsedTypes`. -/
def genFuel (env : Env) (es : List APIEndpoint) (parsedTypes : List Str) : Nat :=
  fuelFor env (maxSigLen es) { spec := { paths := [], definitions := [] },
                               parsedTypes := parsedTypes }

/-- Memo/definition consistency: every descriptor of the memo has a definition
registered under its short name. -/
def memoHasDefinitions (st : State) : Bool :=
  st.parsedTypes.all (fun u => (mapLookup st.spec.definitions (typeShortName u)).isSome)

/-- The type names of Swagger 2.0 that the document may use. -/
def allowedTypeNames : List Str :=
  ["string".toList, "integer".toList, "boolean".toList, "number".toList, "array".toList,
   "object".toList]

/-- Every type name a schema holds: its own, those of its items and those of the
schema of its additional properties. -/
def Schema.typeNames (s : Schema) : List Str :=
  s.type ++
  (match s.items with
    | some i => i.type
    | none => []) ++
  (match s.additionalProperties with
    | some a => a.2.type
    | none => [])

/-- The reference URL whose construction failed, at the root of an error. -/
def Err.url : Err → Str
  | .newRef url => url
  | .wrap _ err => err.url

/-- Every definition reference a schema holds: its own, that of its items and
that of the schema of its additional properties. -/
def Schema.refs (s : Schema) : List Str :=
  s.ref.toList ++
  (match s.items with
    | some i => i.ref.toList
    | none => []) ++
  (match s.additionalProperties with
    | some a => a.2.ref.toList
    | none => [])

/-! ## The dispatch of a descriptor, read off the descriptor alone -/

/-- The branch of `interpretTypeAndBuildDefinition` a descriptor takes. -/
inductive Dispatch where
  | malformed
  | forward (kindOverride inside : Str)
  | mapValue (value : Str)
  | mapFallback
  | known (kr : Str × Str)
  | object (sig : Str)
  | primitive (kr : Str × Str)

/-- The prefixes of `wrapperHandlers`, in order, each with its kind override
(`none` for the map handler). -/
def wrapperKinds : List (Str × Option Str) :=
  [ ("Lio/reactivex/rxjava3/core/Observable<".toList, some []),
    ("Lretrofit2/Call<".toList, some []),
    ("Lretrofit2/Response<".toList, some []),
    ("Lio/reactivex/rxjava3/core/Single<".toList, some []),
    ("Ljava/util/List<".toList, some "array".toList),
    ("Ljava/util/ArrayList<".toList, some "array".toList),
    ("Ljava/util/HashMap<".toList, none) ]

/-- The text between the first `<` and the trailing `>;`. -/
def insideOf (sig : Str) (open_ : Nat) : Str :=
  TrimSpace (TrimSuffix (sig.drop (open_ + 1)) ">;".toList)

/-- Which branch a descriptor takes. -/
def dispatch (sig : Str) : Dispatch :=
  let sig := dropMethodParams (TrimSpace sig)
  match wrapperKinds.find? (fun w => HasPrefix sig w.1) with
  | some (_, shape) =>
    match Index sig "<".toList with
    | none => .malformed
    | some open_ =>
      match shape with
      | some o => .forward o (insideOf sig open_)
      | none =>
        if (splitSmaliTypes (insideOf sig open_)).length = 2 then
          .mapValue ((splitSmaliTypes (insideOf sig open_)).getD 1 [])
        else .mapFallback
  | none =>
    match boxedTable sig with
    | some r => .known r
    | none => if HasPrefix sig "L".toList then .object sig else .primitive (primitiveTable sig)

/-- How an entry of `wrapperKinds` describes a handler. -/
def describesHandler (w : Str × Option Str) (wh : genericWrapper) : Prop :=
  wh.pfx = w.1 ∧
    match w.2 with
    | some o => wh = genericWrapperFunc w.1 o
    | none => wh = hashMapWrapper

/-! ## The object branch, in flat form -/

/-- The descriptor with its terminator, as the object branch normalises it. -/
def normSig (sig : Str) : Str := if HasSuffix sig ";".toList then sig else sig ++ ";".toList

/-- The result of the object branch for a (normalised) descriptor. -/
def objectResult (o : Str) : Result := .ok ("object".toList, typeShortName o)

/-- The definition the object branch registers for a class with the given
properties. -/
def objectDefinition (props : List (Str × Schema)) : Definition :=
  { type := ["object".toList], properties := props }

/-- Writing `parsedTypes[o] = true`. -/
def State.memoInsert (st : State) (o : Str) : State :=
  { st with parsedTypes := o :: st.parsedTypes }

/-- Registering the empty definition under the short name of `o` unless a
definition is there already. -/
def State.placeholder (st : State) (o : Str) : State :=
  if (mapLookup st.spec.definitions (typeShortName o)).isSome then st
  else st.setDefinition (typeShortName o) emptyDefinition

/-- What the class index and the file system say about a class. -/
inductive ClassInfo where
  | notIndexed
  | unreadable
  | fields (fs : List (Str × Str))

/-- The class index and field extractor applied to a descriptor; the fields come
in the order the loop visits them. -/
def classInfo (env : Env) (o : Str) : ClassInfo :=
  match mapLookup env.classToFilePath o with
  | none => .notIndexed
  | some filePath =>
    match parseFieldsFromFile env filePath with
    | none => .unreadable
    | some fieldsMap => .fields (env.rangeOrder o fieldsMap)

/-- The end of the object branch, after the field loop. -/
def finishObject (o : Str) :
    Option (Except Err (List (Str × Schema)) × State) → Outcome
  | none => none
  | some (.error err, st1) => some (.error err, st1)
  | some (.ok props, st1) =>
    some (objectResult o, st1.setDefinition (typeShortName o) (objectDefinition props))

/-- One step of the field loop. -/
def fieldStep (env : Env) (fieldName : Str) (props : List (Str × Schema)) :
    Result × State → Except Err (List (Str × Schema)) × State
  | (.error err, st1) => (.error (.wrap "interpretTypeAndBuildDefinition".toList err), st1)
  | (.ok (k, iRef), st1) =>
    match buildPropertySchema env k iRef with
    | .error err => (.error (.wrap "buildPropertySchema".toList err), st1)
    | .ok b => (.ok (mapInsert props fieldName b), st1)

/-! ## Maps: lookup, insertion, order of keys -/

/-- The keys of a map are in strictly increasing order (so no key occurs
twice). -/
def SortedKeys {β : Type} (m : List (Str × β)) : Prop :=
  List.Pairwise (fun a b => strLt a.1 b.1 = true) m

/-! ## The resolver as a big-step relation

`Run env task st done st'` says that `task`, started in state `st`, ends with
`done` in state `st'`. Every outcome of `interpretTypeAndBuildDefinition` is
derivable; the relation is used to argue by induction on the run. -/

/-- What runs: the resolution of a descriptor, or the loop over (the rest of)
the fields of a class with the properties gathered so far. -/
inductive Task where
  | resolve (sig : Str)
  | loop (fs : List (Str × Str)) (props : List (Str × Schema))

/-- What a task gives back. -/
inductive Done where
  | result (r : Result)
  | props (r : Except Err (List (Str × Schema)))

/-- The kind override of a single-argument handler, on results. -/
def overrideResult (o : Str) : Result → Result
  | .ok (kind, iRef) => .ok (if o = [] then kind else o, iRef)
  | .error e => .error e

/-- The map handler, on results. -/
def mapResult : Result → Result
  | .ok (_, valRef) => .ok ("map".toList, valRef)
  | .error e => .error e

inductive Run (env : Env) : Task → State → Done → State → Prop where
  | malformed {sig : Str} {st : State} (hd : dispatch sig = .malformed) :
    Run env (.resolve sig) st (.result (.ok ("object".toList, []))) st
  | forward {sig o inside : Str} {st st1 : State} {r : Result}
    (hd : dispatch sig = .forward o inside)
    (h : Run env (.resolve inside) st (.result r) st1) :
    Run env (.resolve sig) st (.result (overrideResult o r)) st1
  | mapValue {sig v : Str} {st st1 : State} {r : Result}
    (hd : dispatch sig = .mapValue v)
    (h : Run env (.resolve v) st (.result r) st1) :
    Run env (.resolve sig) st (.result (mapResult r)) st1
  | mapFallback {sig : Str} {st : State} (hd : dispatch sig = .mapFallback) :
    Run env (.resolve sig) st (.result (.ok ("map".toList, "object".toList))) st
  | known {sig : Str} {kr : Str × Str} {st : State} (hd : dispatch sig = .known kr) :
    Run env (.resolve sig) st (.result (.ok kr)) st
  | primitive {sig : Str} {kr : Str × Str} {st : State} (hd : dispatch sig = .primitive kr) :
    Run env (.resolve sig) st (.result (.ok kr)) st
  | memoHit {sig s : Str} {st : State} (hd : dispatch sig = .object s)
    (hm : normSig s ∈ st.parsedTypes) :
    Run env (.resolve sig) st (.result (objectResult (normSig s))) st
  | notIndexed {sig s : Str} {st : State} (hd : dispatch sig = .object s)
    (hm : normSig s ∉ st.parsedTypes) (hc : classInfo env (normSig s) = .notIndexed) :
    Run env (.resolve sig) st (.result (objectResult (normSig s)))
      ((st.memoInsert (normSig s)).placeholder (normSig s))
  | unreadable {sig s : Str} {st : State} (hd : dispatch sig = .object s)
    (hm : normSig s ∉ st.parsedTypes) (hc : classInfo env (normSig s) = .unreadable) :
    Run env (.resolve sig) st (.result (objectResult (normSig s)))
      ((st.memoInsert (normSig s)).setDefinition (typeShortName (normSig s)) emptyDefinition)
  | fieldsOk {sig s : Str} {st st1 : State} {fs : List (Str × Str)}
    {props : List (Str × Schema)} (hd : dispatch sig = .object s)
    (hm : normSig s ∉ st.parsedTypes) (hc : classInfo env (normSig s) = .fields fs)
    (h : Run env (.loop fs []) (st.memoInsert (normSig s)) (.props (.ok props)) st1) :
    Run env (.resolve sig) st (.result (objectResult (normSig s)))
      (st1.setDefinition (typeShortName (normSig s)) (objectDefinition props))
  | fieldsErr {sig s : Str} {st st1 : State} {fs : List (Str × Str)} {e : Err}
    (hd : dispatch sig = .object s)
    (hm : normSig s ∉ st.parsedTypes) (hc : classInfo env (normSig s) = .fields fs)
    (h : Run env (.loop fs []) (st.memoInsert (normSig s)) (.props (.error e)) st1) :
    Run env (.resolve sig) st (.result (.error e)) st1
  | loopNil {props : List (Str × Schema)} {st : State} :
    Run env (.loop [] props) st (.props (.ok props)) st
  | loopErrResolve {n s : Str} {rest : List (Str × Str)} {props : List (Str × Schema)}
    {st st1 : State} {e : Err}
    (h : Run env (.resolve s) st (.result (.error e)) st1) :
    Run env (.loop ((n, s) :: rest) props) st
      (.props (.error (.wrap "interpretTypeAndBuildDefinition".toList e))) st1
  | loopErrBuild {n s : Str} {rest : List (Str × Str)} {props : List (Str × Schema)}
    {st st1 : State} {k i : Str} {e : Err}
    (h : Run env (.resolve s) st (.result (.ok (k, i))) st1)
    (hb : buildPropertySchema env k i = .error e) :
    Run env (.loop ((n, s) :: rest) props) st
      (.props (.error (.wrap "buildPropertySchema".toList e))) st1
  | loopCons {n s : Str} {rest : List (Str × Str)} {props : List (Str × Schema)}
    {st st1 st2 : State} {k i : Str} {b : Schema} {d : Except Err (List (Str × Schema))}
    (h : Run env (.resolve s) st (.result (.ok (k, i))) st1)
    (hb : buildPropertySchema env k i = .ok b)
    (hrest : Run env (.loop rest (mapInsert props n b)) st1 (.props d) st2) :
    Run env (.loop ((n, s) :: rest) props) st (.props d) st2

/-! ## Facts about every run -/

/-- Whether a task ended with an error. -/
def Done.isError : Done → Prop
  | .result (.error _) => True
  | .props (.error _) => True
  | _ => False

/-- A descriptor as the memo holds it: it begins with `L` and ends with `;`. -/
def isNormal (o : Str) : Prop := HasPrefix o "L".toList = true ∧ HasSuffix o ";".toList = true

/-! ## What a descriptor resolves to, read off the descriptor alone -/

/-- The (Kind, reference) a successful resolution of a descriptor returns,
computed from the descriptor alone by following the dispatch; the fuel bounds
the nesting of wrappers. -/
def staticKindAux : Nat → Str → Str × Str
  | 0, _ => ([], [])
  | fuel + 1, sig =>
    match dispatch sig with
    | .malformed => ("object".toList, [])
    | .forward o inside =>
      ((if o = [] then (staticKindAux fuel inside).1 else o), (staticKindAux fuel inside).2)
    | .mapValue v => ("map".toList, (staticKindAux fuel v).2)
    | .mapFallback => ("map".toList, "object".toList)
    | .known kr => kr
    | .object s => ("object".toList, typeShortName (normSig s))
    | .primitive kr => kr

/-- The (Kind, reference) a successful resolution of a descriptor returns. -/
def staticKind (sig : Str) : Str × Str := staticKindAux (sig.length + 1) sig

/-- The class a descriptor leads to, if any: the normalised object descriptor
under the wrappers. -/
def targetAux : Nat → Str → Option Str
  | 0, _ => none
  | fuel + 1, sig =>
    match dispatch sig with
    | .forward _ inside => targetAux fuel inside
    | .mapValue v => targetAux fuel v
    | .object s => some (normSig s)
    | _ => none

/-- The class a descriptor leads to, if any. -/
def target (sig : Str) : Option Str := targetAux (sig.length + 1) sig

/-! ## The properties the field loop gathers -/

/-- The property schema of a field descriptor: `buildPropertySchema` applied to
the (Kind, reference) the descriptor resolves to. -/
def propertyOf (env : Env) (s : Str) : Except Err Schema :=
  buildPropertySchema env (staticKind s).1 (staticKind s).2

/-- The map of properties the field loop builds from the fields it visits,
starting from `props0`. -/
def collectProps (env : Env) (fs : List (Str × Str)) (props0 : List (Str × Schema)) :
    List (Str × Schema) :=
  fs.foldl (fun acc e =>
    match propertyOf env e.2 with
    | .ok b => mapInsert acc e.1 b
    | .error _ => acc) props0

/-- `b` is the property schema of the field descriptor `s`: resolving `s`
succeeds with some (Kind, reference), every successful resolution of `s` returns
that same pair, and `b` is `buildPropertySchema` applied to it. -/
def IsPropertyOf (env : Env) (s : Str) (b : Schema) : Prop :=
  ∃ k ref,
    (∃ fuel st st1, interpretTypeAndBuildDefinition env fuel s st = some (.ok (k, ref), st1)) ∧
    (∀ (env2 : Env) fuel st r st1,
      interpretTypeAndBuildDefinition env2 fuel s st = some (.ok r, st1) → r = (k, ref)) ∧
    buildPropertySchema env k ref = .ok b

/-! ## The classes a run reaches -/

/-- The class `v` is the class of a field of the indexed class `u`. -/
def Edge (env : Env) (u v : Str) : Prop :=
  ∃ fs e, classInfo env u = .fields fs ∧ e ∈ fs ∧ target e.2 = some v

/-- The set `S` holds, with every class outside `memo`, the classes of its
fields. -/
def Closed (env : Env) (memo : List Str) (S : Str → Prop) : Prop :=
  ∀ u v, S u → u ∉ memo → Edge env u v → S v

/-- The classes a task starts from. -/
def Task.targets : Task → Str → Prop
  | .resolve sig, o => target sig = some o
  | .loop fs _, o => ∃ e, e ∈ fs ∧ target e.2 = some o

/-- The fields a loop still has to visit; none for a resolution. -/
def Task.fields : Task → List (Str × Str)
  | .resolve _ => []
  | .loop fs _ => fs

/-! ## The definitions a run registers -/

/-- The definition the expansion of the class `u` leaves under its short name,
given the entry `prev` that was there before. -/
def definitionOf (env : Env) (u : Str) (prev : Option Definition) : Option Definition :=
  match classInfo env u with
  | .notIndexed => if prev.isSome = true then prev else some emptyDefinition
  | .unreadable => some emptyDefinition
  | .fields fs => some (objectDefinition (collectProps env fs []))

/-- The short names of the classes a run added to the memo are pairwise
distinct. -/
def DistinctShortNames (before after : List Str) : Prop :=
  ∀ u v, u ∈ after → u ∉ before → v ∈ after → v ∉ before →
    typeShortName u = typeShortName v → u = v

/-! ## Two orders of visiting the fields -/

/-- Two environments that differ at most in the order in which `range` visits
the fields of a class. -/
def SameInputs (env1 env2 : Env) : Prop :=
  env1.classToFilePath = env2.classToFilePath ∧ env1.fieldLines = env2.fieldLines ∧
    env1.newRefOk = env2.newRefOk

/-- The entries of a map under a key. -/
def entriesUnder {β : Type} (m : List (Str × β)) (k : Str) : List (Str × β) :=
  m.filter (fun e => decide (e.1 = k))

/-! # Theorems -/

/-! ## Strings: basic facts -/

theorem HasPrefix_iff (s p : Str) : HasPrefix s p = true ↔ ∃ t, s = p ++ t := by
  induction p generalizing s with
  | nil => simp [HasPrefix]
  | cons d p ih =>
    cases s with
    | nil => simp [HasPrefix]
    | cons c s => simp [HasPrefix, ih]

theorem HasPrefix_append (p t : Str) : HasPrefix (p ++ t) p = true :=
  (HasPrefix_iff _ _).2 ⟨t, rfl⟩

theorem HasSuffix_iff (s x : Str) : HasSuffix s x = true ↔ ∃ t, s = t ++ x := by
  unfold HasSuffix
  rw [HasPrefix_iff]
  constructor
  · rintro ⟨t, ht⟩
    refine ⟨t.reverse, ?_⟩
    have := congrArg List.reverse ht
    simpa using this
  · rintro ⟨t, rfl⟩
    exact ⟨t.reverse, by simp⟩

theorem HasSuffix_append (t x : Str) : HasSuffix (t ++ x) x = true :=
  (HasSuffix_iff _ _).2 ⟨t, rfl⟩

theorem TrimSuffix_append (t x : Str) : TrimSuffix (t ++ x) x = t := by
  simp [TrimSuffix, HasSuffix_append]

theorem TrimSuffix_length_le (s x : Str) : (TrimSuffix s x).length ≤ s.length := by
  unfold TrimSuffix
  split
  · simp
  · exact le_refl _

theorem TrimPrefix_append (p t : Str) : TrimPrefix (p ++ t) p = t := by
  simp [TrimPrefix, HasPrefix_append]

theorem TrimSpace_length_le (s : Str) : (TrimSpace s).length ≤ s.length := by
  unfold TrimSpace
  have h1 : (List.dropWhile isSpace s).length ≤ s.length :=
    (List.dropWhile_sublist _).length_le
  have h2 : (List.dropWhile isSpace (List.dropWhile isSpace s).reverse).length
      ≤ (List.dropWhile isSpace s).reverse.length :=
    (List.dropWhile_sublist _).length_le
  simp at h2 ⊢
  omega

/-- A string that neither starts nor ends with white space is its own trim. -/
theorem TrimSpace_eq_self (c e : Char) (hc : isSpace c = false)
    (he : isSpace e = false) (s : Str) (h1 : s.head? = some c) (h2 : s.getLast? = some e) :
    TrimSpace s = s := by
  unfold TrimSpace
  cases s with
  | nil => simp
  | cons a t =>
    simp at h1
    subst h1
    have : List.dropWhile isSpace (a :: t) = a :: t := by simp [List.dropWhile, hc]
    rw [this]
    have h3 : (a :: t).reverse.head? = some e := by rw [List.head?_reverse]; exact h2
    cases hr : (a :: t).reverse with
    | nil => simp at hr
    | cons b u =>
      rw [hr] at h3
      simp at h3
      subst h3
      have : List.dropWhile isSpace (b :: u) = b :: u := by simp [List.dropWhile, he]
      rw [this, ← hr]
      simp

/-- The trim of a string is empty or starts and ends with a character that is
not white space. -/
theorem TrimSpace_shape (s : Str) :
    TrimSpace s = [] ∨ ∃ c e, isSpace c = false ∧ isSpace e = false ∧
      (TrimSpace s).head? = some c ∧ (TrimSpace s).getLast? = some e := by
  unfold TrimSpace
  generalize ha : List.dropWhile isSpace s = a
  generalize hb : List.dropWhile isSpace a.reverse = b
  cases b with
  | nil => left; simp
  | cons e u =>
    right
    have he : isSpace e = false := by
      have := List.head_dropWhile_not isSpace a.reverse (by rw [hb]; simp)
      simpa [hb] using this
    -- `a.reverse = spaces ++ e :: u`
    have hsplit := List.takeWhile_append_dropWhile isSpace a.reverse
    rw [hb] at hsplit
    have harev : a = (e :: u).reverse ++ (List.takeWhile isSpace a.reverse).reverse := by
      have := congrArg List.reverse hsplit
      simpa using this.symm
    cases hr : (e :: u).reverse with
    | nil => simp at hr
    | cons c w =>
      have hc : isSpace c = false := by
        cases a with
        | nil => rw [hr] at harev; simp at harev
        | cons a0 a1 =>
          have h0 := List.head_dropWhile_not isSpace s (by rw [ha]; simp)
          simp [ha] at h0
          rw [hr] at harev
          simp at harev
          rw [← harev.1]; exact h0
      refine ⟨c, e, hc, he, by simp, ?_⟩
      rw [← hr, List.getLast?_reverse]; simp

theorem TrimSpace_idem (s : Str) : TrimSpace (TrimSpace s) = TrimSpace s := by
  rcases TrimSpace_shape s with h | ⟨c, e, hc, he, h1, h2⟩
  · rw [h]; rfl
  · exact TrimSpace_eq_self c e hc he _ h1 h2

theorem Index_some_le (s sub : Str) (i : Nat) (h : Index s sub = some i) :
    i + sub.length ≤ s.length := by
  induction s generalizing i with
  | nil =>
    simp only [Index] at h
    split at h
    · rename_i hp
      cases sub with
      | nil => simp at h; simp [← h]
      | cons => simp [HasPrefix] at hp
    · simp at h
  | cons c s ih =>
    simp only [Index] at h
    split at h
    · rename_i hp
      simp at h; subst h
      obtain ⟨t, ht⟩ := (HasPrefix_iff _ _).1 hp
      rw [ht]; simp
    · cases hi : Index s sub with
      | none => simp [hi] at h
      | some j =>
        simp [hi] at h
        have := ih j hi
        subst h
        simp; omega

/-- The first occurrence of a character that does not occur before it. -/
theorem Index_char (a b : Str) (c : Char) (h : c ∉ a) :
    Index (a ++ c :: b) [c] = some a.length := by
  induction a with
  | nil => simp [Index, HasPrefix]
  | cons d a ih =>
    have hd : d ≠ c := fun e => h (by simp [e])
    have ha : c ∉ a := fun e => h (by simp [e])
    simp [Index, HasPrefix, hd, ih ha]

theorem Index_char_none (a : Str) (c : Char) (h : c ∉ a) : Index a [c] = none := by
  induction a with
  | nil => simp [Index, HasPrefix]
  | cons d a ih =>
    have hd : d ≠ c := fun e => h (by simp [e])
    have ha : c ∉ a := fun e => h (by simp [e])
    simp [Index, HasPrefix, hd, ih ha]

theorem dropMethodParams_length_le (s : Str) : (dropMethodParams s).length ≤ s.length := by
  unfold dropMethodParams
  split
  · split
    · exact le_trans (TrimSpace_length_le _) (by simp)
    · exact le_refl _
  · exact le_refl _

theorem dropMethodParams_of_L (t : Str) : dropMethodParams ('L' :: t) = 'L' :: t := by
  simp [dropMethodParams, HasPrefix]

theorem TrimSpace_object (d : Str) (h1 : HasPrefix d "L".toList = true)
    (h2 : HasSuffix d ";".toList = true) : TrimSpace d = d := by
  obtain ⟨t, ht⟩ := (HasPrefix_iff _ _).1 h1
  obtain ⟨u, hu⟩ := (HasSuffix_iff _ _).1 h2
  refine TrimSpace_eq_self 'L' ';' (by decide) (by decide) d ?_ ?_
  · rw [ht]; simp
  · rw [hu]; simp

theorem interp_objectDescriptor (env : Env) (fuel : Nat) (d : Str) (st : State)
    (h : isObjectDescriptor d = true) :
    interpretTypeAndBuildDefinition env (fuel + 1) d st =
      resolveObject env (interpretTypeAndBuildDefinition env fuel) d st := by
  simp only [isObjectDescriptor, Bool.and_eq_true, Option.isNone_iff_eq_none] at h
  obtain ⟨⟨⟨h1, h2⟩, h3⟩, h4⟩ := h
  obtain ⟨t, ht⟩ := (HasPrefix_iff _ _).1 h1
  have hd : dropMethodParams (TrimSpace d) = d := by
    rw [TrimSpace_object d h1 h2, ht]
    exact dropMethodParams_of_L t
  simp only [interpretTypeAndBuildDefinition, hd, h3, h4, h1, if_true]

theorem find_single (W o : Str) (h : (W, o) ∈ singleArgWrappers) (T : Str) :
    wrapperHandlers.find? (fun wh => HasPrefix (W ++ T) wh.pfx) = some (genericWrapperFunc W o)
    ∧ Index (W ++ T) "<".toList = some (W.length - 1) ∧ W ≠ [] := by
  simp only [singleArgWrappers, List.mem_cons, Prod.mk.injEq, List.mem_singleton, List.not_mem_nil, or_false] at h
  rcases h with ⟨rfl, rfl⟩ | ⟨rfl, rfl⟩ | ⟨rfl, rfl⟩ | ⟨rfl, rfl⟩ | ⟨rfl, rfl⟩ | ⟨rfl, rfl⟩ <;>
    simp [wrapperHandlers, List.find?, HasPrefix, genericWrapperFunc, hashMapWrapper, Index]

/-! ## One step of the resolver -/

theorem interp_TrimSpace (env : Env) (fuel : Nat) (s : Str) (st : State) :
    interpretTypeAndBuildDefinition env fuel (TrimSpace s) st =
      interpretTypeAndBuildDefinition env fuel s st := by
  cases fuel with
  | zero => rfl
  | succ n => simp only [interpretTypeAndBuildDefinition, TrimSpace_idem]

theorem genericWrapperFunc_parseInside (p o : Str) (f : Str → State → Outcome) (inside : Str)
    (st : State) :
    (genericWrapperFunc p o).parseInside f inside st = applyOverride o (f inside st) := by
  simp only [genericWrapperFunc]
  rcases f inside st with _ | ⟨_ | ⟨k, r⟩, st1⟩ <;> simp [applyOverride]
  by_cases h : o = [] <;> simp [h]

theorem wrapper_sig_trim (W o : Str) (h : (W, o) ∈ singleArgWrappers) (T : Str) :
    dropMethodParams (TrimSpace (W ++ T ++ ">;".toList)) = W ++ (T ++ ">;".toList) := by
  have hW : ∃ w, W = 'L' :: w := by
    simp only [singleArgWrappers, List.mem_cons, Prod.mk.injEq, List.mem_singleton,
      List.not_mem_nil, or_false] at h
    rcases h with ⟨rfl, _⟩ | ⟨rfl, _⟩ | ⟨rfl, _⟩ | ⟨rfl, _⟩ | ⟨rfl, _⟩ | ⟨rfl, _⟩ <;>
      exact ⟨_, rfl⟩
  obtain ⟨w, rfl⟩ := hW
  have : TrimSpace ('L' :: w ++ T ++ ">;".toList) = 'L' :: w ++ T ++ ">;".toList :=
    TrimSpace_eq_self 'L' ';' (by decide) (by decide) _ (by simp) (by
      have : 'L' :: w ++ T ++ ">;".toList = ('L' :: w ++ T ++ ['>']) ++ [';'] := by simp
      rw [this, List.getLast?_append]; simp)
  rw [this]
  simp [dropMethodParams, HasPrefix]

theorem splitSmaliTypesLoop_plain (body rest : Str) (fuel : Nat) (h : ';' ∉ body) :
    splitSmaliTypesLoop (fuel + 1) ('L' :: body ++ ';' :: rest) =
      ('L' :: body ++ [';']) :: splitSmaliTypesLoop fuel rest := by
  have hi : Index ('L' :: body ++ ';' :: rest) ";".toList = some (body.length + 1) := by
    have := Index_char ('L' :: body) rest ';' (by simp [h])
    simpa using this
  have h1 : List.take (body.length + 1) (body ++ ';' :: rest) = body ++ [';'] := by
    have : body ++ ';' :: rest = (body ++ [';']) ++ rest := by simp
    rw [this, List.take_left' (by simp)]
  have h2 : List.drop (body.length + 1) (body ++ ';' :: rest) = rest := by
    have : body ++ ';' :: rest = (body ++ [';']) ++ rest := by simp
    rw [this, List.drop_left' (by simp)]
  simp only [List.cons_append] at hi ⊢
  simp only [splitSmaliTypesLoop, hi, if_true, List.take_succ_cons, List.drop_succ_cons, h1, h2]

theorem splitSmaliTypesLoop_nil (fuel : Nat) : splitSmaliTypesLoop fuel [] = [] := by
  cases fuel <;> rfl

theorem plain_trim (K V : Str) (hK : plainObjectDescriptor K) (hV : plainObjectDescriptor V) :
    TrimSpace (K ++ V) = K ++ V := by
  obtain ⟨kb, rfl, -⟩ := hK
  obtain ⟨vb, rfl, -⟩ := hV
  refine TrimSpace_eq_self 'L' ';' (by decide) (by decide) _ (by simp) ?_
  have : 'L' :: kb ++ [';'] ++ ('L' :: vb ++ [';']) = ('L' :: kb ++ [';'] ++ 'L' :: vb) ++ [';'] := by
    simp
  rw [this, List.getLast?_append]; simp

theorem splitSmaliTypes_plain (K V : Str) (hK : plainObjectDescriptor K)
    (hV : plainObjectDescriptor V) : splitSmaliTypes (K ++ V) = [K, V] := by
  unfold splitSmaliTypes
  simp only [plain_trim K V hK hV]
  obtain ⟨kb, rfl, hk, -⟩ := hK
  obtain ⟨vb, rfl, hv, -⟩ := hV
  have e1 : 'L' :: kb ++ [';'] ++ ('L' :: vb ++ [';']) = 'L' :: kb ++ ';' :: ('L' :: vb ++ ';' :: []) := by
    simp
  have e2 : ('L' :: kb ++ ';' :: ('L' :: vb ++ ';' :: [])).length = (kb.length + vb.length + 2) + 1 + 1 := by
    simp; omega
  rw [e1, e2, splitSmaliTypesLoop_plain kb _ _ hk, splitSmaliTypesLoop_plain vb _ _ hv,
    splitSmaliTypesLoop_nil]

theorem isObjectDescriptor_suffix (d : Str) (h : isObjectDescriptor d = true) :
    HasSuffix d ";".toList = true := by
  simp only [isObjectDescriptor, Bool.and_eq_true] at h
  exact h.1.1.2

/-- A single-argument handler forwards to the resolution of its inside and
applies its kind override. -/
theorem interp_single_wrapper (env : Env) (W o : Str) (h : (W, o) ∈ singleArgWrappers)
    (T : Str) (st : State) (fuel : Nat) :
    interpretTypeAndBuildDefinition env (fuel + 1) (W ++ T ++ ">;".toList) st =
      applyOverride o (interpretTypeAndBuildDefinition env fuel T st) := by
  obtain ⟨hf, hi, hne⟩ := find_single W o h (T ++ ">;".toList)
  have hlen : W.length - 1 + 1 = W.length := by
    cases W with
    | nil => exact absurd rfl hne
    | cons => simp
  simp only [interpretTypeAndBuildDefinition, wrapper_sig_trim W o h T, hf, hi, hlen,
    List.drop_left, TrimSuffix_append, genericWrapperFunc_parseInside, interp_TrimSpace]

/-! ## The dispatch of a descriptor, read off the descriptor alone -/

theorem find?_forall2 {α β : Type} (R : α → β → Prop) (p : α → Bool) (q : β → Bool)
    (hpq : ∀ a b, R a b → p a = q b) (l1 : List α) (l2 : List β)
    (h : List.Forall₂ R l1 l2) :
    (l1.find? p = none ∧ l2.find? q = none) ∨
      ∃ a b, l1.find? p = some a ∧ l2.find? q = some b ∧ R a b := by
  induction h with
  | nil => left; simp
  | @cons a b l1 l2 hab _ ih =>
    by_cases hp : p a = true
    · right
      have hq : q b = true := by rw [← hpq a b hab]; exact hp
      exact ⟨a, b, by simp [List.find?, hp], by simp [List.find?, hq], hab⟩
    · have hq : ¬ q b = true := by rw [← hpq a b hab]; exact hp
      simp only [List.find?, hp, hq]
      exact ih

theorem wrapperKinds_describe : List.Forall₂ describesHandler wrapperKinds wrapperHandlers := by
  unfold wrapperKinds wrapperHandlers
  repeat' first
    | exact List.Forall₂.nil
    | apply List.Forall₂.cons
  all_goals exact ⟨rfl, rfl⟩

theorem find_wrapper_kinds (s : Str) :
    (wrapperKinds.find? (fun w => HasPrefix s w.1) = none ∧
      wrapperHandlers.find? (fun wh => HasPrefix s wh.pfx) = none) ∨
    ∃ w wh, wrapperKinds.find? (fun w => HasPrefix s w.1) = some w ∧
      wrapperHandlers.find? (fun wh => HasPrefix s wh.pfx) = some wh ∧ describesHandler w wh :=
  find?_forall2 describesHandler _ _ (fun a b hab => by simp only [hab.1]) _ _
    wrapperKinds_describe

theorem hashMapWrapper_parseInside (f : Str → State → Outcome) (inside : Str) (st : State) :
    hashMapWrapper.parseInside f inside st =
      if (splitSmaliTypes inside).length = 2 then
        asMapOf (f ((splitSmaliTypes inside).getD 1 []) st)
      else some (.ok ("map".toList, "object".toList), st) := by
  simp only [hashMapWrapper]
  split
  · rcases f ((splitSmaliTypes inside).getD 1 []) st with _ | ⟨_ | ⟨k, r⟩, st1⟩ <;> rfl
  · rfl

/-- The outcome of a call with at least one unit of fuel, by the branch the
descriptor takes. -/
theorem interp_dispatch (env : Env) (fuel : Nat) (sig : Str) (st : State) :
    interpretTypeAndBuildDefinition env (fuel + 1) sig st =
      match dispatch sig with
      | .malformed => some (.ok ("object".toList, []), st)
      | .forward o inside => applyOverride o (interpretTypeAndBuildDefinition env fuel inside st)
      | .mapValue v => asMapOf (interpretTypeAndBuildDefinition env fuel v st)
      | .mapFallback => some (.ok ("map".toList, "object".toList), st)
      | .known kr => some (.ok kr, st)
      | .object o => resolveObject env (interpretTypeAndBuildDefinition env fuel) o st
      | .primitive kr => some (.ok kr, st) := by
  rw [interpretTypeAndBuildDefinition]
  unfold dispatch
  generalize dropMethodParams (TrimSpace sig) = s
  rcases find_wrapper_kinds s with ⟨h1, h2⟩ | ⟨⟨p, shape⟩, wh, h1, h2, hpfx, hd⟩
  · simp only [h1, h2]
    cases boxedTable s with
    | some kr => rfl
    | none =>
      by_cases hL : HasPrefix s "L".toList = true
      · simp only [hL, if_true]
      · simp only [hL]; rfl
  · simp only [h1, h2]
    cases Index s "<".toList with
    | none => rfl
    | some op =>
      cases shape with
      | some o =>
        simp only at hd
        subst hd
        simp only [genericWrapperFunc_parseInside, insideOf]
      | none =>
        simp only at hd
        subst hd
        simp only [hashMapWrapper_parseInside, insideOf]
        split <;> rfl

/-! ## The object branch, in flat form -/

theorem resolveObject_eq (env : Env) (f : Str → State → Outcome) (sig : Str) (st : State) :
    resolveObject env f sig st =
      if normSig sig ∈ st.parsedTypes then some (objectResult (normSig sig), st)
      else
        match classInfo env (normSig sig) with
        | .notIndexed =>
          some (objectResult (normSig sig), (st.memoInsert (normSig sig)).placeholder (normSig sig))
        | .unreadable =>
          some (objectResult (normSig sig),
            (st.memoInsert (normSig sig)).setDefinition (typeShortName (normSig sig))
              emptyDefinition)
        | .fields fs =>
          finishObject (normSig sig) (fieldsLoop env f fs [] (st.memoInsert (normSig sig))) := by
  unfold resolveObject classInfo normSig
  generalize (if HasSuffix sig ";".toList = true then sig else sig ++ ";".toList) = o
  dsimp only
  by_cases hm : o ∈ st.parsedTypes
  · simp only [hm, if_true]; rfl
  · simp only [hm, if_false]
    cases mapLookup env.classToFilePath o with
    | none => rfl
    | some p =>
      dsimp only
      cases parseFieldsFromFile env p with
      | none => rfl
      | some F =>
        dsimp only
        have : State.memoInsert st o = { spec := st.spec, parsedTypes := o :: st.parsedTypes } := rfl
        rw [this]
        rcases fieldsLoop env f (env.rangeOrder o F) []
          { spec := st.spec, parsedTypes := o :: st.parsedTypes } with _ | ⟨_ | pr, s1⟩ <;> rfl

theorem fieldsLoop_nil (env : Env) (f : Str → State → Outcome) (props : List (Str × Schema))
    (st : State) : fieldsLoop env f [] props st = some (.ok props, st) := rfl

theorem fieldsLoop_cons (env : Env) (f : Str → State → Outcome) (n s : Str)
    (rest : List (Str × Str)) (props : List (Str × Schema)) (st : State) :
    fieldsLoop env f ((n, s) :: rest) props st =
      match f s st with
      | none => none
      | some r =>
        match fieldStep env n props r with
        | (.error e, st1) => some (.error e, st1)
        | (.ok props1, st1) => fieldsLoop env f rest props1 st1 := by
  rw [fieldsLoop]
  rcases f s st with _ | ⟨_ | ⟨k, i⟩, st1⟩
  · rfl
  · rfl
  · simp only [fieldStep]
    cases buildPropertySchema env k i <;> rfl

/-! ## More fuel never changes an outcome -/

theorem fieldsLoop_mono (env : Env) (f g : Str → State → Outcome)
    (hfg : ∀ s st r, f s st = some r → g s st = some r) (fs : List (Str × Str)) :
    ∀ (props : List (Str × Schema)) (st : State) r,
      fieldsLoop env f fs props st = some r → fieldsLoop env g fs props st = some r := by
  induction fs with
  | nil => intro props st r h; exact h
  | cons hd rest ih =>
    obtain ⟨n, s⟩ := hd
    intro props st r h
    rw [fieldsLoop_cons] at h ⊢
    cases hf : f s st with
    | none => rw [hf] at h; exact absurd h (by simp)
    | some x =>
      rw [hfg s st x hf]
      rw [hf] at h
      rcases hfs : fieldStep env n props x with ⟨_ | props1, st1⟩
      · simp only [hfs] at h ⊢; exact h
      · simp only [hfs] at h ⊢; exact ih _ _ _ h

theorem finishObject_some (o : Str) (x : Option (Except Err (List (Str × Schema)) × State)) r
    (h : finishObject o x = some r) : ∃ y, x = some y := by
  cases x with
  | none => exact absurd h (by simp [finishObject])
  | some y => exact ⟨y, rfl⟩

theorem resolveObject_mono (env : Env) (f g : Str → State → Outcome)
    (hfg : ∀ s st r, f s st = some r → g s st = some r) (sig : Str) (st : State) r
    (h : resolveObject env f sig st = some r) : resolveObject env g sig st = some r := by
  rw [resolveObject_eq] at h ⊢
  by_cases hm : normSig sig ∈ st.parsedTypes
  · simp only [hm, if_true] at h ⊢; exact h
  · simp only [hm, if_false] at h ⊢
    cases hc : classInfo env (normSig sig) with
    | notIndexed => simp only [hc] at h ⊢; exact h
    | unreadable => simp only [hc] at h ⊢; exact h
    | fields fs =>
      simp only [hc] at h ⊢
      obtain ⟨y, hy⟩ := finishObject_some _ _ _ h
      rw [fieldsLoop_mono env f g hfg _ _ _ _ hy]
      rw [hy] at h; exact h

theorem applyOverride_eq_some (o : Str) (x : Outcome) r (h : applyOverride o x = some r) :
    ∃ y, x = some y := by
  cases x with
  | none => exact absurd h (by simp [applyOverride])
  | some y => exact ⟨y, rfl⟩

theorem asMapOf_eq_some (x : Outcome) r (h : asMapOf x = some r) : ∃ y, x = some y := by
  cases x with
  | none => exact absurd h (by simp [asMapOf])
  | some y => exact ⟨y, rfl⟩

theorem interp_mono_succ (env : Env) (fuel : Nat) :
    ∀ sig st r, interpretTypeAndBuildDefinition env fuel sig st = some r →
      interpretTypeAndBuildDefinition env (fuel + 1) sig st = some r := by
  induction fuel with
  | zero => intro sig st r h; exact absurd h (by simp [interpretTypeAndBuildDefinition])
  | succ n ih =>
    intro sig st r h
    rw [interp_dispatch] at h ⊢
    cases hd : dispatch sig with
    | malformed => simp only [hd] at h ⊢; exact h
    | forward o inside =>
      simp only [hd] at h ⊢
      obtain ⟨y, hy⟩ := applyOverride_eq_some _ _ _ h
      rw [ih _ _ _ hy]; rw [hy] at h; exact h
    | mapValue v =>
      simp only [hd] at h ⊢
      obtain ⟨y, hy⟩ := asMapOf_eq_some _ _ h
      rw [ih _ _ _ hy]; rw [hy] at h; exact h
    | mapFallback => simp only [hd] at h ⊢; exact h
    | known kr => simp only [hd] at h ⊢; exact h
    | object o =>
      simp only [hd] at h ⊢
      exact resolveObject_mono env _ _ ih _ _ _ h
    | primitive kr => simp only [hd] at h ⊢; exact h

theorem interp_mono (env : Env) (n m : Nat) (hnm : n ≤ m) (sig : Str) (st : State) r
    (h : interpretTypeAndBuildDefinition env n sig st = some r) :
    interpretTypeAndBuildDefinition env m sig st = some r := by
  induction m with
  | zero =>
    have : n = 0 := by omega
    subst this; exact h
  | succ k ih =>
    by_cases hk : n ≤ k
    · exact interp_mono_succ env k _ _ _ (ih hk)
    · have : n = k + 1 := by omega
      subst this; exact h

/-! ## What the dispatch says about the descriptor -/

theorem dispatch_forward (sig o inside : Str) (h : dispatch sig = .forward o inside) :
    ∃ op, Index (dropMethodParams (TrimSpace sig)) "<".toList = some op ∧
      inside = insideOf (dropMethodParams (TrimSpace sig)) op := by
  unfold dispatch at h
  dsimp only at h
  split at h
  · split at h
    · exact absurd h (by simp)
    · rename_i op hop
      split at h
      · simp only [Dispatch.forward.injEq] at h
        exact ⟨op, hop, h.2.symm⟩
      · split at h <;> exact absurd h (by simp)
  · split at h
    · exact absurd h (by simp)
    · split at h <;> exact absurd h (by simp)

theorem dispatch_mapValue (sig v : Str) (h : dispatch sig = .mapValue v) :
    ∃ op, Index (dropMethodParams (TrimSpace sig)) "<".toList = some op ∧
      (splitSmaliTypes (insideOf (dropMethodParams (TrimSpace sig)) op)).length = 2 ∧
      v = (splitSmaliTypes (insideOf (dropMethodParams (TrimSpace sig)) op)).getD 1 [] := by
  unfold dispatch at h
  dsimp only at h
  split at h
  · split at h
    · exact absurd h (by simp)
    · rename_i op hop
      split at h
      · exact absurd h (by simp)
      · split at h
        · rename_i hl
          simp only [Dispatch.mapValue.injEq] at h
          exact ⟨op, hop, hl, h.symm⟩
        · exact absurd h (by simp)
  · split at h
    · exact absurd h (by simp)
    · split at h <;> exact absurd h (by simp)

theorem dispatch_object (sig o : Str) (h : dispatch sig = .object o) :
    o = dropMethodParams (TrimSpace sig) ∧ HasPrefix o "L".toList = true ∧
      boxedTable o = none := by
  unfold dispatch at h
  dsimp only at h
  split at h
  · split at h
    · exact absurd h (by simp)
    · split at h
      · exact absurd h (by simp)
      · split at h <;> exact absurd h (by simp)
  · split at h
    · exact absurd h (by simp)
    · rename_i hb
      split at h
      · rename_i hL
        simp only [Dispatch.object.injEq] at h
        subst h
        exact ⟨rfl, hL, hb⟩
      · exact absurd h (by simp)

theorem insideOf_length_lt (s : Str) (op : Nat) (h : Index s "<".toList = some op) :
    (insideOf s op).length < s.length := by
  have h1 := Index_some_le s _ op h
  have h2 : (insideOf s op).length ≤ (s.drop (op + 1)).length :=
    le_trans (TrimSpace_length_le _) (TrimSuffix_length_le _ _)
  simp at h1 h2
  omega

theorem splitSmaliTypesLoop_length_le (fuel : Nat) :
    ∀ (s p : Str), p ∈ splitSmaliTypesLoop fuel s → p.length ≤ s.length := by
  induction fuel with
  | zero => intro s p h; simp [splitSmaliTypesLoop] at h
  | succ n ih =>
    intro s p h
    cases s with
    | nil => simp [splitSmaliTypesLoop] at h
    | cons c rest =>
      rw [splitSmaliTypesLoop] at h
      split at h
      · split at h
        · simp only [List.mem_singleton] at h; rw [h]
        · rename_i e he
          simp only [List.mem_cons] at h
          rcases h with h | h
          · rw [h]; simp
          · exact le_trans (ih _ _ h) (by rw [List.length_drop]; omega)
      · simp only [List.mem_append, List.mem_map] at h
        rcases h with ⟨b, _, rfl⟩ | h
        · simp
        · exact le_trans (ih _ _ h) (by simp)

theorem splitSmaliTypes_getD_length (s : Str) :
    ((splitSmaliTypes s).getD 1 []).length ≤ s.length := by
  have hall : ∀ p ∈ splitSmaliTypes s, p.length ≤ s.length := fun p hp =>
    le_trans (splitSmaliTypesLoop_length_le _ _ _ hp) (TrimSpace_length_le _)
  rcases hs : splitSmaliTypes s with _ | ⟨a, _ | ⟨b, rest⟩⟩
  · simp
  · simp
  · rw [hs] at hall
    simpa using hall b (by simp)

theorem dispatch_forward_lt (sig o inside : Str) (h : dispatch sig = .forward o inside) :
    inside.length < sig.length := by
  obtain ⟨op, hop, rfl⟩ := dispatch_forward sig o inside h
  have h1 := insideOf_length_lt (dropMethodParams (TrimSpace sig)) op hop
  have h2 := dropMethodParams_length_le (TrimSpace sig)
  have h3 := TrimSpace_length_le sig
  omega

theorem dispatch_mapValue_lt (sig v : Str) (h : dispatch sig = .mapValue v) :
    v.length < sig.length := by
  obtain ⟨op, hop, -, hv⟩ := dispatch_mapValue sig v h
  rw [hv]
  have h0 := splitSmaliTypes_getD_length (insideOf (dropMethodParams (TrimSpace sig)) op)
  have h1 := insideOf_length_lt (dropMethodParams (TrimSpace sig)) op hop
  have h2 := dropMethodParams_length_le (TrimSpace sig)
  have h3 := TrimSpace_length_le sig
  omega

/-! ## Termination -/

theorem le_foldr_max (l : List Nat) (x : Nat) (h : x ∈ l) : x ≤ l.foldr max 0 := by
  induction l with
  | nil => simp at h
  | cons a l ih =>
    simp only [List.mem_cons] at h
    simp only [List.foldr]
    rcases h with rfl | h
    · exact le_max_left _ _
    · exact le_trans (ih h) (le_max_right _ _)

theorem mapLookup_mem {β : Type} (m : List (Str × β)) (k : Str) (v : β)
    (h : mapLookup m k = some v) : (k, v) ∈ m := by
  induction m with
  | nil => simp [mapLookup] at h
  | cons e m ih =>
    obtain ⟨k', v'⟩ := e
    simp only [mapLookup] at h
    split at h
    · rename_i hk
      simp only [Option.some.injEq] at h
      subst hk; subst h
      simp
    · exact List.mem_cons_of_mem _ (ih h)

theorem classInfo_fields_mem (env : Env) (o : Str) (fs : List (Str × Str))
    (h : classInfo env o = .fields fs) :
    ∃ path F, (o, path) ∈ env.classToFilePath ∧ parseFieldsFromFile env path = some F ∧
      fs = env.rangeOrder o F := by
  unfold classInfo at h
  split at h
  · exact absurd h (by simp)
  · rename_i path hl
    split at h
    · exact absurd h (by simp)
    · rename_i F hp
      simp only [ClassInfo.fields.injEq] at h
      exact ⟨path, F, mapLookup_mem _ _ _ hl, hp, h.symm⟩

theorem classInfo_fields_bound (env : Env) (o : Str) (fs : List (Str × Str))
    (h : classInfo env o = .fields fs) (n s : Str) (hs : (n, s) ∈ fs) :
    s.length ≤ maxFieldLen env := by
  obtain ⟨path, F, hmem, hp, rfl⟩ := classInfo_fields_mem env o fs h
  unfold maxFieldLen
  refine le_trans ?_ (le_foldr_max _ _ (List.mem_map.2 ⟨(o, path), hmem, rfl⟩))
  simp only [hp]
  exact le_foldr_max _ _ (List.mem_map.2 ⟨(n, s), hs, rfl⟩)

theorem unvisited_anti (env : Env) (m1 m2 : List Str) (h : m1 ⊆ m2) :
    unvisited env m2 ≤ unvisited env m1 := by
  unfold unvisited
  apply List.Sublist.length_le
  apply List.monotone_filter_right
  intro e he
  simp only [decide_eq_true_eq] at he ⊢
  exact fun hm => he (h hm)

theorem unvisited_insert_lt (env : Env) (memo : List Str) (o path : Str)
    (hmem : (o, path) ∈ env.classToFilePath) (ho : o ∉ memo) :
    unvisited env (o :: memo) < unvisited env memo := by
  unfold unvisited
  generalize env.classToFilePath = l at hmem
  induction l with
  | nil => simp at hmem
  | cons e l ih =>
    simp only [List.mem_cons] at hmem
    have hle : (List.filter (fun e => decide (e.1 ∉ o :: memo)) l).length
        ≤ (List.filter (fun e => decide (e.1 ∉ memo)) l).length := by
      apply List.Sublist.length_le
      apply List.monotone_filter_right
      intro e he
      simp only [decide_eq_true_eq, List.mem_cons, not_or] at he ⊢
      exact he.2
    by_cases he : e.1 = o
    · have h1 : decide (e.1 ∉ o :: memo) = false := by simp [he]
      have h2 : decide (e.1 ∉ memo) = true := by simp [he, ho]
      simp only [List.filter, h1, h2, List.length_cons]
      omega
    · rcases hmem with hmem | hmem
      · exact absurd (by rw [← hmem]) he
      · have := ih hmem
        by_cases hm : e.1 ∈ memo
        · have h1 : decide (e.1 ∉ o :: memo) = false := by simp [hm]
          have h2 : decide (e.1 ∉ memo) = false := by simp [hm]
          simp only [List.filter, h1, h2]
          exact this
        · have h1 : decide (e.1 ∉ o :: memo) = true := by simp [hm, he]
          have h2 : decide (e.1 ∉ memo) = true := by simp [hm]
          simp only [List.filter, h1, h2, List.length_cons]
          omega

theorem classInfo_indexed (env : Env) (o : Str) (h : classInfo env o ≠ .notIndexed) :
    ∃ path, (o, path) ∈ env.classToFilePath := by
  unfold classInfo at h
  split at h
  · exact absurd rfl h
  · rename_i path hl
    exact ⟨path, mapLookup_mem _ _ _ hl⟩

theorem State.placeholder_parsedTypes (st : State) (o : Str) :
    (st.placeholder o).parsedTypes = st.parsedTypes := by
  unfold State.placeholder State.setDefinition
  split <;> rfl

theorem fieldStep_state (env : Env) (n : Str) (props : List (Str × Schema)) (r : Result × State) :
    (fieldStep env n props r).2 = r.2 := by
  rcases r with ⟨_ | ⟨k, i⟩, st1⟩
  · rfl
  · simp only [fieldStep]
    cases buildPropertySchema env k i <;> rfl

/-- The field loop ends, and only adds to the memo, when every call of the
resolver it makes does. -/
theorem fieldsLoop_terminates (env : Env) (f : Str → State → Outcome) (memo0 : List Str)
    (fs : List (Str × Str))
    (hf : ∀ n s, (n, s) ∈ fs → ∀ st : State, memo0 ⊆ st.parsedTypes →
      ∃ r, f s st = some r ∧ st.parsedTypes ⊆ r.2.parsedTypes) :
    ∀ (props : List (Str × Schema)) (st : State), memo0 ⊆ st.parsedTypes →
      ∃ r, fieldsLoop env f fs props st = some r ∧ st.parsedTypes ⊆ r.2.parsedTypes := by
  induction fs with
  | nil => intro props st _; exact ⟨_, rfl, fun _ h => h⟩
  | cons hd rest ih =>
    obtain ⟨n, s⟩ := hd
    intro props st hst
    rw [fieldsLoop_cons]
    obtain ⟨r, hr, hsub⟩ := hf n s (by simp) st hst
    rw [hr]
    have hstate := fieldStep_state env n props r
    rcases hfs : fieldStep env n props r with ⟨_ | props1, st1⟩
    · rw [hfs] at hstate
      simp only at hstate
      subst hstate
      simp only [hfs]
      exact ⟨_, rfl, hsub⟩
    · rw [hfs] at hstate
      simp only at hstate
      subst hstate
      simp only [hfs]
      obtain ⟨r2, hr2, hsub2⟩ := ih (fun n s h => hf n s (List.mem_cons_of_mem _ h)) props1 r.2
        (fun _ h => hsub (hst h))
      exact ⟨r2, hr2, fun _ h => hsub2 (hsub h)⟩

theorem applyOverride_some (o : Str) (r : Result × State) :
    ∃ r', applyOverride o (some r) = some r' ∧ r'.2 = r.2 := by
  rcases r with ⟨_ | ⟨k, i⟩, st⟩
  · exact ⟨_, rfl, rfl⟩
  · exact ⟨_, rfl, rfl⟩

theorem asMapOf_some (r : Result × State) :
    ∃ r', asMapOf (some r) = some r' ∧ r'.2 = r.2 := by
  rcases r with ⟨_ | ⟨k, i⟩, st⟩
  · exact ⟨_, rfl, rfl⟩
  · exact ⟨_, rfl, rfl⟩

theorem interp_terminates (env : Env) (fuel : Nat) :
    ∀ (sig : Str) (st : State), fuelBound env sig st ≤ fuel →
      ∃ r, interpretTypeAndBuildDefinition env fuel sig st = some r ∧
        st.parsedTypes ⊆ r.2.parsedTypes := by
  induction fuel with
  | zero => intro sig st h; unfold fuelBound at h; omega
  | succ k ih =>
    intro sig st h
    unfold fuelBound at h
    rw [interp_dispatch]
    cases hd : dispatch sig with
    | malformed => exact ⟨_, rfl, fun _ h => h⟩
    | forward o inside =>
      have hlt := dispatch_forward_lt sig o inside hd
      obtain ⟨r, hr, hsub⟩ := ih inside st (by unfold fuelBound; omega)
      obtain ⟨r', hr', hst⟩ := applyOverride_some o r
      exact ⟨r', by simp only [hr, hr'], by rw [hst]; exact hsub⟩
    | mapValue v =>
      have hlt := dispatch_mapValue_lt sig v hd
      obtain ⟨r, hr, hsub⟩ := ih v st (by unfold fuelBound; omega)
      obtain ⟨r', hr', hst⟩ := asMapOf_some r
      exact ⟨r', by simp only [hr, hr'], by rw [hst]; exact hsub⟩
    | mapFallback => exact ⟨_, rfl, fun _ h => h⟩
    | known kr => exact ⟨_, rfl, fun _ h => h⟩
    | primitive kr => exact ⟨_, rfl, fun _ h => h⟩
    | object o =>
      simp only
      rw [resolveObject_eq]
      by_cases hm : normSig o ∈ st.parsedTypes
      · simp only [hm, if_true]; exact ⟨_, rfl, fun _ h => h⟩
      · simp only [hm, if_false]
        cases hc : classInfo env (normSig o) with
        | notIndexed =>
          refine ⟨_, rfl, ?_⟩
          simp only [State.placeholder_parsedTypes, State.memoInsert]
          exact fun _ h => List.mem_cons_of_mem _ h
        | unreadable =>
          exact ⟨_, rfl, fun _ h => List.mem_cons_of_mem _ h⟩
        | fields fs =>
          simp only
          obtain ⟨path, hpath⟩ := classInfo_indexed env (normSig o) (by rw [hc]; simp)
          have hlt := unvisited_insert_lt env st.parsedTypes (normSig o) path hpath hm
          have hmul : (unvisited env (normSig o :: st.parsedTypes) + 1) * (maxFieldLen env + 2)
              ≤ unvisited env st.parsedTypes * (maxFieldLen env + 2) :=
            Nat.mul_le_mul_right _ hlt
          rw [Nat.add_mul, Nat.one_mul] at hmul
          obtain ⟨r, hr, hsub⟩ := fieldsLoop_terminates env
            (interpretTypeAndBuildDefinition env k) (normSig o :: st.parsedTypes) fs
            (fun n s hs st2 hst2 => ih s st2 (by
              unfold fuelBound
              have h1 := classInfo_fields_bound env _ fs hc n s hs
              have h2 := Nat.mul_le_mul_right (maxFieldLen env + 2)
                (unvisited_anti env _ _ hst2)
              omega))
            [] (st.memoInsert (normSig o)) (fun _ h => h)
          rw [hr]
          rcases r with ⟨_ | props, st1⟩
          · exact ⟨_, rfl, fun _ h => hsub (List.mem_cons_of_mem _ h)⟩
          · exact ⟨_, rfl, fun _ h => hsub (List.mem_cons_of_mem _ h)⟩

/-- Every call returns: with `fuelBound` units of fuel or more the outcome is
there, and it is the same for every such amount of fuel. -/
theorem interp_total (env : Env) (sig : Str) (st : State) :
    ∃ res st1, ∀ fuel, fuelBound env sig st ≤ fuel →
      interpretTypeAndBuildDefinition env fuel sig st = some (res, st1) := by
  obtain ⟨⟨res, st1⟩, hr, -⟩ := interp_terminates env _ sig st (le_refl (fuelBound env sig st))
  exact ⟨res, st1, fun fuel hf => interp_mono env _ fuel hf sig st _ hr⟩

/-! ## Maps: lookup, insertion, order of keys -/

theorem strLt_irrefl (a : Str) : strLt a a = false := by
  induction a with
  | nil => rfl
  | cons c a ih => simp [strLt, ih]

theorem strLt_trans (a b c : Str) (h1 : strLt a b = true) (h2 : strLt b c = true) :
    strLt a c = true := by
  induction a generalizing b c with
  | nil =>
    cases c with
    | nil => cases b <;> simp [strLt] at h1 h2
    | cons => rfl
  | cons x a ih =>
    cases b with
    | nil => simp [strLt] at h1
    | cons y b =>
      cases c with
      | nil => simp [strLt] at h2
      | cons z c =>
        simp only [strLt, Bool.or_eq_true, decide_eq_true_eq, Bool.and_eq_true] at h1 h2 ⊢
        rcases h1 with h1 | ⟨e1, h1⟩
        · rcases h2 with h2 | ⟨e2, h2⟩
          · left; omega
          · left; omega
        · rcases h2 with h2 | ⟨e2, h2⟩
          · left; omega
          · right; exact ⟨by omega, ih b c h1 h2⟩

theorem Char_toNat_inj (a b : Char) (h : a.toNat = b.toNat) : a = b := by
  apply Char.ext
  apply UInt32.ext
  exact h

theorem strLt_total (a b : Str) (h : a ≠ b) : strLt a b = true ∨ strLt b a = true := by
  induction a generalizing b with
  | nil =>
    cases b with
    | nil => exact absurd rfl h
    | cons => left; rfl
  | cons x a ih =>
    cases b with
    | nil => right; rfl
    | cons y b =>
      simp only [strLt, Bool.or_eq_true, decide_eq_true_eq, Bool.and_eq_true]
      rcases Nat.lt_trichotomy x.toNat y.toNat with hlt | heq | hgt
      · left; left; exact hlt
      · have hxy : x = y := Char_toNat_inj x y heq
        have hab : a ≠ b := fun e => h (by rw [hxy, e])
        rcases ih b hab with h1 | h1
        · left; right; exact ⟨heq, h1⟩
        · right; right; exact ⟨heq.symm, h1⟩
      · right; left; exact hgt

theorem strLt_ne (a b : Str) (h : strLt a b = true) : a ≠ b := by
  intro e; subst e; rw [strLt_irrefl] at h; exact absurd h (by simp)

theorem mapLookup_insert_self {β : Type} (m : List (Str × β)) (k : Str) (v : β) :
    mapLookup (mapInsert m k v) k = some v := by
  induction m with
  | nil => simp [mapInsert, mapLookup]
  | cons e m ih =>
    obtain ⟨k', v'⟩ := e
    simp only [mapInsert]
    by_cases h1 : k = k'
    · simp [h1, mapLookup]
    · simp only [h1, if_false]
      by_cases h2 : strLt k k' = true
      · simp [h2, mapLookup]
      · simp only [h2]
        simp only [mapLookup, h1, if_false]
        exact ih

theorem mapLookup_insert_ne {β : Type} (m : List (Str × β)) (k k2 : Str) (v : β)
    (h : k2 ≠ k) : mapLookup (mapInsert m k v) k2 = mapLookup m k2 := by
  induction m with
  | nil => simp [mapInsert, mapLookup, h]
  | cons e m ih =>
    obtain ⟨k', v'⟩ := e
    simp only [mapInsert]
    by_cases h1 : k = k'
    · subst h1
      simp [mapLookup, h]
    · simp only [h1, if_false]
      by_cases h2 : strLt k k' = true
      · simp [h2, mapLookup, h]
      · simp only [h2]
        simp only [mapLookup]
        split
        · rfl
        · exact ih

theorem mem_mapKeys_iff {β : Type} (m : List (Str × β)) (k : Str) :
    k ∈ mapKeys m ↔ (mapLookup m k).isSome = true := by
  induction m with
  | nil => simp [mapKeys, mapLookup]
  | cons e m ih =>
    obtain ⟨k', v'⟩ := e
    simp only [mapKeys, List.map_cons, List.mem_cons, mapLookup]
    by_cases h : k = k'
    · simp only [h, true_or, if_true, Option.isSome_some]
    · simp only [h, false_or, if_false]
      exact ih

theorem mem_mapKeys_insert {β : Type} (m : List (Str × β)) (k x : Str) (v : β) :
    x ∈ mapKeys (mapInsert m k v) ↔ x = k ∨ x ∈ mapKeys m := by
  rw [mem_mapKeys_iff, mem_mapKeys_iff]
  by_cases h : x = k
  · subst h; simp [mapLookup_insert_self]
  · rw [mapLookup_insert_ne m k x v h]; simp [h]

theorem mapInsert_sorted {β : Type} (m : List (Str × β)) (k : Str) (v : β)
    (h : SortedKeys m) : SortedKeys (mapInsert m k v) := by
  induction m with
  | nil => simp [mapInsert, SortedKeys]
  | cons e m ih =>
    obtain ⟨k', v'⟩ := e
    unfold SortedKeys at h ⊢
    rw [List.pairwise_cons] at h
    simp only [mapInsert]
    by_cases h1 : k = k'
    · subst h1
      simp only [if_true]
      rw [List.pairwise_cons]
      exact ⟨h.1, h.2⟩
    · simp only [h1, if_false]
      by_cases h2 : strLt k k' = true
      · simp only [h2, if_true]
        rw [List.pairwise_cons, List.pairwise_cons]
        refine ⟨?_, h.1, h.2⟩
        intro a ha
        simp only [List.mem_cons] at ha
        rcases ha with rfl | ha
        · exact h2
        · exact strLt_trans _ _ _ h2 (h.1 a ha)
      · simp only [h2, Bool.false_eq_true, if_false]
        rw [List.pairwise_cons]
        refine ⟨?_, ih h.2⟩
        intro a ha
        have hk : a.1 ∈ mapKeys (mapInsert m k v) := List.mem_map.2 ⟨a, ha, rfl⟩
        rw [mem_mapKeys_insert] at hk
        rcases hk with hk | hk
        · rw [hk]
          rcases strLt_total k k' h1 with h3 | h3
          · exact absurd h3 h2
          · exact h3
        · obtain ⟨a', ha', he⟩ := List.mem_map.1 hk
          rw [← he]; exact h.1 a' ha'

theorem mapLookup_of_sorted_cons {β : Type} (k : Str) (v : β) (m : List (Str × β))
    (h : SortedKeys ((k, v) :: m)) : mapLookup m k = none := by
  unfold SortedKeys at h
  rw [List.pairwise_cons] at h
  cases hl : mapLookup m k with
  | none => rfl
  | some x =>
    have := h.1 _ (mapLookup_mem m k x hl)
    simp only [strLt_irrefl] at this
    exact absurd this (by simp)

/-- Two maps with keys in order that agree on every key are the same list. -/
theorem sortedKeys_ext {β : Type} (m1 m2 : List (Str × β)) (h1 : SortedKeys m1)
    (h2 : SortedKeys m2) (h : ∀ k, mapLookup m1 k = mapLookup m2 k) : m1 = m2 := by
  induction m1 generalizing m2 with
  | nil =>
    cases m2 with
    | nil => rfl
    | cons e m2 =>
      have := h e.1
      simp [mapLookup] at this
  | cons e1 m1 ih =>
    obtain ⟨k1, v1⟩ := e1
    cases m2 with
    | nil =>
      have := h k1
      simp [mapLookup] at this
    | cons e2 m2 =>
      obtain ⟨k2, v2⟩ := e2
      have hk : k1 = k2 := by
        by_contra hne
        rcases strLt_total k1 k2 hne with hlt | hlt
        · -- `k1` is below every key of the second map
          have := h k1
          simp only [mapLookup, if_true, hne, if_false] at this
          have hmem := mapLookup_mem m2 k1 v1 this.symm
          unfold SortedKeys at h2
          rw [List.pairwise_cons] at h2
          have := strLt_trans _ _ _ hlt (h2.1 _ hmem)
          rw [strLt_irrefl] at this
          exact absurd this (by simp)
        · have hne' : k2 ≠ k1 := fun e => hne e.symm
          have := h k2
          simp only [mapLookup, if_true, hne', if_false] at this
          have hmem := mapLookup_mem m1 k2 v2 this
          unfold SortedKeys at h1
          rw [List.pairwise_cons] at h1
          have := strLt_trans _ _ _ hlt (h1.1 _ hmem)
          rw [strLt_irrefl] at this
          exact absurd this (by simp)
      subst hk
      have hv : v1 = v2 := by
        have := h k1
        simpa [mapLookup] using this
      subst hv
      have hm : m1 = m2 := by
        apply ih m2
        · unfold SortedKeys at h1 ⊢; exact (List.pairwise_cons.1 h1).2
        · unfold SortedKeys at h2 ⊢; exact (List.pairwise_cons.1 h2).2
        · intro k
          by_cases hk : k = k1
          · subst hk
            rw [mapLookup_of_sorted_cons k v1 m1 h1, mapLookup_of_sorted_cons k v1 m2 h2]
          · have := h k
            simpa [mapLookup, hk] using this
      rw [hm]

theorem sortedKeys_nodup {β : Type} (m : List (Str × β)) (h : SortedKeys m) :
    (mapKeys m).Nodup := by
  unfold mapKeys List.Nodup
  rw [List.pairwise_map]
  exact List.Pairwise.imp (fun hab => strLt_ne _ _ hab) h

/-! ## The resolver as a big-step relation

`Run env task st done st'` says that `task`, started in state `st`, ends with
`done` in state `st'`. Every outcome of `interpretTypeAndBuildDefinition` is
derivable; the relation is used to argue by induction on the run. -/

theorem applyOverride_inv (o : Str) (x : Outcome) (r : Result) (st1 : State)
    (h : applyOverride o x = some (r, st1)) :
    ∃ r0, x = some (r0, st1) ∧ r = overrideResult o r0 := by
  rcases x with _ | ⟨_ | ⟨k, i⟩, st2⟩
  · exact absurd h (by simp [applyOverride])
  · simp only [applyOverride, Option.some.injEq, Prod.mk.injEq] at h
    exact ⟨_, by rw [h.2], by rw [← h.1]; rfl⟩
  · simp only [applyOverride, Option.some.injEq, Prod.mk.injEq] at h
    exact ⟨_, by rw [h.2], by rw [← h.1]; rfl⟩

theorem asMapOf_inv (x : Outcome) (r : Result) (st1 : State)
    (h : asMapOf x = some (r, st1)) :
    ∃ r0, x = some (r0, st1) ∧ r = mapResult r0 := by
  rcases x with _ | ⟨_ | ⟨k, i⟩, st2⟩
  · exact absurd h (by simp [asMapOf])
  · simp only [asMapOf, Option.some.injEq, Prod.mk.injEq] at h
    exact ⟨_, by rw [h.2], by rw [← h.1]; rfl⟩
  · simp only [asMapOf, Option.some.injEq, Prod.mk.injEq] at h
    exact ⟨_, by rw [h.2], by rw [← h.1]; rfl⟩

theorem fieldsLoop_run (env : Env) (f : Str → State → Outcome)
    (hf : ∀ s st r st1, f s st = some (r, st1) → Run env (.resolve s) st (.result r) st1)
    (fs : List (Str × Str)) :
    ∀ (props : List (Str × Schema)) (st : State) d st2,
      fieldsLoop env f fs props st = some (d, st2) → Run env (.loop fs props) st (.props d) st2 := by
  induction fs with
  | nil =>
    intro props st d st2 h
    simp only [fieldsLoop_nil, Option.some.injEq, Prod.mk.injEq] at h
    rw [← h.1, ← h.2]; exact Run.loopNil
  | cons hd rest ih =>
    obtain ⟨n, s⟩ := hd
    intro props st d st2 h
    rw [fieldsLoop_cons] at h
    rcases hx : f s st with _ | ⟨r, st1⟩
    · rw [hx] at h; exact absurd h (by simp)
    · rw [hx] at h
      have hrun := hf s st r st1 hx
      rcases r with e | ⟨k, i⟩
      · simp only [fieldStep, Option.some.injEq, Prod.mk.injEq] at h
        rw [← h.1, ← h.2]; exact Run.loopErrResolve hrun
      · simp only [fieldStep] at h
        cases hb : buildPropertySchema env k i with
        | error e =>
          simp only [hb, Option.some.injEq, Prod.mk.injEq] at h
          rw [← h.1, ← h.2]; exact Run.loopErrBuild hrun hb
        | ok b =>
          simp only [hb] at h
          exact Run.loopCons hrun hb (ih _ _ _ _ h)

/-- Every outcome of the resolver is a run. -/
theorem interp_run (env : Env) (fuel : Nat) :
    ∀ sig st r st1, interpretTypeAndBuildDefinition env fuel sig st = some (r, st1) →
      Run env (.resolve sig) st (.result r) st1 := by
  induction fuel with
  | zero => intro sig st r st1 h; exact absurd h (by simp [interpretTypeAndBuildDefinition])
  | succ n ih =>
    intro sig st r st1 h
    rw [interp_dispatch] at h
    cases hd : dispatch sig with
    | malformed =>
      simp only [hd, Option.some.injEq, Prod.mk.injEq] at h
      rw [← h.1, ← h.2]; exact Run.malformed hd
    | forward o inside =>
      simp only [hd] at h
      obtain ⟨r0, hr0, rfl⟩ := applyOverride_inv _ _ _ _ h
      exact Run.forward hd (ih _ _ _ _ hr0)
    | mapValue v =>
      simp only [hd] at h
      obtain ⟨r0, hr0, rfl⟩ := asMapOf_inv _ _ _ h
      exact Run.mapValue hd (ih _ _ _ _ hr0)
    | mapFallback =>
      simp only [hd, Option.some.injEq, Prod.mk.injEq] at h
      rw [← h.1, ← h.2]; exact Run.mapFallback hd
    | known kr =>
      simp only [hd, Option.some.injEq, Prod.mk.injEq] at h
      rw [← h.1, ← h.2]; exact Run.known hd
    | primitive kr =>
      simp only [hd, Option.some.injEq, Prod.mk.injEq] at h
      rw [← h.1, ← h.2]; exact Run.primitive hd
    | object s =>
      simp only [hd] at h
      rw [resolveObject_eq] at h
      by_cases hm : normSig s ∈ st.parsedTypes
      · simp only [hm, if_true, Option.some.injEq, Prod.mk.injEq] at h
        rw [← h.1, ← h.2]; exact Run.memoHit hd hm
      · simp only [hm, if_false] at h
        cases hc : classInfo env (normSig s) with
        | notIndexed =>
          simp only [hc, Option.some.injEq, Prod.mk.injEq] at h
          rw [← h.1, ← h.2]; exact Run.notIndexed hd hm hc
        | unreadable =>
          simp only [hc, Option.some.injEq, Prod.mk.injEq] at h
          rw [← h.1, ← h.2]; exact Run.unreadable hd hm hc
        | fields fs =>
          simp only [hc] at h
          rcases hx : fieldsLoop env (interpretTypeAndBuildDefinition env n) fs []
            (st.memoInsert (normSig s)) with _ | ⟨_ | props, st2⟩
          · rw [hx] at h; exact absurd h (by simp [finishObject])
          · rw [hx] at h
            simp only [finishObject, Option.some.injEq, Prod.mk.injEq] at h
            rw [← h.1, ← h.2]
            exact Run.fieldsErr hd hm hc (fieldsLoop_run env _ ih _ _ _ _ _ hx)
          · rw [hx] at h
            simp only [finishObject, Option.some.injEq, Prod.mk.injEq] at h
            rw [← h.1, ← h.2]
            exact Run.fieldsOk hd hm hc (fieldsLoop_run env _ ih _ _ _ _ _ hx)

/-! ## Facts about every run -/

theorem State.setDefinition_parsedTypes (st : State) (k : Str) (d : Definition) :
    (st.setDefinition k d).parsedTypes = st.parsedTypes := rfl

/-- The memo only grows. -/
theorem Run_memo_mono (env : Env) (t : Task) (st : State) (d : Done) (st1 : State)
    (h : Run env t st d st1) : st.parsedTypes ⊆ st1.parsedTypes := by
  induction h with
  | malformed | mapFallback | known | primitive | memoHit | loopNil => exact fun _ h => h
  | forward _ _ ih => exact ih
  | mapValue _ _ ih => exact ih
  | notIndexed =>
    rw [State.placeholder_parsedTypes]
    exact fun _ h => List.mem_cons_of_mem _ h
  | unreadable => exact fun _ h => List.mem_cons_of_mem _ h
  | fieldsOk _ _ _ _ ih =>
    rw [State.setDefinition_parsedTypes]
    exact fun _ h => ih (List.mem_cons_of_mem _ h)
  | fieldsErr _ _ _ _ ih => exact fun _ h => ih (List.mem_cons_of_mem _ h)
  | loopErrResolve _ ih => exact ih
  | loopErrBuild _ _ ih => exact ih
  | loopCons _ _ _ ih1 ih2 => exact fun _ h => ih2 (ih1 h)

theorem buildPropertySchema_ok (env : Env) (hok : ∀ u, env.newRefOk u = true) (k i : Str) :
    ∃ b, buildPropertySchema env k i = .ok b := by
  unfold buildPropertySchema NewRef
  simp only [hok, if_true]
  repeat' split
  all_goals exact ⟨_, rfl⟩

/-- When `swagger.NewRef` never fails, no run ends with an error. -/
theorem Run_no_error (env : Env) (hok : ∀ u, env.newRefOk u = true) (t : Task) (st : State)
    (d : Done) (st1 : State) (h : Run env t st d st1) : ¬ d.isError := by
  induction h with
  | malformed | mapFallback | known | primitive | memoHit | loopNil | notIndexed | unreadable
    | fieldsOk => exact fun h => h
  | @forward sig o inside st st1 r _ _ ih =>
    cases r with
    | error e => exact fun _ => ih trivial
    | ok kr => exact fun h => h
  | @mapValue sig v st st1 r _ _ ih =>
    cases r with
    | error e => exact fun _ => ih trivial
    | ok kr => exact fun h => h
  | fieldsErr _ _ _ _ ih => exact fun _ => ih trivial
  | loopErrResolve _ ih => exact fun _ => ih trivial
  | @loopErrBuild n s rest props st st1 k i e _ hb _ =>
    obtain ⟨b, hb'⟩ := buildPropertySchema_ok env hok k i
    rw [hb'] at hb
    exact absurd hb (by simp)
  | loopCons _ _ _ _ ih2 => exact ih2

/-- When `swagger.NewRef` never fails, every call that returns succeeds. -/
theorem interp_no_error (env : Env) (hok : ∀ u, env.newRefOk u = true) (fuel : Nat) (sig : Str)
    (st : State) (res : Result) (st1 : State)
    (h : interpretTypeAndBuildDefinition env fuel sig st = some (res, st1)) :
    ∃ r, res = .ok r := by
  have hne := Run_no_error env hok _ _ _ _ (interp_run env fuel sig st res st1 h)
  cases res with
  | error e => exact absurd trivial hne
  | ok r => exact ⟨r, rfl⟩

theorem Index_char_some (s : Str) (c : Char) (h : c ∈ s) : ∃ i, Index s [c] = some i := by
  induction s with
  | nil => simp at h
  | cons d s ih =>
    simp only [Index]
    by_cases hp : HasPrefix (d :: s) [c] = true
    · exact ⟨0, by simp [hp]⟩
    · have hd : c ∈ s := by
        simp only [List.mem_cons] at h
        rcases h with rfl | h
        · exact absurd (by simp [HasPrefix]) hp
        · exact h
      obtain ⟨i, hi⟩ := ih hd
      exact ⟨i + 1, by simp [hp, hi]⟩

theorem wrapperKinds_facts (w : Str × Option Str) (h : w ∈ wrapperKinds) :
    '<' ∈ w.1 ∧ (w.2 = none ∨ w.2 = some [] ∨ w.2 = some "array".toList) := by
  simp only [wrapperKinds, List.mem_cons, List.mem_singleton, List.not_mem_nil, or_false] at h
  rcases h with rfl | rfl | rfl | rfl | rfl | rfl | rfl <;> simp

theorem dispatch_ne_malformed (sig : Str) : dispatch sig ≠ .malformed := by
  intro h
  unfold dispatch at h
  dsimp only at h
  split at h
  · rename_i p shape hf
    have hmem := List.mem_of_find?_eq_some hf
    have hp := List.find?_some hf
    obtain ⟨t, ht⟩ := (HasPrefix_iff _ _).1 hp
    have hlt : '<' ∈ dropMethodParams (TrimSpace sig) := by
      rw [ht]; exact List.mem_append_left _ (wrapperKinds_facts _ hmem).1
    obtain ⟨i, hi⟩ := Index_char_some _ _ hlt
    have hi' : Index (dropMethodParams (TrimSpace sig)) "<".toList = some i := hi
    rw [hi'] at h
    dsimp only at h
    split at h
    · exact absurd h (by simp)
    · split at h <;> exact absurd h (by simp)
  · split at h
    · exact absurd h (by simp)
    · split at h <;> exact absurd h (by simp)

theorem dispatch_forward_override (sig o inside : Str) (h : dispatch sig = .forward o inside) :
    o = [] ∨ o = "array".toList := by
  unfold dispatch at h
  dsimp only at h
  split at h
  · rename_i p shape hf
    have hmem := List.mem_of_find?_eq_some hf
    have hfacts := (wrapperKinds_facts _ hmem).2
    split at h
    · exact absurd h (by simp)
    · split at h
      · rename_i o' 
        simp only [Dispatch.forward.injEq] at h
        rw [← h.1]
        rcases hfacts with h1 | h1 | h1
        · exact absurd h1 (by simp)
        · left; exact Option.some.inj h1
        · right; exact Option.some.inj h1
      · split at h <;> exact absurd h (by simp)
  · split at h
    · exact absurd h (by simp)
    · split at h <;> exact absurd h (by simp)

theorem boxedTable_kind (sig : Str) (kr : Str × Str) (h : boxedTable sig = some kr) :
    kr.1 ≠ "object".toList := by
  unfold boxedTable at h
  repeat' split at h
  all_goals (cases h; try decide)

theorem primitiveTable_kind (sig : Str) : (primitiveTable sig).1 ≠ "object".toList := by
  unfold primitiveTable
  repeat' split
  all_goals decide

theorem dispatch_known (sig : Str) (kr : Str × Str) (h : dispatch sig = .known kr) :
    kr.1 ≠ "object".toList := by
  unfold dispatch at h
  dsimp only at h
  split at h
  · split at h
    · exact absurd h (by simp)
    · split at h
      · exact absurd h (by simp)
      · split at h <;> exact absurd h (by simp)
  · split at h
    · rename_i r hb
      simp only [Dispatch.known.injEq] at h
      rw [← h]; exact boxedTable_kind _ _ hb
    · split at h <;> exact absurd h (by simp)

theorem dispatch_primitive (sig : Str) (kr : Str × Str) (h : dispatch sig = .primitive kr) :
    kr.1 ≠ "object".toList := by
  unfold dispatch at h
  dsimp only at h
  split at h
  · split at h
    · exact absurd h (by simp)
    · split at h
      · exact absurd h (by simp)
      · split at h <;> exact absurd h (by simp)
  · split at h
    · exact absurd h (by simp)
    · split at h
      · exact absurd h (by simp)
      · simp only [Dispatch.primitive.injEq] at h
        rw [← h]; exact primitiveTable_kind _

theorem normSig_isNormal (s : Str) (h : HasPrefix s "L".toList = true) : isNormal (normSig s) := by
  unfold normSig isNormal
  split
  · rename_i hs; exact ⟨h, hs⟩
  · obtain ⟨t, ht⟩ := (HasPrefix_iff _ _).1 h
    exact ⟨(HasPrefix_iff _ _).2 ⟨t ++ ";".toList, by rw [ht]; simp⟩, HasSuffix_append _ _⟩

theorem normSig_of_suffix (s : Str) (h : HasSuffix s ";".toList = true) : normSig s = s := by
  unfold normSig; simp only [h, if_true]

/-- An object result names a descriptor of the memo: the reference is the short
name of a normalised descriptor that is in the memo when the run ends. -/
theorem Run_object_result (env : Env) (t : Task) (st : State) (d : Done) (st1 : State)
    (h : Run env t st d st1) :
    ∀ sig k r, t = .resolve sig → d = .result (.ok (k, r)) → k = "object".toList →
      ∃ o, o ∈ st1.parsedTypes ∧ isNormal o ∧ r = typeShortName o := by
  induction h with
  | malformed hd => exact absurd hd (dispatch_ne_malformed _)
  | @forward sig o inside st st1 r0 hd _ ih =>
    intro sig' k r _ hr hk
    cases r0 with
    | error e => simp [overrideResult] at hr
    | ok kr =>
      obtain ⟨k0, i0⟩ := kr
      simp only [overrideResult, Done.result.injEq, Except.ok.injEq, Prod.mk.injEq] at hr
      rcases dispatch_forward_override _ _ _ hd with ho | ho
      · subst ho
        simp only [if_true] at hr
        exact ih inside k0 i0 rfl rfl (by rw [hr.1, hk]) |>.imp fun o ho => by rw [← hr.2]; exact ho
      · subst ho
        rw [if_neg (by decide)] at hr
        rw [← hr.1] at hk
        exact absurd hk (by decide)
  | @mapValue sig v st st1 r0 hd _ ih =>
    intro sig' k r _ hr hk
    cases r0 with
    | error e => simp [mapResult] at hr
    | ok kr =>
      simp only [mapResult, Done.result.injEq, Except.ok.injEq, Prod.mk.injEq] at hr
      rw [← hr.1] at hk
      exact absurd hk (by decide)
  | mapFallback =>
    intro sig' k r _ hr hk
    simp only [Done.result.injEq, Except.ok.injEq, Prod.mk.injEq] at hr
    rw [← hr.1] at hk
    exact absurd hk (by decide)
  | known hd =>
    intro sig' k r _ hr hk
    simp only [Done.result.injEq, Except.ok.injEq] at hr
    have := dispatch_known _ _ hd
    rw [hr] at this
    exact absurd hk this
  | primitive hd =>
    intro sig' k r _ hr hk
    simp only [Done.result.injEq, Except.ok.injEq] at hr
    have := dispatch_primitive _ _ hd
    rw [hr] at this
    exact absurd hk this
  | @memoHit sig s st hd hm =>
    intro sig' k r _ hr _
    simp only [objectResult, Done.result.injEq, Except.ok.injEq, Prod.mk.injEq] at hr
    exact ⟨normSig s, hm, normSig_isNormal s (dispatch_object _ _ hd).2.1, hr.2.symm⟩
  | @notIndexed sig s st hd hm hc =>
    intro sig' k r _ hr _
    simp only [objectResult, Done.result.injEq, Except.ok.injEq, Prod.mk.injEq] at hr
    refine ⟨normSig s, ?_, normSig_isNormal s (dispatch_object _ _ hd).2.1, hr.2.symm⟩
    rw [State.placeholder_parsedTypes]; exact List.mem_cons_self _ _
  | @unreadable sig s st hd hm hc =>
    intro sig' k r _ hr _
    simp only [objectResult, Done.result.injEq, Except.ok.injEq, Prod.mk.injEq] at hr
    exact ⟨normSig s, List.mem_cons_self _ _, normSig_isNormal s (dispatch_object _ _ hd).2.1,
      hr.2.symm⟩
  | @fieldsOk sig s st st1 fs props hd hm hc hloop _ =>
    intro sig' k r _ hr _
    simp only [objectResult, Done.result.injEq, Except.ok.injEq, Prod.mk.injEq] at hr
    refine ⟨normSig s, ?_, normSig_isNormal s (dispatch_object _ _ hd).2.1, hr.2.symm⟩
    rw [State.setDefinition_parsedTypes]
    exact Run_memo_mono env _ _ _ _ hloop (List.mem_cons_self _ _)
  | fieldsErr => intro sig' k r _ hr; simp at hr
  | loopNil => intro sig' k r ht; simp at ht
  | loopErrResolve => intro sig' k r ht; simp at ht
  | loopErrBuild => intro sig' k r ht; simp at ht
  | loopCons => intro sig' k r ht; simp at ht

/-! ## What a descriptor resolves to, read off the descriptor alone -/

theorem staticKindAux_stable (fuel : Nat) :
    ∀ sig : Str, sig.length + 1 ≤ fuel → staticKindAux fuel sig = staticKind sig := by
  induction fuel using Nat.strong_induction_on with
  | _ fuel ih =>
    intro sig h
    unfold staticKind
    cases fuel with
    | zero => omega
    | succ n =>
      simp only [staticKindAux]
      cases hd : dispatch sig with
      | forward o inside =>
        have hlt := dispatch_forward_lt sig o inside hd
        simp only
        rw [ih n (by omega) inside (by omega), ih sig.length (by omega) inside (by omega)]
      | mapValue v =>
        have hlt := dispatch_mapValue_lt sig v hd
        simp only
        rw [ih n (by omega) v (by omega), ih sig.length (by omega) v (by omega)]
      | _ => rfl

theorem staticKind_eq (sig : Str) :
    staticKind sig =
      match dispatch sig with
      | .malformed => ("object".toList, [])
      | .forward o inside =>
        ((if o = [] then (staticKind inside).1 else o), (staticKind inside).2)
      | .mapValue v => ("map".toList, (staticKind v).2)
      | .mapFallback => ("map".toList, "object".toList)
      | .known kr => kr
      | .object s => ("object".toList, typeShortName (normSig s))
      | .primitive kr => kr := by
  conv_lhs => unfold staticKind
  simp only [staticKindAux]
  cases hd : dispatch sig with
  | forward o inside =>
    have hlt := dispatch_forward_lt sig o inside hd
    simp only
    rw [staticKindAux_stable sig.length inside (by omega)]
  | mapValue v =>
    have hlt := dispatch_mapValue_lt sig v hd
    simp only
    rw [staticKindAux_stable sig.length v (by omega)]
  | _ => rfl

theorem targetAux_stable (fuel : Nat) :
    ∀ sig : Str, sig.length + 1 ≤ fuel → targetAux fuel sig = target sig := by
  induction fuel using Nat.strong_induction_on with
  | _ fuel ih =>
    intro sig h
    unfold target
    cases fuel with
    | zero => omega
    | succ n =>
      simp only [targetAux]
      cases hd : dispatch sig with
      | forward o inside =>
        have hlt := dispatch_forward_lt sig o inside hd
        simp only
        rw [ih n (by omega) inside (by omega), ih sig.length (by omega) inside (by omega)]
      | mapValue v =>
        have hlt := dispatch_mapValue_lt sig v hd
        simp only
        rw [ih n (by omega) v (by omega), ih sig.length (by omega) v (by omega)]
      | _ => rfl

theorem target_eq (sig : Str) :
    target sig =
      match dispatch sig with
      | .forward _ inside => target inside
      | .mapValue v => target v
      | .object s => some (normSig s)
      | _ => none := by
  conv_lhs => unfold target
  simp only [targetAux]
  cases hd : dispatch sig with
  | forward o inside =>
    have hlt := dispatch_forward_lt sig o inside hd
    simp only
    rw [targetAux_stable sig.length inside (by omega)]
  | mapValue v =>
    have hlt := dispatch_mapValue_lt sig v hd
    simp only
    rw [targetAux_stable sig.length v (by omega)]
  | _ => rfl

/-- A successful resolution returns what the descriptor alone determines. -/
theorem Run_static (env : Env) (t : Task) (st : State) (d : Done) (st1 : State)
    (h : Run env t st d st1) :
    ∀ sig kr, t = .resolve sig → d = .result (.ok kr) → kr = staticKind sig := by
  induction h with
  | malformed hd => exact absurd hd (dispatch_ne_malformed _)
  | @forward sig o inside st st1 r0 hd _ ih =>
    intro sig' kr ht hr
    simp only [Task.resolve.injEq] at ht; subst ht
    rw [staticKind_eq, hd]
    cases r0 with
    | error e => simp [overrideResult] at hr
    | ok kr0 =>
      simp only [overrideResult, Done.result.injEq, Except.ok.injEq] at hr
      have e := ih inside kr0 rfl rfl
      dsimp only
      rw [← hr, ← e]
  | @mapValue sig v st st1 r0 hd _ ih =>
    intro sig' kr ht hr
    simp only [Task.resolve.injEq] at ht; subst ht
    rw [staticKind_eq, hd]
    cases r0 with
    | error e => simp [mapResult] at hr
    | ok kr0 =>
      simp only [mapResult, Done.result.injEq, Except.ok.injEq] at hr
      have e := ih v kr0 rfl rfl
      dsimp only
      rw [← hr, ← e]
  | mapFallback hd =>
    intro sig' kr ht hr
    simp only [Task.resolve.injEq] at ht; subst ht
    simp only [Done.result.injEq, Except.ok.injEq] at hr
    rw [staticKind_eq, hd, ← hr]
  | known hd =>
    intro sig' kr ht hr
    simp only [Task.resolve.injEq] at ht; subst ht
    simp only [Done.result.injEq, Except.ok.injEq] at hr
    rw [staticKind_eq, hd, ← hr]
  | primitive hd =>
    intro sig' kr ht hr
    simp only [Task.resolve.injEq] at ht; subst ht
    simp only [Done.result.injEq, Except.ok.injEq] at hr
    rw [staticKind_eq, hd, ← hr]
  | memoHit hd _ =>
    intro sig' kr ht hr
    simp only [Task.resolve.injEq] at ht; subst ht
    simp only [objectResult, Done.result.injEq, Except.ok.injEq] at hr
    rw [staticKind_eq, hd, ← hr]
  | notIndexed hd _ _ =>
    intro sig' kr ht hr
    simp only [Task.resolve.injEq] at ht; subst ht
    simp only [objectResult, Done.result.injEq, Except.ok.injEq] at hr
    rw [staticKind_eq, hd, ← hr]
  | unreadable hd _ _ =>
    intro sig' kr ht hr
    simp only [Task.resolve.injEq] at ht; subst ht
    simp only [objectResult, Done.result.injEq, Except.ok.injEq] at hr
    rw [staticKind_eq, hd, ← hr]
  | fieldsOk hd _ _ _ _ =>
    intro sig' kr ht hr
    simp only [Task.resolve.injEq] at ht; subst ht
    simp only [objectResult, Done.result.injEq, Except.ok.injEq] at hr
    rw [staticKind_eq, hd, ← hr]
  | fieldsErr => intro sig' kr _ hr; simp at hr
  | loopNil => intro sig' kr ht; simp at ht
  | loopErrResolve => intro sig' kr ht; simp at ht
  | loopErrBuild => intro sig' kr ht; simp at ht
  | loopCons => intro sig' kr ht; simp at ht

theorem interp_static (env : Env) (fuel : Nat) (sig : Str) (st : State) (kr : Str × Str)
    (st1 : State) (h : interpretTypeAndBuildDefinition env fuel sig st = some (.ok kr, st1)) :
    kr = staticKind sig :=
  Run_static env _ _ _ _ (interp_run env fuel sig st _ st1 h) sig kr rfl rfl

/-! ## The properties the field loop gathers -/

theorem fieldsLoop_ok (env : Env) (f : Str → State → Outcome)
    (hf : ∀ s sta kr stb, f s sta = some (.ok kr, stb) → kr = staticKind s)
    (fs : List (Str × Str)) :
    ∀ (props0 : List (Str × Schema)) (st : State) props st1,
      fieldsLoop env f fs props0 st = some (.ok props, st1) →
      (∀ e ∈ fs, ∃ sta stb b, f e.2 sta = some (.ok (staticKind e.2), stb) ∧
        propertyOf env e.2 = .ok b) ∧
      props = collectProps env fs props0 := by
  induction fs with
  | nil =>
    intro props0 st props st1 h
    simp only [fieldsLoop_nil, Option.some.injEq, Prod.mk.injEq, Except.ok.injEq] at h
    exact ⟨fun e he => absurd he (by simp), by rw [← h.1]; rfl⟩
  | cons hd rest ih =>
    obtain ⟨n, s⟩ := hd
    intro props0 st props st1 h
    rw [fieldsLoop_cons] at h
    rcases hx : f s st with _ | ⟨r, st2⟩
    · rw [hx] at h; exact absurd h (by simp)
    · rw [hx] at h
      rcases r with e | kr
      · simp [fieldStep] at h
      · have hkr := hf s st kr st2 hx
        obtain ⟨k, i⟩ := kr
        simp only [fieldStep] at h
        cases hb : buildPropertySchema env k i with
        | error e => simp [hb] at h
        | ok b =>
          simp only [hb] at h
          obtain ⟨h1, h2⟩ := ih _ _ _ _ h
          have hp : propertyOf env s = .ok b := by
            unfold propertyOf; rw [← hkr]; exact hb
          refine ⟨?_, ?_⟩
          · intro e he
            simp only [List.mem_cons] at he
            rcases he with rfl | he
            · exact ⟨st, st2, b, by rw [hx, hkr], hp⟩
            · exact h1 e he
          · rw [h2]
            simp only [collectProps, List.foldl_cons, hp]

theorem collectProps_lookup_not_mem (env : Env) (fs : List (Str × Str)) :
    ∀ (props0 : List (Str × Schema)) (n : Str), n ∉ fs.map Prod.fst →
      mapLookup (collectProps env fs props0) n = mapLookup props0 n := by
  induction fs with
  | nil => intro props0 n _; rfl
  | cons hd rest ih =>
    intro props0 n hn
    simp only [List.map_cons, List.mem_cons, not_or] at hn
    simp only [collectProps, List.foldl_cons]
    have := ih (match propertyOf env hd.2 with
      | .ok b => mapInsert props0 hd.1 b
      | .error _ => props0) n hn.2
    simp only [collectProps] at this
    rw [this]
    cases propertyOf env hd.2 with
    | error e => rfl
    | ok b => exact mapLookup_insert_ne _ _ _ _ hn.1

theorem collectProps_lookup_mem (env : Env) (fs : List (Str × Str)) :
    ∀ (props0 : List (Str × Schema)) (n s : Str) (b : Schema),
      (fs.map Prod.fst).Nodup → (n, s) ∈ fs → propertyOf env s = .ok b →
      mapLookup (collectProps env fs props0) n = some b := by
  induction fs with
  | nil => intro props0 n s b _ h; simp at h
  | cons hd rest ih =>
    intro props0 n s b hnd hmem hp
    simp only [List.map_cons, List.nodup_cons] at hnd
    simp only [List.mem_cons] at hmem
    rcases hmem with rfl | hmem
    · have := collectProps_lookup_not_mem env rest (mapInsert props0 n b) n hnd.1
      simp only [collectProps, List.foldl_cons, hp] at this ⊢
      rw [this, mapLookup_insert_self]
    · have := ih (match propertyOf env hd.2 with
        | .ok b => mapInsert props0 hd.1 b
        | .error _ => props0) n s b hnd.2 hmem hp
      simp only [collectProps, List.foldl_cons] at this ⊢
      exact this

theorem collectProps_sorted (env : Env) (fs : List (Str × Str)) :
    ∀ (props0 : List (Str × Schema)), SortedKeys props0 →
      SortedKeys (collectProps env fs props0) := by
  induction fs with
  | nil => intro props0 h; exact h
  | cons hd rest ih =>
    intro props0 h
    simp only [collectProps, List.foldl_cons]
    apply ih
    cases propertyOf env hd.2 with
    | error e => exact h
    | ok b => exact mapInsert_sorted _ _ _ h

theorem foldl_mapInsert_sorted {β : Type} (ms : List (Str × β)) :
    ∀ (m0 : List (Str × β)), SortedKeys m0 →
      SortedKeys (ms.foldl (fun fields m => mapInsert fields m.1 m.2) m0) := by
  induction ms with
  | nil => intro m0 h; exact h
  | cons hd rest ih =>
    intro m0 h
    simp only [List.foldl_cons]
    exact ih _ (mapInsert_sorted _ _ _ h)

theorem parseFieldsFromFile_sorted (env : Env) (path : Str) (F : List (Str × Str))
    (h : parseFieldsFromFile env path = some F) : SortedKeys F := by
  unfold parseFieldsFromFile at h
  split at h
  · exact absurd h (by simp)
  · simp only [Option.some.injEq] at h
    rw [← h]
    exact foldl_mapInsert_sorted _ [] List.Pairwise.nil

theorem rangeOrder_names_nodup (env : Env) (o path : Str) (F : List (Str × Str))
    (h : parseFieldsFromFile env path = some F) :
    ((env.rangeOrder o F).map Prod.fst).Nodup := by
  have h1 := sortedKeys_nodup F (parseFieldsFromFile_sorted env path F h)
  exact ((env.rangeOrder_perm o F).map Prod.fst).nodup_iff.2 h1

theorem classInfo_of_lookup (env : Env) (d path : Str) (F : List (Str × Str))
    (hi : mapLookup env.classToFilePath d = some path)
    (hF : parseFieldsFromFile env path = some F) :
    classInfo env d = .fields (env.rangeOrder d F) := by
  unfold classInfo; simp only [hi, hF]

/-! ## The classes a run reaches -/

theorem Closed_mono (env : Env) (m1 m2 : List Str) (S : Str → Prop) (h : m1 ⊆ m2)
    (hc : Closed env m1 S) : Closed env m2 S :=
  fun u v hu hm he => hc u v hu (fun hm1 => hm (h hm1)) he

theorem target_forward (sig o inside : Str) (hd : dispatch sig = .forward o inside) :
    target sig = target inside := by
  rw [target_eq sig, hd]

theorem target_mapValue (sig v : Str) (hd : dispatch sig = .mapValue v) :
    target sig = target v := by
  rw [target_eq sig, hd]

theorem target_object (sig s : Str) (hd : dispatch sig = .object s) :
    target sig = some (normSig s) := by
  rw [target_eq sig, hd]

/-- Whatever a run adds to the memo lies in every set that holds the memo and
the classes the task starts from and is closed under the fields of classes
outside the memo. -/
theorem Run_memo_least (env : Env) (t : Task) (st : State) (d : Done) (st1 : State)
    (h : Run env t st d st1) :
    ∀ S : Str → Prop, (∀ x ∈ st.parsedTypes, S x) → Closed env st.parsedTypes S →
      (∀ o, t.targets o → S o) → ∀ x ∈ st1.parsedTypes, S x := by
  induction h with
  | malformed | mapFallback | known | primitive | memoHit | loopNil =>
    intro S hS _ _; exact hS
  | forward hd _ ih =>
    intro S hS hc ht
    exact ih S hS hc (fun o ho => ht o (by simpa [Task.targets, target_forward _ _ _ hd] using ho))
  | mapValue hd _ ih =>
    intro S hS hc ht
    exact ih S hS hc (fun o ho => ht o (by simpa [Task.targets, target_mapValue _ _ hd] using ho))
  | @notIndexed sig s st hd hm hc =>
    intro S hS _ ht x hx
    rw [State.placeholder_parsedTypes] at hx
    simp only [State.memoInsert, List.mem_cons] at hx
    rcases hx with rfl | hx
    · exact ht _ (target_object _ _ hd)
    · exact hS x hx
  | @unreadable sig s st hd hm hc =>
    intro S hS _ ht x hx
    simp only [State.setDefinition_parsedTypes, State.memoInsert, List.mem_cons] at hx
    rcases hx with rfl | hx
    · exact ht _ (target_object _ _ hd)
    · exact hS x hx
  | @fieldsOk sig s st st1 fs props hd hm hc _ ih =>
    intro S hS hcl ht x hx
    rw [State.setDefinition_parsedTypes] at hx
    have ho : S (normSig s) := ht _ (target_object _ _ hd)
    refine ih S ?_ ?_ ?_ x hx
    · intro y hy
      simp only [State.memoInsert, List.mem_cons] at hy
      rcases hy with rfl | hy
      · exact ho
      · exact hS y hy
    · exact Closed_mono env _ _ S (fun _ h => List.mem_cons_of_mem _ h) hcl
    · rintro o ⟨e, he, hte⟩
      exact hcl _ o ho hm ⟨fs, e, hc, he, hte⟩
  | @fieldsErr sig s st st1 fs e hd hm hc _ ih =>
    intro S hS hcl ht x hx
    have ho : S (normSig s) := ht _ (target_object _ _ hd)
    refine ih S ?_ ?_ ?_ x hx
    · intro y hy
      simp only [State.memoInsert, List.mem_cons] at hy
      rcases hy with rfl | hy
      · exact ho
      · exact hS y hy
    · exact Closed_mono env _ _ S (fun _ h => List.mem_cons_of_mem _ h) hcl
    · rintro o ⟨e, he, hte⟩
      exact hcl _ o ho hm ⟨fs, e, hc, he, hte⟩
  | @loopErrResolve n s rest props st st1 e _ ih =>
    intro S hS hcl ht
    exact ih S hS hcl (fun o ho => ht o ⟨(n, s), by simp, ho⟩)
  | @loopErrBuild n s rest props st st1 k i e _ _ ih =>
    intro S hS hcl ht
    exact ih S hS hcl (fun o ho => ht o ⟨(n, s), by simp, ho⟩)
  | @loopCons n s rest props st st1 st2 k i b d h1 _ _ ih1 ih2 =>
    intro S hS hcl ht
    have h1S := ih1 S hS hcl (fun o ho => ht o ⟨(n, s), by simp, ho⟩)
    refine ih2 S h1S (Closed_mono env _ _ S (Run_memo_mono env _ _ _ _ h1) hcl) ?_
    rintro o ⟨e, he, hte⟩
    exact ht o ⟨e, List.mem_cons_of_mem _ he, hte⟩

theorem overrideResult_isError (o : Str) (r : Result)
    (h : ¬ (Done.result (overrideResult o r)).isError) : ¬ (Done.result r).isError := by
  cases r with
  | error e => exact fun _ => h trivial
  | ok kr => exact fun h => h

theorem mapResult_isError (r : Result)
    (h : ¬ (Done.result (mapResult r)).isError) : ¬ (Done.result r).isError := by
  cases r with
  | error e => exact fun _ => h trivial
  | ok kr => exact fun h => h

theorem classInfo_edge_free (env : Env) (u v : Str)
    (h : classInfo env u = .notIndexed ∨ classInfo env u = .unreadable) : ¬ Edge env u v := by
  rintro ⟨fs, e, hc, -, -⟩
  rcases h with h | h <;> rw [h] at hc <;> exact absurd hc (by simp)

/-- After a successful run the memo holds the classes the task starts from and,
with every class the run added, the classes of its fields. -/
theorem Run_memo_closed (env : Env) (t : Task) (st : State) (d : Done) (st1 : State)
    (h : Run env t st d st1) :
    ¬ d.isError →
      (∀ o, t.targets o → o ∈ st1.parsedTypes) ∧
      Closed env st.parsedTypes (fun x => x ∈ st1.parsedTypes) := by
  induction h with
  | malformed hd => exact absurd hd (dispatch_ne_malformed _)
  | @mapFallback sig st hd =>
    intro _
    refine ⟨fun o ho => ?_, fun u v hu hm _ => absurd hu hm⟩
    simp [Task.targets, target_eq sig, hd] at ho
  | @known sig kr st hd =>
    intro _
    refine ⟨fun o ho => ?_, fun u v hu hm _ => absurd hu hm⟩
    simp [Task.targets, target_eq sig, hd] at ho
  | @primitive sig kr st hd =>
    intro _
    refine ⟨fun o ho => ?_, fun u v hu hm _ => absurd hu hm⟩
    simp [Task.targets, target_eq sig, hd] at ho
  | @memoHit sig s st hd hm =>
    intro _
    refine ⟨fun o ho => ?_, fun u v hu hm _ => absurd hu hm⟩
    simp only [Task.targets, target_object _ _ hd, Option.some.injEq] at ho
    rw [← ho]; exact hm
  | loopNil =>
    intro _
    exact ⟨fun o ⟨e, he, _⟩ => absurd he (by simp), fun u v hu hm _ => absurd hu hm⟩
  | @forward sig o inside st st1 r hd _ ih =>
    intro hok
    obtain ⟨h1, h2⟩ := ih (overrideResult_isError o r hok)
    exact ⟨fun x hx => h1 x (by simpa [Task.targets, target_forward _ _ _ hd] using hx), h2⟩
  | @mapValue sig v st st1 r hd _ ih =>
    intro hok
    obtain ⟨h1, h2⟩ := ih (mapResult_isError r hok)
    exact ⟨fun x hx => h1 x (by simpa [Task.targets, target_mapValue _ _ hd] using hx), h2⟩
  | @notIndexed sig s st hd hm hc =>
    intro _
    refine ⟨fun o ho => ?_, fun u v hu hmu he => ?_⟩
    · simp only [Task.targets, target_object _ _ hd, Option.some.injEq] at ho
      rw [State.placeholder_parsedTypes, ← ho]; exact List.mem_cons_self _ _
    · rw [State.placeholder_parsedTypes] at hu
      simp only [State.memoInsert, List.mem_cons] at hu
      rcases hu with rfl | hu
      · exact absurd he (classInfo_edge_free env _ v (Or.inl hc))
      · exact absurd hu hmu
  | @unreadable sig s st hd hm hc =>
    intro _
    refine ⟨fun o ho => ?_, fun u v hu hmu he => ?_⟩
    · simp only [Task.targets, target_object _ _ hd, Option.some.injEq] at ho
      rw [← ho]; exact List.mem_cons_self _ _
    · simp only [State.setDefinition_parsedTypes, State.memoInsert, List.mem_cons] at hu
      rcases hu with rfl | hu
      · exact absurd he (classInfo_edge_free env _ v (Or.inr hc))
      · exact absurd hu hmu
  | @fieldsOk sig s st st1 fs props hd hm hc hloop ih =>
    intro _
    obtain ⟨h1, h2⟩ := ih (fun h => h)
    have hmono := Run_memo_mono env _ _ _ _ hloop
    refine ⟨fun o ho => ?_, fun u v hu hmu he => ?_⟩
    · simp only [Task.targets, target_object _ _ hd, Option.some.injEq] at ho
      rw [State.setDefinition_parsedTypes, ← ho]
      exact hmono (List.mem_cons_self _ _)
    · rw [State.setDefinition_parsedTypes] at hu ⊢
      by_cases huo : u = normSig s
      · subst huo
        obtain ⟨fs', e, hc', hemem, hte⟩ := he
        rw [hc] at hc'
        simp only [ClassInfo.fields.injEq] at hc'
        subst hc'
        exact h1 v ⟨e, hemem, hte⟩
      · refine h2 u v hu ?_ he
        simp only [State.memoInsert, List.mem_cons, not_or]
        exact ⟨huo, hmu⟩
  | fieldsErr => intro hok; exact absurd trivial hok
  | loopErrResolve => intro hok; exact absurd trivial hok
  | loopErrBuild => intro hok; exact absurd trivial hok
  | @loopCons n s rest props st st1 st2 k i b d hres _ hrest ih1 ih2 =>
    intro hok
    obtain ⟨h1a, h1b⟩ := ih1 (fun h => h)
    obtain ⟨h2a, h2b⟩ := ih2 hok
    have hmono2 := Run_memo_mono env _ _ _ _ hrest
    refine ⟨?_, fun u v hu hmu he => ?_⟩
    · rintro o ⟨e, he, hte⟩
      simp only [List.mem_cons] at he
      rcases he with rfl | he
      · exact hmono2 (h1a o hte)
      · exact h2a o ⟨e, he, hte⟩
    · by_cases hu1 : u ∈ st1.parsedTypes
      · exact hmono2 (h1b u v hu1 hmu he)
      · exact h2b u v hu hu1 he

theorem propertyOf_of_run (env : Env) (s : Str) (st st1 : State) (k i : Str)
    (h : Run env (.resolve s) st (.result (.ok (k, i))) st1) :
    propertyOf env s = buildPropertySchema env k i := by
  have := Run_static env _ _ _ _ h s (k, i) rfl rfl
  unfold propertyOf
  rw [← this]

/-- After a successful run every field visited, by the task itself or by the
expansion of a class the run added to the memo, has a property schema. -/
theorem Run_fields_good (env : Env) (t : Task) (st : State) (d : Done) (st1 : State)
    (h : Run env t st d st1) :
    ¬ d.isError →
      (∀ e ∈ t.fields, ∃ b, propertyOf env e.2 = .ok b) ∧
      (∀ u, u ∈ st1.parsedTypes → u ∉ st.parsedTypes → ∀ fs, classInfo env u = .fields fs →
        ∀ e ∈ fs, ∃ b, propertyOf env e.2 = .ok b) := by
  induction h with
  | malformed | mapFallback | known | primitive | memoHit | loopNil =>
    intro _
    exact ⟨fun e he => absurd he (by simp [Task.fields]), fun u hu hm => absurd hu hm⟩
  | @forward sig o inside st st1 r hd _ ih =>
    intro hok
    exact ⟨fun e he => absurd he (by simp [Task.fields]),
      (ih (overrideResult_isError o r hok)).2⟩
  | @mapValue sig v st st1 r hd _ ih =>
    intro hok
    exact ⟨fun e he => absurd he (by simp [Task.fields]), (ih (mapResult_isError r hok)).2⟩
  | @notIndexed sig s st hd hm hc =>
    intro _
    refine ⟨fun e he => absurd he (by simp [Task.fields]), fun u hu hmu fs hfs => ?_⟩
    rw [State.placeholder_parsedTypes] at hu
    simp only [State.memoInsert, List.mem_cons] at hu
    rcases hu with rfl | hu
    · rw [hc] at hfs; exact absurd hfs (by simp)
    · exact absurd hu hmu
  | @unreadable sig s st hd hm hc =>
    intro _
    refine ⟨fun e he => absurd he (by simp [Task.fields]), fun u hu hmu fs hfs => ?_⟩
    simp only [State.setDefinition_parsedTypes, State.memoInsert, List.mem_cons] at hu
    rcases hu with rfl | hu
    · rw [hc] at hfs; exact absurd hfs (by simp)
    · exact absurd hu hmu
  | @fieldsOk sig s st st1 fs props hd hm hc hloop ih =>
    intro _
    obtain ⟨h1, h2⟩ := ih (fun h => h)
    refine ⟨fun e he => absurd he (by simp [Task.fields]), fun u hu hmu fs' hfs => ?_⟩
    rw [State.setDefinition_parsedTypes] at hu
    by_cases huo : u = normSig s
    · subst huo
      rw [hc] at hfs
      simp only [ClassInfo.fields.injEq] at hfs
      subst hfs
      exact h1
    · refine h2 u hu ?_ fs' hfs
      simp only [State.memoInsert, List.mem_cons, not_or]
      exact ⟨huo, hmu⟩
  | fieldsErr => intro hok; exact absurd trivial hok
  | loopErrResolve => intro hok; exact absurd trivial hok
  | loopErrBuild => intro hok; exact absurd trivial hok
  | @loopCons n s rest props st st1 st2 k i b d hres hb hrest ih1 ih2 =>
    intro hok
    obtain ⟨-, h1b⟩ := ih1 (fun h => h)
    obtain ⟨h2a, h2b⟩ := ih2 hok
    refine ⟨fun e he => ?_, fun u hu hmu fs hfs => ?_⟩
    · simp only [Task.fields, List.mem_cons] at he
      rcases he with rfl | he
      · exact ⟨b, by rw [propertyOf_of_run env s st st1 k i hres]; exact hb⟩
      · exact h2a e he
    · by_cases hu1 : u ∈ st1.parsedTypes
      · exact h1b u hu1 hmu fs hfs
      · exact h2b u hu hu1 fs hfs

/-- A run that ends with an error has visited a field without a property schema:
a field of the task itself, or a field of a class outside the memo that lies in
every closed set that holds the memo and the classes the task starts from. -/
theorem Run_error_blame (env : Env) (t : Task) (st : State) (d : Done) (st1 : State)
    (h : Run env t st d st1) :
    d.isError →
      (∃ e ∈ t.fields, ∃ err, propertyOf env e.2 = .error err) ∨
      (∃ u fs e err, u ∉ st.parsedTypes ∧ classInfo env u = .fields fs ∧ e ∈ fs ∧
        propertyOf env e.2 = .error err ∧
        ∀ S : Str → Prop, (∀ x ∈ st.parsedTypes, S x) → Closed env st.parsedTypes S →
          (∀ o, t.targets o → S o) → S u) := by
  induction h with
  | malformed | mapFallback | known | primitive | memoHit | loopNil | notIndexed | unreadable
    | fieldsOk => intro herr; exact absurd herr (fun h => h)
  | @forward sig o inside st st1 r hd _ ih =>
    intro herr
    cases r with
    | ok kr => exact absurd herr (fun h => h)
    | error e =>
      rcases ih trivial with ⟨e', he', -⟩ | ⟨u, fs, e', err, hu, hc, he', hp, hS⟩
      · exact absurd he' (by simp [Task.fields])
      · exact Or.inr ⟨u, fs, e', err, hu, hc, he', hp, fun S h1 h2 h3 =>
          hS S h1 h2 (fun x hx => h3 x
            (by simpa [Task.targets, target_forward _ _ _ hd] using hx))⟩
  | @mapValue sig v st st1 r hd _ ih =>
    intro herr
    cases r with
    | ok kr => exact absurd herr (fun h => h)
    | error e =>
      rcases ih trivial with ⟨e', he', -⟩ | ⟨u, fs, e', err, hu, hc, he', hp, hS⟩
      · exact absurd he' (by simp [Task.fields])
      · exact Or.inr ⟨u, fs, e', err, hu, hc, he', hp, fun S h1 h2 h3 =>
          hS S h1 h2 (fun x hx => h3 x
            (by simpa [Task.targets, target_mapValue _ _ hd] using hx))⟩
  | @fieldsErr sig s st st1 fs e hd hm hc hloop ih =>
    intro _
    right
    rcases ih trivial with ⟨e', he', err, hp⟩ | ⟨u, fs', e', err, hu, hc', he', hp, hS⟩
    · exact ⟨normSig s, fs, e', err, hm, hc, he', hp,
        fun S _ _ h3 => h3 _ (target_object _ _ hd)⟩
    · refine ⟨u, fs', e', err, fun hmem => hu (List.mem_cons_of_mem _ hmem), hc', he', hp, ?_⟩
      intro S h1 h2 h3
      have ho : S (normSig s) := h3 _ (target_object _ _ hd)
      refine hS S ?_ (Closed_mono env _ _ S (fun _ h => List.mem_cons_of_mem _ h) h2) ?_
      · intro y hy
        simp only [State.memoInsert, List.mem_cons] at hy
        rcases hy with rfl | hy
        · exact ho
        · exact h1 y hy
      · rintro o ⟨e2, he2, hte⟩
        exact h2 _ o ho hm ⟨fs, e2, hc, he2, hte⟩
  | @loopErrResolve n s rest props st st1 e _ ih =>
    intro _
    rcases ih trivial with ⟨e', he', -⟩ | ⟨u, fs, e', err, hu, hc, he', hp, hS⟩
    · exact absurd he' (by simp [Task.fields])
    · exact Or.inr ⟨u, fs, e', err, hu, hc, he', hp, fun S h1 h2 h3 =>
        hS S h1 h2 (fun x hx => h3 x ⟨(n, s), by simp, hx⟩)⟩
  | @loopErrBuild n s rest props st st1 k i e hres hb _ =>
    intro _
    left
    exact ⟨(n, s), by simp [Task.fields], e,
      by rw [propertyOf_of_run env s st st1 k i hres]; exact hb⟩
  | @loopCons n s rest props st st1 st2 k i b d hres hb hrest ih1 ih2 =>
    intro herr
    rcases ih2 herr with ⟨e', he', err, hp⟩ | ⟨u, fs, e', err, hu, hc, he', hp, hS⟩
    · left
      exact ⟨e', by simp only [Task.fields] at he' ⊢; exact List.mem_cons_of_mem _ he', err, hp⟩
    · right
      have hmono := Run_memo_mono env _ _ _ _ hres
      refine ⟨u, fs, e', err, fun hmem => hu (hmono hmem), hc, he', hp, ?_⟩
      intro S h1 h2 h3
      have h1S := Run_memo_least env _ _ _ _ hres S h1 h2
        (fun o ho => h3 o ⟨(n, s), by simp, ho⟩)
      refine hS S h1S (Closed_mono env _ _ S hmono h2) ?_
      rintro o ⟨e2, he2, hte⟩
      exact h3 o ⟨e2, List.mem_cons_of_mem _ he2, hte⟩

/-- The properties a successful field loop returns. -/
theorem Run_loop_props (env : Env) (t : Task) (st : State) (d : Done) (st1 : State)
    (h : Run env t st d st1) :
    ∀ fs props0 props, t = .loop fs props0 → d = .props (.ok props) →
      props = collectProps env fs props0 := by
  induction h with
  | malformed | mapFallback | known | primitive | memoHit | notIndexed | unreadable
    | fieldsOk | fieldsErr | forward | mapValue =>
    intro fs props0 props ht; simp at ht
  | loopNil =>
    intro fs props0 props ht hd
    simp only [Task.loop.injEq] at ht
    simp only [Done.props.injEq, Except.ok.injEq] at hd
    rw [← ht.1, ← ht.2, ← hd]; rfl
  | loopErrResolve => intro fs props0 props _ hd; simp at hd
  | loopErrBuild => intro fs props0 props _ hd; simp at hd
  | @loopCons n s rest props st st1 st2 k i b d hres hb hrest _ ih2 =>
    intro fs props0 props' ht hd
    simp only [Task.loop.injEq] at ht
    rw [← ht.1, ← ht.2]
    have := ih2 rest (mapInsert props n b) props' rfl hd
    rw [this]
    have hp : propertyOf env s = .ok b := by
      rw [propertyOf_of_run env s st st1 k i hres]; exact hb
    simp only [collectProps, List.foldl_cons, hp]

/-! ## The definitions a run registers -/

theorem State.placeholder_lookup_self (st : State) (o : Str) :
    mapLookup (st.placeholder o).spec.definitions (typeShortName o) =
      if (mapLookup st.spec.definitions (typeShortName o)).isSome = true then
        mapLookup st.spec.definitions (typeShortName o)
      else some emptyDefinition := by
  unfold State.placeholder
  split
  · rfl
  · simp only [State.setDefinition, mapLookup_insert_self]

theorem State.placeholder_lookup_ne (st : State) (o k : Str) (h : k ≠ typeShortName o) :
    mapLookup (st.placeholder o).spec.definitions k = mapLookup st.spec.definitions k := by
  unfold State.placeholder
  split
  · rfl
  · simp only [State.setDefinition, mapLookup_insert_ne _ _ _ _ h]

/-- When the classes a successful run adds to the memo have distinct short
names, the entry under the short name of each is the definition of that class,
and every other entry is as before. -/
theorem Run_definitions (env : Env) (t : Task) (st : State) (d : Done) (st1 : State)
    (h : Run env t st d st1) :
    ¬ d.isError → DistinctShortNames st.parsedTypes st1.parsedTypes →
      (∀ u, u ∈ st1.parsedTypes → u ∉ st.parsedTypes →
        mapLookup st1.spec.definitions (typeShortName u) =
          definitionOf env u (mapLookup st.spec.definitions (typeShortName u))) ∧
      (∀ k, (∀ u, u ∈ st1.parsedTypes → u ∉ st.parsedTypes → typeShortName u ≠ k) →
        mapLookup st1.spec.definitions k = mapLookup st.spec.definitions k) := by
  induction h with
  | malformed | mapFallback | known | primitive | memoHit | loopNil =>
    intro _ _
    exact ⟨fun u hu hm => absurd hu hm, fun k _ => rfl⟩
  | @forward sig o inside st st1 r hd _ ih =>
    intro hok hinj
    exact ih (overrideResult_isError o r hok) hinj
  | @mapValue sig v st st1 r hd _ ih =>
    intro hok hinj
    exact ih (mapResult_isError r hok) hinj
  | @notIndexed sig s st hd hm hc =>
    intro _ _
    refine ⟨fun u hu hmu => ?_, fun k hk => ?_⟩
    · rw [State.placeholder_parsedTypes] at hu
      simp only [State.memoInsert, List.mem_cons] at hu
      rcases hu with rfl | hu
      · rw [State.placeholder_lookup_self]
        unfold definitionOf
        rw [hc]
        rfl
      · exact absurd hu hmu
    · have hne : k ≠ typeShortName (normSig s) := by
        intro e
        refine hk (normSig s) ?_ hm e.symm
        rw [State.placeholder_parsedTypes]; exact List.mem_cons_self _ _
      rw [State.placeholder_lookup_ne _ _ _ hne]
      rfl
  | @unreadable sig s st hd hm hc =>
    intro _ _
    refine ⟨fun u hu hmu => ?_, fun k hk => ?_⟩
    · simp only [State.setDefinition_parsedTypes, State.memoInsert, List.mem_cons] at hu
      rcases hu with rfl | hu
      · unfold definitionOf
        rw [hc]
        simp only [State.setDefinition, mapLookup_insert_self]
      · exact absurd hu hmu
    · have hne : k ≠ typeShortName (normSig s) := by
        intro e
        exact hk (normSig s) (List.mem_cons_self _ _) hm e.symm
      simp only [State.setDefinition, mapLookup_insert_ne _ _ _ _ hne]
      rfl
  | @fieldsOk sig s st st1 fs props hd hm hc hloop ih =>
    intro _ hinj
    have hmono := Run_memo_mono env _ _ _ _ hloop
    have ho1 : normSig s ∈ st1.parsedTypes := hmono (List.mem_cons_self _ _)
    have hprops := Run_loop_props env _ _ _ _ hloop fs [] props rfl rfl
    have hinj' : DistinctShortNames (st.memoInsert (normSig s)).parsedTypes st1.parsedTypes := by
      intro u v hu hum hv hvm
      exact hinj u v hu (fun hc => hum (List.mem_cons_of_mem _ hc)) hv
        (fun hc => hvm (List.mem_cons_of_mem _ hc))
    obtain ⟨ih1, ih2⟩ := ih (fun h => h) hinj'
    refine ⟨fun u hu hmu => ?_, fun k hk => ?_⟩
    · rw [State.setDefinition_parsedTypes] at hu
      by_cases huo : u = normSig s
      · subst huo
        unfold definitionOf
        rw [hc, hprops]
        simp only [State.setDefinition, mapLookup_insert_self]
      · have hum : u ∉ (st.memoInsert (normSig s)).parsedTypes := by
          simp only [State.memoInsert, List.mem_cons, not_or]
          exact ⟨huo, hmu⟩
        have hne : typeShortName u ≠ typeShortName (normSig s) := by
          intro e
          exact huo (hinj u (normSig s) hu hmu ho1 hm e)
        simp only [State.setDefinition, mapLookup_insert_ne _ _ _ _ hne]
        exact ih1 u hu hum
    · have hne : k ≠ typeShortName (normSig s) := by
        intro e
        exact hk (normSig s) ho1 hm e.symm
      simp only [State.setDefinition, mapLookup_insert_ne _ _ _ _ hne]
      refine ih2 k (fun u hu hum => hk u hu (fun hc => hum (List.mem_cons_of_mem _ hc)))
  | fieldsErr => intro hok; exact absurd trivial hok
  | loopErrResolve => intro hok; exact absurd trivial hok
  | loopErrBuild => intro hok; exact absurd trivial hok
  | @loopCons n s rest props st st1 st2 k i b d hres hb hrest ih1 ih2 =>
    intro hok hinj
    have hmono1 := Run_memo_mono env _ _ _ _ hres
    have hmono2 := Run_memo_mono env _ _ _ _ hrest
    have hinj1 : DistinctShortNames st.parsedTypes st1.parsedTypes :=
      fun u v hu hum hv hvm => hinj u v (hmono2 hu) hum (hmono2 hv) hvm
    have hinj2 : DistinctShortNames st1.parsedTypes st2.parsedTypes :=
      fun u v hu hum hv hvm => hinj u v hu (fun hc => hum (hmono1 hc)) hv
        (fun hc => hvm (hmono1 hc))
    obtain ⟨a1, a2⟩ := ih1 (fun h => h) hinj1
    obtain ⟨b1, b2⟩ := ih2 hok hinj2
    refine ⟨fun u hu hmu => ?_, fun k hk => ?_⟩
    · by_cases hu1 : u ∈ st1.parsedTypes
      · rw [b2 (typeShortName u) ?_]
        · exact a1 u hu1 hmu
        · intro v hv hvm e
          have := hinj v u hv (fun hc => hvm (hmono1 hc)) hu hmu e
          rw [this] at hvm
          exact hvm hu1
      · rw [b1 u hu hu1, a2 (typeShortName u) ?_]
        intro v hv hvm e
        have := hinj v u (hmono2 hv) hvm hu hmu e
        rw [this] at hv
        exact hu1 hv
    · rw [b2 k (fun u hu hum => hk u hu (fun hc => hum (hmono1 hc))),
        a2 k (fun u hu hum => hk u (hmono2 hu) hum)]

/-- A run leaves the paths of the document alone. -/
theorem Run_paths (env : Env) (t : Task) (st : State) (d : Done) (st1 : State)
    (h : Run env t st d st1) : st1.spec.paths = st.spec.paths := by
  induction h with
  | malformed | mapFallback | known | primitive | memoHit | loopNil => rfl
  | forward _ _ ih => exact ih
  | mapValue _ _ ih => exact ih
  | notIndexed =>
    unfold State.placeholder
    split <;> rfl
  | unreadable => rfl
  | fieldsOk _ _ _ _ ih => exact ih
  | fieldsErr _ _ _ _ ih => exact ih
  | loopErrResolve _ ih => exact ih
  | loopErrBuild _ _ ih => exact ih
  | loopCons _ _ _ ih1 ih2 => exact ih2.trans ih1

/-! ## Two orders of visiting the fields -/

theorem SameInputs.symm {env1 env2 : Env} (h : SameInputs env1 env2) : SameInputs env2 env1 :=
  ⟨h.1.symm, h.2.1.symm, h.2.2.symm⟩

theorem buildPropertySchema_congr (env1 env2 : Env) (h : env1.newRefOk = env2.newRefOk)
    (k i : Str) : buildPropertySchema env1 k i = buildPropertySchema env2 k i := by
  unfold buildPropertySchema NewRef
  rw [h]

theorem propertyOf_congr (env1 env2 : Env) (h : SameInputs env1 env2) (s : Str) :
    propertyOf env1 s = propertyOf env2 s :=
  buildPropertySchema_congr env1 env2 h.2.2 _ _

theorem parseFieldsFromFile_congr (env1 env2 : Env) (h : SameInputs env1 env2) (p : Str) :
    parseFieldsFromFile env1 p = parseFieldsFromFile env2 p := by
  unfold parseFieldsFromFile
  rw [h.2.1]

theorem classInfo_transfer (env1 env2 : Env) (h : SameInputs env1 env2) (u : Str) :
    (classInfo env1 u = .notIndexed → classInfo env2 u = .notIndexed) ∧
    (classInfo env1 u = .unreadable → classInfo env2 u = .unreadable) ∧
    (∀ fs1, classInfo env1 u = .fields fs1 →
      ∃ fs2, classInfo env2 u = .fields fs2 ∧ fs1.Perm fs2 ∧ (fs1.map Prod.fst).Nodup) := by
  unfold classInfo
  rw [← h.1]
  cases hl : mapLookup env1.classToFilePath u with
  | none => simp
  | some p =>
    simp only
    rw [← parseFieldsFromFile_congr env1 env2 h p]
    cases hp : parseFieldsFromFile env1 p with
    | none => simp
    | some F =>
      simp only [ClassInfo.fields.injEq, false_implies, true_and, forall_eq']
      refine ⟨by simp, by simp, _, rfl, ?_, rangeOrder_names_nodup env1 u p F hp⟩
      exact (env1.rangeOrder_perm u F).trans (env2.rangeOrder_perm u F).symm

theorem Edge_transfer (env1 env2 : Env) (h : SameInputs env1 env2) (u v : Str)
    (he : Edge env1 u v) : Edge env2 u v := by
  obtain ⟨fs1, e, hc, hmem, ht⟩ := he
  obtain ⟨fs2, hc2, hperm, -⟩ := (classInfo_transfer env1 env2 h u).2.2 fs1 hc
  exact ⟨fs2, e, hc2, hperm.mem_iff.1 hmem, ht⟩

theorem Closed_transfer (env1 env2 : Env) (h : SameInputs env1 env2) (memo : List Str)
    (S : Str → Prop) (hc : Closed env1 memo S) : Closed env2 memo S :=
  fun u v hu hm he => hc u v hu hm (Edge_transfer env2 env1 h.symm u v he)

theorem collectProps_lookup (env : Env) (fs : List (Str × Str)) :
    ∀ (props0 : List (Str × Schema)) (e : Str × Str),
      (fs.map Prod.fst).Nodup → e ∈ fs →
      mapLookup (collectProps env fs props0) e.1 =
        match propertyOf env e.2 with
        | .ok b => some b
        | .error _ => mapLookup props0 e.1 := by
  induction fs with
  | nil => intro props0 e _ h; simp at h
  | cons hd rest ih =>
    intro props0 e hnd hmem
    simp only [List.map_cons, List.nodup_cons] at hnd
    simp only [List.mem_cons] at hmem
    rcases hmem with rfl | hmem
    · have := collectProps_lookup_not_mem env rest
        (match propertyOf env e.2 with
          | .ok b => mapInsert props0 e.1 b
          | .error _ => props0) e.1 hnd.1
      simp only [collectProps, List.foldl_cons] at this ⊢
      rw [this]
      cases propertyOf env e.2 with
      | error err => rfl
      | ok b => exact mapLookup_insert_self _ _ _
    · have hne : e.1 ≠ hd.1 := by
        intro heq
        exact hnd.1 (by rw [← heq]; exact List.mem_map.2 ⟨e, hmem, rfl⟩)
      have := ih (match propertyOf env hd.2 with
          | .ok b => mapInsert props0 hd.1 b
          | .error _ => props0) e hnd.2 hmem
      simp only [collectProps, List.foldl_cons] at this ⊢
      rw [this]
      cases propertyOf env e.2 with
      | ok b => rfl
      | error err =>
        simp only
        cases propertyOf env hd.2 with
        | error err2 => rfl
        | ok b2 => exact mapLookup_insert_ne _ _ _ _ hne

/-- The properties gathered do not depend on the order of the fields. -/
theorem collectProps_perm (env1 env2 : Env) (h : SameInputs env1 env2)
    (fs1 fs2 : List (Str × Str)) (hperm : fs1.Perm fs2) (hnd : (fs1.map Prod.fst).Nodup) :
    collectProps env1 fs1 [] = collectProps env2 fs2 [] := by
  have hnd2 : (fs2.map Prod.fst).Nodup := (hperm.map Prod.fst).nodup_iff.1 hnd
  apply sortedKeys_ext _ _ (collectProps_sorted env1 fs1 [] List.Pairwise.nil)
    (collectProps_sorted env2 fs2 [] List.Pairwise.nil)
  intro k
  by_cases hk : k ∈ fs1.map Prod.fst
  · obtain ⟨e, hmem, rfl⟩ := List.mem_map.1 hk
    rw [collectProps_lookup env1 fs1 [] e hnd hmem,
      collectProps_lookup env2 fs2 [] e hnd2 (hperm.mem_iff.1 hmem),
      propertyOf_congr env1 env2 h]
  · have hk2 : k ∉ fs2.map Prod.fst := fun hc => hk ((hperm.map Prod.fst).mem_iff.2 hc)
    rw [collectProps_lookup_not_mem env1 fs1 [] k hk,
      collectProps_lookup_not_mem env2 fs2 [] k hk2]

theorem definitionOf_transfer (env1 env2 : Env) (h : SameInputs env1 env2) (u : Str)
    (prev : Option Definition) : definitionOf env1 u prev = definitionOf env2 u prev := by
  obtain ⟨t1, t2, t3⟩ := classInfo_transfer env1 env2 h u
  unfold definitionOf
  cases hc : classInfo env1 u with
  | notIndexed => rw [t1 hc]
  | unreadable => rw [t2 hc]
  | fields fs1 =>
    obtain ⟨fs2, hc2, hperm, hnd⟩ := t3 fs1 hc
    rw [hc2]
    simp only
    rw [collectProps_perm env1 env2 h fs1 fs2 hperm hnd]

/-! ## The claims -/

theorem typeShortName_eq_nil_iff (o : Str) :
    typeShortName o = [] ↔
      (Split (TrimSuffix (TrimPrefix o "L".toList) ";".toList) '/').getLastD [] = [] := by
  unfold typeShortName ReplaceAll
  simp only [List.map_eq_nil_iff]

theorem objectDescriptor_outcome (env : Env) (n : Nat) (d : Str) (st : State)
    (hd : isObjectDescriptor d = true) (hm : d ∉ st.parsedTypes) (r : Result) (st1 : State)
    (h : interpretTypeAndBuildDefinition env (n + 1) d st = some (r, st1)) :
    (∃ e, r = .error e) ∨
      (r = .ok ("object".toList, typeShortName d) ∧
        (mapLookup st1.spec.definitions (typeShortName d)).isSome = true) := by
  rw [interp_objectDescriptor env n d st hd, resolveObject_eq,
    normSig_of_suffix d (isObjectDescriptor_suffix d hd), if_neg hm] at h
  cases hc : classInfo env d with
  | notIndexed =>
    simp only [hc, Option.some.injEq, Prod.mk.injEq] at h
    right
    refine ⟨h.1.symm, ?_⟩
    rw [← h.2]
    unfold State.placeholder
    split
    · rename_i hs; exact hs
    · simp only [State.setDefinition, mapLookup_insert_self, Option.isSome_some]
  | unreadable =>
    simp only [hc, Option.some.injEq, Prod.mk.injEq] at h
    right
    refine ⟨h.1.symm, ?_⟩
    rw [← h.2]
    simp only [State.setDefinition, mapLookup_insert_self, Option.isSome_some]
  | fields fs =>
    simp only [hc] at h
    rcases hx : fieldsLoop env (interpretTypeAndBuildDefinition env n) fs []
      (st.memoInsert d) with _ | ⟨_ | props, st2⟩
    · rw [hx] at h; exact absurd h (by simp [finishObject])
    · rw [hx] at h
      simp only [finishObject, Option.some.injEq, Prod.mk.injEq] at h
      left; exact ⟨_, h.1.symm⟩
    · rw [hx] at h
      simp only [finishObject, Option.some.injEq, Prod.mk.injEq] at h
      right
      refine ⟨h.1.symm, ?_⟩
      rw [← h.2]
      simp only [State.setDefinition, mapLookup_insert_self, Option.isSome_some]

/-- C1, as amended. For every class index and every field mapping (cyclic ones
included) and every object descriptor `d`, resolving `d` from an empty memo
terminates: with `fuelBound` units of fuel or more the call returns, and always
the same. It returns an error (only possible when `swagger.NewRef` rejects a
reference) or Kind=object with the reference `typeShortName d`, which is then a
key of the definitions; that name is empty exactly when the last `/`-separated
segment of `d` is empty. -/
theorem C1_terminates_with_object (env : Env) (d : Str) (st : State)
    (hd : isObjectDescriptor d = true) (hm : st.parsedTypes = []) :
    ∃ r st1,
      (∀ fuel, fuelBound env d st ≤ fuel →
        interpretTypeAndBuildDefinition env fuel d st = some (r, st1)) ∧
      ((∃ e, r = .error e) ∨
        (r = .ok ("object".toList, typeShortName d) ∧
          (mapLookup st1.spec.definitions (typeShortName d)).isSome = true)) ∧
      ((∀ u, env.newRefOk u = true) → r = .ok ("object".toList, typeShortName d)) ∧
      (typeShortName d = [] ↔
        (Split (TrimSuffix (TrimPrefix d "L".toList) ";".toList) '/').getLastD [] = []) := by
  obtain ⟨⟨r, st1⟩, hr, -⟩ := interp_terminates env _ d st (le_refl (fuelBound env d st))
  have hcases : (∃ e, r = .error e) ∨
      (r = .ok ("object".toList, typeShortName d) ∧
        (mapLookup st1.spec.definitions (typeShortName d)).isSome = true) := by
    cases hf : fuelBound env d st with
    | zero => rw [hf] at hr; exact absurd hr (by simp [interpretTypeAndBuildDefinition])
    | succ n =>
      rw [hf] at hr
      exact objectDescriptor_outcome env n d st hd (by rw [hm]; simp) r st1 hr
  refine ⟨r, st1, fun fuel hfuel => interp_mono env _ fuel hfuel d st _ hr, hcases, ?_,
    typeShortName_eq_nil_iff d⟩
  intro hok
  rcases hcases with ⟨e, he⟩ | h
  · have := Run_no_error env hok _ _ _ _ (interp_run env _ d st r st1 hr)
    rw [he] at this
    exact absurd trivial this
  · exact h.1

/-- C1 at a class that refers to itself through another class. -/
theorem C1_terminates_with_object_witness :
    isObjectDescriptor "La/Foo;".toList = true ∧ emptyState.parsedTypes = [] ∧
    ∃ r st1,
      (∀ fuel, fuelBound exampleEnv "La/Foo;".toList emptyState ≤ fuel →
        interpretTypeAndBuildDefinition exampleEnv fuel "La/Foo;".toList emptyState
          = some (r, st1)) ∧
      ((∃ e, r = .error e) ∨
        (r = .ok ("object".toList, typeShortName "La/Foo;".toList) ∧
          (mapLookup st1.spec.definitions (typeShortName "La/Foo;".toList)).isSome = true)) ∧
      ((∀ u, exampleEnv.newRefOk u = true) →
        r = .ok ("object".toList, typeShortName "La/Foo;".toList)) ∧
      (typeShortName "La/Foo;".toList = [] ↔
        (Split (TrimSuffix (TrimPrefix "La/Foo;".toList "L".toList) ";".toList) '/').getLastD []
          = []) :=
  ⟨by decide, rfl,
    C1_terminates_with_object exampleEnv "La/Foo;".toList emptyState (by decide) rfl⟩

/-- C1 fails as stated. (a) The descriptor `La/;` is in the index, and its
resolution returns Kind=object with an empty reference. (b) A class whose field
has a class name that `swagger.NewRef` rejects resolves to an error, not to
Kind=object. -/
theorem C1_counterexample :
    (isObjectDescriptor "La/;".toList = true ∧
      (mapLookup emptyNameEnv.classToFilePath "La/;".toList).isSome = true ∧
      (interpretTypeAndBuildDefinition emptyNameEnv 2 "La/;".toList emptyState).map Prod.fst
        = some (.ok ("object".toList, []))) ∧
    (isObjectDescriptor "La/Foo;".toList = true ∧
      (mapLookup badRefEnv.classToFilePath "La/Foo;".toList).isSome = true ∧
      (interpretTypeAndBuildDefinition badRefEnv 3 "La/Foo;".toList emptyState).map Prod.fst
        = some (.error (.wrap "buildPropertySchema".toList
            (.wrap "error building ref".toList (.newRef "#/definitions/B%".toList))))) := by
  decide

/-- C2. What the resolver returns for the primitive one-letter descriptors, with
the document and the memo unchanged: `I`, `S` and `B` give integer, `F` and `D`
give number, `Z` gives boolean and `V` gives void; but `J` (long), which has
no case in the final `switch`, falls through to string. -/
theorem C2_primitive_codes (env : Env) (fuel : Nat) (st : State) :
    interpretTypeAndBuildDefinition env (fuel + 1) "I".toList st
        = some (.ok ("integer".toList, []), st) ∧
    interpretTypeAndBuildDefinition env (fuel + 1) "S".toList st
        = some (.ok ("integer".toList, []), st) ∧
    interpretTypeAndBuildDefinition env (fuel + 1) "B".toList st
        = some (.ok ("integer".toList, []), st) ∧
    interpretTypeAndBuildDefinition env (fuel + 1) "F".toList st
        = some (.ok ("number".toList, []), st) ∧
    interpretTypeAndBuildDefinition env (fuel + 1) "D".toList st
        = some (.ok ("number".toList, []), st) ∧
    interpretTypeAndBuildDefinition env (fuel + 1) "Z".toList st
        = some (.ok ("boolean".toList, []), st) ∧
    interpretTypeAndBuildDefinition env (fuel + 1) "V".toList st
        = some (.ok ("void".toList, []), st) ∧
    interpretTypeAndBuildDefinition env (fuel + 1) "J".toList st
        = some (.ok ("string".toList, []), st) :=
  ⟨rfl, rfl, rfl, rfl, rfl, rfl, rfl, rfl⟩

/-- C3. For every single-argument handler prefix `W` of the container table,
with kind override `o`, and every inner text `T`: resolving `T` returns, and
resolving `W ++ T ++ ">;"` returns what resolving `T` returns, with the same
final document and memo, except that a successful Kind is replaced by `o` when
`o` is not empty (the pass-through handlers Observable, Call, Response and
Single have an empty override, List and ArrayList override with array). -/
theorem C3_single_argument_wrapper (W o : Str) (h : (W, o) ∈ singleArgWrappers) (env : Env)
    (T : Str) (st : State) :
    (∃ res st1, ∀ fuel, fuelBound env T st ≤ fuel →
      interpretTypeAndBuildDefinition env fuel T st = some (res, st1) ∧
      interpretTypeAndBuildDefinition env (fuel + 1) (W ++ T ++ ">;".toList) st =
        applyOverride o (some (res, st1))) ∧
    (∀ fuel, interpretTypeAndBuildDefinition env (fuel + 1) (W ++ T ++ ">;".toList) st =
      applyOverride o (interpretTypeAndBuildDefinition env fuel T st)) := by
  have heq : ∀ fuel, interpretTypeAndBuildDefinition env (fuel + 1) (W ++ T ++ ">;".toList) st =
      applyOverride o (interpretTypeAndBuildDefinition env fuel T st) :=
    fun fuel => interp_single_wrapper env W o h T st fuel
  obtain ⟨res, st1, hres⟩ := interp_total env T st
  exact ⟨⟨res, st1, fun fuel hf => ⟨hres fuel hf, by rw [heq fuel, hres fuel hf]⟩⟩, heq⟩

/-- C3 at a list of an indexed class, with the results for a list of a scalar, a
list of an object and a pass-through wrapper of an object. -/
theorem C3_single_argument_wrapper_witness :
    ("Ljava/util/List<".toList, "array".toList) ∈ singleArgWrappers ∧
    ((∃ res st1, ∀ fuel, fuelBound exampleEnv "La/Item;".toList emptyState ≤ fuel →
      interpretTypeAndBuildDefinition exampleEnv fuel "La/Item;".toList emptyState
        = some (res, st1) ∧
      interpretTypeAndBuildDefinition exampleEnv (fuel + 1)
          ("Ljava/util/List<".toList ++ "La/Item;".toList ++ ">;".toList) emptyState =
        applyOverride "array".toList (some (res, st1))) ∧
    (∀ fuel, interpretTypeAndBuildDefinition exampleEnv (fuel + 1)
        ("Ljava/util/List<".toList ++ "La/Item;".toList ++ ">;".toList) emptyState =
      applyOverride "array".toList
        (interpretTypeAndBuildDefinition exampleEnv fuel "La/Item;".toList emptyState))) ∧
    (interpretTypeAndBuildDefinition exampleEnv 10 "Ljava/util/List<Ljava/lang/String;>;".toList
        emptyState).map Prod.fst = some (.ok ("array".toList, [])) ∧
    (interpretTypeAndBuildDefinition exampleEnv 10 "Ljava/util/List<La/Item;>;".toList
        emptyState).map Prod.fst = some (.ok ("array".toList, "Item".toList)) ∧
    (interpretTypeAndBuildDefinition exampleEnv 10 "Lretrofit2/Call<La/Item;>;".toList
        emptyState).map Prod.fst = some (.ok ("object".toList, "Item".toList)) :=
  ⟨by decide,
    C3_single_argument_wrapper _ _ (by decide) exampleEnv "La/Item;".toList emptyState,
    by decide, by decide, by decide⟩

/-- C4. For plain object descriptors `K` and `V`: resolving `V` returns, and
resolving `Ljava/util/HashMap<` ++ K ++ V ++ `>;` returns what resolving `V`
alone returns, with the same final document and memo, a successful result being
turned into Kind=map with the reference of `V`: the key descriptor `K` is never
resolved. -/
theorem C4_hash_map (K V : Str) (hK : plainObjectDescriptor K) (hV : plainObjectDescriptor V)
    (env : Env) (st : State) :
    (∃ res st1, ∀ fuel, fuelBound env V st ≤ fuel →
      interpretTypeAndBuildDefinition env fuel V st = some (res, st1) ∧
      interpretTypeAndBuildDefinition env (fuel + 1)
          ("Ljava/util/HashMap<".toList ++ K ++ V ++ ">;".toList) st =
        asMapOf (some (res, st1))) ∧
    (∀ fuel, interpretTypeAndBuildDefinition env (fuel + 1)
        ("Ljava/util/HashMap<".toList ++ K ++ V ++ ">;".toList) st =
      asMapOf (interpretTypeAndBuildDefinition env fuel V st)) := by
  have heq : ∀ fuel, interpretTypeAndBuildDefinition env (fuel + 1)
      ("Ljava/util/HashMap<".toList ++ K ++ V ++ ">;".toList) st =
      asMapOf (interpretTypeAndBuildDefinition env fuel V st) := by
    intro fuel
    have htrim : dropMethodParams (TrimSpace ("Ljava/util/HashMap<".toList ++ K ++ V ++ ">;".toList))
        = "Ljava/util/HashMap<".toList ++ (K ++ V ++ ">;".toList) := by
      have : TrimSpace ("Ljava/util/HashMap<".toList ++ K ++ V ++ ">;".toList)
          = "Ljava/util/HashMap<".toList ++ K ++ V ++ ">;".toList :=
        TrimSpace_eq_self 'L' ';' (by decide) (by decide) _ (by simp) (by
          have : "Ljava/util/HashMap<".toList ++ K ++ V ++ ">;".toList
              = ("Ljava/util/HashMap<".toList ++ K ++ V ++ ['>']) ++ [';'] := by simp
          rw [this, List.getLast?_append]; simp)
      rw [this]
      simp [dropMethodParams, HasPrefix]
    have hf : wrapperHandlers.find? (fun wh =>
        HasPrefix ("Ljava/util/HashMap<".toList ++ (K ++ V ++ ">;".toList)) wh.pfx)
        = some hashMapWrapper := by
      simp [wrapperHandlers, List.find?, HasPrefix, genericWrapperFunc, hashMapWrapper]
    have hi : Index ("Ljava/util/HashMap<".toList ++ (K ++ V ++ ">;".toList)) "<".toList
        = some 18 := by
      simp [Index, HasPrefix]
    have hdrop : List.drop (18 + 1) ("Ljava/util/HashMap<".toList ++ (K ++ V ++ ">;".toList))
        = K ++ V ++ ">;".toList := by
      simp
    simp only [interpretTypeAndBuildDefinition, htrim, hf, hi, hdrop, TrimSuffix_append,
      plain_trim K V hK hV, hashMapWrapper_parseInside, splitSmaliTypes_plain K V hK hV]
    simp only [List.length_cons, List.length_nil, if_true, List.getD_cons_succ, List.getD_cons_zero]
  obtain ⟨res, st1, hres⟩ := interp_total env V st
  exact ⟨⟨res, st1, fun fuel hf => ⟨hres fuel hf, by rw [heq fuel, hres fuel hf]⟩⟩, heq⟩

/-- C4 at a map from an unindexed key class to an indexed value class: the memo
holds the value class only, and the only definition is the value's. -/
theorem C4_hash_map_witness :
    plainObjectDescriptor "La/Key;".toList ∧ plainObjectDescriptor "La/Item;".toList ∧
    ((∃ res st1, ∀ fuel, fuelBound exampleEnv "La/Item;".toList emptyState ≤ fuel →
      interpretTypeAndBuildDefinition exampleEnv fuel "La/Item;".toList emptyState
        = some (res, st1) ∧
      interpretTypeAndBuildDefinition exampleEnv (fuel + 1)
          ("Ljava/util/HashMap<".toList ++ "La/Key;".toList ++ "La/Item;".toList ++ ">;".toList)
          emptyState =
        asMapOf (some (res, st1))) ∧
    (∀ fuel, interpretTypeAndBuildDefinition exampleEnv (fuel + 1)
        ("Ljava/util/HashMap<".toList ++ "La/Key;".toList ++ "La/Item;".toList ++ ">;".toList)
        emptyState =
      asMapOf (interpretTypeAndBuildDefinition exampleEnv fuel "La/Item;".toList emptyState))) ∧
    (interpretTypeAndBuildDefinition exampleEnv 10
        "Ljava/util/HashMap<La/Key;La/Item;>;".toList emptyState).map
        (fun x => (x.1, x.2.parsedTypes, mapKeys x.2.spec.definitions)) =
      some (.ok ("map".toList, "Item".toList), ["La/Item;".toList], ["Item".toList]) :=
  ⟨⟨"a/Key".toList, by decide⟩, ⟨"a/Item".toList, by decide⟩,
    C4_hash_map _ _ ⟨"a/Key".toList, by decide⟩ ⟨"a/Item".toList, by decide⟩ exampleEnv
      emptyState,
    by decide⟩

/-- C5. For every object descriptor `d` that is already in the memo, the
resolver returns `(object, typeShortName d)` at once and leaves the document and
the memo as they were, whatever the class index and the files hold. -/
theorem C5_memo_hit (env : Env) (fuel : Nat) (d : Str) (st : State)
    (hd : isObjectDescriptor d = true) (hm : d ∈ st.parsedTypes) :
    interpretTypeAndBuildDefinition env (fuel + 1) d st =
      some (.ok ("object".toList, typeShortName d), st) := by
  rw [interp_objectDescriptor env fuel d st hd, resolveObject_eq,
    normSig_of_suffix d (isObjectDescriptor_suffix d hd), if_pos hm]
  rfl

/-- C5 at an indexed class that is in the memo. -/
theorem C5_memo_hit_witness :
    isObjectDescriptor "La/Foo;".toList = true ∧
    "La/Foo;".toList ∈ ({ emptyState with parsedTypes := ["La/Foo;".toList] } : State).parsedTypes ∧
    interpretTypeAndBuildDefinition exampleEnv (0 + 1) "La/Foo;".toList
        { emptyState with parsedTypes := ["La/Foo;".toList] } =
      some (.ok ("object".toList, typeShortName "La/Foo;".toList),
        { emptyState with parsedTypes := ["La/Foo;".toList] }) :=
  ⟨by decide, by decide,
    C5_memo_hit exampleEnv 0 "La/Foo;".toList _ (by decide) (by decide)⟩

/-- C6, as amended. For every object descriptor `d` that is not in the memo and
has no entry in the class index, the resolver returns
`(object, typeShortName d)` without error and inserts `d` into the memo; it
registers the empty definition under `typeShortName d` when no definition is
there, and leaves the definitions unchanged when one is. -/
theorem C6_unindexed_class (env : Env) (fuel : Nat) (d : Str) (st : State)
    (hd : isObjectDescriptor d = true) (hm : d ∉ st.parsedTypes)
    (hi : mapLookup env.classToFilePath d = none) :
    ∃ st1, interpretTypeAndBuildDefinition env (fuel + 1) d st =
        some (.ok ("object".toList, typeShortName d), st1) ∧
      st1.parsedTypes = d :: st.parsedTypes ∧
      st1.spec.paths = st.spec.paths ∧
      (mapLookup st.spec.definitions (typeShortName d) = none →
        st1.spec.definitions = mapInsert st.spec.definitions (typeShortName d) emptyDefinition) ∧
      (∀ x, mapLookup st.spec.definitions (typeShortName d) = some x →
        st1.spec.definitions = st.spec.definitions) := by
  have hc : classInfo env d = .notIndexed := by unfold classInfo; rw [hi]
  rw [interp_objectDescriptor env fuel d st hd, resolveObject_eq,
    normSig_of_suffix d (isObjectDescriptor_suffix d hd), if_neg hm, hc]
  refine ⟨_, rfl, ?_⟩
  unfold State.placeholder
  cases hl : mapLookup st.spec.definitions (typeShortName d) <;>
    simp [State.setDefinition, State.memoInsert, hl]

/-- C6 at a class that is in no file. -/
theorem C6_unindexed_class_witness :
    isObjectDescriptor "La/Key;".toList = true ∧ "La/Key;".toList ∉ emptyState.parsedTypes ∧
    mapLookup exampleEnv.classToFilePath "La/Key;".toList = none ∧
    ∃ st1, interpretTypeAndBuildDefinition exampleEnv (0 + 1) "La/Key;".toList emptyState =
        some (.ok ("object".toList, typeShortName "La/Key;".toList), st1) ∧
      st1.parsedTypes = "La/Key;".toList :: emptyState.parsedTypes ∧
      st1.spec.paths = emptyState.spec.paths ∧
      (mapLookup emptyState.spec.definitions (typeShortName "La/Key;".toList) = none →
        st1.spec.definitions =
          mapInsert emptyState.spec.definitions (typeShortName "La/Key;".toList)
            emptyDefinition) ∧
      (∀ x, mapLookup emptyState.spec.definitions (typeShortName "La/Key;".toList) = some x →
        st1.spec.definitions = emptyState.spec.definitions) :=
  ⟨by decide, by decide, by decide,
    C6_unindexed_class exampleEnv 0 "La/Key;".toList emptyState (by decide) (by decide)
      (by decide)⟩

/-- C6 fails as stated: after the indexed class `La/Item;` has been resolved,
resolving the unindexed `Lb/Item;` (not in the memo, same short name) leaves
the definition `Item` with its two properties; no empty definition is
registered. -/
theorem C6_counterexample :
    (interpretTypeAndBuildDefinition exampleEnv 3 "La/Item;".toList emptyState).map
        (fun x => decide ("Lb/Item;".toList ∈ x.2.parsedTypes)) = some false ∧
    mapLookup exampleEnv.classToFilePath "Lb/Item;".toList = none ∧
    ((interpretTypeAndBuildDefinition exampleEnv 3 "La/Item;".toList emptyState).bind
        (fun x => interpretTypeAndBuildDefinition exampleEnv 3 "Lb/Item;".toList x.2)).map
        (fun x => (x.1, mapLookup x.2.spec.definitions "Item".toList)) =
      some (.ok ("object".toList, "Item".toList), some itemDefinition) := by
  decide

theorem resolve_indexed (env : Env) (n : Nat) (d : Str) (st : State) (path : Str)
    (F : List (Str × Str)) (r : Str × Str) (st1 : State)
    (hd : isObjectDescriptor d = true) (hm : d ∉ st.parsedTypes)
    (hi : mapLookup env.classToFilePath d = some path)
    (hF : parseFieldsFromFile env path = some F)
    (h : interpretTypeAndBuildDefinition env (n + 1) d st = some (.ok r, st1)) :
    r = ("object".toList, typeShortName d) ∧
    ∃ st2,
      fieldsLoop env (interpretTypeAndBuildDefinition env n) (env.rangeOrder d F) []
        (st.memoInsert d) = some (.ok (collectProps env (env.rangeOrder d F) []), st2) ∧
      st1 = st2.setDefinition (typeShortName d)
        (objectDefinition (collectProps env (env.rangeOrder d F) [])) ∧
      (∀ e ∈ env.rangeOrder d F, ∃ sta stb b,
        interpretTypeAndBuildDefinition env n e.2 sta = some (.ok (staticKind e.2), stb) ∧
        propertyOf env e.2 = .ok b) := by
  rw [interp_objectDescriptor env n d st hd, resolveObject_eq,
    normSig_of_suffix d (isObjectDescriptor_suffix d hd), if_neg hm,
    classInfo_of_lookup env d path F hi hF] at h
  simp only at h
  rcases hx : fieldsLoop env (interpretTypeAndBuildDefinition env n) (env.rangeOrder d F) []
    (st.memoInsert d) with _ | ⟨_ | props, st2⟩
  · rw [hx] at h; exact absurd h (by simp [finishObject])
  · rw [hx] at h; simp [finishObject] at h
  · rw [hx] at h
    simp only [finishObject, objectResult, Option.some.injEq, Prod.mk.injEq,
      Except.ok.injEq] at h
    obtain ⟨h1, h2⟩ := fieldsLoop_ok env _ (fun s sta kr stb hs => interp_static env n s sta kr stb hs)
      _ _ _ _ _ hx
    subst h2
    exact ⟨h.1.symm, st2, rfl, h.2.symm, h1⟩

theorem isPropertyOf_intro (env : Env) (n : Nat) (s : Str) (sta stb : State) (b : Schema)
    (h1 : interpretTypeAndBuildDefinition env n s sta = some (.ok (staticKind s), stb))
    (h2 : propertyOf env s = .ok b) : IsPropertyOf env s b :=
  ⟨(staticKind s).1, (staticKind s).2, ⟨n, sta, stb, h1⟩,
    fun env2 fuel st r st1 h => interp_static env2 fuel s st r st1 h, h2⟩

/-- The definition registered for an indexed class: its properties are named
exactly like the fields, and each is the property schema of its field. -/
theorem indexed_class_definition (env : Env) (n : Nat) (d : Str) (st : State) (path : Str)
    (F : List (Str × Str)) (r : Str × Str) (st1 : State)
    (hd : isObjectDescriptor d = true) (hm : d ∉ st.parsedTypes)
    (hi : mapLookup env.classToFilePath d = some path)
    (hF : parseFieldsFromFile env path = some F)
    (h : interpretTypeAndBuildDefinition env (n + 1) d st = some (.ok r, st1)) :
    r = ("object".toList, typeShortName d) ∧
    ∃ props,
      mapLookup st1.spec.definitions (typeShortName d) =
        some { type := ["object".toList], properties := props } ∧
      (∀ x, x ∈ mapKeys props ↔ x ∈ mapKeys F) ∧
      (∀ x s, (x, s) ∈ F → ∃ b, mapLookup props x = some b ∧ IsPropertyOf env s b) := by
  obtain ⟨hr, st2, -, hst, hall⟩ := resolve_indexed env n d st path F r st1 hd hm hi hF h
  have hnd := rangeOrder_names_nodup env d path F hF
  have hperm := env.rangeOrder_perm d F
  have hfield : ∀ x s, (x, s) ∈ F →
      ∃ b, mapLookup (collectProps env (env.rangeOrder d F) []) x = some b ∧
        IsPropertyOf env s b := by
    intro x s hxs
    have hmem : (x, s) ∈ env.rangeOrder d F := hperm.mem_iff.2 hxs
    obtain ⟨sta, stb, b, hrun, hp⟩ := hall (x, s) hmem
    exact ⟨b, collectProps_lookup_mem env _ [] x s b hnd hmem hp,
      isPropertyOf_intro env n s sta stb b hrun hp⟩
  refine ⟨hr, collectProps env (env.rangeOrder d F) [], ?_, ?_, hfield⟩
  · rw [hst]
    simp only [State.setDefinition, mapLookup_insert_self]
    rfl
  · intro x
    constructor
    · intro hx
      by_contra hnot
      have hnot' : x ∉ (env.rangeOrder d F).map Prod.fst := by
        intro hc
        exact hnot ((hperm.map Prod.fst).mem_iff.1 hc)
      have := collectProps_lookup_not_mem env (env.rangeOrder d F) [] x hnot'
      rw [mem_mapKeys_iff, this] at hx
      simp [mapLookup] at hx
    · intro hx
      obtain ⟨⟨x', s⟩, hmem, rfl⟩ := List.mem_map.1 hx
      obtain ⟨b, hb, -⟩ := hfield x' s hmem
      rw [mem_mapKeys_iff, hb]; rfl

/-- C7. For every object descriptor `d` that is not in the memo and whose class
is in the index with field mapping `F`: resolving `d` returns (and succeeds when
`swagger.NewRef` never fails), and a successful resolution of `d` returns
`(object, typeShortName d)` and registers under `typeShortName d` an object
definition whose property names are exactly the field names of `F`, the
property of each field being `buildPropertySchema` applied to the (Kind,
reference) that resolving the field's descriptor gives. -/
theorem C7_indexed_class (env : Env) (d : Str) (st : State) (path : Str)
    (F : List (Str × Str))
    (hd : isObjectDescriptor d = true) (hm : d ∉ st.parsedTypes)
    (hi : mapLookup env.classToFilePath d = some path)
    (hF : parseFieldsFromFile env path = some F) :
    (∃ res st1,
      (∀ fuel, fuelBound env d st ≤ fuel →
        interpretTypeAndBuildDefinition env fuel d st = some (res, st1)) ∧
      ((∀ u, env.newRefOk u = true) → ∃ r, res = .ok r)) ∧
    (∀ fuel r st1, interpretTypeAndBuildDefinition env fuel d st = some (.ok r, st1) →
      r = ("object".toList, typeShortName d) ∧
      ∃ props,
        mapLookup st1.spec.definitions (typeShortName d) =
          some { type := ["object".toList], properties := props } ∧
        (∀ x, x ∈ mapKeys props ↔ x ∈ mapKeys F) ∧
        (∀ x s, (x, s) ∈ F → ∃ b, mapLookup props x = some b ∧ IsPropertyOf env s b)) := by
  constructor
  · obtain ⟨res, st1, hres⟩ := interp_total env d st
    exact ⟨res, st1, hres, fun hok =>
      interp_no_error env hok _ d st res st1 (hres _ (le_refl (fuelBound env d st)))⟩
  · intro fuel r st1 h
    cases fuel with
    | zero => exact absurd h (by simp [interpretTypeAndBuildDefinition])
    | succ n => exact indexed_class_definition env n d st path F r st1 hd hm hi hF h

/-- C7 at a class with two `String` fields: the definition has exactly the two
string properties. -/
theorem C7_indexed_class_witness :
    isObjectDescriptor "La/Item;".toList = true ∧ "La/Item;".toList ∉ emptyState.parsedTypes ∧
    mapLookup exampleEnv.classToFilePath "La/Item;".toList = some "Item.smali".toList ∧
    parseFieldsFromFile exampleEnv "Item.smali".toList =
      some [("id".toList, "Ljava/lang/String;".toList),
            ("label".toList, "Ljava/lang/String;".toList)] ∧
    interpretTypeAndBuildDefinition exampleEnv 2 "La/Item;".toList emptyState =
      some (.ok ("object".toList, "Item".toList), itemState) ∧
    mapLookup itemState.spec.definitions "Item".toList = some itemDefinition ∧
    mapKeys itemDefinition.properties = ["id".toList, "label".toList] ∧
    ((∃ res st1,
      (∀ fuel, fuelBound exampleEnv "La/Item;".toList emptyState ≤ fuel →
        interpretTypeAndBuildDefinition exampleEnv fuel "La/Item;".toList emptyState
          = some (res, st1)) ∧
      ((∀ u, exampleEnv.newRefOk u = true) → ∃ r, res = .ok r)) ∧
    (∀ fuel r st1,
      interpretTypeAndBuildDefinition exampleEnv fuel "La/Item;".toList emptyState
        = some (.ok r, st1) →
      r = ("object".toList, typeShortName "La/Item;".toList) ∧
      ∃ props,
        mapLookup st1.spec.definitions (typeShortName "La/Item;".toList) =
          some { type := ["object".toList], properties := props } ∧
        (∀ x, x ∈ mapKeys props ↔
          x ∈ mapKeys [("id".toList, "Ljava/lang/String;".toList),
                       ("label".toList, "Ljava/lang/String;".toList)]) ∧
        (∀ x s, (x, s) ∈ [("id".toList, "Ljava/lang/String;".toList),
                          ("label".toList, "Ljava/lang/String;".toList)] →
          ∃ b, mapLookup props x = some b ∧ IsPropertyOf exampleEnv s b))) :=
  ⟨by decide, by decide, by decide, by decide, by decide, by decide, by decide,
    C7_indexed_class exampleEnv "La/Item;".toList emptyState "Item.smali".toList _
      (by decide) (by decide) (by decide) (by decide)⟩

theorem State.placeholder_sorted (st : State) (o : Str) (h : SortedKeys st.spec.definitions) :
    SortedKeys (st.placeholder o).spec.definitions := by
  unfold State.placeholder
  split
  · exact h
  · exact mapInsert_sorted _ _ _ h

/-- The definitions stay a map with keys in order. -/
theorem Run_sorted (env : Env) (t : Task) (st : State) (d : Done) (st1 : State)
    (h : Run env t st d st1) :
    SortedKeys st.spec.definitions → SortedKeys st1.spec.definitions := by
  induction h with
  | malformed | mapFallback | known | primitive | memoHit | loopNil => exact fun h => h
  | forward _ _ ih => exact ih
  | mapValue _ _ ih => exact ih
  | notIndexed => exact fun h => State.placeholder_sorted _ _ h
  | unreadable => exact fun h => mapInsert_sorted _ _ _ h
  | fieldsOk _ _ _ _ ih => exact fun h => mapInsert_sorted _ _ _ (ih h)
  | fieldsErr _ _ _ _ ih => exact fun h => ih h
  | loopErrResolve _ ih => exact ih
  | loopErrBuild _ _ ih => exact ih
  | loopCons _ _ _ ih1 ih2 => exact fun h => ih2 (ih1 h)

theorem entriesUnder_length {β : Type} (m : List (Str × β)) (k : Str) (hs : SortedKeys m) :
    (entriesUnder m k).length = if (mapLookup m k).isSome = true then 1 else 0 := by
  induction m with
  | nil => rfl
  | cons e m ih =>
    obtain ⟨k', v'⟩ := e
    have hs' : SortedKeys m := (List.pairwise_cons.1 hs).2
    have ih' := ih hs'
    unfold entriesUnder at ih' ⊢
    by_cases hk : k' = k
    · subst hk
      have hnone := mapLookup_of_sorted_cons k' v' m hs
      rw [hnone] at ih'
      rw [List.filter_cons_of_pos (by exact decide_eq_true rfl), List.length_cons, ih']
      have : mapLookup ((k', v') :: m) k' = some v' := by
        rw [mapLookup, if_pos rfl]
      rw [this]
      rfl
    · have hk' : ¬ k = k' := fun e => hk e.symm
      rw [List.filter_cons_of_neg (by rw [decide_eq_true_eq]; exact hk), ih']
      have : mapLookup ((k', v') :: m) k = mapLookup m k := by
        rw [mapLookup, if_neg hk']
      rw [this]

theorem entriesUnder_length_one {β : Type} (m : List (Str × β)) (k : Str) (hs : SortedKeys m)
    (hk : (mapLookup m k).isSome = true) : (entriesUnder m k).length = 1 := by
  rw [entriesUnder_length m k hs, if_pos hk]

/-- C8, as amended. Two object descriptors with the same short name are resolved
one after the other, the first not in the memo beforehand. Both resolutions
return. When both succeed and the second descriptor is not in the memo when its
resolution starts, the definitions end with exactly one entry under the short
name. When the later class is in the index, that entry is the definition built
by the later resolution (from the fields of the later class, or empty when its
file cannot be read); when the later class is not in the index, the definitions
are left as the earlier resolution made them. -/
theorem C8_short_name_collision (env : Env) (d1 d2 : Str) (st0 : State)
    (hs : SortedKeys st0.spec.definitions)
    (hd1 : isObjectDescriptor d1 = true) (hd2 : isObjectDescriptor d2 = true)
    (hshort : typeShortName d1 = typeShortName d2)
    (hm1 : d1 ∉ st0.parsedTypes) :
    (∃ res1 st1,
      (∀ fuel, fuelBound env d1 st0 ≤ fuel →
        interpretTypeAndBuildDefinition env fuel d1 st0 = some (res1, st1)) ∧
      ∃ res2 st2, ∀ fuel, fuelBound env d2 st1 ≤ fuel →
        interpretTypeAndBuildDefinition env fuel d2 st1 = some (res2, st2)) ∧
    (∀ f1 f2 r1 r2 st1 st2,
      interpretTypeAndBuildDefinition env f1 d1 st0 = some (.ok r1, st1) →
      d2 ∉ st1.parsedTypes →
      interpretTypeAndBuildDefinition env f2 d2 st1 = some (.ok r2, st2) →
      (entriesUnder st2.spec.definitions (typeShortName d2)).length = 1 ∧
      (∀ path F, mapLookup env.classToFilePath d2 = some path →
        parseFieldsFromFile env path = some F →
        ∃ props,
          mapLookup st2.spec.definitions (typeShortName d2) =
            some { type := ["object".toList], properties := props } ∧
          (∀ x, x ∈ mapKeys props ↔ x ∈ mapKeys F) ∧
          (∀ x s, (x, s) ∈ F → ∃ b, mapLookup props x = some b ∧ IsPropertyOf env s b)) ∧
      (∀ path, mapLookup env.classToFilePath d2 = some path →
        parseFieldsFromFile env path = none →
        mapLookup st2.spec.definitions (typeShortName d2) = some emptyDefinition) ∧
      (mapLookup env.classToFilePath d2 = none →
        st2.spec.definitions = st1.spec.definitions)) := by
  constructor
  · obtain ⟨res1, st1, hres1⟩ := interp_total env d1 st0
    obtain ⟨res2, st2, hres2⟩ := interp_total env d2 st1
    exact ⟨res1, st1, hres1, res2, st2, hres2⟩
  · intro f1 f2 r1 r2 st1 st2 h1 hm2 h2
    have hs1 := Run_sorted env _ _ _ _ (interp_run env f1 d1 st0 _ st1 h1) hs
    have hs2 := Run_sorted env _ _ _ _ (interp_run env f2 d2 st1 _ st2 h2) hs1
    cases f1 with
    | zero => exact absurd h1 (by simp [interpretTypeAndBuildDefinition])
    | succ n1 =>
    cases f2 with
    | zero => exact absurd h2 (by simp [interpretTypeAndBuildDefinition])
    | succ n2 =>
    have hkey1 : (mapLookup st1.spec.definitions (typeShortName d2)).isSome = true := by
      rcases objectDescriptor_outcome env n1 d1 st0 hd1 hm1 _ st1 h1 with ⟨e, he⟩ | ⟨-, hk⟩
      · exact absurd he (by simp)
      · rw [← hshort]; exact hk
    have hkey2 : (mapLookup st2.spec.definitions (typeShortName d2)).isSome = true := by
      rcases objectDescriptor_outcome env n2 d2 st1 hd2 hm2 _ st2 h2 with ⟨e, he⟩ | ⟨-, hk⟩
      · exact absurd he (by simp)
      · exact hk
    refine ⟨entriesUnder_length_one _ _ hs2 hkey2, ?_, ?_, ?_⟩
    · intro path F hi hF
      exact (indexed_class_definition env n2 d2 st1 path F r2 st2 hd2 hm2 hi hF h2).2
    · intro path hi hF
      have hc : classInfo env d2 = .unreadable := by unfold classInfo; simp only [hi, hF]
      rw [interp_objectDescriptor env n2 d2 st1 hd2, resolveObject_eq,
        normSig_of_suffix d2 (isObjectDescriptor_suffix d2 hd2), if_neg hm2, hc] at h2
      simp only [Option.some.injEq, Prod.mk.injEq] at h2
      rw [← h2.2]
      simp only [State.setDefinition, mapLookup_insert_self]
    · intro hi
      have hc : classInfo env d2 = .notIndexed := by unfold classInfo; rw [hi]
      rw [interp_objectDescriptor env n2 d2 st1 hd2, resolveObject_eq,
        normSig_of_suffix d2 (isObjectDescriptor_suffix d2 hd2), if_neg hm2, hc] at h2
      simp only [Option.some.injEq, Prod.mk.injEq] at h2
      rw [← h2.2]
      unfold State.placeholder
      have : (mapLookup (st1.memoInsert d2).spec.definitions (typeShortName d2)).isSome = true :=
        hkey1
      rw [if_pos this]
      rfl

/-- C8 at two indexed classes with the short name `Pair`: after both
resolutions the one entry `Pair` is the definition of the later class. -/
theorem C8_short_name_collision_witness :
    SortedKeys emptyState.spec.definitions ∧
    isObjectDescriptor "La/Pair;".toList = true ∧ isObjectDescriptor "Lb/Pair;".toList = true ∧
    typeShortName "La/Pair;".toList = typeShortName "Lb/Pair;".toList ∧
    "La/Pair;".toList ∉ emptyState.parsedTypes ∧
    interpretTypeAndBuildDefinition holderEnv 2 "La/Pair;".toList emptyState =
      some (.ok ("object".toList, "Pair".toList), pairStateA) ∧
    "Lb/Pair;".toList ∉ pairStateA.parsedTypes ∧
    interpretTypeAndBuildDefinition holderEnv 2 "Lb/Pair;".toList pairStateA =
      some (.ok ("object".toList, "Pair".toList), pairStateB) ∧
    mapLookup pairStateB.spec.definitions "Pair".toList =
      some { type := ["object".toList], properties := [("right".toList, integerSchema)] } ∧
    ((∃ res1 st1,
      (∀ fuel, fuelBound holderEnv "La/Pair;".toList emptyState ≤ fuel →
        interpretTypeAndBuildDefinition holderEnv fuel "La/Pair;".toList emptyState
          = some (res1, st1)) ∧
      ∃ res2 st2, ∀ fuel, fuelBound holderEnv "Lb/Pair;".toList st1 ≤ fuel →
        interpretTypeAndBuildDefinition holderEnv fuel "Lb/Pair;".toList st1
          = some (res2, st2)) ∧
    (∀ f1 f2 r1 r2 st1 st2,
      interpretTypeAndBuildDefinition holderEnv f1 "La/Pair;".toList emptyState
        = some (.ok r1, st1) →
      "Lb/Pair;".toList ∉ st1.parsedTypes →
      interpretTypeAndBuildDefinition holderEnv f2 "Lb/Pair;".toList st1 = some (.ok r2, st2) →
      (entriesUnder st2.spec.definitions (typeShortName "Lb/Pair;".toList)).length = 1 ∧
      (∀ path F, mapLookup holderEnv.classToFilePath "Lb/Pair;".toList = some path →
        parseFieldsFromFile holderEnv path = some F →
        ∃ props,
          mapLookup st2.spec.definitions (typeShortName "Lb/Pair;".toList) =
            some { type := ["object".toList], properties := props } ∧
          (∀ x, x ∈ mapKeys props ↔ x ∈ mapKeys F) ∧
          (∀ x s, (x, s) ∈ F → ∃ b, mapLookup props x = some b ∧ IsPropertyOf holderEnv s b)) ∧
      (∀ path, mapLookup holderEnv.classToFilePath "Lb/Pair;".toList = some path →
        parseFieldsFromFile holderEnv path = none →
        mapLookup st2.spec.definitions (typeShortName "Lb/Pair;".toList) =
          some emptyDefinition) ∧
      (mapLookup holderEnv.classToFilePath "Lb/Pair;".toList = none →
        st2.spec.definitions = st1.spec.definitions))) :=
  ⟨List.Pairwise.nil, by decide, by decide, by decide, by decide, by decide, by decide,
    by decide, by decide,
    C8_short_name_collision holderEnv "La/Pair;".toList "Lb/Pair;".toList emptyState
      List.Pairwise.nil (by decide) (by decide) (by decide) (by decide)⟩

/-- C8 fails as stated. (a) `La/Item;` (indexed) and then `Lb/Item;` (in no
file) are resolved, neither in the memo beforehand: the entry `Item` is still
the definition of the earlier class, with its two properties, although the later
resolution on its own registers the empty definition. (b) `La/Node;`, which has
a field of class `Lb/Node;`, and then `Lb/Node;` are resolved, neither in the
memo beforehand: the entry `Node` is the definition of the earlier class (one
property `next`), not the one the later class gets on its own (one property
`value`). -/
theorem C8_counterexample :
    ("La/Item;".toList ≠ "Lb/Item;".toList ∧
      typeShortName "La/Item;".toList = typeShortName "Lb/Item;".toList ∧
      ((interpretTypeAndBuildDefinition exampleEnv 3 "La/Item;".toList emptyState).bind
          (fun x => interpretTypeAndBuildDefinition exampleEnv 3 "Lb/Item;".toList x.2)).map
          (fun x => (x.1, mapLookup x.2.spec.definitions "Item".toList)) =
        some (.ok ("object".toList, "Item".toList), some itemDefinition) ∧
      (interpretTypeAndBuildDefinition exampleEnv 3 "Lb/Item;".toList emptyState).map
          (fun x => (x.1, mapLookup x.2.spec.definitions "Item".toList)) =
        some (.ok ("object".toList, "Item".toList), some emptyDefinition) ∧
      itemDefinition ≠ emptyDefinition) ∧
    ("La/Node;".toList ≠ "Lb/Node;".toList ∧
      typeShortName "La/Node;".toList = typeShortName "Lb/Node;".toList ∧
      ((interpretTypeAndBuildDefinition chainEnv 3 "La/Node;".toList emptyState).bind
          (fun x => interpretTypeAndBuildDefinition chainEnv 3 "Lb/Node;".toList x.2)).map
          (fun x => (x.1, mapLookup x.2.spec.definitions "Node".toList)) =
        some (.ok ("object".toList, "Node".toList),
          some { type := ["object".toList],
                 properties := [("next".toList, refSchema "Node".toList)] }) ∧
      (interpretTypeAndBuildDefinition chainEnv 3 "Lb/Node;".toList emptyState).map
          (fun x => (x.1, mapLookup x.2.spec.definitions "Node".toList)) =
        some (.ok ("object".toList, "Node".toList),
          some { type := ["object".toList],
                 properties := [("value".toList, stringSchema)] })) :=
  ⟨⟨by decide, by decide, by decide, by decide, by decide⟩,
    ⟨by decide, by decide, by decide, by decide⟩⟩

/-- A successful run under one order of visiting fields: the run under another
order does not end with an error. -/
theorem success_transfers (env1 env2 : Env) (hsame : SameInputs env1 env2) (sig : Str)
    (st : State) (r1 : Str × Str) (st1 : State) (r2 : Result) (st2 : State)
    (run1 : Run env1 (.resolve sig) st (.result (.ok r1)) st1)
    (run2 : Run env2 (.resolve sig) st (.result r2) st2) :
    ¬ (Done.result r2).isError := by
  intro herr
  have hclosed1 := Run_memo_closed env1 _ _ _ _ run1 (fun h => h)
  have hgood1 := (Run_fields_good env1 _ _ _ _ run1 (fun h => h)).2
  rcases Run_error_blame env2 _ _ _ _ run2 herr with
    ⟨e, he, -⟩ | ⟨u, fs2, e, err, hu, hc2, he, hp, hS⟩
  · exact absurd he (by simp [Task.fields])
  · have hu1 : u ∈ st1.parsedTypes :=
      hS (fun x => x ∈ st1.parsedTypes) (Run_memo_mono env1 _ _ _ _ run1)
        (Closed_transfer env1 env2 hsame _ _ hclosed1.2) hclosed1.1
    obtain ⟨fs1, hc1, hperm, -⟩ := (classInfo_transfer env2 env1 hsame.symm u).2.2 fs2 hc2
    obtain ⟨b, hb⟩ := hgood1 u hu1 hu fs1 hc1 e (hperm.mem_iff.1 he)
    rw [propertyOf_congr env1 env2 hsame, hp] at hb
    exact absurd hb (by simp)

theorem memo_transfers (env1 env2 : Env) (hsame : SameInputs env1 env2) (sig : Str)
    (st : State) (r1 r2 : Str × Str) (st1 st2 : State)
    (run1 : Run env1 (.resolve sig) st (.result (.ok r1)) st1)
    (run2 : Run env2 (.resolve sig) st (.result (.ok r2)) st2) :
    ∀ x, x ∈ st1.parsedTypes → x ∈ st2.parsedTypes := by
  have hclosed2 := Run_memo_closed env2 _ _ _ _ run2 (fun h => h)
  exact Run_memo_least env1 _ _ _ _ run1 (fun x => x ∈ st2.parsedTypes)
    (Run_memo_mono env2 _ _ _ _ run2)
    (Closed_transfer env2 env1 hsame.symm _ _ hclosed2.2) hclosed2.1

theorem definitions_transfer (env1 env2 : Env) (hsame : SameInputs env1 env2) (sig : Str)
    (st : State) (r1 r2 : Str × Str) (st1 st2 : State)
    (hs : SortedKeys st.spec.definitions)
    (run1 : Run env1 (.resolve sig) st (.result (.ok r1)) st1)
    (run2 : Run env2 (.resolve sig) st (.result (.ok r2)) st2)
    (hinj : DistinctShortNames st.parsedTypes st1.parsedTypes) :
    st2.spec.definitions = st1.spec.definitions := by
  have m12 := memo_transfers env1 env2 hsame sig st r1 r2 st1 st2 run1 run2
  have m21 := memo_transfers env2 env1 hsame.symm sig st r2 r1 st2 st1 run2 run1
  have hinj2 : DistinctShortNames st.parsedTypes st2.parsedTypes :=
    fun u v hu hum hv hvm => hinj u v (m21 u hu) hum (m21 v hv) hvm
  obtain ⟨a1, a2⟩ := Run_definitions env1 _ _ _ _ run1 (fun h => h) hinj
  obtain ⟨b1, b2⟩ := Run_definitions env2 _ _ _ _ run2 (fun h => h) hinj2
  apply sortedKeys_ext _ _ (Run_sorted env2 _ _ _ _ run2 hs) (Run_sorted env1 _ _ _ _ run1 hs)
  intro k
  by_cases hk : ∃ u, u ∈ st1.parsedTypes ∧ u ∉ st.parsedTypes ∧ typeShortName u = k
  · obtain ⟨u, hu, hum, rfl⟩ := hk
    rw [a1 u hu hum, b1 u (m12 u hu) hum, definitionOf_transfer env1 env2 hsame]
  · have hk1 : ∀ u, u ∈ st1.parsedTypes → u ∉ st.parsedTypes → typeShortName u ≠ k :=
      fun u hu hum e => hk ⟨u, hu, hum, e⟩
    rw [a2 k hk1, b2 k (fun u hu hum => hk1 u (m21 u hu) hum)]

/-- C9, as amended. The class index, the field mappings, the behaviour of
`swagger.NewRef`, the descriptor, the document and the memo are fixed, and the
fields of each class are visited in two different orders. The call returns under
either order. If it succeeds under the first order, it succeeds under the second
(with `fuelBound` units of fuel or more) and returns the same (Kind, reference);
the final memos hold the same descriptors and the paths are the same; and when
the descriptors added to the memo have pairwise distinct short names (and the
definitions are a map with keys in order), the final definitions are the
same. -/
theorem C9_order_independence (env1 env2 : Env) (hsame : SameInputs env1 env2)
    (sig : Str) (st : State) :
    (∃ res1 st1, ∀ fuel, fuelBound env1 sig st ≤ fuel →
      interpretTypeAndBuildDefinition env1 fuel sig st = some (res1, st1)) ∧
    (∃ res2 st2, ∀ fuel, fuelBound env2 sig st ≤ fuel →
      interpretTypeAndBuildDefinition env2 fuel sig st = some (res2, st2)) ∧
    (∀ fuel r st1, interpretTypeAndBuildDefinition env1 fuel sig st = some (.ok r, st1) →
      ∃ st2,
        (∀ fuel2, fuelBound env2 sig st ≤ fuel2 →
          interpretTypeAndBuildDefinition env2 fuel2 sig st = some (.ok r, st2)) ∧
        (∀ x, x ∈ st2.parsedTypes ↔ x ∈ st1.parsedTypes) ∧
        st2.spec.paths = st1.spec.paths ∧
        (SortedKeys st.spec.definitions → DistinctShortNames st.parsedTypes st1.parsedTypes →
          st2.spec.definitions = st1.spec.definitions)) := by
  refine ⟨interp_total env1 sig st, interp_total env2 sig st, ?_⟩
  · intro fuel r st1 h1
    have run1 := interp_run env1 fuel sig st _ st1 h1
    obtain ⟨⟨r2, st2⟩, h2, -⟩ := interp_terminates env2 _ sig st (le_refl (fuelBound env2 sig st))
    have run2 := interp_run env2 _ sig st r2 st2 h2
    have hok := success_transfers env1 env2 hsame sig st r st1 r2 st2 run1 run2
    cases r2 with
    | error e => exact absurd trivial hok
    | ok kr2 =>
      have hr : kr2 = r := by
        rw [Run_static env2 _ _ _ _ run2 sig kr2 rfl rfl, Run_static env1 _ _ _ _ run1 sig r rfl rfl]
      subst hr
      refine ⟨st2, fun fuel2 hf => interp_mono env2 _ fuel2 hf sig st _ h2, ?_, ?_, ?_⟩
      · exact fun x => ⟨memo_transfers env2 env1 hsame.symm sig st _ _ st2 st1 run2 run1 x,
          memo_transfers env1 env2 hsame sig st _ _ st1 st2 run1 run2 x⟩
      · rw [Run_paths env2 _ _ _ _ run2, Run_paths env1 _ _ _ _ run1]
      · exact fun hs hinj =>
          definitions_transfer env1 env2 hsame sig st _ _ st1 st2 hs run1 run2 hinj

/-- C9 at two classes that refer to each other, visited in key order and in
reverse key order. -/
theorem C9_order_independence_witness :
    SameInputs exampleEnv exampleEnvReversed ∧
    interpretTypeAndBuildDefinition exampleEnv 4 "La/Foo;".toList emptyState =
      some (.ok ("object".toList, "Foo".toList), fooState) ∧
    interpretTypeAndBuildDefinition exampleEnvReversed 4 "La/Foo;".toList emptyState =
      some (.ok ("object".toList, "Foo".toList), fooState) ∧
    ((∃ res1 st1, ∀ fuel, fuelBound exampleEnv "La/Foo;".toList emptyState ≤ fuel →
      interpretTypeAndBuildDefinition exampleEnv fuel "La/Foo;".toList emptyState
        = some (res1, st1)) ∧
    (∃ res2 st2, ∀ fuel, fuelBound exampleEnvReversed "La/Foo;".toList emptyState ≤ fuel →
      interpretTypeAndBuildDefinition exampleEnvReversed fuel "La/Foo;".toList emptyState
        = some (res2, st2)) ∧
    (∀ fuel r st1,
      interpretTypeAndBuildDefinition exampleEnv fuel "La/Foo;".toList emptyState
        = some (.ok r, st1) →
      ∃ st2,
        (∀ fuel2, fuelBound exampleEnvReversed "La/Foo;".toList emptyState ≤ fuel2 →
          interpretTypeAndBuildDefinition exampleEnvReversed fuel2 "La/Foo;".toList emptyState =
            some (.ok r, st2)) ∧
        (∀ x, x ∈ st2.parsedTypes ↔ x ∈ st1.parsedTypes) ∧
        st2.spec.paths = st1.spec.paths ∧
        (SortedKeys emptyState.spec.definitions →
          DistinctShortNames emptyState.parsedTypes st1.parsedTypes →
          st2.spec.definitions = st1.spec.definitions))) :=
  ⟨⟨rfl, rfl, rfl⟩, by decide, by decide,
    C9_order_independence exampleEnv exampleEnvReversed ⟨rfl, rfl, rfl⟩ "La/Foo;".toList
      emptyState⟩

/-- C9 fails as stated. (a) `Lp/Holder;` has one field of class `La/Pair;` and
one of class `Lb/Pair;`; with the same index, fields, document and memo, the
final definition `Pair` is that of `Lb/Pair;` when the fields are visited in key
order and that of `La/Pair;` when they are visited in reverse order. (b) When
the call fails, the final memo depends on the order too. -/
theorem C9_counterexample :
    (SameInputs holderEnv holderEnvReversed ∧
      (interpretTypeAndBuildDefinition holderEnv 4 "Lp/Holder;".toList emptyState).map
          (fun x => (x.1, mapLookup x.2.spec.definitions "Pair".toList)) =
        some (.ok ("object".toList, "Holder".toList),
          some { type := ["object".toList], properties := [("right".toList, integerSchema)] }) ∧
      (interpretTypeAndBuildDefinition holderEnvReversed 4 "Lp/Holder;".toList emptyState).map
          (fun x => (x.1, mapLookup x.2.spec.definitions "Pair".toList)) =
        some (.ok ("object".toList, "Holder".toList),
          some { type := ["object".toList], properties := [("left".toList, stringSchema)] })) ∧
    (SameInputs mixedEnv mixedEnvReversed ∧
      (interpretTypeAndBuildDefinition mixedEnv 4 "La/Foo;".toList emptyState).map
          (fun x => x.2.parsedTypes) = some ["La/B%;".toList, "La/Foo;".toList] ∧
      (interpretTypeAndBuildDefinition mixedEnvReversed 4 "La/Foo;".toList emptyState).map
          (fun x => x.2.parsedTypes) =
        some ["La/B%;".toList, "La/Key;".toList, "La/Foo;".toList]) :=
  ⟨⟨⟨rfl, rfl, rfl⟩, by decide, by decide⟩, ⟨⟨rfl, rfl, rfl⟩, by decide, by decide⟩⟩

/-- C10, as amended. The resolver returns on every descriptor, and whenever it
completes with Kind=object, the reference it returns is the short name of a
descriptor of the memo that begins with `L` and ends with `;`; the reference is
empty exactly when the last `/`-separated segment of that descriptor is
empty. -/
theorem C10_object_reference (env : Env) (sig : Str) (st : State) :
    (∃ res st1, ∀ fuel, fuelBound env sig st ≤ fuel →
      interpretTypeAndBuildDefinition env fuel sig st = some (res, st1)) ∧
    (∀ fuel r st1,
      interpretTypeAndBuildDefinition env fuel sig st = some (.ok ("object".toList, r), st1) →
      ∃ o, o ∈ st1.parsedTypes ∧ HasPrefix o "L".toList = true ∧
        HasSuffix o ";".toList = true ∧ r = typeShortName o ∧
        (r = [] ↔
          (Split (TrimSuffix (TrimPrefix o "L".toList) ";".toList) '/').getLastD [] = [])) := by
  refine ⟨interp_total env sig st, ?_⟩
  intro fuel r st1 h
  obtain ⟨o, ho, hn, hr⟩ := Run_object_result env _ _ _ _ (interp_run env fuel sig st _ st1 h)
    sig _ r rfl rfl rfl
  exact ⟨o, ho, hn.1, hn.2, hr, by rw [hr]; exact typeShortName_eq_nil_iff o⟩

/-- C10 at a pass-through wrapper around an indexed class. -/
theorem C10_object_reference_witness :
    interpretTypeAndBuildDefinition exampleEnv 10 "Lretrofit2/Call<La/Item;>;".toList emptyState =
      some (.ok ("object".toList, "Item".toList), itemState) ∧
    ∃ o, o ∈ itemState.parsedTypes ∧ HasPrefix o "L".toList = true ∧
      HasSuffix o ";".toList = true ∧ "Item".toList = typeShortName o ∧
      ("Item".toList = [] ↔
        (Split (TrimSuffix (TrimPrefix o "L".toList) ";".toList) '/').getLastD [] = []) :=
  ⟨by decide,
    (C10_object_reference exampleEnv "Lretrofit2/Call<La/Item;>;".toList emptyState).2 10
      "Item".toList itemState (by decide)⟩

/-- C10 fails as stated: the descriptor `L;` resolves to Kind=object with an
empty reference. -/
theorem C10_counterexample :
    (interpretTypeAndBuildDefinition exampleEnv 1 "L;".toList emptyState).map Prod.fst =
      some (.ok ("object".toList, [])) := by
  decide

/-! ## Short names -/

/-- The pieces `Split` gives: either the text has no separator and is the only
piece, or there are at least two pieces and the last one is what follows the
last separator. -/
theorem Split_last (s : Str) (sep : Char) :
    (Split s sep = [s] ∧ sep ∉ s) ∨
    (2 ≤ (Split s sep).length ∧ sep ∉ (Split s sep).getLastD [] ∧
      ∃ pre, s = pre ++ sep :: (Split s sep).getLastD []) := by
  induction s with
  | nil => left; exact ⟨rfl, List.not_mem_nil _⟩
  | cons c s ih =>
    by_cases hc : c = sep
    · right
      have hsplit : Split (c :: s) sep = [] :: Split s sep := by simp [Split, hc]
      rcases ih with ⟨h1, h2⟩ | ⟨h1, h2, pre, h3⟩
      · rw [hsplit, h1]
        exact ⟨by simp, by simpa using h2, [], by simp [hc]⟩
      · rw [hsplit]
        cases hs : Split s sep with
        | nil => rw [hs] at h1; simp at h1
        | cons q qs =>
          rw [hs] at h1 h2 h3
          simp only [List.getLastD_cons] at h2 h3 ⊢
          exact ⟨by simp, h2, c :: pre, by rw [h3]; rfl⟩
    · rcases ih with ⟨h1, h2⟩ | ⟨h1, h2, pre, h3⟩
      · left
        refine ⟨by simp [Split, hc, h1], ?_⟩
        intro hmem
        rcases List.mem_cons.1 hmem with h | h
        · exact hc h.symm
        · exact h2 h
      · right
        cases hs : Split s sep with
        | nil => rw [hs] at h1; simp at h1
        | cons q qs =>
          cases qs with
          | nil => rw [hs] at h1; simp at h1
          | cons q2 qs2 =>
            have hsplit : Split (c :: s) sep = (c :: q) :: q2 :: qs2 := by
              simp [Split, hc, hs]
            rw [hs] at h2 h3
            rw [hsplit]
            simp only [List.getLastD_cons] at h2 h3 ⊢
            exact ⟨by simp, h2, c :: pre, by rw [h3]; rfl⟩

theorem not_mem_ReplaceAll (s : Str) (old new : Char) (h : old ≠ new) :
    old ∉ ReplaceAll s old new := by
  unfold ReplaceAll
  intro hmem
  obtain ⟨c, -, hc⟩ := List.mem_map.1 hmem
  by_cases hco : c = old
  · rw [if_pos hco] at hc; exact h hc.symm
  · rw [if_neg hco] at hc; exact hco hc

theorem not_mem_ReplaceAll_of_not_mem (s : Str) (old new x : Char) (hx : x ∉ s) (hn : x ≠ new) :
    x ∉ ReplaceAll s old new := by
  unfold ReplaceAll
  intro hmem
  obtain ⟨c, hcs, hc⟩ := List.mem_map.1 hmem
  by_cases hco : c = old
  · rw [if_pos hco] at hc; exact hn hc.symm
  · rw [if_neg hco] at hc; exact hx (hc ▸ hcs)

theorem typeShortName_object (p : Str) :
    typeShortName ("L".toList ++ p ++ ";".toList) =
      ReplaceAll ((Split p '/').getLastD []) '$' '_' := by
  unfold typeShortName
  simp only [List.append_assoc, TrimPrefix_append, TrimSuffix_append]

/-- C11. For every text `p`, the short name of the descriptor `L` ++ p ++ `;` is
the last `/`-separated segment of `p` (the part of `p` after its last `/`, all
of `p` when it has none) with every `$` replaced by `_`; the short name
contains neither `/` nor `$`. -/
theorem C11_short_name (p : Str) :
    ∃ seg : Str,
      '/' ∉ seg ∧ (seg = p ∨ ∃ pre, p = pre ++ '/' :: seg) ∧
      typeShortName ("L".toList ++ p ++ ";".toList) =
        seg.map (fun c => if c = '$' then '_' else c) ∧
      '/' ∉ typeShortName ("L".toList ++ p ++ ";".toList) ∧
      '$' ∉ typeShortName ("L".toList ++ p ++ ";".toList) := by
  rw [typeShortName_object]
  have hseg : '/' ∉ (Split p '/').getLastD [] ∧
      ((Split p '/').getLastD [] = p ∨ ∃ pre, p = pre ++ '/' :: (Split p '/').getLastD []) := by
    rcases Split_last p '/' with ⟨h1, h2⟩ | ⟨-, h2, h3⟩
    · rw [h1]; exact ⟨by simpa using h2, Or.inl (by simp)⟩
    · exact ⟨h2, Or.inr h3⟩
  exact ⟨(Split p '/').getLastD [], hseg.1, hseg.2, rfl,
    not_mem_ReplaceAll_of_not_mem _ _ _ _ hseg.1 (by decide),
    not_mem_ReplaceAll _ _ _ (by decide)⟩

/-! ## Responses -/

theorem buildResponse_array (env : Env) (itemRef : Str) (st : State) (h : itemRef ≠ []) :
    buildResponse env "array".toList itemRef st =
      if env.newRefOk ("#/definitions/".toList ++ itemRef) = true then
        (.ok { Description := "OK".toList,
               schema := some { type := ["array".toList], ref := none,
                                items := some { type := [],
                                                ref := some ("#/definitions/".toList ++ itemRef) },
                                additionalProperties := none } }, st)
      else
        (.error (.wrap "error building ref".toList
          (.newRef ("#/definitions/".toList ++ itemRef))), st) := by
  unfold buildResponse NewRef
  rw [if_neg (by decide), if_neg (by decide), if_pos rfl, if_neg h]
  by_cases hok : env.newRefOk ("#/definitions/".toList ++ itemRef) = true
  · simp only [hok, if_true]
  · simp only [hok, if_false, Bool.false_eq_true]

theorem buildResponse_object (env : Env) (itemRef : Str) (st : State) (h : itemRef ≠ []) :
    buildResponse env "object".toList itemRef st =
      if env.newRefOk ("#/definitions/".toList ++ itemRef) = true then
        (.ok { Description := "OK".toList,
               schema := some { type := [], ref := some ("#/definitions/".toList ++ itemRef),
                                items := none, additionalProperties := none } },
          if (mapLookup st.spec.definitions itemRef).isSome then st
          else st.setDefinition itemRef emptyDefinition)
      else
        (.error (.wrap "error building ref".toList
          (.newRef ("#/definitions/".toList ++ itemRef))),
          if (mapLookup st.spec.definitions itemRef).isSome then st
          else st.setDefinition itemRef emptyDefinition) := by
  unfold buildResponse NewRef
  rw [if_neg (by decide), if_neg (by decide), if_neg (by decide), if_neg (by decide),
    if_pos rfl, if_neg h]
  by_cases hok : env.newRefOk ("#/definitions/".toList ++ itemRef) = true
  · simp only [hok, if_true]
  · simp only [hok, if_false, Bool.false_eq_true]

/-- C13, as amended. `buildResponse` gives, with the description `OK`: for void
a response with no schema; for string, integer, boolean and number a bare schema
of that type; for array with an empty reference an array of plain strings; for
map an object schema with additional properties allowed. For array and for
object with a non-empty reference it gives an array whose items reference, or a
schema that references, the definition named by the reference when
`swagger.NewRef` accepts that reference, and an error when it does not. The
document and the memo are left as they were, except that for object with a
non-empty reference the empty definition is registered under the reference when
no definition is there; a definition that is there is never altered. -/
theorem C13_response (env : Env) (kind itemRef : Str) (st : State) :
    (kind = "void".toList →
      buildResponse env kind itemRef st =
        (.ok { Description := "OK".toList, schema := none }, st)) ∧
    (kind = "string".toList ∨ kind = "integer".toList ∨ kind = "boolean".toList ∨
        kind = "number".toList →
      buildResponse env kind itemRef st =
        (.ok { Description := "OK".toList,
               schema := some { type := [kind], ref := none, items := none,
                                additionalProperties := none } }, st)) ∧
    (kind = "array".toList → itemRef = [] →
      buildResponse env kind itemRef st =
        (.ok { Description := "OK".toList,
               schema := some { type := ["array".toList], ref := none,
                                items := some { type := ["string".toList], ref := none },
                                additionalProperties := none } }, st)) ∧
    (kind = "array".toList → itemRef ≠ [] →
      (buildResponse env kind itemRef st).2 = st ∧
      (env.newRefOk ("#/definitions/".toList ++ itemRef) = true →
        (buildResponse env kind itemRef st).1 =
          .ok { Description := "OK".toList,
                schema := some { type := ["array".toList], ref := none,
                                 items := some { type := [],
                                                 ref := some ("#/definitions/".toList ++ itemRef) },
                                 additionalProperties := none } }) ∧
      (env.newRefOk ("#/definitions/".toList ++ itemRef) = false →
        ∃ e, (buildResponse env kind itemRef st).1 = .error e)) ∧
    (kind = "map".toList →
      buildResponse env kind itemRef st =
        (.ok { Description := "OK".toList,
               schema := some { type := ["object".toList], ref := none, items := none,
                                additionalProperties :=
                                  some (true, { type := [itemRef], ref := none }) } }, st)) ∧
    (kind = "object".toList → itemRef ≠ [] →
      (env.newRefOk ("#/definitions/".toList ++ itemRef) = true →
        (buildResponse env kind itemRef st).1 =
          .ok { Description := "OK".toList,
                schema := some { type := [], ref := some ("#/definitions/".toList ++ itemRef),
                                 items := none, additionalProperties := none } }) ∧
      (env.newRefOk ("#/definitions/".toList ++ itemRef) = false →
        ∃ e, (buildResponse env kind itemRef st).1 = .error e) ∧
      (buildResponse env kind itemRef st).2.parsedTypes = st.parsedTypes ∧
      (buildResponse env kind itemRef st).2.spec.paths = st.spec.paths ∧
      (∀ k d, mapLookup st.spec.definitions k = some d →
        mapLookup (buildResponse env kind itemRef st).2.spec.definitions k = some d) ∧
      (∀ k, k ≠ itemRef →
        mapLookup (buildResponse env kind itemRef st).2.spec.definitions k =
          mapLookup st.spec.definitions k) ∧
      (mapLookup st.spec.definitions itemRef = none →
        mapLookup (buildResponse env kind itemRef st).2.spec.definitions itemRef =
          some emptyDefinition) ∧
      ((mapLookup st.spec.definitions itemRef).isSome = true →
        (buildResponse env kind itemRef st).2 = st)) := by
  refine ⟨?_, ?_, ?_, ?_, ?_, ?_⟩
  · rintro rfl
    unfold buildResponse
    rw [if_pos rfl]
  · intro h
    have hv : kind ≠ "void".toList := by
      rcases h with rfl | rfl | rfl | rfl <;> decide
    unfold buildResponse
    rw [if_neg hv, if_pos h]
  · rintro rfl rfl
    unfold buildResponse
    rw [if_neg (by decide), if_neg (by decide), if_pos rfl, if_pos rfl]
  · rintro rfl hne
    rw [buildResponse_array env itemRef st hne]
    by_cases hok : env.newRefOk ("#/definitions/".toList ++ itemRef) = true
    · rw [if_pos hok]
      exact ⟨rfl, fun _ => rfl, fun hf => absurd hok (by rw [hf]; decide)⟩
    · rw [if_neg hok]
      exact ⟨rfl, fun ht => absurd ht hok, fun _ => ⟨_, rfl⟩⟩
  · rintro rfl
    unfold buildResponse
    rw [if_neg (by decide), if_neg (by decide), if_neg (by decide), if_pos rfl]
  · rintro rfl hne
    rw [buildResponse_object env itemRef st hne]
    have hst : ∀ r1 r2 : Except Err Response,
        (if env.newRefOk ("#/definitions/".toList ++ itemRef) = true then
          ((r1, if (mapLookup st.spec.definitions itemRef).isSome then st
            else st.setDefinition itemRef emptyDefinition) : Except Err Response × State)
        else (r2, if (mapLookup st.spec.definitions itemRef).isSome then st
            else st.setDefinition itemRef emptyDefinition)).2 =
          if (mapLookup st.spec.definitions itemRef).isSome then st
            else st.setDefinition itemRef emptyDefinition := by
      intro r1 r2; split <;> rfl
    rw [hst]
    refine ⟨fun hok => by rw [if_pos hok], fun hf => ⟨_, by rw [if_neg (by rw [hf]; decide)]⟩,
      ?_, ?_, ?_, ?_, ?_, ?_⟩
    · split <;> rfl
    · split <;> rfl
    · intro k d hk
      split
      · exact hk
      · rename_i hnone
        have hkne : k ≠ itemRef := by
          rintro rfl
          rw [hk] at hnone
          exact hnone rfl
        simp only [State.setDefinition]
        rw [mapLookup_insert_ne _ _ _ _ hkne]
        exact hk
    · intro k hkne
      split
      · rfl
      · simp only [State.setDefinition]
        rw [mapLookup_insert_ne _ _ _ _ hkne]
    · intro hnone
      rw [hnone]
      simp only [Option.isSome_none, Bool.false_eq_true, if_false, State.setDefinition,
        mapLookup_insert_self]
    · intro hsome
      rw [if_pos hsome]

/-- C13 at an array and at an object whose reference is a class name the
document does not know yet. -/
theorem C13_response_witness :
    buildResponse exampleEnv "array".toList "Item".toList emptyState =
      (.ok { Description := "OK".toList,
             schema := some { type := ["array".toList], ref := none,
                              items := some { type := [],
                                              ref := some "#/definitions/Item".toList },
                              additionalProperties := none } }, emptyState) ∧
    buildResponse exampleEnv "object".toList "Item".toList emptyState =
      (.ok { Description := "OK".toList,
             schema := some { type := [], ref := some "#/definitions/Item".toList,
                              items := none, additionalProperties := none } },
        { spec := { paths := [], definitions := [("Item".toList, emptyDefinition)] },
          parsedTypes := [] }) ∧
    buildResponse exampleEnv "object".toList "Item".toList itemState =
      (.ok { Description := "OK".toList,
             schema := some { type := [], ref := some "#/definitions/Item".toList,
                              items := none, additionalProperties := none } }, itemState) ∧
    buildResponse exampleEnv "void".toList [] emptyState =
      (.ok { Description := "OK".toList, schema := none }, emptyState) :=
  ⟨by decide, by decide, by decide,
    (C13_response exampleEnv "void".toList [] emptyState).1 rfl⟩

/-- C13 fails as stated: for an array and for an object whose reference holds a
malformed percent escape, `buildResponse` gives an error and no response; for
the object it has registered the empty definition all the same. -/
theorem C13_counterexample :
    (buildResponse exampleEnv "array".toList "%zz".toList emptyState).1 =
      .error (.wrap "error building ref".toList (.newRef "#/definitions/%zz".toList)) ∧
    buildResponse exampleEnv "object".toList "%zz".toList emptyState =
      (.error (.wrap "error building ref".toList (.newRef "#/definitions/%zz".toList)),
        { spec := { paths := [], definitions := [("%zz".toList, emptyDefinition)] },
          parsedTypes := [] }) :=
  ⟨by decide, by decide⟩

/-! ## The endpoint assembler -/

theorem ExtractAPIEndpoints_foldl (methods : List SmaliMethod) (apis : List APIEndpoint) :
    methods.foldl (fun apis m =>
      if m.HTTPVerb ≠ [] ∧ m.HTTPPath ≠ [] then
        apis ++ [{ Path := m.HTTPPath, Method := m.HTTPVerb, MethodName := m.Name,
                   ReturnType := m.ReturnType, Params := m.Params,
                   ReturnSignature := m.ReturnSignature }]
      else apis) apis =
    apis ++ (methods.filter (fun m => decide (m.HTTPVerb ≠ [] ∧ m.HTTPPath ≠ []))).map
      (fun m => ({ Path := m.HTTPPath, Method := m.HTTPVerb, MethodName := m.Name,
                   ReturnType := m.ReturnType, Params := m.Params,
                   ReturnSignature := m.ReturnSignature } : APIEndpoint)) := by
  induction methods generalizing apis with
  | nil => simp
  | cons m ms ih =>
    rw [List.foldl_cons, ih]
    by_cases h : m.HTTPVerb ≠ [] ∧ m.HTTPPath ≠ []
    · rw [if_pos h, List.filter_cons_of_pos (by simpa using h)]
      simp
    · rw [if_neg h, List.filter_cons_of_neg (by simpa using h)]

/-- C15. The endpoint list assembled from a sequence of method records is the
records whose HTTP verb and literal path are both non-empty, in their original
order, each turned into the endpoint that copies its path, verb, name, return
descriptor, parameter records and return signature; so every endpoint of the
list has a non-empty verb and a non-empty path. -/
theorem C15_endpoint_assembly (methods : List SmaliMethod) :
    ExtractAPIEndpoints methods =
      (methods.filter (fun m => decide (m.HTTPVerb ≠ [] ∧ m.HTTPPath ≠ []))).map
        (fun m => ({ Path := m.HTTPPath, Method := m.HTTPVerb, MethodName := m.Name,
                     ReturnType := m.ReturnType, Params := m.Params,
                     ReturnSignature := m.ReturnSignature } : APIEndpoint)) ∧
    (∀ e ∈ ExtractAPIEndpoints methods, e.Method ≠ [] ∧ e.Path ≠ []) := by
  have h := ExtractAPIEndpoints_foldl methods []
  rw [List.nil_append] at h
  refine ⟨h, ?_⟩
  intro e he
  unfold ExtractAPIEndpoints at he
  rw [h] at he
  obtain ⟨m, hm, rfl⟩ := List.mem_map.1 he
  simpa using (List.mem_filter.1 hm).2

/-! ## Parameters -/

theorem fuelFor_mono (env : Env) (n m : Nat) (st st1 : State) (hnm : n ≤ m)
    (hsub : st.parsedTypes ⊆ st1.parsedTypes) : fuelFor env n st1 ≤ fuelFor env m st := by
  unfold fuelFor
  have := unvisited_anti env _ _ hsub
  have := Nat.mul_le_mul_right (maxFieldLen env + 2) this
  omega

theorem fuelBound_le_fuelFor (env : Env) (sig : Str) (n : Nat) (st : State)
    (h : sig.length ≤ n) : fuelBound env sig st ≤ fuelFor env n st := by
  unfold fuelBound fuelFor
  omega

/-- Resolving a descriptor of at most `n` characters returns, with the same
outcome for every amount of fuel from `fuelFor env n st` on; the memo only
grows and the paths are left as they were. -/
theorem interp_total_for (env : Env) (n : Nat) (sig : Str) (st : State) (h : sig.length ≤ n) :
    ∃ res st1, (∀ fuel, fuelFor env n st ≤ fuel →
        interpretTypeAndBuildDefinition env fuel sig st = some (res, st1)) ∧
      st.parsedTypes ⊆ st1.parsedTypes ∧ st1.spec.paths = st.spec.paths := by
  obtain ⟨⟨res, st1⟩, hr, hsub⟩ :=
    interp_terminates env _ sig st (le_refl (fuelBound env sig st))
  refine ⟨res, st1, fun fuel hf => interp_mono env _ fuel
    (le_trans (fuelBound_le_fuelFor env sig n st h) hf) sig st _ hr, hsub, ?_⟩
  exact Run_paths env _ _ _ _ (interp_run env _ sig st res st1 hr)

theorem paramStep_path (env : Env) (fuel : Nat) (mu : Str) (p : SmaliParam)
    (acc : List Parameter) (st : State) (h1 : p.PathVar ≠ []) (h2 : p.QueryVar = []) :
    paramStep env fuel mu p acc st =
      some (acc ++ [pathParameter p.PathVar (smaliTypeToSwaggerType p.TypeSig)], st) := by
  unfold paramStep
  simp only [h1, h2, ne_eq, not_false_eq_true, not_true_eq_false, if_true, if_false,
    false_and, and_false]
  rfl

theorem paramStep_query (env : Env) (fuel : Nat) (mu : Str) (p : SmaliParam)
    (acc : List Parameter) (st : State) (h1 : p.PathVar = []) (h2 : p.QueryVar ≠ []) :
    paramStep env fuel mu p acc st =
      some (acc ++ [queryParameter p.QueryVar (smaliTypeToSwaggerType p.TypeSig)], st) := by
  unfold paramStep
  simp only [h1, h2, ne_eq, not_false_eq_true, not_true_eq_false, if_true, if_false,
    false_and, and_false]
  rfl

theorem paramStep_both (env : Env) (fuel : Nat) (mu : Str) (p : SmaliParam)
    (acc : List Parameter) (st : State) (h1 : p.PathVar ≠ []) (h2 : p.QueryVar ≠ []) :
    paramStep env fuel mu p acc st =
      some (acc ++ [pathParameter p.PathVar (smaliTypeToSwaggerType p.TypeSig)] ++
        [queryParameter p.QueryVar (smaliTypeToSwaggerType p.TypeSig)], st) := by
  unfold paramStep
  simp only [h1, h2, ne_eq, not_false_eq_true, not_true_eq_false, if_true, if_false,
    false_and, and_false]
  rfl

theorem paramStep_skip (env : Env) (fuel : Nat) (mu : Str) (p : SmaliParam)
    (acc : List Parameter) (st : State) (h1 : p.PathVar = []) (h2 : p.QueryVar = [])
    (hm : ¬ (mu = "POST".toList ∨ mu = "PUT".toList)) :
    paramStep env fuel mu p acc st = some (acc, st) := by
  unfold paramStep
  simp only [h1, h2, ne_eq, not_true_eq_false, if_false, and_self, if_true]
  rw [if_neg hm]

theorem paramStep_register (env : Env) (fuel : Nat) (mu : Str) (p : SmaliParam)
    (acc : List Parameter) (st : State) (h1 : p.PathVar = []) (h2 : p.QueryVar = [])
    (hm : mu = "POST".toList ∨ mu = "PUT".toList) (ho : isObjectType p.TypeSig = false) :
    paramStep env fuel mu p acc st =
      some (acc ++ [queryParameter p.Register (smaliTypeToSwaggerType p.TypeSig)], st) := by
  unfold paramStep
  simp only [h1, h2, ne_eq, not_true_eq_false, if_false, and_self, if_true]
  rw [if_pos hm, ho]
  rfl

theorem buildPropertySchema_object_nil (env : Env) :
    buildPropertySchema env "object".toList [] = .ok objectSchema := by
  unfold buildPropertySchema
  rw [if_neg (by decide), if_neg (by decide), if_neg (by decide), if_pos rfl, if_pos rfl]
  rfl

theorem paramStep_body (env : Env) (fuel : Nat) (mu : Str) (p : SmaliParam)
    (acc : List Parameter) (st : State) (h1 : p.PathVar = []) (h2 : p.QueryVar = [])
    (hm : mu = "POST".toList ∨ mu = "PUT".toList) (ho : isObjectType p.TypeSig = true) :
    paramStep env fuel mu p acc st =
      match interpretTypeAndBuildDefinition env fuel p.TypeSig st with
      | none => none
      | some (res, st1) => some (acc ++ [bodyParameter (bodySchemaOf env res)], st1) := by
  unfold paramStep
  simp only [h1, h2, ne_eq, not_true_eq_false, if_false, and_self, if_true]
  rw [if_pos hm, ho]
  simp only [if_true]
  cases hi : interpretTypeAndBuildDefinition env fuel p.TypeSig st with
  | none => rfl
  | some r =>
    obtain ⟨res, st1⟩ := r
    cases res with
    | error e =>
      simp only [bodySchemaOf, buildParamSchema, buildPropertySchema_object_nil]
      rfl
    | ok kr =>
      obtain ⟨k, i⟩ := kr
      simp only [bodySchemaOf, buildParamSchema]
      cases buildPropertySchema env k i <;> rfl

theorem paramStep_acc (env : Env) (fuel : Nat) (mu : Str) (p : SmaliParam)
    (acc : List Parameter) (st : State) :
    paramStep env fuel mu p acc st =
      (paramStep env fuel mu p [] st).map (fun r => (acc ++ r.1, r.2)) := by
  by_cases h1 : p.PathVar = [] <;> by_cases h2 : p.QueryVar = []
  · by_cases hm : mu = "POST".toList ∨ mu = "PUT".toList
    · cases ho : isObjectType p.TypeSig with
      | false =>
        rw [paramStep_register env fuel mu p acc st h1 h2 hm ho,
          paramStep_register env fuel mu p [] st h1 h2 hm ho]
        rfl
      | true =>
        rw [paramStep_body env fuel mu p acc st h1 h2 hm ho,
          paramStep_body env fuel mu p [] st h1 h2 hm ho]
        cases interpretTypeAndBuildDefinition env fuel p.TypeSig st with
        | none => rfl
        | some r => rfl
    · rw [paramStep_skip env fuel mu p acc st h1 h2 hm,
        paramStep_skip env fuel mu p [] st h1 h2 hm]
      simp
  · rw [paramStep_query env fuel mu p acc st h1 h2, paramStep_query env fuel mu p [] st h1 h2]
    rfl
  · rw [paramStep_path env fuel mu p acc st h1 h2, paramStep_path env fuel mu p [] st h1 h2]
    rfl
  · rw [paramStep_both env fuel mu p acc st h1 h2, paramStep_both env fuel mu p [] st h1 h2]
    simp

theorem paramsLoop_acc (env : Env) (fuel : Nat) (mu : Str) (ps : List SmaliParam) :
    ∀ (acc : List Parameter) (st : State),
      paramsLoop env fuel mu ps acc st =
        (paramsLoop env fuel mu ps [] st).map (fun r => (acc ++ r.1, r.2)) := by
  induction ps with
  | nil => intro acc st; simp [paramsLoop]
  | cons p ps ih =>
    intro acc st
    simp only [paramsLoop]
    rw [paramStep_acc env fuel mu p acc st]
    cases paramStep env fuel mu p [] st with
    | none => rfl
    | some r =>
      obtain ⟨x, st1⟩ := r
      simp only [Option.map_some']
      rw [ih (acc ++ x) st1, ih x st1]
      cases paramsLoop env fuel mu ps [] st1 with
      | none => rfl
      | some r2 => simp

theorem paramsLoop_append (env : Env) (fuel : Nat) (mu : Str) (pre post : List SmaliParam) :
    ∀ (acc : List Parameter) (st : State),
      paramsLoop env fuel mu (pre ++ post) acc st =
        match paramsLoop env fuel mu pre acc st with
        | none => none
        | some (acc1, st1) => paramsLoop env fuel mu post acc1 st1 := by
  induction pre with
  | nil => intro acc st; simp [paramsLoop]
  | cons p pre ih =>
    intro acc st
    simp only [List.cons_append, paramsLoop]
    cases paramStep env fuel mu p acc st with
    | none => rfl
    | some r =>
      obtain ⟨x, st1⟩ := r
      exact ih x st1

theorem le_maxTypeSigLen (ps : List SmaliParam) (p : SmaliParam) (h : p ∈ ps) :
    p.TypeSig.length ≤ maxTypeSigLen ps :=
  le_foldr_max _ _ (List.mem_map_of_mem (fun p => p.TypeSig.length) h)

/-- A step of the parameter loop returns, with the same outcome for every amount
of fuel from `fuelFor env n st` on; the memo only grows and the paths are left
as they were. -/
theorem paramStep_total (env : Env) (n : Nat) (mu : Str) (p : SmaliParam)
    (acc : List Parameter) (st : State) (h : p.TypeSig.length ≤ n) :
    ∃ x st1, (∀ fuel, fuelFor env n st ≤ fuel →
        paramStep env fuel mu p acc st = some (x, st1)) ∧
      st.parsedTypes ⊆ st1.parsedTypes ∧ st1.spec.paths = st.spec.paths := by
  by_cases h1 : p.PathVar = [] <;> by_cases h2 : p.QueryVar = []
  · by_cases hm : mu = "POST".toList ∨ mu = "PUT".toList
    · cases ho : isObjectType p.TypeSig with
      | false =>
        exact ⟨_, st, fun fuel _ => paramStep_register env fuel mu p acc st h1 h2 hm ho,
          fun _ hx => hx, rfl⟩
      | true =>
        obtain ⟨res, st1, hres, hsub, hp⟩ := interp_total_for env n p.TypeSig st h
        refine ⟨acc ++ [bodyParameter (bodySchemaOf env res)], st1, fun fuel hf => ?_, hsub, hp⟩
        rw [paramStep_body env fuel mu p acc st h1 h2 hm ho, hres fuel hf]
    · exact ⟨_, st, fun fuel _ => paramStep_skip env fuel mu p acc st h1 h2 hm,
        fun _ hx => hx, rfl⟩
  · exact ⟨_, st, fun fuel _ => paramStep_query env fuel mu p acc st h1 h2, fun _ hx => hx, rfl⟩
  · exact ⟨_, st, fun fuel _ => paramStep_path env fuel mu p acc st h1 h2, fun _ hx => hx, rfl⟩
  · exact ⟨_, st, fun fuel _ => paramStep_both env fuel mu p acc st h1 h2, fun _ hx => hx, rfl⟩

/-- The parameter loop returns, with the same outcome for every amount of fuel
from `fuelFor env n st` on. -/
theorem paramsLoop_total (env : Env) (n : Nat) (mu : Str) (ps : List SmaliParam) :
    ∀ (acc : List Parameter) (st : State), (∀ p ∈ ps, p.TypeSig.length ≤ n) →
      ∃ x st1, (∀ fuel, fuelFor env n st ≤ fuel →
          paramsLoop env fuel mu ps acc st = some (x, st1)) ∧
        st.parsedTypes ⊆ st1.parsedTypes ∧ st1.spec.paths = st.spec.paths := by
  induction ps with
  | nil => intro acc st _; exact ⟨acc, st, fun _ _ => rfl, fun _ hx => hx, rfl⟩
  | cons p ps ih =>
    intro acc st hn
    obtain ⟨x, st1, h1, hsub1, hp1⟩ :=
      paramStep_total env n mu p acc st (hn p (List.mem_cons_self _ _))
    obtain ⟨y, st2, h2, hsub2, hp2⟩ :=
      ih x st1 (fun q hq => hn q (List.mem_cons_of_mem _ hq))
    refine ⟨y, st2, fun fuel hf => ?_, fun _ hx => hsub2 (hsub1 hx), hp2.trans hp1⟩
    simp only [paramsLoop]
    rw [h1 fuel hf]
    exact h2 fuel (le_trans (fuelFor_mono env n n st st1 (le_refl n) hsub1) hf)

theorem paramsLoop_bound (env : Env) (fuel : Nat) (mu : Str) (ps : List SmaliParam)
    (st : State) :
    ∀ (acc : List Parameter),
      (∀ p ∈ ps, (p.PathVar ≠ [] ∧ p.QueryVar = []) ∨ (p.PathVar = [] ∧ p.QueryVar ≠ [])) →
      paramsLoop env fuel mu ps acc st =
        some (acc ++ ps.map (fun p =>
          if p.PathVar ≠ [] then pathParameter p.PathVar (smaliTypeToSwaggerType p.TypeSig)
          else queryParameter p.QueryVar (smaliTypeToSwaggerType p.TypeSig)), st) := by
  induction ps with
  | nil => intro acc _; simp [paramsLoop]
  | cons p ps ih =>
    intro acc hb
    simp only [paramsLoop]
    rcases hb p (List.mem_cons_self _ _) with ⟨h1, h2⟩ | ⟨h1, h2⟩
    · rw [paramStep_path env fuel mu p acc st h1 h2]
      simp only
      rw [ih _ (fun q hq => hb q (List.mem_cons_of_mem _ hq)), List.map_cons, if_pos h1]
      simp
    · rw [paramStep_query env fuel mu p acc st h1 h2]
      simp only
      rw [ih _ (fun q hq => hb q (List.mem_cons_of_mem _ hq)), List.map_cons,
        if_neg (by rw [h1]; exact fun h => h rfl)]
      simp

/-- C16. For every endpoint whose parameter records each carry exactly one
binding: on every path but the one for which `buildSwaggerParams` calls
`runtime.Breakpoint()`, the call returns one parameter per record, in the order
of the records, and leaves the document and the memo as they were; a path-bound
record gives a required parameter located in the path and named by the path
binding, a query-bound record a parameter located in the query, not required
and named by the query binding, each with the type `smaliTypeToSwaggerType`
gives for the descriptor of the record. On that one path the call traps. -/
theorem C16_bound_parameters (env : Env) (fuel : Nat) (e : APIEndpoint) (st : State)
    (hb : ∀ p ∈ e.Params,
      (p.PathVar ≠ [] ∧ p.QueryVar = []) ∨ (p.PathVar = [] ∧ p.QueryVar ≠ [])) :
    buildSwaggerParams env fuel e st =
      if e.Path = breakpointPath then some .trap
      else some (.ret (e.Params.map (fun p =>
        if p.PathVar ≠ [] then
          { Name := p.PathVar, In := "path".toList, Required := true,
            type := smaliTypeToSwaggerType p.TypeSig, schema := none }
        else
          { Name := p.QueryVar, In := "query".toList, Required := false,
            type := smaliTypeToSwaggerType p.TypeSig, schema := none }), st)) := by
  unfold buildSwaggerParams
  by_cases hp : e.Path = breakpointPath
  · simp only [hp, if_true]
  · simp only [hp, if_false]
    rw [paramsLoop_bound env fuel _ e.Params st [] hb]
    rfl

/-- C16 at an endpoint with a path-bound and a query-bound record, and at the
endpoint of the path for which the call traps. -/
theorem C16_bound_parameters_witness :
    buildSwaggerParams exampleEnv 0
        (endpointOf "/items/{id}".toList "GET".toList
          [pathRecord "p1".toList "id".toList, queryRecord "p2".toList "limit".toList] [])
        emptyState =
      some (.ret ([ { Name := "id".toList, In := "path".toList, Required := true,
                      type := "string".toList, schema := none },
                    { Name := "limit".toList, In := "query".toList, Required := false,
                      type := "integer".toList, schema := none } ], emptyState)) ∧
    buildSwaggerParams exampleEnv 0 (historyEndpoint "GET".toList []) emptyState = some .trap :=
  ⟨(C16_bound_parameters exampleEnv 0
      (endpointOf "/items/{id}".toList "GET".toList
        [pathRecord "p1".toList "id".toList, queryRecord "p2".toList "limit".toList] [])
      emptyState (by decide)).trans (by decide),
    by decide⟩

theorem buildSwaggerParams_eq (env : Env) (fuel : Nat) (e : APIEndpoint) (st : State) :
    buildSwaggerParams env fuel e st =
      if e.Path = breakpointPath then some .trap
      else
        match paramsLoop env fuel (ToUpper e.Method) e.Params [] st with
        | none => none
        | some r => some (.ret r) := rfl

/-- The parameter loop around one record: what the records before it give, then
what the step of the record gives, then what the records after it give. -/
theorem paramsLoop_split (env : Env) (fuel : Nat) (mu : Str) (pre post : List SmaliParam)
    (p : SmaliParam) (st st1 st2 st3 : State) (before mid after : List Parameter)
    (h1 : paramsLoop env fuel mu pre [] st = some (before, st1))
    (h2 : paramStep env fuel mu p [] st1 = some (mid, st2))
    (h3 : paramsLoop env fuel mu post [] st2 = some (after, st3)) :
    paramsLoop env fuel mu (pre ++ p :: post) [] st = some (before ++ mid ++ after, st3) := by
  rw [paramsLoop_append, h1]
  simp only [paramsLoop]
  rw [paramStep_acc, h2]
  simp only [Option.map_some']
  rw [paramsLoop_acc, h3]
  rfl

theorem maxTypeSigLen_split (pre post : List SmaliParam) (p : SmaliParam) :
    (∀ q ∈ pre, q.TypeSig.length ≤ maxTypeSigLen (pre ++ p :: post)) ∧
    p.TypeSig.length ≤ maxTypeSigLen (pre ++ p :: post) ∧
    (∀ q ∈ post, q.TypeSig.length ≤ maxTypeSigLen (pre ++ p :: post)) :=
  ⟨fun q hq => le_maxTypeSigLen _ q (List.mem_append_left _ hq),
    le_maxTypeSigLen _ p (List.mem_append_right _ (List.mem_cons_self _ _)),
    fun q hq => le_maxTypeSigLen _ q (List.mem_append_right _ (List.mem_cons_of_mem _ hq))⟩

/-- C17. For every unbound parameter record `p` whose descriptor is not an
object reference, on every path but the one for which `buildSwaggerParams`
calls `runtime.Breakpoint()`: the call returns what the records before `p`
give, then the contribution of `p`, then what the records after `p` give; the
contribution of `p` is nothing when the upper-cased verb is neither POST nor
PUT, and exactly one parameter located in the query, not required, named by the
register of `p`, with the type `smaliTypeToSwaggerType` gives for its
descriptor, when the upper-cased verb is POST or PUT. The record leaves the
document and the memo as they were. On that one path the call traps. -/
theorem C17_unbound_scalar (env : Env) (e : APIEndpoint) (st : State)
    (pre post : List SmaliParam) (p : SmaliParam)
    (hps : e.Params = pre ++ p :: post)
    (h1 : p.PathVar = []) (h2 : p.QueryVar = [])
    (ho : isObjectType p.TypeSig = false) :
    ∃ before st1 after st2,
      ∀ fuel, fuelFor env (maxTypeSigLen e.Params) st ≤ fuel →
        paramsLoop env fuel (ToUpper e.Method) pre [] st = some (before, st1) ∧
        paramsLoop env fuel (ToUpper e.Method) post [] st1 = some (after, st2) ∧
        buildSwaggerParams env fuel e st =
          if e.Path = breakpointPath then some .trap
          else some (.ret (before ++
            (if ToUpper e.Method = "POST".toList ∨ ToUpper e.Method = "PUT".toList then
              [{ Name := p.Register, In := "query".toList, Required := false,
                 type := smaliTypeToSwaggerType p.TypeSig, schema := none }]
            else []) ++ after, st2)) := by
  obtain ⟨hpre, -, hpost⟩ := maxTypeSigLen_split pre post p
  rw [← hps] at hpre hpost
  obtain ⟨before, st1, hb, hsub1, -⟩ :=
    paramsLoop_total env (maxTypeSigLen e.Params) (ToUpper e.Method) pre [] st hpre
  obtain ⟨after, st2, ha, -, -⟩ :=
    paramsLoop_total env (maxTypeSigLen e.Params) (ToUpper e.Method) post [] st1 hpost
  refine ⟨before, st1, after, st2, fun fuel hf => ?_⟩
  have hf1 : fuelFor env (maxTypeSigLen e.Params) st1 ≤ fuel :=
    le_trans (fuelFor_mono env _ _ st st1 (le_refl _) hsub1) hf
  refine ⟨hb fuel hf, ha fuel hf1, ?_⟩
  rw [buildSwaggerParams_eq]
  by_cases hp : e.Path = breakpointPath
  · rw [if_pos hp, if_pos hp]
  · rw [if_neg hp, if_neg hp, hps]
    by_cases hm : ToUpper e.Method = "POST".toList ∨ ToUpper e.Method = "PUT".toList
    · rw [paramsLoop_split env fuel _ pre post p st st1 st1 st2 before _ after (hb fuel hf)
        (paramStep_register env fuel _ p [] st1 h1 h2 hm ho) (ha fuel hf1), if_pos hm]
      rfl
    · rw [paramsLoop_split env fuel _ pre post p st st1 st1 st2 before _ after (hb fuel hf)
        (paramStep_skip env fuel _ p [] st1 h1 h2 hm) (ha fuel hf1), if_neg hm]

/-- C17 at an unbound `int` record after a path-bound record: nothing on GET,
one query parameter named by the register on POST (in any letter case); and on
the path for which the call traps. -/
theorem C17_unbound_scalar_witness :
    (∃ before st1 after st2,
      ∀ fuel, fuelFor exampleEnv
          (maxTypeSigLen (endpointOf "/items/{id}".toList "post".toList
            [pathRecord "p1".toList "id".toList, unboundRecord "p2".toList "I".toList] []).Params)
          emptyState ≤ fuel →
        paramsLoop exampleEnv fuel (ToUpper "post".toList) [pathRecord "p1".toList "id".toList]
          [] emptyState = some (before, st1) ∧
        paramsLoop exampleEnv fuel (ToUpper "post".toList) [] [] st1 = some (after, st2) ∧
        buildSwaggerParams exampleEnv fuel
            (endpointOf "/items/{id}".toList "post".toList
              [pathRecord "p1".toList "id".toList, unboundRecord "p2".toList "I".toList] [])
            emptyState =
          if "/items/{id}".toList = breakpointPath then some .trap
          else some (.ret (before ++
            (if ToUpper "post".toList = "POST".toList ∨ ToUpper "post".toList = "PUT".toList then
              [{ Name := "p2".toList, In := "query".toList, Required := false,
                 type := smaliTypeToSwaggerType "I".toList, schema := none }]
            else []) ++ after, st2))) ∧
    buildSwaggerParams exampleEnv 0
        (endpointOf "/items/{id}".toList "post".toList
          [pathRecord "p1".toList "id".toList, unboundRecord "p2".toList "I".toList] [])
        emptyState =
      some (.ret ([pathParameter "id".toList "string".toList,
                   queryParameter "p2".toList "integer".toList], emptyState)) ∧
    buildSwaggerParams exampleEnv 0
        (endpointOf "/items/{id}".toList "GET".toList
          [pathRecord "p1".toList "id".toList, unboundRecord "p2".toList "I".toList] [])
        emptyState =
      some (.ret ([pathParameter "id".toList "string".toList], emptyState)) ∧
    buildSwaggerParams exampleEnv 0
        (historyEndpoint "POST".toList [unboundRecord "p3".toList "I".toList]) emptyState =
      some .trap :=
  ⟨C17_unbound_scalar exampleEnv
      (endpointOf "/items/{id}".toList "post".toList
        [pathRecord "p1".toList "id".toList, unboundRecord "p2".toList "I".toList] [])
      emptyState [pathRecord "p1".toList "id".toList] [] (unboundRecord "p2".toList "I".toList)
      rfl rfl rfl (by decide),
    by decide, by decide, by decide⟩

theorem isObjectType_of_shape (sig : Str) (hL : HasPrefix sig "L".toList = true)
    (hS : HasSuffix sig ";".toList = true) : isObjectType sig = true := by
  unfold isObjectType
  simp only [TrimSpace_object sig hL hS, hL, hS, Bool.and_self]

/-- C18, as amended. For every unbound parameter record `p` whose descriptor
begins with `L` and ends with `;`, on an endpoint whose upper-cased verb is POST
or PUT and whose path is not the one for which `buildSwaggerParams` calls
`runtime.Breakpoint()`: the call returns what the records before `p` give, then
exactly one parameter for `p`, then what the records after `p` give. The
descriptor of `p` is resolved by the Type Resolver in the state the records
before it leave, and the records after it start from the state the resolution
leaves. The parameter is located in the body, named `body` and required; its
schema is `buildPropertySchema` of the resolved (Kind, reference) when the
resolution and `buildPropertySchema` both succeed, and the plain object schema
when either fails. -/
theorem C18_body_parameter (env : Env) (e : APIEndpoint) (st : State)
    (pre post : List SmaliParam) (p : SmaliParam)
    (hps : e.Params = pre ++ p :: post)
    (hpath : e.Path ≠ breakpointPath)
    (hm : ToUpper e.Method = "POST".toList ∨ ToUpper e.Method = "PUT".toList)
    (h1 : p.PathVar = []) (h2 : p.QueryVar = [])
    (hL : HasPrefix p.TypeSig "L".toList = true) (hS : HasSuffix p.TypeSig ";".toList = true) :
    ∃ before st1 res st2 after st3 schema,
      (∀ fuel, fuelFor env (maxTypeSigLen e.Params) st ≤ fuel →
        paramsLoop env fuel (ToUpper e.Method) pre [] st = some (before, st1) ∧
        interpretTypeAndBuildDefinition env fuel p.TypeSig st1 = some (res, st2) ∧
        paramsLoop env fuel (ToUpper e.Method) post [] st2 = some (after, st3) ∧
        buildSwaggerParams env fuel e st =
          some (.ret (before ++
            [{ Name := "body".toList, In := "body".toList, Required := true, type := [],
               schema := some schema }] ++ after, st3))) ∧
      (∀ kind itemRef b, res = .ok (kind, itemRef) →
        buildPropertySchema env kind itemRef = .ok b → schema = b) ∧
      (∀ kind itemRef err, res = .ok (kind, itemRef) →
        buildPropertySchema env kind itemRef = .error err →
        schema = { type := ["object".toList], ref := none, items := none,
                   additionalProperties := none }) ∧
      (∀ err, res = .error err →
        schema = { type := ["object".toList], ref := none, items := none,
                   additionalProperties := none }) := by
  obtain ⟨hpre, hp, hpost⟩ := maxTypeSigLen_split pre post p
  rw [← hps] at hpre hp hpost
  obtain ⟨before, st1, hb, hsub1, -⟩ :=
    paramsLoop_total env (maxTypeSigLen e.Params) (ToUpper e.Method) pre [] st hpre
  obtain ⟨res, st2, hr, hsub2, -⟩ :=
    interp_total_for env (maxTypeSigLen e.Params) p.TypeSig st1 hp
  obtain ⟨after, st3, ha, -, -⟩ :=
    paramsLoop_total env (maxTypeSigLen e.Params) (ToUpper e.Method) post [] st2 hpost
  refine ⟨before, st1, res, st2, after, st3, bodySchemaOf env res, fun fuel hf => ?_, ?_, ?_, ?_⟩
  · have hf1 : fuelFor env (maxTypeSigLen e.Params) st1 ≤ fuel :=
      le_trans (fuelFor_mono env _ _ st st1 (le_refl _) hsub1) hf
    have hf2 : fuelFor env (maxTypeSigLen e.Params) st2 ≤ fuel :=
      le_trans (fuelFor_mono env _ _ st1 st2 (le_refl _) hsub2) hf1
    refine ⟨hb fuel hf, hr fuel hf1, ha fuel hf2, ?_⟩
    have hstep : paramStep env fuel (ToUpper e.Method) p [] st1 =
        some ([bodyParameter (bodySchemaOf env res)], st2) := by
      rw [paramStep_body env fuel _ p [] st1 h1 h2 hm (isObjectType_of_shape _ hL hS),
        hr fuel hf1]
      rfl
    rw [buildSwaggerParams_eq, if_neg hpath, hps,
      paramsLoop_split env fuel _ pre post p st st1 st2 st3 before _ after (hb fuel hf) hstep
        (ha fuel hf2)]
    rfl
  · rintro kind itemRef b rfl hb2
    simp only [bodySchemaOf, hb2]
  · rintro kind itemRef err rfl hb2
    simp only [bodySchemaOf, hb2]
    rfl
  · rintro err rfl
    rfl

/-- C18 at an unbound record of an indexed class on a POST endpoint: the class
is resolved, its definition is registered, and the body parameter refers to
it. -/
theorem C18_body_parameter_witness :
    (∃ before st1 res st2 after st3 schema,
      (∀ fuel, fuelFor exampleEnv
          (maxTypeSigLen (endpointOf "/items".toList "POST".toList
            [unboundRecord "p1".toList "La/Item;".toList] []).Params) emptyState ≤ fuel →
        paramsLoop exampleEnv fuel (ToUpper "POST".toList) [] [] emptyState
          = some (before, st1) ∧
        interpretTypeAndBuildDefinition exampleEnv fuel "La/Item;".toList st1
          = some (res, st2) ∧
        paramsLoop exampleEnv fuel (ToUpper "POST".toList) [] [] st2 = some (after, st3) ∧
        buildSwaggerParams exampleEnv fuel
            (endpointOf "/items".toList "POST".toList
              [unboundRecord "p1".toList "La/Item;".toList] []) emptyState =
          some (.ret (before ++
            [{ Name := "body".toList, In := "body".toList, Required := true, type := [],
               schema := some schema }] ++ after, st3))) ∧
      (∀ kind itemRef b, res = .ok (kind, itemRef) →
        buildPropertySchema exampleEnv kind itemRef = .ok b → schema = b) ∧
      (∀ kind itemRef err, res = .ok (kind, itemRef) →
        buildPropertySchema exampleEnv kind itemRef = .error err →
        schema = { type := ["object".toList], ref := none, items := none,
                   additionalProperties := none }) ∧
      (∀ err, res = .error err →
        schema = { type := ["object".toList], ref := none, items := none,
                   additionalProperties := none })) ∧
    buildSwaggerParams exampleEnv 2
        (endpointOf "/items".toList "POST".toList
          [unboundRecord "p1".toList "La/Item;".toList] []) emptyState =
      some (.ret ([bodyParameter (refSchema "Item".toList)], itemState)) :=
  ⟨C18_body_parameter exampleEnv
      (endpointOf "/items".toList "POST".toList [unboundRecord "p1".toList "La/Item;".toList] [])
      emptyState [] [] (unboundRecord "p1".toList "La/Item;".toList)
      rfl (by decide) (by decide) rfl rfl (by decide) (by decide),
    by decide⟩

/-- C18 fails as stated. (a) The descriptor `La/%zz;` resolves to
`(object, %zz)`, `buildPropertySchema` of that is an error, and the body
parameter gets the plain object schema. (b) The descriptor `La/Foo;` of a class
with a field whose reference cannot be built does not resolve at all, and the
body parameter gets the plain object schema. -/
theorem C18_counterexample :
    ((interpretTypeAndBuildDefinition exampleEnv 2 "La/%zz;".toList emptyState).map Prod.fst =
        some (.ok ("object".toList, "%zz".toList)) ∧
      buildPropertySchema exampleEnv "object".toList "%zz".toList =
        .error (.wrap "error building ref".toList (.newRef "#/definitions/%zz".toList)) ∧
      (buildSwaggerParams exampleEnv 2
          (endpointOf "/items".toList "POST".toList
            [unboundRecord "p1".toList "La/%zz;".toList] []) emptyState).map
          (fun x => match x with
            | .ret r => some r.1
            | _ => none) =
        some (some [bodyParameter objectSchema])) ∧
    ((interpretTypeAndBuildDefinition badRefEnv 3 "La/Foo;".toList emptyState).map
          (fun x => match x.1 with
            | .ok _ => true
            | .error _ => false) = some false ∧
      (buildSwaggerParams badRefEnv 3
          (endpointOf "/items".toList "POST".toList
            [unboundRecord "p1".toList "La/Foo;".toList] []) emptyState).map
          (fun x => match x with
            | .ret r => some r.1
            | _ => none) =
        some (some [bodyParameter objectSchema])) :=
  ⟨⟨by decide, by decide, by decide⟩, ⟨by decide, by decide⟩⟩

/-! ## The document builder -/

theorem buildOperation_eq (env : Env) (fuel : Nat) (e : APIEndpoint) (st : State) :
    buildOperation env fuel e st =
      match buildSwaggerParams env fuel e st with
      | none => none
      | some .trap => some .trap
      | some (.err x) => some (.err x)
      | some (.ret (params, st1)) =>
        if e.ReturnSignature ≠ [] then
          match interpretTypeAndBuildDefinition env fuel e.ReturnSignature st1 with
          | none => none
          | some (.error err, _) => some (.err err)
          | some (.ok (kind, itemRef), st2) =>
            match buildResponse env kind itemRef st2 with
            | (.error err, _) => some (.err err)
            | (.ok resp, st3) => some (.ret (operationOf e params resp, st3))
        else some (.ret (operationOf e params defaultResponse, st1)) := by
  unfold buildOperation operationOf
  cases buildSwaggerParams env fuel e st with
  | none => rfl
  | some x =>
    cases x with
    | trap => rfl
    | err x => rfl
    | ret r =>
      obtain ⟨params, st1⟩ := r
      simp only
      by_cases hs : e.ReturnSignature = []
      · simp only [hs, ne_eq, not_true_eq_false, if_false]
        cases hasBody params <;> rfl
      · simp only [hs, ne_eq, not_false_eq_true, if_true]
        cases interpretTypeAndBuildDefinition env fuel e.ReturnSignature st1 with
        | none => rfl
        | some r2 =>
          obtain ⟨res, st2⟩ := r2
          cases res with
          | error err => rfl
          | ok kr =>
            obtain ⟨kind, itemRef⟩ := kr
            simp only
            cases hbr : buildResponse env kind itemRef st2 with
            | mk resp st3 =>
              cases resp with
              | error err => rfl
              | ok resp => cases hasBody params <;> rfl

theorem buildResponse_frame (env : Env) (kind itemRef : Str) (st : State) :
    (buildResponse env kind itemRef st).2.parsedTypes = st.parsedTypes ∧
    (buildResponse env kind itemRef st).2.spec.paths = st.spec.paths := by
  unfold buildResponse
  simp only
  repeat' split
  all_goals exact ⟨rfl, rfl⟩

theorem buildResponse_ok (env : Env) (hok : ∀ u, env.newRefOk u = true) (kind itemRef : Str)
    (st : State) : ∃ resp, (buildResponse env kind itemRef st).1 = .ok resp := by
  unfold buildResponse NewRef
  simp only [hok, if_true]
  repeat' split
  all_goals exact ⟨_, rfl⟩

theorem interp_frame (env : Env) (fuel : Nat) (sig : Str) (st : State) (res : Result)
    (st1 : State) (h : interpretTypeAndBuildDefinition env fuel sig st = some (res, st1)) :
    st.parsedTypes ⊆ st1.parsedTypes ∧ st1.spec.paths = st.spec.paths :=
  ⟨Run_memo_mono env _ _ _ _ (interp_run env fuel sig st res st1 h),
    Run_paths env _ _ _ _ (interp_run env fuel sig st res st1 h)⟩

theorem paramStep_frame (env : Env) (fuel : Nat) (mu : Str) (p : SmaliParam)
    (acc x : List Parameter) (st st1 : State)
    (h : paramStep env fuel mu p acc st = some (x, st1)) :
    st.parsedTypes ⊆ st1.parsedTypes ∧ st1.spec.paths = st.spec.paths := by
  have hsame : ∀ y, some ((y, st) : List Parameter × State) = some (x, st1) →
      st.parsedTypes ⊆ st1.parsedTypes ∧ st1.spec.paths = st.spec.paths := by
    intro y hy
    simp only [Option.some.injEq, Prod.mk.injEq] at hy
    rw [← hy.2]
    exact ⟨fun _ hx => hx, rfl⟩
  by_cases h1 : p.PathVar = [] <;> by_cases h2 : p.QueryVar = []
  · by_cases hm : mu = "POST".toList ∨ mu = "PUT".toList
    · cases ho : isObjectType p.TypeSig with
      | false =>
        rw [paramStep_register env fuel mu p acc st h1 h2 hm ho] at h
        exact hsame _ h
      | true =>
        rw [paramStep_body env fuel mu p acc st h1 h2 hm ho] at h
        cases hi : interpretTypeAndBuildDefinition env fuel p.TypeSig st with
        | none => rw [hi] at h; exact absurd h (by simp)
        | some r =>
          obtain ⟨res, st2⟩ := r
          rw [hi] at h
          simp only [Option.some.injEq, Prod.mk.injEq] at h
          rw [← h.2]
          exact interp_frame env fuel p.TypeSig st res st2 hi
    · rw [paramStep_skip env fuel mu p acc st h1 h2 hm] at h
      exact hsame _ h
  · rw [paramStep_query env fuel mu p acc st h1 h2] at h; exact hsame _ h
  · rw [paramStep_path env fuel mu p acc st h1 h2] at h; exact hsame _ h
  · rw [paramStep_both env fuel mu p acc st h1 h2] at h; exact hsame _ h

theorem paramsLoop_frame (env : Env) (fuel : Nat) (mu : Str) (ps : List SmaliParam) :
    ∀ (acc x : List Parameter) (st st1 : State),
      paramsLoop env fuel mu ps acc st = some (x, st1) →
      st.parsedTypes ⊆ st1.parsedTypes ∧ st1.spec.paths = st.spec.paths := by
  induction ps with
  | nil =>
    intro acc x st st1 h
    simp only [paramsLoop, Option.some.injEq, Prod.mk.injEq] at h
    rw [← h.2]
    exact ⟨fun _ hx => hx, rfl⟩
  | cons p ps ih =>
    intro acc x st st1 h
    simp only [paramsLoop] at h
    cases hs : paramStep env fuel mu p acc st with
    | none => rw [hs] at h; exact absurd h (by simp)
    | some r =>
      obtain ⟨y, st2⟩ := r
      rw [hs] at h
      obtain ⟨a1, a2⟩ := paramStep_frame env fuel mu p acc y st st2 hs
      obtain ⟨b1, b2⟩ := ih y x st2 st1 h
      exact ⟨fun _ hx => b1 (a1 hx), b2.trans a2⟩

theorem buildSwaggerParams_frame (env : Env) (fuel : Nat) (e : APIEndpoint) (st st1 : State)
    (params : List Parameter)
    (h : buildSwaggerParams env fuel e st = some (.ret (params, st1))) :
    e.Path ≠ breakpointPath ∧ st.parsedTypes ⊆ st1.parsedTypes ∧
      st1.spec.paths = st.spec.paths := by
  rw [buildSwaggerParams_eq] at h
  by_cases hp : e.Path = breakpointPath
  · rw [if_pos hp] at h; exact absurd h (by simp)
  · rw [if_neg hp] at h
    refine ⟨hp, ?_⟩
    cases hl : paramsLoop env fuel (ToUpper e.Method) e.Params [] st with
    | none => rw [hl] at h; exact absurd h (by simp)
    | some r =>
      obtain ⟨x, st2⟩ := r
      rw [hl] at h
      simp only [Option.some.injEq, Exit.ret.injEq, Prod.mk.injEq] at h
      rw [← h.2]
      exact paramsLoop_frame env fuel _ e.Params [] x st st2 hl

/-- What a returned operation is made of. -/
theorem buildOperation_ret (env : Env) (fuel : Nat) (e : APIEndpoint) (st st3 : State)
    (op : Operation) (h : buildOperation env fuel e st = some (.ret (op, st3))) :
    ∃ params st1, buildSwaggerParams env fuel e st = some (.ret (params, st1)) ∧
      ((e.ReturnSignature = [] ∧ op = operationOf e params defaultResponse ∧ st3 = st1) ∨
       (e.ReturnSignature ≠ [] ∧ ∃ kind itemRef st2 resp,
          interpretTypeAndBuildDefinition env fuel e.ReturnSignature st1 =
            some (.ok (kind, itemRef), st2) ∧
          buildResponse env kind itemRef st2 = (.ok resp, st3) ∧
          op = operationOf e params resp)) := by
  rw [buildOperation_eq] at h
  cases hb : buildSwaggerParams env fuel e st with
  | none => rw [hb] at h; exact absurd h (by simp)
  | some x =>
    rw [hb] at h
    cases x with
    | trap => exact absurd h (by simp)
    | err x => exact absurd h (by simp)
    | ret r =>
      obtain ⟨params, st1⟩ := r
      refine ⟨params, st1, rfl, ?_⟩
      simp only at h
      by_cases hs : e.ReturnSignature = []
      · rw [if_neg (fun hne => hne hs)] at h
        simp only [Option.some.injEq, Exit.ret.injEq, Prod.mk.injEq] at h
        exact Or.inl ⟨hs, h.1.symm, h.2.symm⟩
      · rw [if_pos hs] at h
        right
        refine ⟨hs, ?_⟩
        cases hi : interpretTypeAndBuildDefinition env fuel e.ReturnSignature st1 with
        | none => rw [hi] at h; exact absurd h (by simp)
        | some r2 =>
          obtain ⟨res, st2⟩ := r2
          rw [hi] at h
          cases res with
          | error err => exact absurd h (by simp)
          | ok kr =>
            obtain ⟨kind, itemRef⟩ := kr
            simp only at h
            cases hbr : buildResponse env kind itemRef st2 with
            | mk resp st4 =>
              rw [hbr] at h
              cases resp with
              | error err => exact absurd h (by simp)
              | ok resp =>
                simp only [Option.some.injEq, Exit.ret.injEq, Prod.mk.injEq] at h
                exact ⟨kind, itemRef, st2, resp, rfl, by rw [hbr, h.2], h.1.symm⟩

theorem buildOperation_frame (env : Env) (fuel : Nat) (e : APIEndpoint) (st st3 : State)
    (op : Operation) (h : buildOperation env fuel e st = some (.ret (op, st3))) :
    e.Path ≠ breakpointPath ∧ st.parsedTypes ⊆ st3.parsedTypes ∧
      st3.spec.paths = st.spec.paths := by
  obtain ⟨params, st1, hb, hcase⟩ := buildOperation_ret env fuel e st st3 op h
  obtain ⟨hp, hsub1, hp1⟩ := buildSwaggerParams_frame env fuel e st st1 params hb
  rcases hcase with ⟨-, -, rfl⟩ | ⟨-, kind, itemRef, st2, resp, hi, hbr, -⟩
  · exact ⟨hp, hsub1, hp1⟩
  · obtain ⟨hsub2, hp2⟩ := interp_frame env fuel _ st1 _ st2 hi
    obtain ⟨hm3, hp3⟩ := buildResponse_frame env kind itemRef st2
    rw [hbr] at hm3 hp3
    refine ⟨hp, ?_, hp3.trans (hp2.trans hp1)⟩
    intro x hx
    rw [hm3]
    exact hsub2 (hsub1 hx)

theorem endpointStep_eq (env : Env) (fuel : Nat) (e : APIEndpoint) (st : State) :
    endpointStep env fuel e st =
      match buildOperation env fuel { e with Path := normalizePath e.Path } st with
      | none => none
      | some .trap => some .trap
      | some (.err x) => some (.err x)
      | some (.ret (op, st1)) =>
        some (.ret (st1.setPath (normalizePath e.Path)
          (routeOperation ((mapLookup st.spec.paths (normalizePath e.Path)).getD emptyPathItem)
            e.Method op))) := by
  rfl

theorem endpointStep_ret (env : Env) (fuel : Nat) (e : APIEndpoint) (st st2 : State)
    (h : endpointStep env fuel e st = some (.ret st2)) :
    ∃ op st1, buildOperation env fuel { e with Path := normalizePath e.Path } st =
        some (.ret (op, st1)) ∧
      st2 = st1.setPath (normalizePath e.Path)
        (routeOperation ((mapLookup st.spec.paths (normalizePath e.Path)).getD emptyPathItem)
          e.Method op) := by
  rw [endpointStep_eq] at h
  cases hb : buildOperation env fuel { e with Path := normalizePath e.Path } st with
  | none => rw [hb] at h; exact absurd h (by simp)
  | some x =>
    rw [hb] at h
    cases x with
    | trap => exact absurd h (by simp)
    | err x => exact absurd h (by simp)
    | ret r =>
      obtain ⟨op, st1⟩ := r
      simp only [Option.some.injEq, Exit.ret.injEq] at h
      exact ⟨op, st1, rfl, h.symm⟩

theorem endpointsLoop_cons_ret (env : Env) (fuel : Nat) (e : APIEndpoint)
    (rest : List APIEndpoint) (st st2 : State)
    (h : endpointsLoop env fuel (e :: rest) st = some (.ret st2)) :
    ∃ st1, endpointStep env fuel e st = some (.ret st1) ∧
      endpointsLoop env fuel rest st1 = some (.ret st2) := by
  simp only [endpointsLoop] at h
  cases hs : endpointStep env fuel e st with
  | none => rw [hs] at h; exact absurd h (by simp)
  | some x =>
    rw [hs] at h
    cases x with
    | trap => exact absurd h (by simp)
    | err x => exact absurd h (by simp)
    | ret st1 => exact ⟨st1, rfl, h⟩

theorem endpointsLoop_cons_of_ret (env : Env) (fuel : Nat) (e : APIEndpoint)
    (rest : List APIEndpoint) (st st1 : State)
    (h : endpointStep env fuel e st = some (.ret st1)) :
    endpointsLoop env fuel (e :: rest) st = endpointsLoop env fuel rest st1 := by
  simp only [endpointsLoop, h]

theorem buildSwaggerParams_total (env : Env) (n : Nat) (e : APIEndpoint) (st : State)
    (hn : ∀ p ∈ e.Params, p.TypeSig.length ≤ n) :
    ∃ x, (∀ fuel, fuelFor env n st ≤ fuel → buildSwaggerParams env fuel e st = some x) ∧
      (e.Path = breakpointPath → x = .trap) ∧
      (e.Path ≠ breakpointPath → ∃ r, x = .ret r) := by
  by_cases hp : e.Path = breakpointPath
  · refine ⟨.trap, fun fuel _ => ?_, fun _ => rfl, fun h => absurd hp h⟩
    rw [buildSwaggerParams_eq, if_pos hp]
  · obtain ⟨x, st1, hx, -, -⟩ := paramsLoop_total env n (ToUpper e.Method) e.Params [] st hn
    refine ⟨.ret (x, st1), fun fuel hf => ?_, fun h => absurd h hp, fun _ => ⟨_, rfl⟩⟩
    rw [buildSwaggerParams_eq, if_neg hp, hx fuel hf]

/-- Building the operation of an endpoint ends, in the same way for every amount
of fuel from `fuelFor env n st` on; it returns an operation when
`swagger.NewRef` never fails and the path is not the one of the breakpoint. -/
theorem buildOperation_total (env : Env) (n : Nat) (e : APIEndpoint) (st : State)
    (hn : ∀ p ∈ e.Params, p.TypeSig.length ≤ n) (hr : e.ReturnSignature.length ≤ n) :
    ∃ x, (∀ fuel, fuelFor env n st ≤ fuel → buildOperation env fuel e st = some x) ∧
      ((∀ u, env.newRefOk u = true) → e.Path ≠ breakpointPath → ∃ r, x = .ret r) := by
  obtain ⟨x, hx, htrap, hret⟩ := buildSwaggerParams_total env n e st hn
  by_cases hp : e.Path = breakpointPath
  · refine ⟨.trap, fun fuel hf => ?_, fun _ h => absurd hp h⟩
    rw [buildOperation_eq, hx fuel hf, htrap hp]
  · obtain ⟨⟨params, st1⟩, rfl⟩ := hret hp
    obtain ⟨-, hsub1, -⟩ := buildSwaggerParams_frame env _ e st st1 params (hx _ (le_refl _))
    by_cases hs : e.ReturnSignature = []
    · refine ⟨.ret (operationOf e params defaultResponse, st1), fun fuel hf => ?_,
        fun _ _ => ⟨_, rfl⟩⟩
      rw [buildOperation_eq, hx fuel hf]
      simp only [hs, ne_eq, not_true_eq_false, if_false]
    · obtain ⟨res, st2, hi, -, -⟩ := interp_total_for env n e.ReturnSignature st1 hr
      have hfuel : ∀ fuel, fuelFor env n st ≤ fuel → fuelFor env n st1 ≤ fuel :=
        fun fuel hf => le_trans (fuelFor_mono env n n st st1 (le_refl n) hsub1) hf
      cases res with
      | error err =>
        refine ⟨.err err, fun fuel hf => ?_, fun hok _ => ?_⟩
        · rw [buildOperation_eq, hx fuel hf]
          simp only [hs, ne_eq, not_false_eq_true, if_true, hi fuel (hfuel fuel hf)]
        · obtain ⟨r, hr2⟩ := interp_no_error env hok _ _ st1 _ st2 (hi _ (le_refl _))
          exact absurd hr2 (by simp)
      | ok kr =>
        obtain ⟨kind, itemRef⟩ := kr
        cases hbr : buildResponse env kind itemRef st2 with
        | mk resp st3 =>
          cases resp with
          | error err =>
            refine ⟨.err err, fun fuel hf => ?_, fun hok _ => ?_⟩
            · rw [buildOperation_eq, hx fuel hf]
              simp only [hs, ne_eq, not_false_eq_true, if_true, hi fuel (hfuel fuel hf), hbr]
            · obtain ⟨r, hr2⟩ := buildResponse_ok env hok kind itemRef st2
              rw [hbr] at hr2
              exact absurd hr2 (by simp)
          | ok resp =>
            refine ⟨.ret (operationOf e params resp, st3), fun fuel hf => ?_,
              fun _ _ => ⟨_, rfl⟩⟩
            rw [buildOperation_eq, hx fuel hf]
            simp only [hs, ne_eq, not_false_eq_true, if_true, hi fuel (hfuel fuel hf), hbr]

theorem endpointStep_frame (env : Env) (fuel : Nat) (e : APIEndpoint) (st st2 : State)
    (h : endpointStep env fuel e st = some (.ret st2)) :
    normalizePath e.Path ≠ breakpointPath ∧ st.parsedTypes ⊆ st2.parsedTypes := by
  obtain ⟨op, st1, hb, rfl⟩ := endpointStep_ret env fuel e st st2 h
  obtain ⟨hp, hsub, -⟩ := buildOperation_frame env fuel _ st st1 op hb
  exact ⟨hp, hsub⟩

theorem endpointStep_total (env : Env) (n : Nat) (e : APIEndpoint) (st : State)
    (hn : ∀ p ∈ e.Params, p.TypeSig.length ≤ n) (hr : e.ReturnSignature.length ≤ n) :
    ∃ x, (∀ fuel, fuelFor env n st ≤ fuel → endpointStep env fuel e st = some x) ∧
      ((∀ u, env.newRefOk u = true) → normalizePath e.Path ≠ breakpointPath →
        ∃ st1, x = .ret st1) := by
  obtain ⟨x, hx, hret⟩ :=
    buildOperation_total env n { e with Path := normalizePath e.Path } st hn hr
  cases x with
  | trap =>
    refine ⟨.trap, fun fuel hf => by rw [endpointStep_eq, hx fuel hf], fun hok hp => ?_⟩
    obtain ⟨r, hr2⟩ := hret hok hp
    exact absurd hr2 (by simp)
  | err err =>
    refine ⟨.err err, fun fuel hf => by rw [endpointStep_eq, hx fuel hf], fun hok hp => ?_⟩
    obtain ⟨r, hr2⟩ := hret hok hp
    exact absurd hr2 (by simp)
  | ret r =>
    obtain ⟨op, st1⟩ := r
    exact ⟨_, fun fuel hf => by rw [endpointStep_eq, hx fuel hf], fun _ _ => ⟨_, rfl⟩⟩

theorem endpointsLoop_total (env : Env) (n : Nat) (es : List APIEndpoint) :
    ∀ (st : State),
      (∀ e ∈ es, (∀ p ∈ e.Params, p.TypeSig.length ≤ n) ∧ e.ReturnSignature.length ≤ n) →
      ∃ x, (∀ fuel, fuelFor env n st ≤ fuel → endpointsLoop env fuel es st = some x) ∧
        ((∀ u, env.newRefOk u = true) → (∀ e ∈ es, normalizePath e.Path ≠ breakpointPath) →
          ∃ st1, x = .ret st1) := by
  induction es with
  | nil => intro st _; exact ⟨.ret st, fun _ _ => rfl, fun _ _ => ⟨st, rfl⟩⟩
  | cons e es ih =>
    intro st hn
    obtain ⟨x, hx, hret⟩ := endpointStep_total env n e st (hn e (List.mem_cons_self _ _)).1
      (hn e (List.mem_cons_self _ _)).2
    cases x with
    | trap =>
      refine ⟨.trap, fun fuel hf => by simp only [endpointsLoop, hx fuel hf], fun hok hp => ?_⟩
      obtain ⟨r, hr2⟩ := hret hok (hp e (List.mem_cons_self _ _))
      exact absurd hr2 (by simp)
    | err err =>
      refine ⟨.err err, fun fuel hf => by simp only [endpointsLoop, hx fuel hf],
        fun hok hp => ?_⟩
      obtain ⟨r, hr2⟩ := hret hok (hp e (List.mem_cons_self _ _))
      exact absurd hr2 (by simp)
    | ret st1 =>
      obtain ⟨-, hsub⟩ := endpointStep_frame env _ e st st1 (hx _ (le_refl _))
      obtain ⟨y, hy, hret2⟩ := ih st1 (fun e2 he2 => hn e2 (List.mem_cons_of_mem _ he2))
      refine ⟨y, fun fuel hf => ?_, fun hok hp =>
        hret2 hok (fun e2 he2 => hp e2 (List.mem_cons_of_mem _ he2))⟩
      rw [endpointsLoop_cons_of_ret env fuel e es st st1 (hx fuel hf)]
      exact hy fuel (le_trans (fuelFor_mono env n n st st1 (le_refl n) hsub) hf)

theorem le_maxSigLen (es : List APIEndpoint) (e : APIEndpoint) (h : e ∈ es) :
    (∀ p ∈ e.Params, p.TypeSig.length ≤ maxSigLen es) ∧
      e.ReturnSignature.length ≤ maxSigLen es := by
  have hmax : max e.ReturnSignature.length (maxTypeSigLen e.Params) ≤ maxSigLen es :=
    le_foldr_max _ _
      (List.mem_map_of_mem (fun e => max e.ReturnSignature.length (maxTypeSigLen e.Params)) h)
  exact ⟨fun p hp => le_trans (le_maxTypeSigLen _ p hp) (le_trans (le_max_right _ _) hmax),
    le_trans (le_max_left _ _) hmax⟩

/-- Building the document ends, in the same way for every amount of fuel from
`genFuel` on: with a document, with an error, or in the breakpoint trap. It ends
with a document when `swagger.NewRef` never fails and no endpoint has the path
of the breakpoint. -/
theorem GenerateSwaggerSpec_total (env : Env) (es : List APIEndpoint) (memo : List Str) :
    ∃ x, (∀ fuel, genFuel env es memo ≤ fuel → GenerateSwaggerSpec env fuel es memo = some x) ∧
      ((∀ u, env.newRefOk u = true) → (∀ e ∈ es, normalizePath e.Path ≠ breakpointPath) →
        ∃ st, x = .ret st) :=
  endpointsLoop_total env (maxSigLen es) es _ (fun e he => le_maxSigLen es e he)

/-! ## Where errors come from -/

theorem buildPropertySchema_error_url (env : Env) (kind itemRef : Str) (e : Err)
    (h : buildPropertySchema env kind itemRef = .error e) : env.newRefOk e.url = false := by
  unfold buildPropertySchema NewRef at h
  have key : ∀ u : Str,
      (match (if env.newRefOk u = true then (.ok u : Except Err Str) else .error (.newRef u)) with
        | .error err => (.error (.wrap "error building ref".toList err) : Except Err Schema)
        | .ok ref =>
          .ok { type := ["array".toList], ref := none,
                items := some { type := [], ref := some ref },
                additionalProperties := none }) = .error e →
      env.newRefOk e.url = false := by
    intro u hu
    by_cases hok : env.newRefOk u = true
    · simp only [hok, if_true] at hu
      exact absurd hu (by simp)
    · simp only [hok, if_false, Bool.false_eq_true, Except.error.injEq] at hu
      rw [← hu]
      simpa [Err.url] using hok
  have key2 : ∀ u : Str,
      (match (if env.newRefOk u = true then (.ok u : Except Err Str) else .error (.newRef u)) with
        | .error err => (.error (.wrap "error building ref".toList err) : Except Err Schema)
        | .ok ref =>
          .ok { type := [], ref := some ref, items := none, additionalProperties := none }) =
        .error e →
      env.newRefOk e.url = false := by
    intro u hu
    by_cases hok : env.newRefOk u = true
    · simp only [hok, if_true] at hu
      exact absurd hu (by simp)
    · simp only [hok, if_false, Bool.false_eq_true, Except.error.injEq] at hu
      rw [← hu]
      simpa [Err.url] using hok
  split at h
  · exact absurd h (by simp)
  · split at h
    · split at h
      · exact absurd h (by simp)
      · exact key _ h
    · split at h
      · exact absurd h (by simp)
      · split at h
        · split at h
          · exact absurd h (by simp)
          · exact key2 _ h
        · exact absurd h (by simp)

/-- The schema of a response is the property schema of the same (Kind,
reference), except for void, which has no schema. -/
theorem buildResponse_schema (env : Env) (kind itemRef : Str) (st : State)
    (hv : kind ≠ "void".toList) :
    (buildResponse env kind itemRef st).1 =
      match buildPropertySchema env kind itemRef with
      | .ok s => .ok { Description := "OK".toList, schema := some s }
      | .error e => .error e := by
  unfold buildResponse buildPropertySchema NewRef
  simp only
  rw [if_neg hv]
  by_cases h1 : kind = "string".toList ∨ kind = "integer".toList ∨ kind = "boolean".toList ∨
      kind = "number".toList
  · rw [if_pos h1, if_pos h1]
  · rw [if_neg h1, if_neg h1]
    by_cases h2 : kind = "array".toList
    · rw [if_pos h2, if_pos h2]
      by_cases h3 : itemRef = []
      · rw [if_pos h3, if_pos h3]
      · rw [if_neg h3, if_neg h3]
        by_cases hok : env.newRefOk ("#/definitions/".toList ++ itemRef) = true
        · simp only [hok, if_true]
        · simp only [hok, if_false, Bool.false_eq_true]
    · rw [if_neg h2, if_neg h2]
      by_cases h4 : kind = "map".toList
      · rw [if_pos h4, if_pos h4]
      · rw [if_neg h4, if_neg h4]
        by_cases h5 : kind = "object".toList
        · rw [if_pos h5, if_pos h5]
          by_cases h3 : itemRef = []
          · rw [if_pos h3, if_pos h3]
          · rw [if_neg h3, if_neg h3]
            by_cases hok : env.newRefOk ("#/definitions/".toList ++ itemRef) = true
            · simp only [hok, if_true]
            · simp only [hok, if_false, Bool.false_eq_true]
        · rw [if_neg h5, if_neg h5]

theorem buildResponse_void (env : Env) (itemRef : Str) (st : State) :
    buildResponse env "void".toList itemRef st =
      (.ok { Description := "OK".toList, schema := none }, st) := by
  unfold buildResponse
  rw [if_pos rfl]

theorem buildResponse_error_url (env : Env) (kind itemRef : Str) (st : State) (e : Err)
    (h : (buildResponse env kind itemRef st).1 = .error e) : env.newRefOk e.url = false := by
  by_cases hv : kind = "void".toList
  · subst hv
    rw [buildResponse_void] at h
    exact absurd h (by simp)
  · rw [buildResponse_schema env kind itemRef st hv] at h
    cases hb : buildPropertySchema env kind itemRef with
    | ok s => rw [hb] at h; exact absurd h (by simp)
    | error e2 =>
      rw [hb] at h
      simp only [Except.error.injEq] at h
      rw [← h]
      exact buildPropertySchema_error_url env kind itemRef e2 hb

/-- An error of a run has, at its root, a reference URL that `swagger.NewRef`
rejects. -/
theorem Run_error_url (env : Env) (t : Task) (st : State) (d : Done) (st1 : State)
    (h : Run env t st d st1) :
    (∀ e, d = .result (.error e) → env.newRefOk e.url = false) ∧
    (∀ e, d = .props (.error e) → env.newRefOk e.url = false) := by
  induction h with
  | malformed | mapFallback | known | primitive | loopNil =>
    exact ⟨fun e he => absurd he (by simp), fun e he => absurd he (by simp)⟩
  | memoHit | notIndexed | unreadable | fieldsOk =>
    exact ⟨fun e he => absurd he (by simp [objectResult]), fun e he => absurd he (by simp)⟩
  | @forward sig o inside st st1 r hd _ ih =>
    refine ⟨fun e he => ?_, fun e he => absurd he (by simp)⟩
    cases r with
    | ok kr => exact absurd he (by simp [overrideResult])
    | error e2 =>
      simp only [overrideResult, Done.result.injEq, Except.error.injEq] at he
      rw [← he]; exact ih.1 e2 rfl
  | @mapValue sig v st st1 r hd _ ih =>
    refine ⟨fun e he => ?_, fun e he => absurd he (by simp)⟩
    cases r with
    | ok kr => exact absurd he (by simp [mapResult])
    | error e2 =>
      simp only [mapResult, Done.result.injEq, Except.error.injEq] at he
      rw [← he]; exact ih.1 e2 rfl
  | fieldsErr _ _ _ _ ih =>
    refine ⟨fun e he => ?_, fun e he => absurd he (by simp)⟩
    simp only [Done.result.injEq, Except.error.injEq] at he
    rw [← he]; exact ih.2 _ rfl
  | loopErrResolve _ ih =>
    refine ⟨fun e he => absurd he (by simp), fun e he => ?_⟩
    simp only [Done.props.injEq, Except.error.injEq] at he
    rw [← he]
    simp only [Err.url]
    exact ih.1 _ rfl
  | loopErrBuild _ hb _ =>
    refine ⟨fun e he => absurd he (by simp), fun e he => ?_⟩
    simp only [Done.props.injEq, Except.error.injEq] at he
    rw [← he]
    simp only [Err.url]
    exact buildPropertySchema_error_url env _ _ _ hb
  | loopCons _ _ _ _ ih2 => exact ⟨fun e he => absurd he (by simp), ih2.2⟩

theorem interp_error_url (env : Env) (fuel : Nat) (sig : Str) (st st1 : State) (e : Err)
    (h : interpretTypeAndBuildDefinition env fuel sig st = some (.error e, st1)) :
    env.newRefOk e.url = false :=
  (Run_error_url env _ _ _ _ (interp_run env fuel sig st _ st1 h)).1 e rfl

theorem buildSwaggerParams_no_err (env : Env) (fuel : Nat) (e : APIEndpoint) (st : State)
    (err : Err) : buildSwaggerParams env fuel e st ≠ some (.err err) := by
  rw [buildSwaggerParams_eq]
  split
  · simp
  · cases paramsLoop env fuel (ToUpper e.Method) e.Params [] st <;> simp

/-- When building an operation ends with an error: the parameters were built,
the endpoint has a return signature, and resolving the signature or building the
response from what it resolves to gave that error. -/
theorem buildOperation_err_iff (env : Env) (fuel : Nat) (e : APIEndpoint) (st : State)
    (err : Err) :
    buildOperation env fuel e st = some (.err err) ↔
      ∃ params st1, buildSwaggerParams env fuel e st = some (.ret (params, st1)) ∧
        e.ReturnSignature ≠ [] ∧
        ((∃ st2, interpretTypeAndBuildDefinition env fuel e.ReturnSignature st1 =
            some (.error err, st2)) ∨
         (∃ kind itemRef st2,
            interpretTypeAndBuildDefinition env fuel e.ReturnSignature st1 =
              some (.ok (kind, itemRef), st2) ∧
            (buildResponse env kind itemRef st2).1 = .error err)) := by
  rw [buildOperation_eq]
  cases hb : buildSwaggerParams env fuel e st with
  | none => simp
  | some x =>
    cases x with
    | trap => simp
    | err x => exact absurd hb (buildSwaggerParams_no_err env fuel e st x)
    | ret r =>
      obtain ⟨params, st1⟩ := r
      have hinj : ∀ (p2 : List Parameter) (s2 : State),
          (some (Exit.ret (params, st1)) : Option (Exit (List Parameter × State))) =
            some (.ret (p2, s2)) → p2 = params ∧ s2 = st1 := by
        intro p2 s2 h
        simp only [Option.some.injEq, Exit.ret.injEq, Prod.mk.injEq] at h
        exact ⟨h.1.symm, h.2.symm⟩
      simp only
      by_cases hs : e.ReturnSignature = []
      · rw [if_neg (fun hne => hne hs)]
        constructor
        · intro h; exact absurd h (by simp)
        · rintro ⟨p2, s2, -, hne, -⟩; exact absurd hs hne
      · rw [if_pos hs]
        cases hi : interpretTypeAndBuildDefinition env fuel e.ReturnSignature st1 with
        | none =>
          constructor
          · intro h; exact absurd h (by simp)
          · rintro ⟨p2, s2, heq, -, h | h⟩
            · obtain ⟨rfl, rfl⟩ := hinj p2 s2 heq
              obtain ⟨st2, h⟩ := h; rw [hi] at h; exact absurd h (by simp)
            · obtain ⟨rfl, rfl⟩ := hinj p2 s2 heq
              obtain ⟨k, r, st2, h, -⟩ := h; rw [hi] at h; exact absurd h (by simp)
        | some r2 =>
          obtain ⟨res, st2⟩ := r2
          cases res with
          | error err2 =>
            simp only [Option.some.injEq, Exit.err.injEq]
            constructor
            · rintro rfl
              exact ⟨params, st1, rfl, hs, Or.inl ⟨st2, hi⟩⟩
            · rintro ⟨p2, s2, heq, -, h | h⟩
              · obtain ⟨rfl, rfl⟩ := hinj p2 s2 (by rw [heq])
                obtain ⟨st3, h⟩ := h
                rw [hi] at h
                simp only [Option.some.injEq, Prod.mk.injEq, Except.error.injEq] at h
                exact h.1
              · obtain ⟨rfl, rfl⟩ := hinj p2 s2 (by rw [heq])
                obtain ⟨k, r, st3, h, -⟩ := h
                rw [hi] at h
                exact absurd h (by simp)
          | ok kr =>
            obtain ⟨kind, itemRef⟩ := kr
            simp only
            cases hbr : buildResponse env kind itemRef st2 with
            | mk resp st3 =>
              constructor
              · intro h
                cases resp with
                | ok resp => exact absurd h (by simp)
                | error err2 =>
                  simp only [Option.some.injEq, Exit.err.injEq] at h
                  subst h
                  exact ⟨params, st1, rfl, hs,
                    Or.inr ⟨kind, itemRef, st2, hi, by rw [hbr]⟩⟩
              · rintro ⟨p2, s2, heq, -, h | h⟩
                · obtain ⟨rfl, rfl⟩ := hinj p2 s2 (by rw [heq])
                  obtain ⟨st4, h⟩ := h
                  rw [hi] at h
                  exact absurd h (by simp)
                · obtain ⟨rfl, rfl⟩ := hinj p2 s2 (by rw [heq])
                  obtain ⟨k, r, st4, h, hbe⟩ := h
                  rw [hi] at h
                  simp only [Option.some.injEq, Prod.mk.injEq, Except.ok.injEq] at h
                  obtain ⟨⟨rfl, rfl⟩, rfl⟩ := h
                  rw [hbr] at hbe
                  simp only at hbe
                  subst hbe
                  rfl

theorem buildOperation_err_url (env : Env) (fuel : Nat) (e : APIEndpoint) (st : State)
    (err : Err) (h : buildOperation env fuel e st = some (.err err)) :
    env.newRefOk err.url = false := by
  obtain ⟨params, st1, -, -, h | h⟩ := (buildOperation_err_iff env fuel e st err).1 h
  · obtain ⟨st2, h⟩ := h
    exact interp_error_url env fuel _ st1 st2 err h
  · obtain ⟨k, r, st2, -, h⟩ := h
    exact buildResponse_error_url env k r st2 err h

theorem endpointStep_err_iff (env : Env) (fuel : Nat) (e : APIEndpoint) (st : State)
    (err : Err) :
    endpointStep env fuel e st = some (.err err) ↔
      buildOperation env fuel { e with Path := normalizePath e.Path } st = some (.err err) := by
  rw [endpointStep_eq]
  cases buildOperation env fuel { e with Path := normalizePath e.Path } st with
  | none => simp
  | some x =>
    cases x with
    | trap => simp
    | err x => simp
    | ret r => simp

theorem endpointsLoop_append (env : Env) (fuel : Nat) (pre rest : List APIEndpoint) :
    ∀ st, endpointsLoop env fuel (pre ++ rest) st =
      match endpointsLoop env fuel pre st with
      | some (.ret st1) => endpointsLoop env fuel rest st1
      | other => other := by
  induction pre with
  | nil => intro st; rfl
  | cons e pre ih =>
    intro st
    simp only [List.cons_append, endpointsLoop]
    cases endpointStep env fuel e st with
    | none => rfl
    | some x =>
      cases x with
      | trap => rfl
      | err x => rfl
      | ret st1 => exact ih st1

theorem endpointsLoop_err_url (env : Env) (fuel : Nat) (es : List APIEndpoint) :
    ∀ st err, endpointsLoop env fuel es st = some (.err err) → env.newRefOk err.url = false := by
  induction es with
  | nil => intro st err h; exact absurd h (by simp [endpointsLoop])
  | cons e es ih =>
    intro st err h
    simp only [endpointsLoop] at h
    cases hs : endpointStep env fuel e st with
    | none => rw [hs] at h; exact absurd h (by simp)
    | some x =>
      rw [hs] at h
      cases x with
      | trap => exact absurd h (by simp)
      | err x =>
        simp only [Option.some.injEq, Exit.err.injEq] at h
        subst h
        exact buildOperation_err_url env fuel _ st x ((endpointStep_err_iff env fuel e st x).1 hs)
      | ret st1 => exact ih st1 err h

/-! ## The keys of the definitions -/

theorem isSome_insert {β : Type} (m : List (Str × β)) (k k2 : Str) (v : β)
    (h : (mapLookup m k2).isSome = true) : (mapLookup (mapInsert m k v) k2).isSome = true := by
  by_cases hk : k2 = k
  · subst hk; rw [mapLookup_insert_self]; rfl
  · rw [mapLookup_insert_ne _ _ _ _ hk]; exact h

theorem State.placeholder_isSome (st : State) (o k : Str)
    (h : (mapLookup st.spec.definitions k).isSome = true) :
    (mapLookup (st.placeholder o).spec.definitions k).isSome = true := by
  unfold State.placeholder
  split
  · exact h
  · exact isSome_insert _ _ _ _ h

theorem State.placeholder_self_isSome (st : State) (o : Str) :
    (mapLookup (st.placeholder o).spec.definitions (typeShortName o)).isSome = true := by
  rw [State.placeholder_lookup_self]
  split
  · rename_i h; exact h
  · rfl

/-- A run never removes a key of the definitions. -/
theorem Run_keys_mono (env : Env) (t : Task) (st : State) (d : Done) (st1 : State)
    (h : Run env t st d st1) :
    ∀ k, (mapLookup st.spec.definitions k).isSome = true →
      (mapLookup st1.spec.definitions k).isSome = true := by
  induction h with
  | malformed | mapFallback | known | primitive | memoHit | loopNil => exact fun _ h => h
  | forward _ _ ih => exact ih
  | mapValue _ _ ih => exact ih
  | notIndexed => exact fun k h => State.placeholder_isSome _ _ k h
  | unreadable => exact fun k h => isSome_insert _ _ _ _ h
  | fieldsOk _ _ _ _ ih => exact fun k h => isSome_insert _ _ _ _ (ih k h)
  | fieldsErr _ _ _ _ ih => exact fun k h => ih k h
  | loopErrResolve _ ih => exact ih
  | loopErrBuild _ _ ih => exact ih
  | loopCons _ _ _ ih1 ih2 => exact fun k h => ih2 k (ih1 k h)

/-- Every descriptor a successful run adds to the memo has a definition under
its short name when the run ends. -/
theorem Run_new_defs (env : Env) (t : Task) (st : State) (d : Done) (st1 : State)
    (h : Run env t st d st1) :
    ¬ d.isError → ∀ u, u ∈ st1.parsedTypes → u ∉ st.parsedTypes →
      (mapLookup st1.spec.definitions (typeShortName u)).isSome = true := by
  induction h with
  | malformed | mapFallback | known | primitive | memoHit | loopNil =>
    exact fun _ u hu hn => absurd hu hn
  | @forward sig o inside st st1 r hd _ ih =>
    exact fun hok => ih (overrideResult_isError o r hok)
  | @mapValue sig v st st1 r hd _ ih =>
    exact fun hok => ih (mapResult_isError r hok)
  | @notIndexed sig s st hd hm hc =>
    intro _ u hu hn
    rw [State.placeholder_parsedTypes] at hu
    simp only [State.memoInsert, List.mem_cons] at hu
    rcases hu with rfl | hu
    · exact State.placeholder_self_isSome _ _
    · exact absurd hu hn
  | @unreadable sig s st hd hm hc =>
    intro _ u hu hn
    simp only [State.setDefinition_parsedTypes, State.memoInsert, List.mem_cons] at hu
    rcases hu with rfl | hu
    · simp only [State.setDefinition, mapLookup_insert_self]; rfl
    · exact absurd hu hn
  | @fieldsOk sig s st st1 fs props hd hm hc _ ih =>
    intro _ u hu hn
    rw [State.setDefinition_parsedTypes] at hu
    by_cases hus : u = normSig s
    · subst hus
      simp only [State.setDefinition, mapLookup_insert_self]; rfl
    · simp only [State.setDefinition]
      apply isSome_insert
      apply ih (fun h => h) u hu
      simp only [State.memoInsert, List.mem_cons, not_or]
      exact ⟨hus, hn⟩
  | fieldsErr _ _ _ _ ih => exact fun herr => absurd trivial herr
  | loopErrResolve _ ih => exact fun herr => absurd trivial herr
  | loopErrBuild _ _ ih => exact fun herr => absurd trivial herr
  | @loopCons n s rest props st st1 st2 k i b d h hb hrest ih1 ih2 =>
    intro hok u hu hn
    by_cases hu1 : u ∈ st1.parsedTypes
    · exact Run_keys_mono env _ _ _ _ hrest _ (ih1 (fun h => h) u hu1 hn)
    · exact ih2 hok u hu hu1

theorem memoHasDefinitions_iff (st : State) :
    memoHasDefinitions st = true ↔
      ∀ u ∈ st.parsedTypes, (mapLookup st.spec.definitions (typeShortName u)).isSome = true := by
  unfold memoHasDefinitions
  rw [List.all_eq_true]

/-- A successful resolution preserves memo/definition consistency. -/
theorem interp_memoHasDefinitions (env : Env) (fuel : Nat) (sig : Str) (st st1 : State)
    (r : Str × Str) (h0 : memoHasDefinitions st = true)
    (h : interpretTypeAndBuildDefinition env fuel sig st = some (.ok r, st1)) :
    memoHasDefinitions st1 = true := by
  have hrun := interp_run env fuel sig st _ st1 h
  rw [memoHasDefinitions_iff] at h0 ⊢
  intro u hu
  by_cases hmem : u ∈ st.parsedTypes
  · exact Run_keys_mono env _ _ _ _ hrun _ (h0 u hmem)
  · exact Run_new_defs env _ _ _ _ hrun (fun h => h) u hu hmem

/-! ## The path map -/

theorem normalizePath_eq (path : Str) :
    normalizePath path = if path.head? = some '/' then path else '/' :: path := by
  unfold normalizePath
  cases path with
  | nil => rfl
  | cons c rest =>
    by_cases hc : c = '/'
    · subst hc; simp [HasPrefix]
    · simp [HasPrefix, hc]

theorem normalizePath_head (path : Str) : ∃ rest, normalizePath path = '/' :: rest := by
  rw [normalizePath_eq]
  by_cases h : path.head? = some '/'
  · rw [if_pos h]
    cases path with
    | nil => simp at h
    | cons c rest =>
      simp only [List.head?_cons, Option.some.injEq] at h
      exact ⟨rest, by rw [h]⟩
  · rw [if_neg h]; exact ⟨path, rfl⟩

theorem State.setPath_paths (st : State) (path : Str) (pathItem : PathItem) :
    (st.setPath path pathItem).spec.paths = mapInsert st.spec.paths path pathItem := rfl

theorem State.setPath_parsedTypes (st : State) (path : Str) (pathItem : PathItem) :
    (st.setPath path pathItem).parsedTypes = st.parsedTypes := rfl

/-- The path map after a step of the builder: the map before it, with the item
of the path of the endpoint replaced. -/
theorem endpointStep_paths (env : Env) (fuel : Nat) (e : APIEndpoint) (st st2 : State)
    (h : endpointStep env fuel e st = some (.ret st2)) :
    ∃ op st1, buildOperation env fuel { e with Path := normalizePath e.Path } st =
        some (.ret (op, st1)) ∧
      st2.spec.paths = mapInsert st.spec.paths (normalizePath e.Path)
        (routeOperation ((mapLookup st.spec.paths (normalizePath e.Path)).getD emptyPathItem)
          e.Method op) := by
  obtain ⟨op, st1, hb, rfl⟩ := endpointStep_ret env fuel e st st2 h
  obtain ⟨-, -, hp⟩ := buildOperation_frame env fuel _ st st1 op hb
  exact ⟨op, st1, hb, by rw [State.setPath_paths, hp]⟩

theorem endpointsLoop_keys (env : Env) (fuel : Nat) (es : List APIEndpoint) :
    ∀ (st st2 : State), endpointsLoop env fuel es st = some (.ret st2) →
      (∀ k, k ∈ mapKeys st2.spec.paths ↔
        k ∈ mapKeys st.spec.paths ∨ ∃ e ∈ es, k = normalizePath e.Path) ∧
      (SortedKeys st.spec.paths → SortedKeys st2.spec.paths) := by
  induction es with
  | nil =>
    intro st st2 h
    simp only [endpointsLoop, Option.some.injEq, Exit.ret.injEq] at h
    subst h
    exact ⟨fun k => by simp, fun hs => hs⟩
  | cons e es ih =>
    intro st st2 h
    obtain ⟨st1, hstep, hrest⟩ := endpointsLoop_cons_ret env fuel e es st st2 h
    obtain ⟨op, st0, -, hp⟩ := endpointStep_paths env fuel e st st1 hstep
    obtain ⟨hk, hsorted⟩ := ih st1 st2 hrest
    refine ⟨fun k => ?_, fun hs => hsorted (by rw [hp]; exact mapInsert_sorted _ _ _ hs)⟩
    rw [hk k, hp, mem_mapKeys_insert]
    constructor
    · rintro ((rfl | hm) | ⟨e2, he2, rfl⟩)
      · exact Or.inr ⟨e, List.mem_cons_self _ _, rfl⟩
      · exact Or.inl hm
      · exact Or.inr ⟨e2, List.mem_cons_of_mem _ he2, rfl⟩
    · rintro (hm | ⟨e2, he2, rfl⟩)
      · exact Or.inl (Or.inr hm)
      · rcases List.mem_cons.1 he2 with rfl | he3
        · exact Or.inl (Or.inl rfl)
        · exact Or.inr ⟨e2, he3, rfl⟩

/-! ## Verb routing -/

theorem routeOperation_slot (pathItem : PathItem) (method : Str) (op : Operation) (s : Slot) :
    (routeOperation pathItem method op).slot s =
      if routeSlot method = s then some op else pathItem.slot s := by
  unfold routeOperation routeSlot
  simp only
  generalize ToUpper method = m
  by_cases h1 : m = "GET".toList
  · simp only [if_pos h1]
    cases s <;> simp [PathItem.slot]
  · by_cases h2 : m = "POST".toList
    · have h3 : ¬ m = "PUT".toList := by rw [h2]; decide
      have h4 : ¬ m = "DELETE".toList := by rw [h2]; decide
      simp only [if_neg h1, if_pos h2, if_neg h3, if_neg h4]
      cases s <;> simp [PathItem.slot]
    · by_cases h3 : m = "PUT".toList
      · simp only [if_neg h1, if_neg h2, if_pos h3]
        cases s <;> simp [PathItem.slot]
      · by_cases h4 : m = "DELETE".toList
        · simp only [if_neg h1, if_neg h2, if_neg h3, if_pos h4]
          cases s <;> simp [PathItem.slot]
        · simp only [if_neg h1, if_neg h2, if_neg h3, if_neg h4]
          cases s <;> simp [PathItem.slot]

theorem routeSlot_cases (m : Str) :
    (routeSlot m = .get ↔ ToUpper m = "GET".toList) ∧
    (routeSlot m = .put ↔ ToUpper m = "PUT".toList) ∧
    (routeSlot m = .delete ↔ ToUpper m = "DELETE".toList) ∧
    (routeSlot m = .post ↔ ToUpper m ≠ "GET".toList ∧ ToUpper m ≠ "PUT".toList ∧
      ToUpper m ≠ "DELETE".toList) := by
  unfold routeSlot
  generalize ToUpper m = u
  by_cases h1 : u = "GET".toList
  · have h2 : ¬ u = "PUT".toList := by rw [h1]; decide
    have h3 : ¬ u = "DELETE".toList := by rw [h1]; decide
    simp only [if_pos h1]
    exact ⟨⟨fun _ => h1, fun _ => trivial⟩, ⟨fun h => absurd h (by decide), fun h => absurd h h2⟩,
      ⟨fun h => absurd h (by decide), fun h => absurd h h3⟩,
      ⟨fun h => absurd h (by decide), fun h => absurd h1 h.1⟩⟩
  · by_cases h2 : u = "PUT".toList
    · have h3 : ¬ u = "DELETE".toList := by rw [h2]; decide
      simp only [if_neg h1, if_pos h2]
      exact ⟨⟨fun h => absurd h (by decide), fun h => absurd h h1⟩, ⟨fun _ => h2, fun _ => trivial⟩,
        ⟨fun h => absurd h (by decide), fun h => absurd h h3⟩,
        ⟨fun h => absurd h (by decide), fun h => absurd h2 h.2.1⟩⟩
    · by_cases h3 : u = "DELETE".toList
      · simp only [if_neg h1, if_neg h2, if_pos h3]
        exact ⟨⟨fun h => absurd h (by decide), fun h => absurd h h1⟩,
          ⟨fun h => absurd h (by decide), fun h => absurd h h2⟩, ⟨fun _ => h3, fun _ => trivial⟩,
          ⟨fun h => absurd h (by decide), fun h => absurd h3 h.2.2⟩⟩
      · simp only [if_neg h1, if_neg h2, if_neg h3]
        exact ⟨⟨fun h => absurd h (by decide), fun h => absurd h h1⟩,
          ⟨fun h => absurd h (by decide), fun h => absurd h h2⟩,
          ⟨fun h => absurd h (by decide), fun h => absurd h h3⟩,
          ⟨fun _ => ⟨h1, h2, h3⟩, fun _ => trivial⟩⟩

theorem slotAt_insert (paths : List (Str × PathItem)) (path p : Str) (pathItem : PathItem)
    (s : Slot) :
    slotAt (mapInsert paths path pathItem) p s =
      if p = path then pathItem.slot s else slotAt paths p s := by
  unfold slotAt
  by_cases h : p = path
  · subst h; rw [mapLookup_insert_self, if_pos rfl]; rfl
  · rw [mapLookup_insert_ne _ _ _ _ h, if_neg h]

/-- The slots after a step of the builder: the slot of the endpoint holds the
operation built from it, every other slot holds what it held. -/
theorem endpointStep_slots (env : Env) (fuel : Nat) (e : APIEndpoint) (st st2 : State)
    (h : endpointStep env fuel e st = some (.ret st2)) :
    ∃ op st1, buildOperation env fuel { e with Path := normalizePath e.Path } st =
        some (.ret (op, st1)) ∧
      (∀ p s, slotAt st2.spec.paths p s =
        if p = normalizePath e.Path ∧ routeSlot e.Method = s then some op
        else slotAt st.spec.paths p s) ∧
      (∀ p, p ≠ normalizePath e.Path → mapLookup st2.spec.paths p = mapLookup st.spec.paths p) := by
  obtain ⟨op, st1, hb, hp⟩ := endpointStep_paths env fuel e st st2 h
  refine ⟨op, st1, hb, fun p s => ?_, fun p hne => ?_⟩
  · rw [hp, slotAt_insert, routeOperation_slot]
    by_cases h1 : p = normalizePath e.Path
    · subst h1
      by_cases h2 : routeSlot e.Method = s
      · simp only [h2, and_self, if_true]
      · simp only [h2, and_false, if_false, if_true]
        rfl
    · simp only [h1, false_and, if_false]
  · rw [hp, mapLookup_insert_ne _ _ _ _ hne]

/-- The slots after the loop of the builder. A slot that no endpoint of the list
routes to holds what it held before the loop; a slot that an endpoint routes to
holds the operation built from the last such endpoint, in the state the
endpoints before it leave. -/
theorem endpointsLoop_slots (env : Env) (fuel : Nat) (p : Str) (s : Slot)
    (es : List APIEndpoint) :
    ∀ (st st2 : State), endpointsLoop env fuel es st = some (.ret st2) →
      ((∀ e ∈ es, ¬ (normalizePath e.Path = p ∧ routeSlot e.Method = s)) →
        slotAt st2.spec.paths p s = slotAt st.spec.paths p s) ∧
      (∀ pre e post, es = pre ++ e :: post →
        normalizePath e.Path = p → routeSlot e.Method = s →
        (∀ e2 ∈ post, ¬ (normalizePath e2.Path = p ∧ routeSlot e2.Method = s)) →
        ∃ stPre op stE, endpointsLoop env fuel pre st = some (.ret stPre) ∧
          buildOperation env fuel { e with Path := normalizePath e.Path } stPre =
            some (.ret (op, stE)) ∧
          slotAt st2.spec.paths p s = some op) := by
  induction es with
  | nil =>
    intro st st2 h
    simp only [endpointsLoop, Option.some.injEq, Exit.ret.injEq] at h
    subst h
    refine ⟨fun _ => rfl, fun pre e post hes => ?_⟩
    exact absurd hes (by simp)
  | cons e0 rest ih =>
    intro st st2 h
    obtain ⟨st1, hstep, hrest⟩ := endpointsLoop_cons_ret env fuel e0 rest st st2 h
    obtain ⟨op0, stE0, hb0, hslots, -⟩ := endpointStep_slots env fuel e0 st st1 hstep
    obtain ⟨ih1, ih2⟩ := ih st1 st2 hrest
    constructor
    · intro hno
      rw [ih1 (fun e2 he2 => hno e2 (List.mem_cons_of_mem _ he2)), hslots p s]
      have hne := hno e0 (List.mem_cons_self _ _)
      rw [if_neg (fun hc => hne ⟨hc.1.symm, hc.2⟩)]
    · intro pre e post hes hp hs hno
      cases pre with
      | nil =>
        simp only [List.nil_append, List.cons.injEq] at hes
        obtain ⟨rfl, rfl⟩ := hes
        refine ⟨st, op0, stE0, rfl, hb0, ?_⟩
        rw [ih1 hno, hslots p s, if_pos ⟨hp.symm, hs⟩]
      | cons e1 pre1 =>
        simp only [List.cons_append, List.cons.injEq] at hes
        obtain ⟨rfl, rfl⟩ := hes
        obtain ⟨stPre, op, stE, hloop, hb, hslot⟩ := ih2 pre1 e post rfl hp hs hno
        refine ⟨stPre, op, stE, ?_, hb, hslot⟩
        rw [endpointsLoop_cons_of_ret env fuel e0 pre1 st st1 hstep]
        exact hloop

/-! ## A class whose fields are strings -/

theorem interp_String (env : Env) (fuel : Nat) (st : State) :
    interpretTypeAndBuildDefinition env (fuel + 1) "Ljava/lang/String;".toList st =
      some (.ok ("string".toList, []), st) := by
  rw [interp_dispatch]
  have hd : dispatch "Ljava/lang/String;".toList = .known ("string".toList, []) := rfl
  rw [hd]

theorem buildPropertySchema_string (env : Env) :
    buildPropertySchema env "string".toList [] = .ok stringSchema := by
  unfold buildPropertySchema
  rw [if_pos (Or.inl rfl)]
  rfl

/-- The field loop over fields that are all of type `String`: no state change,
one string property per field. -/
theorem fieldsLoop_strings (env : Env) (fuel : Nat) (fs : List (Str × Str))
    (hfs : ∀ f ∈ fs, f.2 = "Ljava/lang/String;".toList) :
    ∀ (props : List (Str × Schema)) (st : State),
      fieldsLoop env (interpretTypeAndBuildDefinition env (fuel + 1)) fs props st =
        some (.ok (fs.foldl (fun acc f => mapInsert acc f.1 stringSchema) props), st) := by
  induction fs with
  | nil => intro props st; rfl
  | cons f fs ih =>
    intro props st
    obtain ⟨n, s⟩ := f
    have hs : s = "Ljava/lang/String;".toList := hfs (n, s) (List.mem_cons_self _ _)
    subst hs
    rw [fieldsLoop_cons, interp_String]
    simp only [fieldStep, buildPropertySchema_string]
    rw [ih (fun f hf => hfs f (List.mem_cons_of_mem _ hf))]
    rfl

theorem perm_pair {α : Type} (l : List α) (a b : α) (h : l.Perm [a, b]) :
    l = [a, b] ∨ l = [b, a] := by
  have hlen := h.length_eq
  match l, hlen with
  | [x, y], _ =>
    have hx : x ∈ [a, b] := h.mem_iff.1 (by simp)
    have hy : y ∈ [a, b] := h.mem_iff.1 (by simp)
    have ha : a ∈ [x, y] := h.mem_iff.2 (by simp)
    have hb : b ∈ [x, y] := h.mem_iff.2 (by simp)
    simp only [List.mem_cons, List.mem_singleton, List.not_mem_nil, or_false] at hx hy ha hb
    rcases hx with rfl | rfl
    · rcases hy with rfl | rfl
      · rcases hb with rfl | rfl <;> exact Or.inl rfl
      · exact Or.inl rfl
    · rcases hy with rfl | rfl
      · exact Or.inr rfl
      · rcases ha with rfl | rfl <;> exact Or.inl rfl

theorem two_properties (f1 f2 : Str) (b : Schema) (hlt : strLt f1 f2 = true)
    (l : List (Str × Str)) (t : Str) (h : l.Perm [(f1, t), (f2, t)]) :
    l.foldl (fun acc f => mapInsert acc f.1 b) [] = [(f1, b), (f2, b)] := by
  have hne : f1 ≠ f2 := strLt_ne _ _ hlt
  rcases perm_pair l _ _ h with rfl | rfl
  · simp only [List.foldl_cons, List.foldl_nil, mapInsert]
    rw [if_neg (Ne.symm hne), if_neg]
    rw [Bool.not_eq_true]
    cases hc : strLt f2 f1 with
    | false => rfl
    | true => exact absurd (strLt_trans _ _ _ hlt hc) (by rw [strLt_irrefl]; simp)
  · simp only [List.foldl_cons, List.foldl_nil, mapInsert]
    rw [if_neg hne, if_pos hlt]

/-- Resolving an indexed class with two `String` fields, not yet in the memo:
the class enters the memo and its definition, with the two string properties,
is registered. -/
theorem resolve_two_strings (env : Env) (fuel : Nat) (d path f1 f2 : Str) (st : State)
    (hd : isObjectDescriptor d = true) (hm : d ∉ st.parsedTypes)
    (hi : mapLookup env.classToFilePath d = some path)
    (hF : parseFieldsFromFile env path =
      some [(f1, "Ljava/lang/String;".toList), (f2, "Ljava/lang/String;".toList)]) :
    interpretTypeAndBuildDefinition env (fuel + 2) d st =
      some (.ok ("object".toList, typeShortName d),
        (st.memoInsert d).setDefinition (typeShortName d)
          { type := ["object".toList],
            properties := [(f1, stringSchema), (f2, stringSchema)] }) := by
  have hsorted := parseFieldsFromFile_sorted env path _ hF
  have hlt : strLt f1 f2 = true := by
    unfold SortedKeys at hsorted
    simp only [List.pairwise_cons, List.mem_singleton, forall_eq] at hsorted
    exact hsorted.1
  have hperm := env.rangeOrder_perm d
    [(f1, "Ljava/lang/String;".toList), (f2, "Ljava/lang/String;".toList)]
  have hall : ∀ f ∈ env.rangeOrder d
      [(f1, "Ljava/lang/String;".toList), (f2, "Ljava/lang/String;".toList)],
      f.2 = "Ljava/lang/String;".toList := by
    intro f hf
    have := hperm.mem_iff.1 hf
    simp only [List.mem_cons, List.mem_singleton, List.not_mem_nil, or_false] at this
    rcases this with rfl | rfl <;> rfl
  rw [interp_objectDescriptor env (fuel + 1) d st hd, resolveObject_eq,
    normSig_of_suffix d (isObjectDescriptor_suffix d hd), if_neg hm,
    classInfo_of_lookup env d path _ hi hF]
  simp only
  rw [fieldsLoop_strings env fuel _ hall, two_properties f1 f2 stringSchema hlt _ _ hperm]
  rfl

/-! ## The response of an endpoint without a return signature -/

theorem buildOperation_no_signature (env : Env) (fuel : Nat) (e : APIEndpoint) (st : State)
    (h : e.ReturnSignature = []) :
    buildOperation env fuel e st =
      match buildSwaggerParams env fuel e st with
      | none => none
      | some .trap => some .trap
      | some (.err x) => some (.err x)
      | some (.ret (params, st1)) => some (.ret (operationOf e params defaultResponse, st1)) := by
  rw [buildOperation_eq]
  cases buildSwaggerParams env fuel e st with
  | none => rfl
  | some x =>
    cases x with
    | trap => rfl
    | err x => rfl
    | ret r =>
      obtain ⟨params, st1⟩ := r
      simp only [h, ne_eq, not_true_eq_false, if_false]

/-- C12, as amended. When the return signature of an endpoint is empty, the
operation built from it has the default 200 response, with the description `OK`
and a bare string schema, whatever the raw return descriptor is: the operation
is made of what `buildSwaggerParams` returns, in the state it leaves, and the
Type Resolver is not called for the return type. In a built document, the slot
of such an endpoint, when no later endpoint routes to it, holds an operation
whose only response is that default response under the status 200. -/
theorem C12_no_return_signature (env : Env) (es : List APIEndpoint) (memo : List Str) :
    (∀ fuel e st, e.ReturnSignature = [] →
      buildOperation env fuel e st =
        match buildSwaggerParams env fuel e st with
        | none => none
        | some .trap => some .trap
        | some (.err x) => some (.err x)
        | some (.ret (params, st1)) =>
          some (.ret ({ Summary := "Extracted API for ".toList ++ e.MethodName,
                        Description := "Generated from smali method: ".toList ++ e.MethodName,
                        Produces := ["application/json".toList],
                        Consumes := if hasBody params then ["application/json".toList] else [],
                        Parameters := params,
                        Responses :=
                          [(200, { Description := "OK".toList,
                                   schema := some { type := ["string".toList], ref := none,
                                                    items := none,
                                                    additionalProperties := none } })] },
            st1))) ∧
    (∀ fuel e st returnType,
      buildOperation env fuel { e with ReturnType := returnType } st =
        buildOperation env fuel e st) ∧
    (∃ x, (∀ fuel, genFuel env es memo ≤ fuel →
        GenerateSwaggerSpec env fuel es memo = some x) ∧
      ((∀ u, env.newRefOk u = true) → (∀ e ∈ es, normalizePath e.Path ≠ breakpointPath) →
        ∃ st, x = .ret st)) ∧
    (∀ fuel st, GenerateSwaggerSpec env fuel es memo = some (.ret st) →
      ∀ pre e post, es = pre ++ e :: post → e.ReturnSignature = [] →
        (∀ e2 ∈ post, ¬ (normalizePath e2.Path = normalizePath e.Path ∧
          routeSlot e2.Method = routeSlot e.Method)) →
        ∃ op, slotAt st.spec.paths (normalizePath e.Path) (routeSlot e.Method) = some op ∧
          op.Responses =
            [(200, { Description := "OK".toList,
                     schema := some { type := ["string".toList], ref := none, items := none,
                                      additionalProperties := none } })]) := by
  refine ⟨fun fuel e st h => buildOperation_no_signature env fuel e st h,
    fun fuel e st returnType => rfl, GenerateSwaggerSpec_total env es memo,
    fun fuel st h pre e post hes hsig hno => ?_⟩
  obtain ⟨stPre, op, stE, -, hb, hslot⟩ :=
    (endpointsLoop_slots env fuel _ _ es _ st h).2 pre e post hes rfl rfl hno
  refine ⟨op, hslot, ?_⟩
  obtain ⟨params, st1, -, hcase⟩ := buildOperation_ret env fuel _ stPre stE op hb
  rcases hcase with ⟨-, rfl, -⟩ | ⟨hne, -⟩
  · rfl
  · exact absurd hsig hne

/-- C12 at an endpoint without a return signature whose raw return descriptor is
`V`: the document has the default string response. -/
theorem C12_no_return_signature_witness :
    (GenerateSwaggerSpec exampleEnv 1
        [plainEndpoint "ping".toList "/ping".toList "GET".toList "V".toList] []).map
        (fun x => match x with
          | .ret st => some st.spec.paths
          | _ => none) =
      some (some [("/ping".toList,
        { Get := some (plainOperation "ping".toList), Post := none, Put := none,
          Delete := none })]) ∧
    (∀ fuel st,
      GenerateSwaggerSpec exampleEnv fuel
        [plainEndpoint "ping".toList "/ping".toList "GET".toList "V".toList] [] =
          some (.ret st) →
      ∀ pre e post,
        [plainEndpoint "ping".toList "/ping".toList "GET".toList "V".toList] =
          pre ++ e :: post → e.ReturnSignature = [] →
        (∀ e2 ∈ post, ¬ (normalizePath e2.Path = normalizePath e.Path ∧
          routeSlot e2.Method = routeSlot e.Method)) →
        ∃ op, slotAt st.spec.paths (normalizePath e.Path) (routeSlot e.Method) = some op ∧
          op.Responses =
            [(200, { Description := "OK".toList,
                     schema := some { type := ["string".toList], ref := none, items := none,
                                      additionalProperties := none } })]) :=
  ⟨by decide, (C12_no_return_signature exampleEnv _ []).2.2.2⟩

/-- C12 fails as stated: for an endpoint with an empty return signature and the
raw return descriptor `V` the Type Resolver would give void and `buildResponse`
a response without a schema, and for `I` an integer schema; the operation of the
document has the string schema in both cases. -/
theorem C12_counterexample :
    ((interpretTypeAndBuildDefinition exampleEnv 1 "V".toList emptyState).map Prod.fst =
        some (.ok ("void".toList, [])) ∧
      (buildResponse exampleEnv "void".toList [] emptyState).1 =
        .ok { Description := "OK".toList, schema := none } ∧
      (GenerateSwaggerSpec exampleEnv 1
          [plainEndpoint "ping".toList "/ping".toList "GET".toList "V".toList] []).map
          (fun x => match x with
            | .ret st => (slotAt st.spec.paths "/ping".toList .get).map (fun op => op.Responses)
            | _ => none) =
        some (some [(200, { Description := "OK".toList, schema := some stringSchema })])) ∧
    ((interpretTypeAndBuildDefinition exampleEnv 1 "I".toList emptyState).map Prod.fst =
        some (.ok ("integer".toList, [])) ∧
      (buildResponse exampleEnv "integer".toList [] emptyState).1 =
        .ok { Description := "OK".toList, schema := some integerSchema } ∧
      (GenerateSwaggerSpec exampleEnv 1
          [plainEndpoint "count".toList "/count".toList "GET".toList "I".toList] []).map
          (fun x => match x with
            | .ret st => (slotAt st.spec.paths "/count".toList .get).map (fun op => op.Responses)
            | _ => none) =
        some (some [(200, { Description := "OK".toList, schema := some stringSchema })])) :=
  ⟨⟨by decide, by decide, by decide⟩, ⟨by decide, by decide, by decide⟩⟩

/-! ## The keys of the path map -/

/-- C14. For every list of endpoints, building the document ends (with a
document when `swagger.NewRef` never fails and no endpoint has the path of the
breakpoint), and the keys of the path map of a built document are exactly the
normalised paths of the endpoints, where a path that begins with `/` is kept and
any other path gets one `/` in front; no key occurs twice, and every key begins
with `/`. -/
theorem C14_path_keys (env : Env) (es : List APIEndpoint) (memo : List Str) :
    (∃ x, (∀ fuel, genFuel env es memo ≤ fuel →
        GenerateSwaggerSpec env fuel es memo = some x) ∧
      ((∀ u, env.newRefOk u = true) → (∀ e ∈ es, normalizePath e.Path ≠ breakpointPath) →
        ∃ st, x = .ret st)) ∧
    (∀ fuel st, GenerateSwaggerSpec env fuel es memo = some (.ret st) →
      (∀ k, k ∈ mapKeys st.spec.paths ↔
        ∃ e ∈ es, k = if e.Path.head? = some '/' then e.Path else '/' :: e.Path) ∧
      (mapKeys st.spec.paths).Nodup ∧
      (∀ k ∈ mapKeys st.spec.paths, ∃ rest, k = '/' :: rest)) := by
  refine ⟨GenerateSwaggerSpec_total env es memo, fun fuel st h => ?_⟩
  obtain ⟨hk, hs⟩ := endpointsLoop_keys env fuel es _ st h
  have hkeys : ∀ k, k ∈ mapKeys st.spec.paths ↔ ∃ e ∈ es, k = normalizePath e.Path := by
    intro k
    rw [hk k]
    constructor
    · rintro (hm | hm)
      · simp [mapKeys] at hm
      · exact hm
    · exact fun hm => Or.inr hm
  refine ⟨fun k => ?_, sortedKeys_nodup _ (hs List.Pairwise.nil), fun k hkm => ?_⟩
  · rw [hkeys k]
    constructor
    · rintro ⟨e, he, rfl⟩; exact ⟨e, he, normalizePath_eq e.Path⟩
    · rintro ⟨e, he, rfl⟩; exact ⟨e, he, (normalizePath_eq e.Path).symm⟩
  · obtain ⟨e, -, rfl⟩ := (hkeys k).1 hkm
    exact normalizePath_head e.Path

/-- C14 at three endpoints, two of them on the same path once normalised. -/
theorem C14_path_keys_witness :
    (GenerateSwaggerSpec exampleEnv 3
        [ endpointOf "items".toList "GET".toList [] [],
          endpointOf "/items/{id}".toList "GET".toList [pathRecord "p1".toList "id".toList] [],
          endpointOf "/items".toList "POST".toList [] [] ] []).map
        (fun x => match x with
          | .ret st => some (mapKeys st.spec.paths)
          | _ => none) =
      some (some ["/items".toList, "/items/{id}".toList]) ∧
    ∀ fuel st,
      GenerateSwaggerSpec exampleEnv fuel
        [ endpointOf "items".toList "GET".toList [] [],
          endpointOf "/items/{id}".toList "GET".toList [pathRecord "p1".toList "id".toList] [],
          endpointOf "/items".toList "POST".toList [] [] ] [] = some (.ret st) →
      (∀ k, k ∈ mapKeys st.spec.paths ↔
        ∃ e ∈ [ endpointOf "items".toList "GET".toList [] [],
                endpointOf "/items/{id}".toList "GET".toList
                  [pathRecord "p1".toList "id".toList] [],
                endpointOf "/items".toList "POST".toList [] [] ],
          k = if e.Path.head? = some '/' then e.Path else '/' :: e.Path) ∧
      (mapKeys st.spec.paths).Nodup ∧
      (∀ k ∈ mapKeys st.spec.paths, ∃ rest, k = '/' :: rest) :=
  ⟨by decide, (C14_path_keys exampleEnv _ []).2⟩

/-! ## The slots of a path -/

/-- C19. Building the document ends (with a document when `swagger.NewRef`
never fails and no endpoint has the path of the breakpoint). In a built
document, for every path `p` and every slot `s` of GET, POST, PUT and DELETE:
when no endpoint of the input has the normalised path `p` and a verb that routes
to `s`, the slot is empty; otherwise it holds the operation built from the last
such endpoint (built in the state the endpoints before it leave). GET, PUT and
DELETE, upper-cased, route to their own slot and every other verb routes to
POST. A step of the builder changes the slot of its endpoint only: the other
slots of that path and all other paths are as they were. -/
theorem C19_verb_routing (env : Env) (es : List APIEndpoint) (memo : List Str) :
    (∃ x, (∀ fuel, genFuel env es memo ≤ fuel →
        GenerateSwaggerSpec env fuel es memo = some x) ∧
      ((∀ u, env.newRefOk u = true) → (∀ e ∈ es, normalizePath e.Path ≠ breakpointPath) →
        ∃ st, x = .ret st)) ∧
    (∀ fuel st, GenerateSwaggerSpec env fuel es memo = some (.ret st) → ∀ p s,
      ((∀ e ∈ es, ¬ (normalizePath e.Path = p ∧ routeSlot e.Method = s)) →
        slotAt st.spec.paths p s = none) ∧
      (∀ pre e post, es = pre ++ e :: post →
        normalizePath e.Path = p → routeSlot e.Method = s →
        (∀ e2 ∈ post, ¬ (normalizePath e2.Path = p ∧ routeSlot e2.Method = s)) →
        ∃ stPre op stE, GenerateSwaggerSpec env fuel pre memo = some (.ret stPre) ∧
          buildOperation env fuel { e with Path := normalizePath e.Path } stPre =
            some (.ret (op, stE)) ∧
          slotAt st.spec.paths p s = some op)) ∧
    (∀ m, (routeSlot m = .get ↔ ToUpper m = "GET".toList) ∧
      (routeSlot m = .put ↔ ToUpper m = "PUT".toList) ∧
      (routeSlot m = .delete ↔ ToUpper m = "DELETE".toList) ∧
      (routeSlot m = .post ↔ ToUpper m ≠ "GET".toList ∧ ToUpper m ≠ "PUT".toList ∧
        ToUpper m ≠ "DELETE".toList)) ∧
    (∀ fuel e st st2, endpointStep env fuel e st = some (.ret st2) →
      (∀ p, p ≠ normalizePath e.Path →
        mapLookup st2.spec.paths p = mapLookup st.spec.paths p) ∧
      (∀ s, s ≠ routeSlot e.Method →
        slotAt st2.spec.paths (normalizePath e.Path) s =
          slotAt st.spec.paths (normalizePath e.Path) s)) := by
  refine ⟨GenerateSwaggerSpec_total env es memo, fun fuel st h p s => ?_, fun m => ?_,
    fun fuel e st st2 h => ?_⟩
  · obtain ⟨h1, h2⟩ := endpointsLoop_slots env fuel p s es _ st h
    exact ⟨fun hno => by rw [h1 hno]; cases s <;> rfl, h2⟩
  · exact routeSlot_cases m
  · obtain ⟨op, st1, -, hslots, hother⟩ := endpointStep_slots env fuel e st st2 h
    refine ⟨hother, fun s hs => ?_⟩
    rw [hslots _ s, if_neg (fun hc => hs hc.2.symm)]

/-- C19 at four endpoints on one path: two GET (the later one wins), one POST
and one PATCH, which routes to the POST slot and replaces the POST operation;
the PUT and DELETE slots stay empty, and no other path has an item. -/
theorem C19_verb_routing_witness :
    (GenerateSwaggerSpec exampleEnv 1
        [ plainEndpoint "first".toList "/items".toList "GET".toList [],
          plainEndpoint "second".toList "items".toList "get".toList [],
          plainEndpoint "third".toList "/items".toList "POST".toList [],
          plainEndpoint "fourth".toList "/items".toList "PATCH".toList [] ] []).map
        (fun x => match x with
          | .ret st => some st.spec.paths
          | _ => none) =
      some (some [("/items".toList,
        { Get := some (plainOperation "second".toList),
          Post := some (plainOperation "fourth".toList),
          Put := none, Delete := none })]) ∧
    (∀ m, (routeSlot m = .get ↔ ToUpper m = "GET".toList) ∧
      (routeSlot m = .put ↔ ToUpper m = "PUT".toList) ∧
      (routeSlot m = .delete ↔ ToUpper m = "DELETE".toList) ∧
      (routeSlot m = .post ↔ ToUpper m ≠ "GET".toList ∧ ToUpper m ≠ "PUT".toList ∧
        ToUpper m ≠ "DELETE".toList)) :=
  ⟨by decide, (C19_verb_routing exampleEnv [] []).2.2.1⟩

/-! ## End to end -/

/-- C20, as amended. End to end: the one endpoint is `GET /items/{id}` with one
path-bound `String` parameter, its return signature is a list (`List` or
`ArrayList`) of an indexed class `d` that has two `String` fields, the short
name of `d` is not empty and `swagger.NewRef` accepts the reference to it, and
the memo is empty at the start. Then, with three units of fuel or more,
`GenerateSwaggerSpec` returns a document with exactly one path, `/items/{id}`,
whose only operation is GET, with exactly one parameter (located in the path,
required, of type string), a 200 response that is an array whose items
reference the definition of `d`, and exactly one definition, under the short
name of `d`, with exactly two properties, both of type string; the memo holds
`d` alone. -/
theorem C20_end_to_end (env : Env) (d path f1 f2 name register methodName returnType W : Str)
    (hd : isObjectDescriptor d = true)
    (hi : mapLookup env.classToFilePath d = some path)
    (hF : parseFieldsFromFile env path =
      some [(f1, "Ljava/lang/String;".toList), (f2, "Ljava/lang/String;".toList)])
    (hname : name ≠ [])
    (hW : (W, "array".toList) ∈ singleArgWrappers)
    (hshort : typeShortName d ≠ [])
    (hok : env.newRefOk ("#/definitions/".toList ++ typeShortName d) = true) (n : Nat) :
    GenerateSwaggerSpec env (n + 3)
        [{ Path := "/items/{id}".toList, Method := "GET".toList, MethodName := methodName,
           ReturnType := returnType,
           Params := [{ Register := register, TypeSig := "Ljava/lang/String;".toList,
                        PathVar := name, QueryVar := [] }],
           ReturnSignature := W ++ d ++ ">;".toList }] [] =
      some (.ret
        { spec :=
            { paths :=
                [("/items/{id}".toList,
                  { Get := some
                      { Summary := "Extracted API for ".toList ++ methodName,
                        Description := "Generated from smali method: ".toList ++ methodName,
                        Produces := ["application/json".toList],
                        Consumes := [],
                        Parameters :=
                          [{ Name := name, In := "path".toList, Required := true,
                             type := "string".toList, schema := none }],
                        Responses :=
                          [(200,
                            { Description := "OK".toList,
                              schema := some
                                { type := ["array".toList], ref := none,
                                  items := some
                                    { type := [],
                                      ref := some ("#/definitions/".toList ++ typeShortName d) },
                                  additionalProperties := none } })] },
                    Post := none, Put := none, Delete := none })],
              definitions :=
                [(typeShortName d,
                  { type := ["object".toList],
                    properties :=
                      [(f1, { type := ["string".toList], ref := none, items := none,
                              additionalProperties := none }),
                       (f2, { type := ["string".toList], ref := none, items := none,
                              additionalProperties := none })] })] },
          parsedTypes := [d] }) := by
  have hparams : ∀ st : State,
      buildSwaggerParams env (n + 3)
        { Path := normalizePath "/items/{id}".toList, Method := "GET".toList,
          MethodName := methodName, ReturnType := returnType,
          Params := [{ Register := register, TypeSig := "Ljava/lang/String;".toList,
                       PathVar := name, QueryVar := [] }],
          ReturnSignature := W ++ d ++ ">;".toList } st =
        some (.ret ([pathParameter name "string".toList], st)) := by
    intro st
    have hpath : ¬ normalizePath "/items/{id}".toList = breakpointPath := by decide
    rw [buildSwaggerParams_eq, if_neg hpath]
    simp only [paramsLoop]
    rw [paramStep_path env (n + 3) _ _ [] st hname rfl]
    rfl
  have hinterp : ∀ st : State, d ∉ st.parsedTypes →
      interpretTypeAndBuildDefinition env (n + 3) (W ++ d ++ ">;".toList) st =
        some (.ok ("array".toList, typeShortName d),
          (st.memoInsert d).setDefinition (typeShortName d)
            { type := ["object".toList],
              properties := [(f1, stringSchema), (f2, stringSchema)] }) := by
    intro st hm
    rw [interp_single_wrapper env W _ hW d st (n + 2),
      resolve_two_strings env n d path f1 f2 st hd hm hi hF]
    rfl
  have hsig : W ++ d ++ ">;".toList ≠ [] := by simp
  unfold GenerateSwaggerSpec
  simp only [endpointsLoop]
  rw [endpointStep_eq, buildOperation_eq, hparams]
  simp only [hsig, ne_eq, not_false_eq_true, if_true]
  rw [hinterp _ (List.not_mem_nil _)]
  simp only
  rw [buildResponse_array env _ _ hshort, if_pos hok]
  rfl

/-- C20 at the example class `La/Item;`, with fields `id` and `label`. -/
theorem C20_end_to_end_witness :
    isObjectDescriptor "La/Item;".toList = true ∧
    mapLookup exampleEnv.classToFilePath "La/Item;".toList = some "Item.smali".toList ∧
    typeShortName "La/Item;".toList = "Item".toList ∧
    GenerateSwaggerSpec exampleEnv 3
        [{ Path := "/items/{id}".toList, Method := "GET".toList,
           MethodName := "getItems".toList, ReturnType := "Lretrofit2/Call;".toList,
           Params := [{ Register := "p1".toList, TypeSig := "Ljava/lang/String;".toList,
                        PathVar := "id".toList, QueryVar := [] }],
           ReturnSignature :=
             "Ljava/util/List<".toList ++ "La/Item;".toList ++ ">;".toList }] [] =
      some (.ret
        { spec :=
            { paths :=
                [("/items/{id}".toList,
                  { Get := some
                      { Summary := "Extracted API for ".toList ++ "getItems".toList,
                        Description :=
                          "Generated from smali method: ".toList ++ "getItems".toList,
                        Produces := ["application/json".toList],
                        Consumes := [],
                        Parameters :=
                          [{ Name := "id".toList, In := "path".toList, Required := true,
                             type := "string".toList, schema := none }],
                        Responses :=
                          [(200,
                            { Description := "OK".toList,
                              schema := some
                                { type := ["array".toList], ref := none,
                                  items := some
                                    { type := [],
                                      ref := some ("#/definitions/".toList ++
                                        typeShortName "La/Item;".toList) },
                                  additionalProperties := none } })] },
                    Post := none, Put := none, Delete := none })],
              definitions :=
                [(typeShortName "La/Item;".toList,
                  { type := ["object".toList],
                    properties :=
                      [("id".toList, { type := ["string".toList], ref := none, items := none,
                                       additionalProperties := none }),
                       ("label".toList, { type := ["string".toList], ref := none, items := none,
                                          additionalProperties := none })] })] },
          parsedTypes := ["La/Item;".toList] }) :=
  ⟨by decide, by decide, by decide,
    C20_end_to_end exampleEnv "La/Item;".toList "Item.smali".toList "id".toList "label".toList
      "id".toList "p1".toList "getItems".toList "Lretrofit2/Call;".toList
      "Ljava/util/List<".toList (by decide) (by decide) (by decide) (by decide) (by decide)
      (by decide) (by decide) 0⟩

/-- C20 fails as stated. The indexed class `La/;` has two `String` fields and an
empty short name: the document has its one path, its GET operation and one
definition (under the empty name), but the 200 response is an array of plain
strings, whose items reference no definition. -/
theorem C20_counterexample :
    isObjectDescriptor "La/;".toList = true ∧
    mapLookup emptyNameFieldsEnv.classToFilePath "La/;".toList = some "A.smali".toList ∧
    parseFieldsFromFile emptyNameFieldsEnv "A.smali".toList =
      some [("id".toList, "Ljava/lang/String;".toList),
            ("label".toList, "Ljava/lang/String;".toList)] ∧
    (GenerateSwaggerSpec emptyNameFieldsEnv 3
        [itemsEndpoint "Ljava/util/List<La/;>;".toList] []).map
        (fun x => match x with
          | .ret st =>
            some ((slotAt st.spec.paths "/items/{id}".toList .get).map (fun op => op.Responses),
              mapKeys st.spec.definitions)
          | _ => none) =
      some (some (some [(200,
        { Description := "OK".toList,
          schema := some { type := ["array".toList], ref := none,
                           items := some { type := ["string".toList], ref := none },
                           additionalProperties := none } })], [[]])) :=
  ⟨by decide, by decide, by decide, by decide⟩

/-! ## Reference failures -/

/-- C21, as amended. Building the document ends. It ends with an error only when
the construction of a reference failed: the error has at its root a URL that
`swagger.NewRef` rejects; so when no construction fails (and no endpoint has the
path of the breakpoint) a document is returned. An error of the resolver on the
return signature of an endpoint (a reference of a property of a definition could
not be built) and an error of `buildResponse` (the reference of the response
schema could not be built) end the build with that error and no document.
`buildSwaggerParams` never returns an error: a failure while the descriptor of a
body parameter is resolved or its schema is built is not propagated. -/
theorem C21_reference_failures (env : Env) (es : List APIEndpoint) (memo : List Str) :
    (∃ x, (∀ fuel, genFuel env es memo ≤ fuel →
        GenerateSwaggerSpec env fuel es memo = some x) ∧
      ((∀ u, env.newRefOk u = true) → (∀ e ∈ es, normalizePath e.Path ≠ breakpointPath) →
        ∃ st, x = .ret st)) ∧
    (∀ fuel err, GenerateSwaggerSpec env fuel es memo = some (.err err) →
      env.newRefOk err.url = false) ∧
    (∀ fuel pre e post stPre params st1, es = pre ++ e :: post →
      GenerateSwaggerSpec env fuel pre memo = some (.ret stPre) →
      buildSwaggerParams env fuel { e with Path := normalizePath e.Path } stPre =
        some (.ret (params, st1)) →
      e.ReturnSignature ≠ [] →
      (∀ err st2,
        interpretTypeAndBuildDefinition env fuel e.ReturnSignature st1 =
          some (.error err, st2) →
        GenerateSwaggerSpec env fuel es memo = some (.err err)) ∧
      (∀ kind itemRef st2 err,
        interpretTypeAndBuildDefinition env fuel e.ReturnSignature st1 =
          some (.ok (kind, itemRef), st2) →
        (buildResponse env kind itemRef st2).1 = .error err →
        GenerateSwaggerSpec env fuel es memo = some (.err err))) ∧
    (∀ fuel e st err, buildSwaggerParams env fuel e st ≠ some (.err err)) := by
  refine ⟨GenerateSwaggerSpec_total env es memo,
    fun fuel err h => endpointsLoop_err_url env fuel es _ err h,
    fun fuel pre e post stPre params st1 hes hpre hparams hsig => ?_,
    fun fuel e st err => buildSwaggerParams_no_err env fuel e st err⟩
  have habort : ∀ err,
      buildOperation env fuel { e with Path := normalizePath e.Path } stPre = some (.err err) →
      GenerateSwaggerSpec env fuel es memo = some (.err err) := by
    intro err hop
    unfold GenerateSwaggerSpec at hpre ⊢
    rw [hes, endpointsLoop_append, hpre]
    simp only [endpointsLoop]
    rw [(endpointStep_err_iff env fuel e stPre err).2 hop]
  constructor
  · intro err st2 hi
    exact habort err ((buildOperation_err_iff env fuel _ stPre err).2
      ⟨params, st1, hparams, hsig, Or.inl ⟨st2, hi⟩⟩)
  · intro kind itemRef st2 err hi hbr
    exact habort err ((buildOperation_err_iff env fuel _ stPre err).2
      ⟨params, st1, hparams, hsig, Or.inr ⟨kind, itemRef, st2, hi, hbr⟩⟩)

/-- C21 at an endpoint whose return signature is a class with a field whose
reference cannot be built: the build ends with the error of that reference. -/
theorem C21_reference_failures_witness :
    GenerateSwaggerSpec badRefEnv 3
        [endpointOf "/foos".toList "GET".toList [] "La/Foo;".toList] [] =
      some (.err (.wrap "buildPropertySchema".toList
        (.wrap "error building ref".toList (.newRef "#/definitions/B%".toList)))) ∧
    badRefEnv.newRefOk "#/definitions/B%".toList = false ∧
    (∀ fuel err,
      GenerateSwaggerSpec badRefEnv fuel
        [endpointOf "/foos".toList "GET".toList [] "La/Foo;".toList] [] = some (.err err) →
      badRefEnv.newRefOk err.url = false) :=
  ⟨by decide, by decide, (C21_reference_failures badRefEnv _ []).2.1⟩

/-- C21 fails as stated. (a) The body parameter of a POST endpoint has the
descriptor `La/%zz;`: the reference of its schema cannot be built, and
`GenerateSwaggerSpec` returns a document all the same, the parameter having the
plain object schema. (b) The body parameter has the class `La/Foo;`, a field of
which has a reference that cannot be built: the resolver fails on the property,
and `GenerateSwaggerSpec` returns a document all the same. -/
theorem C21_counterexample :
    (buildParamSchema exampleEnv "object".toList "%zz".toList =
        .error (.wrap "error building ref".toList (.newRef "#/definitions/%zz".toList)) ∧
      (GenerateSwaggerSpec exampleEnv 3
          [endpointOf "/items".toList "POST".toList
            [unboundRecord "p1".toList "La/%zz;".toList] []] []).map
          (fun x => match x with
            | .ret st =>
              some ((slotAt st.spec.paths "/items".toList .post).map (fun op => op.Parameters))
            | _ => none) =
        some (some (some [bodyParameter objectSchema]))) ∧
    ((interpretTypeAndBuildDefinition badRefEnv 3 "La/Foo;".toList emptyState).map Prod.fst =
        some (.error (.wrap "buildPropertySchema".toList
          (.wrap "error building ref".toList (.newRef "#/definitions/B%".toList)))) ∧
      (GenerateSwaggerSpec badRefEnv 3
          [endpointOf "/items".toList "POST".toList
            [unboundRecord "p1".toList "La/Foo;".toList] []] []).map
          (fun x => match x with
            | .ret st =>
              some ((slotAt st.spec.paths "/items".toList .post).map (fun op => op.Parameters))
            | _ => none) =
        some (some (some [bodyParameter objectSchema]))) :=
  ⟨⟨by decide, by decide⟩, ⟨by decide, by decide⟩⟩

/-! ## Body parameters -/

theorem bodyCount_snoc (acc : List Parameter) (q : Parameter) :
    ((acc ++ [q]).filter (fun q => decide (q.In = "body".toList))).length =
      (acc.filter (fun q => decide (q.In = "body".toList))).length +
        if q.In = "body".toList then 1 else 0 := by
  rw [List.filter_append, List.length_append]
  by_cases h : q.In = "body".toList
  · have hd : decide (q.In = "body".toList) = true := decide_eq_true h
    rw [if_pos h]
    simp only [List.filter, hd, List.length_cons, List.length_nil]
  · have hd : decide (q.In = "body".toList) = false := decide_eq_false h
    rw [if_neg h]
    simp only [List.filter, hd, List.length_nil]

theorem paramStep_bodyCount (env : Env) (fuel : Nat) (mu : Str) (p : SmaliParam)
    (acc x : List Parameter) (st st1 : State)
    (h : paramStep env fuel mu p acc st = some (x, st1)) :
    (x.filter (fun q => decide (q.In = "body".toList))).length =
      (acc.filter (fun q => decide (q.In = "body".toList))).length +
        if (mu = "POST".toList ∨ mu = "PUT".toList) ∧ p.PathVar = [] ∧ p.QueryVar = [] ∧
            isObjectType p.TypeSig = true then 1 else 0 := by
  have hpath : ∀ n t, ¬ (pathParameter n t).In = "body".toList :=
    fun n t hc => absurd (show "path".toList = "body".toList from hc) (by decide)
  have hquery : ∀ n t, ¬ (queryParameter n t).In = "body".toList :=
    fun n t hc => absurd (show "query".toList = "body".toList from hc) (by decide)
  have hbody : ∀ s, (bodyParameter s).In = "body".toList := fun s => rfl
  by_cases h1 : p.PathVar = [] <;> by_cases h2 : p.QueryVar = []
  · by_cases hm : mu = "POST".toList ∨ mu = "PUT".toList
    · cases ho : isObjectType p.TypeSig with
      | false =>
        rw [paramStep_register env fuel mu p acc st h1 h2 hm ho] at h
        simp only [Option.some.injEq, Prod.mk.injEq] at h
        rw [← h.1, bodyCount_snoc, if_neg (hquery _ _),
          if_neg (fun hc => absurd hc.2.2.2 (by simp))]
      | true =>
        rw [paramStep_body env fuel mu p acc st h1 h2 hm ho] at h
        cases hi : interpretTypeAndBuildDefinition env fuel p.TypeSig st with
        | none => rw [hi] at h; exact absurd h (by simp)
        | some r =>
          rw [hi] at h
          simp only [Option.some.injEq, Prod.mk.injEq] at h
          rw [← h.1, bodyCount_snoc, if_pos (hbody _), if_pos ⟨hm, h1, h2, rfl⟩]
    · rw [paramStep_skip env fuel mu p acc st h1 h2 hm] at h
      simp only [Option.some.injEq, Prod.mk.injEq] at h
      rw [← h.1, if_neg (fun hc => hm hc.1)]
      rfl
  · rw [paramStep_query env fuel mu p acc st h1 h2] at h
    simp only [Option.some.injEq, Prod.mk.injEq] at h
    rw [← h.1, bodyCount_snoc, if_neg (hquery _ _), if_neg (fun hc => h2 hc.2.2.1)]
  · rw [paramStep_path env fuel mu p acc st h1 h2] at h
    simp only [Option.some.injEq, Prod.mk.injEq] at h
    rw [← h.1, bodyCount_snoc, if_neg (hpath _ _), if_neg (fun hc => h1 hc.2.1)]
  · rw [paramStep_both env fuel mu p acc st h1 h2] at h
    simp only [Option.some.injEq, Prod.mk.injEq] at h
    rw [← h.1, bodyCount_snoc, bodyCount_snoc, if_neg (hquery _ _), if_neg (hpath _ _),
      if_neg (fun hc => h1 hc.2.1)]

theorem paramsLoop_bodyCount (env : Env) (fuel : Nat) (mu : Str) (ps : List SmaliParam) :
    ∀ (acc x : List Parameter) (st st1 : State),
      paramsLoop env fuel mu ps acc st = some (x, st1) →
      (x.filter (fun q => decide (q.In = "body".toList))).length =
        (acc.filter (fun q => decide (q.In = "body".toList))).length +
          if mu = "POST".toList ∨ mu = "PUT".toList then
            (ps.filter (fun p => decide (p.PathVar = [] ∧ p.QueryVar = []) &&
              isObjectType p.TypeSig)).length
          else 0 := by
  induction ps with
  | nil =>
    intro acc x st st1 h
    simp only [paramsLoop, Option.some.injEq, Prod.mk.injEq] at h
    rw [← h.1]
    simp
  | cons p ps ih =>
    intro acc x st st1 h
    simp only [paramsLoop] at h
    cases hs : paramStep env fuel mu p acc st with
    | none => rw [hs] at h; exact absurd h (by simp)
    | some r =>
      obtain ⟨y, st2⟩ := r
      rw [hs] at h
      rw [ih y x st2 st1 h, paramStep_bodyCount env fuel mu p acc y st st2 hs]
      by_cases hm : mu = "POST".toList ∨ mu = "PUT".toList
      · simp only [hm, true_and, if_true]
        by_cases hp : p.PathVar = [] ∧ p.QueryVar = [] ∧ isObjectType p.TypeSig = true
        · rw [if_pos hp, List.filter_cons_of_pos (by simp [hp.1, hp.2.1, hp.2.2])]
          simp only [List.length_cons]
          omega
        · rw [if_neg hp, List.filter_cons_of_neg (by
            simp only [Bool.and_eq_true, decide_eq_true_eq]
            exact fun hc => hp ⟨hc.1.1, hc.1.2, hc.2⟩)]
          omega
      · simp only [hm, false_and, if_false]

/-- C22, as amended. On every path but the one of the breakpoint
`buildSwaggerParams` returns a parameter list. The number of parameters located
in the body of a returned list is the number of unbound parameter records with
an object descriptor when the upper-cased verb is POST or PUT, and zero
otherwise; so the list has at most one body parameter when the endpoint has at
most one such record. -/
theorem C22_body_parameters (env : Env) (e : APIEndpoint) (st : State) :
    (e.Path ≠ breakpointPath →
      ∃ r, ∀ fuel, fuelFor env (maxTypeSigLen e.Params) st ≤ fuel →
        buildSwaggerParams env fuel e st = some (.ret r)) ∧
    (∀ fuel params st1, buildSwaggerParams env fuel e st = some (.ret (params, st1)) →
      (params.filter (fun q => decide (q.In = "body".toList))).length =
        (if ToUpper e.Method = "POST".toList ∨ ToUpper e.Method = "PUT".toList then
          (e.Params.filter (fun p => decide (p.PathVar = [] ∧ p.QueryVar = []) &&
            isObjectType p.TypeSig)).length
        else 0) ∧
      ((e.Params.filter (fun p => decide (p.PathVar = [] ∧ p.QueryVar = []) &&
          isObjectType p.TypeSig)).length ≤ 1 →
        (params.filter (fun q => decide (q.In = "body".toList))).length ≤ 1)) := by
  refine ⟨fun hp => ?_, fun fuel params st1 h => ?_⟩
  · obtain ⟨x, hx, -, hret⟩ :=
      buildSwaggerParams_total env (maxTypeSigLen e.Params) e st
        (fun p hmem => le_maxTypeSigLen _ p hmem)
    obtain ⟨r, rfl⟩ := hret hp
    exact ⟨r, hx⟩
  · rw [buildSwaggerParams_eq] at h
    by_cases hp : e.Path = breakpointPath
    · rw [if_pos hp] at h; exact absurd h (by simp)
    · rw [if_neg hp] at h
      cases hl : paramsLoop env fuel (ToUpper e.Method) e.Params [] st with
      | none => rw [hl] at h; exact absurd h (by simp)
      | some r =>
        obtain ⟨x, st2⟩ := r
        rw [hl] at h
        simp only [Option.some.injEq, Exit.ret.injEq, Prod.mk.injEq] at h
        have hc := paramsLoop_bodyCount env fuel _ e.Params [] x st st2 hl
        rw [h.1] at hc
        simp only [List.filter_nil, List.length_nil, Nat.zero_add] at hc
        refine ⟨hc, fun hle => ?_⟩
        rw [hc]
        split
        · exact hle
        · exact Nat.zero_le _

/-- C22 at a POST endpoint with one unbound record of an indexed class and one
path-bound record: one body parameter. -/
theorem C22_body_parameters_witness :
    (buildSwaggerParams exampleEnv 2
        (endpointOf "/items/{id}".toList "POST".toList
          [pathRecord "p1".toList "id".toList, unboundRecord "p2".toList "La/Item;".toList] [])
        emptyState).map
        (fun x => match x with
          | .ret r => some (r.1.map (fun q => q.In))
          | _ => none) =
      some (some ["path".toList, "body".toList]) ∧
    ∀ fuel params st1,
      buildSwaggerParams exampleEnv fuel
        (endpointOf "/items/{id}".toList "POST".toList
          [pathRecord "p1".toList "id".toList, unboundRecord "p2".toList "La/Item;".toList] [])
        emptyState = some (.ret (params, st1)) →
      (params.filter (fun q => decide (q.In = "body".toList))).length =
        (if ToUpper "POST".toList = "POST".toList ∨ ToUpper "POST".toList = "PUT".toList then
          ([pathRecord "p1".toList "id".toList,
            unboundRecord "p2".toList "La/Item;".toList].filter
              (fun p => decide (p.PathVar = [] ∧ p.QueryVar = []) &&
                isObjectType p.TypeSig)).length
        else 0) ∧
      (([pathRecord "p1".toList "id".toList,
          unboundRecord "p2".toList "La/Item;".toList].filter
            (fun p => decide (p.PathVar = [] ∧ p.QueryVar = []) &&
              isObjectType p.TypeSig)).length ≤ 1 →
        (params.filter (fun q => decide (q.In = "body".toList))).length ≤ 1) :=
  ⟨by decide,
    (C22_body_parameters exampleEnv
      (endpointOf "/items/{id}".toList "POST".toList
        [pathRecord "p1".toList "id".toList, unboundRecord "p2".toList "La/Item;".toList] [])
      emptyState).2⟩

/-- C22 fails as stated: a POST endpoint with two unbound records of object
type gets two parameters located in the body, both named `body`. -/
theorem C22_counterexample :
    (buildSwaggerParams exampleEnv 4
        (endpointOf "/items".toList "POST".toList
          [unboundRecord "p1".toList "La/Item;".toList,
           unboundRecord "p2".toList "La/Foo;".toList] [])
        emptyState).map
        (fun x => match x with
          | .ret r => some (r.1.map (fun q => (q.Name, q.In)))
          | _ => none) =
      some (some [("body".toList, "body".toList), ("body".toList, "body".toList)]) := by
  decide

/-! ## The two type mappers -/

theorem interp_known (env : Env) (fuel : Nat) (sig : Str) (kr : Str × Str) (st : State)
    (h : dispatch sig = .known kr) :
    interpretTypeAndBuildDefinition env (fuel + 1) sig st = some (.ok kr, st) := by
  rw [interp_dispatch, h]

theorem interp_primitive (env : Env) (fuel : Nat) (sig : Str) (kr : Str × Str) (st : State)
    (h : dispatch sig = .primitive kr) :
    interpretTypeAndBuildDefinition env (fuel + 1) sig st = some (.ok kr, st) := by
  rw [interp_dispatch, h]

/-- C23. The two type mappers on the twelve scalar descriptors. On `String`,
`Boolean`, `Integer`, `I`, `Z`, `F`, `D`, `B` and `S` the resolver returns a
scalar Kind with an empty reference and `smaliTypeToSwaggerType` returns that
same Kind. On `Long` the resolver returns integer and on `Float` and `Double`
number, while `smaliTypeToSwaggerType` returns string for all three. -/
theorem C23_type_mappers (env : Env) (fuel : Nat) (st : State) :
    (∀ d k, (d, k) ∈ [ ("Ljava/lang/String;".toList, "string".toList),
                       ("Ljava/lang/Boolean;".toList, "boolean".toList),
                       ("Ljava/lang/Integer;".toList, "integer".toList),
                       ("I".toList, "integer".toList), ("Z".toList, "boolean".toList),
                       ("F".toList, "number".toList), ("D".toList, "number".toList),
                       ("B".toList, "integer".toList), ("S".toList, "integer".toList) ] →
      interpretTypeAndBuildDefinition env (fuel + 1) d st = some (.ok (k, []), st) ∧
      smaliTypeToSwaggerType d = k) ∧
    (interpretTypeAndBuildDefinition env (fuel + 1) "Ljava/lang/Long;".toList st =
        some (.ok ("integer".toList, []), st) ∧
      smaliTypeToSwaggerType "Ljava/lang/Long;".toList = "string".toList) ∧
    (interpretTypeAndBuildDefinition env (fuel + 1) "Ljava/lang/Float;".toList st =
        some (.ok ("number".toList, []), st) ∧
      smaliTypeToSwaggerType "Ljava/lang/Float;".toList = "string".toList) ∧
    (interpretTypeAndBuildDefinition env (fuel + 1) "Ljava/lang/Double;".toList st =
        some (.ok ("number".toList, []), st) ∧
      smaliTypeToSwaggerType "Ljava/lang/Double;".toList = "string".toList) := by
  refine ⟨fun d k h => ?_, ⟨interp_known env fuel _ _ st rfl, by decide⟩,
    ⟨interp_known env fuel _ _ st rfl, by decide⟩,
    ⟨interp_known env fuel _ _ st rfl, by decide⟩⟩
  simp only [List.mem_cons, Prod.mk.injEq, List.mem_singleton, List.not_mem_nil, or_false] at h
  rcases h with ⟨rfl, rfl⟩ | ⟨rfl, rfl⟩ | ⟨rfl, rfl⟩ | ⟨rfl, rfl⟩ | ⟨rfl, rfl⟩ | ⟨rfl, rfl⟩ |
    ⟨rfl, rfl⟩ | ⟨rfl, rfl⟩ | ⟨rfl, rfl⟩
  · exact ⟨interp_known env fuel _ _ st rfl, by decide⟩
  · exact ⟨interp_known env fuel _ _ st rfl, by decide⟩
  · exact ⟨interp_known env fuel _ _ st rfl, by decide⟩
  · exact ⟨interp_primitive env fuel _ _ st rfl, by decide⟩
  · exact ⟨interp_primitive env fuel _ _ st rfl, by decide⟩
  · exact ⟨interp_primitive env fuel _ _ st rfl, by decide⟩
  · exact ⟨interp_primitive env fuel _ _ st rfl, by decide⟩
  · exact ⟨interp_primitive env fuel _ _ st rfl, by decide⟩
  · exact ⟨interp_primitive env fuel _ _ st rfl, by decide⟩

/-! ## Memo/definition consistency -/

/-- C24. If every descriptor of the memo has a definition under its short name
before a call of the resolver, then the call returns, and after a successful
call every descriptor of the memo has a definition under its short name again,
for any descriptor, class index and field mappings, cyclic ones included. -/
theorem C24_memo_definitions (env : Env) (sig : Str) (st : State)
    (h0 : memoHasDefinitions st = true) :
    (∃ res st1,
      (∀ fuel, fuelBound env sig st ≤ fuel →
        interpretTypeAndBuildDefinition env fuel sig st = some (res, st1)) ∧
      ((∀ u, env.newRefOk u = true) → ∃ r, res = .ok r)) ∧
    (∀ fuel r st1, interpretTypeAndBuildDefinition env fuel sig st = some (.ok r, st1) →
      memoHasDefinitions st1 = true ∧
      ∀ u ∈ st1.parsedTypes,
        (mapLookup st1.spec.definitions (typeShortName u)).isSome = true) := by
  constructor
  · obtain ⟨res, st1, hres⟩ := interp_total env sig st
    exact ⟨res, st1, hres, fun hok =>
      interp_no_error env hok _ sig st res st1 (hres _ (le_refl _))⟩
  · intro fuel r st1 h
    have h1 := interp_memoHasDefinitions env fuel sig st st1 r h0 h
    exact ⟨h1, (memoHasDefinitions_iff st1).1 h1⟩

/-- C24 at two classes that refer to each other, resolved from a state in which
a third class is in the memo with its definition. -/
theorem C24_memo_definitions_witness :
    memoHasDefinitions itemState = true ∧
    (interpretTypeAndBuildDefinition exampleEnv 4 "La/Foo;".toList itemState).map
        (fun x => (x.1, x.2.parsedTypes, mapKeys x.2.spec.definitions)) =
      some (.ok ("object".toList, "Foo".toList),
        ["La/Bar;".toList, "La/Foo;".toList, "La/Item;".toList],
        ["Bar".toList, "Foo".toList, "Item".toList]) ∧
    ((∃ res st1,
      (∀ fuel, fuelBound exampleEnv "La/Foo;".toList itemState ≤ fuel →
        interpretTypeAndBuildDefinition exampleEnv fuel "La/Foo;".toList itemState
          = some (res, st1)) ∧
      ((∀ u, exampleEnv.newRefOk u = true) → ∃ r, res = .ok r)) ∧
    (∀ fuel r st1,
      interpretTypeAndBuildDefinition exampleEnv fuel "La/Foo;".toList itemState
        = some (.ok r, st1) →
      memoHasDefinitions st1 = true ∧
      ∀ u ∈ st1.parsedTypes,
        (mapLookup st1.spec.definitions (typeShortName u)).isSome = true)) :=
  ⟨by decide, by decide,
    C24_memo_definitions exampleEnv "La/Foo;".toList itemState (by decide)⟩

/-! ## Referential integrity -/

/-- C25. Where the references of a document are backed by a definition. The
object case of `buildResponse` registers the empty definition under a reference
that has none, so the reference of an object response names a key of the
definitions. A successful resolution, started in a state where every descriptor
of the memo has its definition, returns with Kind=object a reference that names
a key of the definitions. The array case of `buildResponse` and
`buildPropertySchema` register nothing: they refer to whatever reference the
resolver hands them, and leave the document as it is. -/
theorem C25_references (env : Env) :
    (∀ itemRef st, itemRef ≠ [] →
      (mapLookup (buildResponse env "object".toList itemRef st).2.spec.definitions
        itemRef).isSome = true) ∧
    (∀ fuel sig st itemRef st1, memoHasDefinitions st = true →
      interpretTypeAndBuildDefinition env fuel sig st =
        some (.ok ("object".toList, itemRef), st1) →
      (mapLookup st1.spec.definitions itemRef).isSome = true) ∧
    (∀ itemRef st, itemRef ≠ [] →
      (buildResponse env "array".toList itemRef st).2 = st ∧
      (env.newRefOk ("#/definitions/".toList ++ itemRef) = true →
        ∃ resp s, (buildResponse env "array".toList itemRef st).1 = .ok resp ∧
          resp.schema = some s ∧ s.refs = ["#/definitions/".toList ++ itemRef])) := by
  refine ⟨fun itemRef st hne => ?_, fun fuel sig st itemRef st1 h0 h => ?_,
    fun itemRef st hne => ?_⟩
  · rw [buildResponse_object env itemRef st hne]
    have hst : ∀ (r1 r2 : Except Err Response) (s : State),
        (if env.newRefOk ("#/definitions/".toList ++ itemRef) = true then
          ((r1, s) : Except Err Response × State) else (r2, s)).2 = s := by
      intro r1 r2 s; split <;> rfl
    rw [hst]
    by_cases hs : (mapLookup st.spec.definitions itemRef).isSome = true
    · rw [if_pos hs]; exact hs
    · rw [if_neg hs]
      simp only [State.setDefinition, mapLookup_insert_self, Option.isSome_some]
  · have hrun := interp_run env fuel sig st _ st1 h
    obtain ⟨o, ho, -, hr⟩ := Run_object_result env _ _ _ _ hrun sig _ itemRef rfl rfl rfl
    rw [hr]
    exact (memoHasDefinitions_iff st1).1
      (interp_memoHasDefinitions env fuel sig st st1 _ h0 h) o ho
  · rw [buildResponse_array env itemRef st hne]
    by_cases hok : env.newRefOk ("#/definitions/".toList ++ itemRef) = true
    · rw [if_pos hok]
      exact ⟨rfl, fun _ => ⟨_, _, rfl, rfl, rfl⟩⟩
    · rw [if_neg hok]
      exact ⟨rfl, fun h => absurd h hok⟩

/-- C25 at an endpoint that returns a list of maps, with an empty memo at the
start: the resolver gives (array, `object`), the 200 response refers to
`#/definitions/object`, and the document has no definition at all. -/
theorem C25_references_witness :
    (interpretTypeAndBuildDefinition exampleEnv 2 "Ljava/util/List<Ljava/util/Map;>;".toList
        emptyState).map Prod.fst = some (.ok ("array".toList, "object".toList)) ∧
    (GenerateSwaggerSpec exampleEnv 2
        [endpointOf "/maps".toList "GET".toList [] "Ljava/util/List<Ljava/util/Map;>;".toList]
        []).map
        (fun x => match x with
          | .ret st =>
            some ((slotAt st.spec.paths "/maps".toList .get).map (fun op => op.Responses),
              mapKeys st.spec.definitions)
          | _ => none) =
      some (some (some [(200,
        { Description := "OK".toList,
          schema := some { type := ["array".toList], ref := none,
                           items := some { type := [],
                                           ref := some "#/definitions/object".toList },
                           additionalProperties := none } })], [])) ∧
    Schema.refs { type := ["array".toList], ref := none,
                  items := some { type := [], ref := some "#/definitions/object".toList },
                  additionalProperties := none } = ["#/definitions/object".toList] ∧
    (∀ itemRef st, itemRef ≠ [] →
      (mapLookup (buildResponse exampleEnv "object".toList itemRef st).2.spec.definitions
        itemRef).isSome = true) :=
  ⟨by decide, by decide, by decide, (C25_references exampleEnv).1⟩

/-! ## Type names -/

theorem buildPropertySchema_typeNames (env : Env) (kind itemRef : Str) (s : Schema)
    (h : buildPropertySchema env kind itemRef = .ok s) :
    (kind ≠ "map".toList → ∀ t ∈ s.typeNames, t ∈ allowedTypeNames) ∧
    (kind = "map".toList → s.typeNames = ["object".toList, itemRef]) := by
  unfold buildPropertySchema NewRef at h
  by_cases h1 : kind = "string".toList ∨ kind = "integer".toList ∨ kind = "boolean".toList ∨
      kind = "number".toList
  · rw [if_pos h1] at h
    cases h
    refine ⟨fun _ t ht => ?_, fun hm => ?_⟩
    · simp only [Schema.typeNames, List.append_nil, List.mem_singleton] at ht
      subst ht
      rcases h1 with rfl | rfl | rfl | rfl <;> decide
    · subst hm
      exact absurd h1 (by decide)
  · rw [if_neg h1] at h
    by_cases h2 : kind = "array".toList
    · subst h2
      rw [if_pos rfl] at h
      refine ⟨fun _ t ht => ?_, fun hm => absurd hm (by decide)⟩
      by_cases h3 : itemRef = []
      · rw [if_pos h3] at h
        cases h
        simp only [Schema.typeNames, List.append_nil, List.singleton_append, List.mem_cons,
          List.mem_singleton, List.not_mem_nil, or_false] at ht
        rcases ht with rfl | rfl <;> decide
      · rw [if_neg h3] at h
        by_cases hok : env.newRefOk ("#/definitions/".toList ++ itemRef) = true
        · simp only [hok, if_true] at h
          cases h
          simp only [Schema.typeNames, List.append_nil, List.mem_singleton] at ht
          subst ht
          decide
        · simp only [hok, if_false, Bool.false_eq_true] at h
          exact absurd h (by simp)
    · rw [if_neg h2] at h
      by_cases h4 : kind = "map".toList
      · subst h4
        rw [if_pos rfl] at h
        cases h
        exact ⟨fun hne => absurd rfl hne, fun _ => rfl⟩
      · rw [if_neg h4] at h
        refine ⟨fun _ t ht => ?_, fun hm => absurd hm h4⟩
        by_cases h5 : kind = "object".toList
        · rw [if_pos h5] at h
          by_cases h3 : itemRef = []
          · rw [if_pos h3] at h
            cases h
            simp only [Schema.typeNames, List.append_nil, List.mem_singleton] at ht
            subst ht
            decide
          · rw [if_neg h3] at h
            by_cases hok : env.newRefOk ("#/definitions/".toList ++ itemRef) = true
            · simp only [hok, if_true] at h
              cases h
              simp [Schema.typeNames] at ht
            · simp only [hok, if_false, Bool.false_eq_true] at h
              exact absurd h (by simp)
        · rw [if_neg h5] at h
          cases h
          simp only [Schema.typeNames, List.append_nil, List.mem_singleton] at ht
          subst ht
          decide

/-- C26. The type names `buildPropertySchema` and `buildResponse` put into a
schema, for every (Kind, reference). For every Kind but map they are among
string, integer, boolean, number, array and object. For map they are `object`
for the schema itself and the reference, as it stands, for the schema of the
additional properties: a type name of the list only when the reference happens
to be one. -/
theorem C26_type_names (env : Env) (kind itemRef : Str) :
    (∀ s, buildPropertySchema env kind itemRef = .ok s →
      (kind ≠ "map".toList → ∀ t ∈ s.typeNames, t ∈ allowedTypeNames) ∧
      (kind = "map".toList → s.typeNames = ["object".toList, itemRef])) ∧
    (∀ st resp s, (buildResponse env kind itemRef st).1 = .ok resp → resp.schema = some s →
      (kind ≠ "map".toList → ∀ t ∈ s.typeNames, t ∈ allowedTypeNames) ∧
      (kind = "map".toList → s.typeNames = ["object".toList, itemRef])) := by
  refine ⟨fun s h => buildPropertySchema_typeNames env kind itemRef s h,
    fun st resp s h hs => ?_⟩
  by_cases hv : kind = "void".toList
  · subst hv
    rw [buildResponse_void] at h
    cases h
    exact absurd hs (by simp)
  · rw [buildResponse_schema env kind itemRef st hv] at h
    cases hb : buildPropertySchema env kind itemRef with
    | error e => rw [hb] at h; exact absurd h (by simp)
    | ok s2 =>
      rw [hb] at h
      simp only [Except.ok.injEq] at h
      rw [← h] at hs
      simp only [Option.some.injEq] at hs
      rw [← hs]
      exact buildPropertySchema_typeNames env kind itemRef s2 hb

/-- C26 at the (Kind, reference) pairs the resolver returns for a map from
`String` to an indexed class and for a map from `String` to `String`: the type
name of the additional properties is the class name `Item` in the first case
and the empty name in the second, in the property schema and in the response
alike. -/
theorem C26_type_names_witness :
    ((interpretTypeAndBuildDefinition exampleEnv 3
        "Ljava/util/HashMap<Ljava/lang/String;La/Item;>;".toList emptyState).map Prod.fst =
      some (.ok ("map".toList, "Item".toList)) ∧
    (buildPropertySchema exampleEnv "map".toList "Item".toList).map Schema.typeNames =
      .ok ["object".toList, "Item".toList] ∧
    ((buildResponse exampleEnv "map".toList "Item".toList emptyState).1.map
        (fun resp => resp.schema.map Schema.typeNames)) =
      .ok (some ["object".toList, "Item".toList]) ∧
    "Item".toList ∉ allowedTypeNames) ∧
    ((interpretTypeAndBuildDefinition exampleEnv 3
        "Ljava/util/HashMap<Ljava/lang/String;Ljava/lang/String;>;".toList emptyState).map
        Prod.fst =
      some (.ok ("map".toList, [])) ∧
    (buildPropertySchema exampleEnv "map".toList []).map Schema.typeNames =
      .ok ["object".toList, []] ∧
    ([] : Str) ∉ allowedTypeNames) ∧
    (∀ s, buildPropertySchema exampleEnv "map".toList "Item".toList = .ok s →
      ("map".toList ≠ "map".toList → ∀ t ∈ s.typeNames, t ∈ allowedTypeNames) ∧
      ("map".toList = "map".toList → s.typeNames = ["object".toList, "Item".toList])) :=
  ⟨⟨by decide, by decide, by decide, by decide⟩, ⟨by decide, by decide, by decide⟩,
    (C26_type_names exampleEnv "map".toList "Item".toList).1⟩

/-! ## The breakpoint -/

/-- C27. What `buildSwaggerParams` does with the path of the endpoint: on the
one path `/eventsservice/v2/system/{systemId}/resource/{resourceId}/history` it
reaches `runtime.Breakpoint()` and traps, whatever the verb and the parameter
records are; on every other path it returns (with enough fuel), and what it
returns is the same for two endpoints with the same verb and parameter records,
in the same state. -/
theorem C27_breakpoint (env : Env) (e : APIEndpoint) (st : State) :
    (e.Path = breakpointPath → ∀ fuel, buildSwaggerParams env fuel e st = some .trap) ∧
    (e.Path ≠ breakpointPath →
      ∃ r, ∀ fuel, fuelFor env (maxTypeSigLen e.Params) st ≤ fuel →
        buildSwaggerParams env fuel e st = some (.ret r)) ∧
    (∀ e2 fuel, e.Path ≠ breakpointPath → e2.Path ≠ breakpointPath →
      e2.Method = e.Method → e2.Params = e.Params →
      buildSwaggerParams env fuel e2 st = buildSwaggerParams env fuel e st) := by
  refine ⟨fun hp fuel => ?_, fun hp => ?_, fun e2 fuel hp hp2 hm hps => ?_⟩
  · rw [buildSwaggerParams_eq, if_pos hp]
  · obtain ⟨x, hx, -, hret⟩ :=
      buildSwaggerParams_total env (maxTypeSigLen e.Params) e st
        (fun p hmem => le_maxTypeSigLen _ p hmem)
    obtain ⟨r, rfl⟩ := hret hp
    exact ⟨r, hx⟩
  · rw [buildSwaggerParams_eq, buildSwaggerParams_eq, if_neg hp, if_neg hp2, hm, hps]

/-- C27 at the endpoint of the hard-coded path, where the call traps, and at the
same endpoint moved to another path, where it returns two path parameters. -/
theorem C27_breakpoint_witness :
    (∀ fuel, buildSwaggerParams exampleEnv fuel (historyEndpoint "GET".toList []) emptyState =
      some .trap) ∧
    buildSwaggerParams exampleEnv 0
        { historyEndpoint "GET".toList [] with Path := "/history".toList } emptyState =
      some (.ret ([pathParameter "systemId".toList "string".toList,
                   pathParameter "resourceId".toList "string".toList], emptyState)) :=
  ⟨(C27_breakpoint exampleEnv (historyEndpoint "GET".toList []) emptyState).1 rfl, by decide⟩

end SmaliSwagger
